import Mathlib

/-!
# DThrottle: the throttling engine

A shallow embedding of `throttle/trie.h`, `throttle/throttle.h` and
`throttle/throttle.cpp`.

Conventions of the embedding.

* `double` values (tokens, rates, timestamps) are rationals, and the functions
  of `throttle.cpp` that compute with them come twice: with the operations
  on `double` read as exact (`usage_record.get_tokens`,
  `Throttle.check_request`, ...), and with every operation rounded to the
  nearest binary64 value (`usage_record.get_tokens_f64`,
  `Throttle.check_request_f64`, ..., on top of `to_double`). The statements
  that depend on the value of a token count are proved on the rounded
  functions. `int` values are unbounded integers (signed overflow is undefined
  in the source and lies outside the model).
* `const char *` / `crope` / `basic_string<char>` tags are lists of
  characters.
* `std::map<T, P<trie_edge>>` and `hash_map<crope, usage_record>` are
  association lists in which a key occurs at most once; a null `P<trie_edge>`
  is `none`. A `trie_edge` is represented by the node it points to (its `ch`
  field repeats the key under which the edge is stored).
* A failed `FLAssert` and a dereferenced null pointer abort the process:
  the operation returns `none`.
* Functions that mutate the object return the new object next to their
  result.
-/

namespace DThrottle

/-! ## Ordered maps as association lists -/

/-- The `std::map::find` of a key. -/
def map_find {K V : Type} [DecidableEq K] : List (K × V) → K → Option V
  | [], _ => none
  | (k, v) :: m, c => if k = c then some v else map_find m c

/-- Assignment through `operator[]`: replaces the value stored under the key,
or adds the key when it is missing. -/
def map_set {K V : Type} [DecidableEq K] : List (K × V) → K → V → List (K × V)
  | [], c, v => [(c, v)]
  | (k, w) :: m, c, v => if k = c then (k, v) :: m else (k, w) :: map_set m c v

/-! ## trie.h -/

/-- The strings of the trie, `basic_string<char>`. -/
abbrev string_t := List Char

/-- A `trie_node`: the map of characters to edges and the userdata decoration
(`none` for `NULL`). An edge that is `none` is a null `P<trie_edge>`, as left
behind by `children[*i]` on a missing key. -/
inductive trie_node (U : Type) where
  | mk (children : List (Char × Option (trie_node U))) (data : Option U) : trie_node U

/-- Field `children`. -/
def trie_node.children {U : Type} : trie_node U → List (Char × Option (trie_node U))
  | .mk c _ => c

/-- Field `data`. -/
def trie_node.data {U : Type} : trie_node U → Option U
  | .mk _ d => d

/-- The constructor `trie_node() : data(NULL) {}`. -/
def trie_node.new {U : Type} : trie_node U := .mk [] none

/-- The loop of `trie::traverse`, from node `p` along `s`.

`create` is the flag of the source; `track` says whether the `data` argument
is non-null, and `best` is then the current `*data`. The source returns a
pointer to the node it stops at, through which the caller may write: `k` is
what the caller does to that node. The result is the node `p` after the walk
and the final `*data`. -/
def traverse_loop {U : Type} (k : trie_node U → trie_node U) (create track : Bool) :
    string_t → trie_node U → Option U → trie_node U × Option U
  | [], p, best => (k p, best)
  | c :: cs, p, best =>
    match map_find p.children c with
    | some (some next) =>
      let best1 := if track && next.data.isSome then next.data else best
      let r := traverse_loop k create track cs next best1
      (.mk (map_set p.children c (some r.1)) p.data, r.2)
    | _ =>
      if create then
        let r := traverse_loop k create track cs trie_node.new best
        (.mk (map_set p.children c (some r.1)) p.data, r.2)
      else
        (k (.mk (map_set p.children c none) p.data), best)

/-- The `trie<U>` class: its root node. -/
structure trie (U : Type) where
  _root : trie_node U

/-- The constructor `trie()`. -/
def trie.new {U : Type} : trie U := ⟨trie_node.new⟩

/-- The method `trie::traverse` with `data == NULL`. -/
def trie.traverse_nodata {U : Type} (t : trie U) (s : string_t) (create : Bool)
    (k : trie_node U → trie_node U) : trie U :=
  ⟨(traverse_loop k create false s t._root none).1⟩

/-- The method `trie::traverse` with `data != NULL`: `*data = p->data` first,
then the walk. -/
def trie.traverse_data {U : Type} (t : trie U) (s : string_t) (create : Bool)
    (k : trie_node U → trie_node U) : trie U × Option U :=
  let r := traverse_loop k create true s t._root t._root.data
  (⟨r.1⟩, r.2)

/-- The write of `trie::insert` through the node pointer it got from
`traverse`: `node->data = new U(userdata)`, over any decoration present. -/
def trie_node.set_data {U : Type} (userdata : U) (node : trie_node U) : trie_node U :=
  .mk node.children (some userdata)

/-- The method `trie::insert`: walk with `create == true`, then overwrite the
decoration of the node reached. -/
def trie.insert {U : Type} (t : trie U) (s : string_t) (userdata : U) : trie U :=
  t.traverse_nodata s true (trie_node.set_data userdata)

/-- The method `trie::lookup`: walk with `create == false`; the result is the
lowest decoration met, and the trie after the walk. -/
def trie.lookup {U : Type} (t : trie U) (s : string_t) : Option U × trie U :=
  let r := t.traverse_data s false id
  (r.2, r.1)

/-! ## throttle.h, throttle.cpp -/

/-- The struct `Throttle::Parameters`. -/
structure Parameters where
  burst : Int
  rate : ℚ
  whitelisted : Bool
deriving DecidableEq, Inhabited

/-- The class `Throttle::usage_record`. -/
structure usage_record where
  _tokens : ℚ
  _last_update : ℚ
  _unreported_hits : Int
deriving DecidableEq, Inhabited

/-- The constructor `usage_record(int tokens, double now)`. -/
def usage_record.new (tokens : Int) (now : ℚ) : usage_record :=
  { _tokens := tokens, _last_update := now, _unreported_hits := 0 }

/-- The method `usage_record::get_tokens`: `none` when `FLAssert(t > 0)`
fails, else the returned token count and the record after the call. -/
def usage_record.get_tokens (r : usage_record) (burst : Int) (rate t : ℚ) :
    Option (ℚ × usage_record) :=
  if 0 < t then
    let tokens :=
      if r._last_update ≠ 0 then
        let sec_elapsed := t - r._last_update
        let tokens1 := r._tokens + sec_elapsed * rate
        if tokens1 > burst then (burst : ℚ) else tokens1
      else r._tokens
    some (tokens, { r with _tokens := tokens, _last_update := t })
  else none

/-- The method `usage_record::check_request`. -/
def usage_record.check_request (r : usage_record) (burst : Int) (rate t : ℚ) :
    Option (Bool × usage_record) :=
  match r.get_tokens burst rate t with
  | none => none
  | some (tokens, r1) =>
    if tokens > 0 then
      some (true, { r1 with _tokens := r1._tokens - 1,
                            _unreported_hits := r1._unreported_hits + 1 })
    else some (false, r1)

/-- The method `usage_record::record_external_hits`. -/
def usage_record.record_external_hits (r : usage_record) (count : Int) : usage_record :=
  { r with _tokens := r._tokens - count }

/-- The method `usage_record::get_unreported_hits`. -/
def usage_record.get_unreported_hits (r : usage_record) : Int := r._unreported_hits

/-- The method `usage_record::reset_unreported_hits`. -/
def usage_record.reset_unreported_hits (r : usage_record) : usage_record :=
  { r with _unreported_hits := 0 }

/-- The type `record_map_t`. -/
abbrev record_map_t := List (string_t × usage_record)

/-- The class `Throttle`: the record map and the rules. -/
structure Throttle where
  _map : record_map_t
  _rules : trie Parameters

/-- The constructor `Throttle(burst, rate)`: the default rule goes under the
empty prefix. -/
def Throttle.new (burst : Int) (rate : ℚ) : Throttle :=
  { _map := [], _rules := trie.new.insert [] ⟨burst, rate, false⟩ }

/-- The method `Throttle::get_params`: `*_rules.lookup(tag)`, `none` when the
lookup returns `NULL`. -/
def Throttle.get_params (th : Throttle) (tag : string_t) : Option (Parameters × Throttle) :=
  match th._rules.lookup tag with
  | (none, _) => none
  | (some p, rules1) => some (p, { th with _rules := rules1 })

/-- The method `Throttle::get_record`, as far as the engine is concerned: the
record found or created for `tag`, and the engine holding it. -/
def Throttle.get_record (th : Throttle) (tag : string_t) (t : ℚ) :
    Option (usage_record × Throttle) :=
  match map_find th._map tag with
  | some r => some (r, th)
  | none =>
    match th.get_params tag with
    | none => none
    | some (p, th1) =>
      let initial_tokens := p.burst
      let r := usage_record.new initial_tokens t
      some (r, { th1 with _map := map_set th1._map tag r })

/-- The method `Throttle::check_request`. -/
def Throttle.check_request (th : Throttle) (tag : string_t) (t : ℚ) :
    Option (Bool × Throttle) :=
  match th.get_params tag with
  | none => none
  | some (p, th1) =>
    if p.whitelisted then some (true, th1)
    else
      match th1.get_record tag t with
      | none => none
      | some (r, th2) =>
        match r.check_request p.burst p.rate t with
        | none => none
        | some (success, r1) => some (success, { th2 with _map := map_set th2._map tag r1 })

/-- The method `Throttle::whitelist`. -/
def Throttle.whitelist (th : Throttle) ( tag_prefix : string_t) : Throttle :=
  { th with _rules := th._rules.insert tag_prefix ⟨0, 0, true⟩ }

/-- The method `Throttle::add_rule`. -/
def Throttle.add_rule (th : Throttle) ( tag_prefix : string_t) (p : Parameters) : Throttle :=
  { th with _rules := th._rules.insert tag_prefix p }

/-- The method `Throttle::external_hit`. -/
def Throttle.external_hit (th : Throttle) (tag : string_t) (count : Int) (t : ℚ) :
    Option Throttle :=
  match th.get_record tag t with
  | none => none
  | some (r, th1) =>
    some { th1 with _map := map_set th1._map tag (r.record_external_hits count) }

/-- Modelled from the spec: the class `FLDatagram` (pubsub/FLDatagram.h is not
part of the sources), "a map from tag (string) to hit count". An entry is a
key and its value; the value is `some n` when `value().get(int&)` succeeds
with `n`, and `none` when the value cannot be read as an integer. -/
abbrev FLDatagram := List (string_t × Option Int)

/-- The method `Throttle::receive_report`: the entries of the datagram in the
order of its iterator. -/
def Throttle.receive_report (th : Throttle) : FLDatagram → ℚ → Option Throttle
  | [], _ => some th
  | (tag, value) :: dg, t =>
    match value with
    | some external_hits =>
      match th.external_hit tag external_hits t with
      | none => none
      | some th1 => th1.receive_report dg t
    | none => th.receive_report dg t

/-- The loop of `Throttle::make_report` over the entries of `_map` still to be
visited: the entries of the datagram they contribute, the entries that stay in
the map, and the rules after the lookups. -/
def make_report_loop (t : ℚ) :
    record_map_t → trie Parameters → Option (FLDatagram × record_map_t × trie Parameters)
  | [], rules => some ([], [], rules)
  | (tag, r) :: rest, rules =>
    let hits := r.get_unreported_hits
    let r0 := r.reset_unreported_hits
    match rules.lookup tag with
    | (none, _) => none
    | (some p, rules1) =>
      match r0.get_tokens p.burst p.rate t with
      | none => none
      | some (tokens, r1) =>
        match make_report_loop t rest rules1 with
        | none => none
        | some (dg, m, rules2) =>
          some (if hits > 0 then (tag, some hits) :: dg else dg,
                if tokens ≥ p.burst then m else (tag, r1) :: m,
                rules2)

/-- The method `Throttle::make_report`: the datagram and the engine after the
call. -/
def Throttle.make_report (th : Throttle) (t : ℚ) : Option (FLDatagram × Throttle) :=
  match make_report_loop t th._map th._rules with
  | none => none
  | some (dg, m, rules) => some (dg, { _map := m, _rules := rules })

/-! ## Abstractions used by the statements -/

/-- The node below `n` on character `c`, if the edge exists and is not null. -/
def trie_node.child {U : Type} (n : trie_node U) (c : Char) : Option (trie_node U) :=
  (map_find n.children c).join

/-- The decoration of the node reached from `n` along exactly `q`. -/
def get_data {U : Type} : trie_node U → string_t → Option U
  | n, [] => n.data
  | n, c :: cs =>
    match n.child c with
    | some next => get_data next cs
    | none => none

/-- The decoration stored in the trie under exactly the string `q`. -/
def trie.deco {U : Type} (t : trie U) (q : string_t) : Option U := get_data t._root q

/-- The lowest decoration along `s` as a function of the decorations `f` under
the non-empty prefixes of `s`, over the best found so far. -/
def lowest {U : Type} (f : string_t → Option U) : string_t → Option U → Option U
  | [], b => b
  | c :: cs, b =>
    lowest (fun q => f (c :: q)) cs (match f [c] with | some u => some u | none => b)

/-- The result of a lookup, as a function of the decorations in the trie. -/
def trie.find {U : Type} (t : trie U) (s : string_t) : Option U :=
  lowest t.deco s (t.deco [])

/-- The parameters a lookup of `tag` returns in the rules of the engine. -/
def Throttle.params (th : Throttle) (tag : string_t) : Option Parameters := th._rules.find tag

/-- The engine after a lookup of `tag` in its rules. -/
def Throttle.probe (th : Throttle) (tag : string_t) : Throttle :=
  { th with _rules := (th._rules.lookup tag).2 }

/-- The root node of the rules carries a decoration, as it does from the
constructor on. -/
def Throttle.rooted (th : Throttle) : Prop := th._rules._root.data.isSome

/-! ## Sequences of calls -/

/-- Consecutive calls `usage_record::check_request(burst, rate, t)` for the
times `ts`, in order: the results and the record afterwards. -/
def usage_record.check_requests (r : usage_record) (burst : Int) (rate : ℚ) :
    List ℚ → Option (List Bool × usage_record)
  | [] => some ([], r)
  | t :: ts =>
    match r.check_request burst rate t with
    | none => none
    | some (b, r1) =>
      match r1.check_requests burst rate ts with
      | none => none
      | some (bs, r2) => some (b :: bs, r2)

/-- Consecutive calls `Throttle::check_request(tag, t)` for the times `ts`, in
order: the results and the engine afterwards. -/
def Throttle.check_requests (th : Throttle) (tag : string_t) :
    List ℚ → Option (List Bool × Throttle)
  | [] => some ([], th)
  | t :: ts =>
    match th.check_request tag t with
    | none => none
    | some (b, th1) =>
      match th1.check_requests tag ts with
      | none => none
      | some (bs, th2) => some (b :: bs, th2)

/-- The tokens in a bucket after the refill of `get_tokens` at time `t`, for a
record whose `_last_update` is not zero. -/
def usage_record.refilled (r : usage_record) (burst : Int) (rate t : ℚ) : ℚ :=
  min (burst : ℚ) (r._tokens + (t - r._last_update) * rate)

/-- The record of `tag` as `get_record(tag, t)` returns it under parameters
`p`: the one in the map, or a new one. -/
def Throttle.record (th : Throttle) (tag : string_t) (p : Parameters) (t : ℚ) : usage_record :=
  (map_find th._map tag).getD (usage_record.new p.burst t)

/-- Two engines with the same decorations in their rules. -/
def Throttle.same_rules (th th' : Throttle) : Prop :=
  ∀ q, th'._rules.deco q = th._rules.deco q

/-! ## Rule insertions -/

/-- A rule insertion after construction: a call of `add_rule` or of
`whitelist`. -/
inductive Rule where
  | add_rule ( tag_prefix : string_t) (p : Parameters)
  | whitelist ( tag_prefix : string_t)

/-- The prefix a rule insertion writes under. -/
def Rule.key : Rule → string_t
  | .add_rule q _ => q
  | .whitelist q => q

/-- The parameters a rule insertion stores: those given to `add_rule`, or
`Parameters(0, 0, true)` for `whitelist`. -/
def Rule.value : Rule → Parameters
  | .add_rule _ p => p
  | .whitelist _ => ⟨0, 0, true⟩

/-- The engine after one rule insertion. -/
def Throttle.apply_rule (th : Throttle) : Rule → Throttle
  | .add_rule q p => th.add_rule q p
  | .whitelist q => th.whitelist q

/-- The engine after a sequence of rule insertions, in order. -/
def Throttle.configure (th : Throttle) (rs : List Rule) : Throttle :=
  rs.foldl Throttle.apply_rule th

/-- The parameters most recently inserted under exactly the prefix `q`, when
the constructor `Throttle(burst, rate)` is followed by the insertions `rs`:
those of the last insertion under `q`, else the constructor default when `q`
is empty, else nothing. -/
def installed (burst : Int) (rate : ℚ) (rs : List Rule) (q : string_t) : Option Parameters :=
  match rs.reverse.find? (fun r => decide (r.key = q)) with
  | some r => some r.value
  | none => if q = [] then some ⟨burst, rate, false⟩ else none

/-! ## Calls on the public interface -/

/-- A call of a public method of `Throttle` after construction. -/
inductive Call where
  | check_request (tag : string_t) (t : ℚ)
  | whitelist ( tag_prefix : string_t)
  | add_rule ( tag_prefix : string_t) (p : Parameters)
  | receive_report (dg : FLDatagram) (t : ℚ)
  | make_report (t : ℚ)

/-- What a call returns. -/
inductive Answer where
  | bool (b : Bool)
  | unit
  | datagram (dg : FLDatagram)

/-- One call: what it returns and the engine afterwards, `none` when the
process aborts. -/
def Throttle.call (th : Throttle) : Call → Option (Answer × Throttle)
  | .check_request tag t =>
    match th.check_request tag t with
    | none => none
    | some (b, th1) => some (.bool b, th1)
  | .whitelist q => some (.unit, th.whitelist q)
  | .add_rule q p => some (.unit, th.add_rule q p)
  | .receive_report dg t =>
    match th.receive_report dg t with
    | none => none
    | some th1 => some (.unit, th1)
  | .make_report t =>
    match th.make_report t with
    | none => none
    | some (dg, th1) => some (.datagram dg, th1)

/-- A sequence of calls, in order: what they return and the engine
afterwards. -/
def Throttle.calls (th : Throttle) : List Call → Option (List Answer × Throttle)
  | [] => some ([], th)
  | c :: cs =>
    match th.call c with
    | none => none
    | some (a, th1) =>
      match th1.calls cs with
      | none => none
      | some (as, th2) => some (a :: as, th2)

/-- The time argument of a call is positive (calls without one qualify). -/
def Call.timed : Call → Prop
  | .check_request _ t => 0 < t
  | .receive_report _ t => 0 < t
  | .make_report t => 0 < t
  | _ => True

/-- The token count `get_tokens(burst, rate, t)` returns for a record, when
`t > 0`. -/
def usage_record.tokens_at (r : usage_record) (burst : Int) (rate t : ℚ) : ℚ :=
  if r._last_update ≠ 0 then r.refilled burst rate t else r._tokens

/-- The entries of a record map with unreported hits, as entries of a
report. -/
def report_of (m : record_map_t) : FLDatagram :=
  m.filterMap (fun e =>
    if e.2._unreported_hits > 0 then some (e.1, some e.2._unreported_hits) else none)

/-- The entry a record leaves in the map after the visit of `make_report` at
time `t`, under the rules `rules`: none when its bucket is full. -/
def survivor (rules : trie Parameters) (t : ℚ) (e : string_t × usage_record) :
    Option (string_t × usage_record) :=
  match rules.find e.1 with
  | some p =>
    if e.2.tokens_at p.burst p.rate t ≥ p.burst then none
    else some (e.1, ⟨e.2.tokens_at p.burst p.rate t, t, 0⟩)
  | none => none

/-- The keys of a record map. -/
def keys (m : record_map_t) : List string_t := m.map Prod.fst

/-- The record map after `external_hit` for one entry of a report received at
time `t`, under the rules `rules`; an entry whose value is not an integer
changes nothing. -/
def debit (rules : trie Parameters) (t : ℚ) (m : record_map_t) (e : string_t × Option Int) :
    record_map_t :=
  match e.2, rules.find e.1 with
  | some count, some p =>
    map_set m e.1 (((map_find m e.1).getD (usage_record.new p.burst t)).record_external_hits count)
  | _, _ => m

/-- The unreported hits a record map holds for a tag: those of its record, or
zero without a record. -/
def map_hits (m : record_map_t) (tag : string_t) : Int :=
  match map_find m tag with
  | some r => r._unreported_hits
  | none => 0

/-- The unreported hits the engine holds for a tag. -/
def Throttle.hits_of (th : Throttle) (tag : string_t) : Int := map_hits th._map tag

/-- The effect of one call and its answer on the number of admissions of
`tag` through a usage record since the last report: `make_report` resets it,
and a `check_request` on `tag` that returns true while the lookup of the tag
in the rules gives parameters that are not whitelisted adds one. -/
def count_step (tag : string_t) (th : Throttle) : Call → Answer → Nat → Nat
  | .make_report _, _, _ => 0
  | .check_request tag' _, .bool true, n =>
    if tag' = tag ∧ (th._rules.lookup tag').1.map (fun p => p.whitelisted) = some false then
      n + 1
    else n
  | _, _, n => n

/-- The number of `check_request` calls on `tag` among the calls `cs` made
from the engine `th` that returned true through a usage record since the last
`make_report` among them, over the `n` counted before. -/
def Throttle.admitted_since_report (tag : string_t) : Throttle → List Call → Nat → Nat
  | _, [], n => n
  | th, c :: cs, n =>
    match th.call c with
    | none => n
    | some (a, th1) => Throttle.admitted_since_report tag th1 cs (count_step tag th c a n)

/-! ## tests/comm_test.cpp -/

/-- The inner loop of `exchange_messages`: the report `rpt` of engine `i` goes
to every other engine of the vector; `j` is the index of the head. -/
def deliver (rpt : FLDatagram) (when : ℚ) (i : Nat) : Nat → List Throttle → Option (List Throttle)
  | _, [] => some []
  | j, other :: vt =>
    match (if i ≠ j then other.receive_report rpt when else some other) with
    | none => none
    | some other1 =>
      match deliver rpt when i (j + 1) vt with
      | none => none
      | some vt1 => some (other1 :: vt1)

/-- The outer loop of `exchange_messages` from engine `i` on, with `n` engines
to go. -/
def exchange_from (when : ℚ) : Nat → Nat → List Throttle → Option (List Throttle)
  | 0, _, vt => some vt
  | n + 1, i, vt =>
    match vt.get? i with
    | none => some vt
    | some t =>
      match t.make_report when with
      | none => none
      | some (rpt, t1) =>
        match deliver rpt when i 0 (vt.set i t1) with
        | none => none
        | some vt1 => exchange_from when n (i + 1) vt1

/-- The function `exchange_messages`: every engine in turn makes its report,
which every other engine receives. -/
def exchange_messages (vt : List Throttle) (when : ℚ) : Option (List Throttle) :=
  exchange_from when vt.length 0 vt

/-- The engine runs under the default rule `(burst, rate)` for `tag` and holds
no record but possibly the one of `tag`, last updated at `t`; `v` is the
record `get_record(tag, t)` would return. -/
def Throttle.holds (th : Throttle) (burst : Int) (rate : ℚ) (tag : string_t) (t : ℚ)
    (v : usage_record) : Prop :=
  th.rooted ∧ th.params tag = some ⟨burst, rate, false⟩ ∧ v._last_update = t ∧
    v._tokens ≤ burst ∧ ((th._map = [] ∧ v = ⟨burst, t, 0⟩) ∨ th._map = [(tag, v)])

/-! ## Engines that behave alike -/

/-- Two engines with the same record map and the same decorations in their
rules. -/
def Throttle.equiv (th th' : Throttle) : Prop :=
  th._map = th'._map ∧ ∀ q, th._rules.deco q = th'._rules.deco q

/-- Two outcomes of an operation are alike: both abort, or both return the
same value and leave engines that are alike. -/
def sim {α : Type} (x y : Option (α × Throttle)) : Prop :=
  match x, y with
  | none, none => True
  | some (a, th), some (b, th') => a = b ∧ th.equiv th'
  | _, _ => False

/-- Two outcomes of an operation without a result are alike. -/
def sim_unit (x y : Option Throttle) : Prop :=
  match x, y with
  | none, none => True
  | some th, some th' => th.equiv th'
  | _, _ => False

/-- Two outcomes of the loop of `make_report` are alike. -/
def sim_loop (x y : Option (FLDatagram × record_map_t × trie Parameters)) : Prop :=
  match x, y with
  | none, none => True
  | some (dg, m, rules), some (dg', m', rules') =>
    dg = dg' ∧ m = m' ∧ ∀ q, rules.deco q = rules'.deco q
  | _, _ => False

/-- The node `p` after a walk of `traverse` along `s` with `create == false`
that writes nothing to the node it returns: the walk leaves a null edge where
it falls off. -/
def probe_node {U : Type} : string_t → trie_node U → trie_node U
  | [], p => p
  | c :: cs, p =>
    match map_find p.children c with
    | some (some next) => .mk (map_set p.children c (some (probe_node cs next))) p.data
    | _ => .mk (map_set p.children c none) p.data

/-- The rules after a lookup of every tag of the list, in order. -/
def probe_all {U : Type} (rules : trie U) (tags : List string_t) : trie U :=
  tags.foldl (fun r tag => (r.lookup tag).2) rules

/-- The answer of `Throttle::check_request(tag, t)` and the record it leaves
for the tag, from the parameters `p` the lookup returns, the record `r` the
map holds for the tag, if any, and the time `t > 0`. -/
def admission (p : Parameters) (r : Option usage_record) (t : ℚ) : Bool × Option usage_record :=
  if p.whitelisted then (true, r)
  else
    if 0 < (r.getD (usage_record.new p.burst t)).tokens_at p.burst p.rate t then
      (true, some ⟨(r.getD (usage_record.new p.burst t)).tokens_at p.burst p.rate t - 1, t,
        (r.getD (usage_record.new p.burst t))._unreported_hits + 1⟩)
    else
      (false, some ⟨(r.getD (usage_record.new p.burst t)).tokens_at p.burst p.rate t, t,
        (r.getD (usage_record.new p.burst t))._unreported_hits⟩)

/-- The call `check_request(tag, t)` for a pair `(tag, t)`. -/
def check_call (c : string_t × ℚ) : Call := .check_request c.1 c.2

/-! ## FLSocket2.h, FLSocket2.cpp: stream sockets -/

/-- An `FLException` that was thrown. -/
inductive FLException where
  | mk

/-- An `FLSocket` of type `SOCK_STREAM`: the descriptor `fd_` and the flag
`initialized_`, and the other end of the connection as the program sees it
through `::send`. The `k`-th call of `::send` fails with `-1` when
`accepts k` is `none` and takes at most `n` bytes when it is `some n`;
`n_send` counts the calls made and `sent` holds the bytes taken so far. -/
structure FLSocket where
  fd_ : Int
  initialized_ : Bool
  accepts : Nat → Option Nat
  n_send : Nat
  sent : List Char

/-- The call `::send(fd_, buffer, length, 0)`: its result, `-1` or a count
between `0` and `length`, and the socket afterwards. -/
def FLSocket.send (sock : FLSocket) (buffer : List Char) (length : Int) : Int × FLSocket :=
  match sock.accepts sock.n_send with
  | none => (-1, { sock with n_send := sock.n_send + 1 })
  | some n =>
    if length < 0 then (-1, { sock with n_send := sock.n_send + 1 })
    else
      (min (n : Int) length,
        { sock with n_send := sock.n_send + 1,
                    sent := sock.sent ++ buffer.take (min (n : Int) length).toNat })

/-- The method `FLSocket::write(buffer, length, outAddress)` on a stream
socket: `none` when `FLAssertAlways(fd_ >= 0)` fails or `length/bytesSent`
divides by zero; otherwise the value returned or the exception thrown, and the
socket afterwards. -/
def FLSocket.write (sock : FLSocket) (buffer : List Char) (length : Int) :
    Option (Except FLException Int × FLSocket) :=
  if sock.fd_ < 0 then none
  else if sock.initialized_ = false then some (.error .mk, sock)
  else
    if (sock.send buffer length).1 = -1 then some (.error .mk, (sock.send buffer length).2)
    else if (sock.send buffer length).1 ≠ length then
      if (sock.send buffer length).1 = 0 then none
      else if Int.tdiv length (sock.send buffer length).1 < 10 then
        match FLSocket.write (sock.send buffer length).2
            (buffer.drop (sock.send buffer length).1.toNat)
            (length - (sock.send buffer length).1) with
        | none => none
        | some (.error e, s) => some (.error e, s)
        | some (.ok n, s) => some (.ok ((sock.send buffer length).1 + n), s)
      else some (.error .mk, (sock.send buffer length).2)
    else some (.ok (sock.send buffer length).1, (sock.send buffer length).2)
termination_by length.toNat
decreasing_by
  rename_i _ _ h3 h4 h5 _
  have hr : (sock.send buffer length).1 = -1 ∨
      (0 ≤ (sock.send buffer length).1 ∧ (sock.send buffer length).1 ≤ length) := by
    unfold FLSocket.send
    split
    · left; rfl
    · split
      · left; rfl
      · right
        constructor
        · exact le_min (Int.ofNat_nonneg _) (by omega)
        · exact min_le_right _ _
  omega

/-- The method `FLSocket::close`. -/
def FLSocket.close (sock : FLSocket) : FLSocket := { sock with fd_ := -1 }

/-- What a call of `::recv` on the descriptor gives: the bytes received (none
of them when the other end has closed the connection), or an error, with
`errno == EINTR` or not. -/
inductive RecvResult where
  | bytes (data : List Char)
  | error (eintr : Bool)

/-- The method `FLSocket::read(n, address)` on a stream socket for `n == -1`,
as `SocketReader` calls it, given what its one call of `::recv` gives: the
contents of the buffer returned, or the exception thrown. -/
def FLSocket.read (_sock : FLSocket) : RecvResult → Except FLException (List Char)
  | .bytes data => if data.length > 0 then .ok data else .error .mk
  | .error eintr => if eintr then .ok [] else .error .mk

/-! ## socketreader.h, socketreader.cpp -/

/-- The class `SocketReader`; `this` is the address of the object, under
which its owner keeps it. The callback `_cb` is an argument of
`OnSocketReadable`. -/
structure SocketReader where
  this : Nat
  _socket : Option FLSocket
  _lines : List string_t
  _line : string_t

/-- The loop `while (*chars)` of `SocketReader::OnSocketReadable` over the
characters at `chars`, which end at the first NUL: the buffer of lines and the
partial line. -/
def scan_chars : List Char → List string_t × string_t → List string_t × string_t
  | [], st => st
  | c :: chars, (lines, line) =>
    if c = '\x00' then (lines, line)
    else if c ≠ '\n' then scan_chars chars (lines, line ++ [c])
    else scan_chars chars (lines ++ [line], [])

/-- The loop `while (!_lines.empty())` of `SocketReader::OnSocketReadable`,
which invokes the callback `cb` of the owner, of state `σ`, until the lines
are consumed; `none` when the process aborts or the loop has not ended after
`fuel` rounds. -/
def notify_lines {σ : Type} (cb : SocketReader → σ → Option (SocketReader × σ)) :
    Nat → SocketReader → σ → Option (SocketReader × σ)
  | fuel, r, s =>
    if r._lines.isEmpty then some (r, s)
    else
      match fuel with
      | 0 => none
      | fuel + 1 =>
        match cb r s with
        | none => none
        | some (r1, s1) => notify_lines cb fuel r1 s1

/-- The method `SocketReader::OnSocketReadable`, given what `::recv` gives to
the `read` of the socket; `chunk->chars()` is taken to be the contents of the
buffer followed by a NUL. -/
def SocketReader.OnSocketReadable {σ : Type}
    (cb : SocketReader → σ → Option (SocketReader × σ)) (fuel : Nat) (r : SocketReader) (s : σ)
    (got : RecvResult) : Option (SocketReader × σ) :=
  match r._socket with
  | none => none
  | some sock =>
    let r1 : SocketReader :=
      match sock.read got with
      | .ok chunk =>
        { r with _lines := (scan_chars chunk (r._lines, r._line)).1,
                 _line := (scan_chars chunk (r._lines, r._line)).2 }
      | .error _ => { r with _socket := none }
    match notify_lines cb fuel r1 s with
    | none => none
    | some (r2, s2) =>
      if r2._socket.isNone then cb r2 s2 else some (r2, s2)

/-- The constructor `SocketReader(socket)`. -/
def SocketReader.new (this : Nat) (socket : FLSocket) : SocketReader :=
  { this := this, _socket := some socket, _lines := [], _line := [] }

/-- Successive calls of `OnSocketReadable`, one for each result of `::recv`,
in order. -/
def SocketReader.feed {σ : Type} (cb : SocketReader → σ → Option (SocketReader × σ))
    (fuel : Nat) : SocketReader → σ → List RecvResult → Option (SocketReader × σ)
  | r, s, [] => some (r, s)
  | r, s, got :: rest =>
    match r.OnSocketReadable cb fuel s got with
    | none => none
    | some (r1, s1) => SocketReader.feed cb fuel r1 s1 rest

/-- An owner that consumes every line it is notified of, as the header asks,
and keeps them in the order it saw them. -/
def collect (r : SocketReader) (seen : List string_t) : Option (SocketReader × List string_t) :=
  some ({ r with _lines := [] }, seen ++ r._lines)

/-! ## throttleapp.h, throttleapp.cpp -/

/-- The class `ThrottleApp`, as far as its callbacks go: the engine, the two
configuration switches as `getBool()` reads them, the keys of
`_client_readers`, and the wall clock: `clock k` is what the `k`-th call of
`now()` returns and `ticks` counts the calls made. -/
structure ThrottleApp where
  _throttle : Throttle
  _never_throttle : Bool
  _radio_silence : Bool
  _client_readers : List Nat
  clock : Nat → ℚ
  ticks : Nat

/-- The function `now()`. -/
def ThrottleApp.now (app : ThrottleApp) : ℚ × ThrottleApp :=
  (app.clock app.ticks, { app with ticks := app.ticks + 1 })

/-- The method `ThrottleApp::check_request`. -/
def ThrottleApp.check_request (app : ThrottleApp) (tag : string_t) :
    Option (Bool × ThrottleApp) :=
  if app._never_throttle then some (true, app)
  else
    match app.now.2._throttle.check_request tag app.now.1 with
    | none => none
    | some (b, th) => some (b, { app.now.2 with _throttle := th })

/-- The characters of a `std::string` as `c_str()` shows them to a reader of
C strings: those before the first NUL. -/
def c_str (s : string_t) : string_t := s.takeWhile (fun c => c ≠ '\x00')

/-- The response of `process_request` to a result of `check_request`. -/
def response (result : Bool) : string_t := if result then ['O', 'K', '\n'] else ['N', 'O', '\n']

/-- The method `ThrottleApp::process_request`: the application and the reply
socket afterwards; an exception of `write` is caught and ignored, a null reply
socket aborts. -/
def ThrottleApp.process_request (app : ThrottleApp) (tag : string_t)
    (replySocket : Option FLSocket) : Option (ThrottleApp × Option FLSocket) :=
  match app.check_request tag with
  | none => none
  | some (result, app1) =>
    match replySocket with
    | none => none
    | some sock =>
      match sock.write (response result) 3 with
      | none => none
      | some (_, sock1) => some (app1, some sock1)

/-- The loop `while (!lines.empty())` of `ThrottleApp::OnReadable` over the
lines of the reader. -/
def ThrottleApp.serve : List string_t → ThrottleApp → SocketReader →
    Option (SocketReader × ThrottleApp)
  | [], app, reader => some ({ reader with _lines := [] }, app)
  | line :: lines, app, reader =>
    match app.process_request (c_str line) reader._socket with
    | none => none
    | some (app1, sock1) =>
      ThrottleApp.serve lines app1 { reader with _socket := sock1, _lines := lines }

/-- The method `ThrottleApp::OnReadable` for a notification that carries the
reader: on no lines the reader leaves `_client_readers` (`none` when it is
not there), else every line is processed and popped. -/
def ThrottleApp.OnReadable (reader : SocketReader) (app : ThrottleApp) :
    Option (SocketReader × ThrottleApp) :=
  if reader._lines.isEmpty then
    if reader.this ∈ app._client_readers then
      some (reader, { app with _client_readers := app._client_readers.erase reader.this })
    else none
  else ThrottleApp.serve reader._lines app reader

/-- Successive calls of `ThrottleApp::check_request`, one for each tag, in
order: the results and the application afterwards. -/
def ThrottleApp.check_requests : ThrottleApp → List string_t → Option (List Bool × ThrottleApp)
  | app, [] => some ([], app)
  | app, tag :: tags =>
    match app.check_request tag with
    | none => none
    | some (b, app1) =>
      match app1.check_requests tags with
      | none => none
      | some (bs, app2) => some (b :: bs, app2)

/-- The bytes a buffer of lines and a partial line stand for: every line
followed by a newline, then the partial line. -/
def framed (st : List string_t × string_t) : List Char :=
  (st.1.map (fun l => l ++ ['\n'])).flatten ++ st.2

/-- Modelled from the spec: the class `FLNotification` (pubsub/FLNotification.h
is not part of the sources), as far as `OnMessageReceived` reads it: the
result of `getDatagram()`, `none` for `NULL`, and the flag `isLocal()` of
messages "flagged as originating locally". -/
structure FLNotification where
  getDatagram : Option FLDatagram
  isLocal : Bool

/-- The method `ThrottleApp::OnMessageReceived`; `now()` is called only when
the condition holds. -/
def ThrottleApp.OnMessageReceived (app : ThrottleApp) (n : FLNotification) :
    Option ThrottleApp :=
  match n.getDatagram with
  | none => some app
  | some dg =>
    if !n.isLocal && !app._radio_silence then
      match app.now.2._throttle.receive_report dg app.now.1 with
      | none => none
      | some th => some { app.now.2 with _throttle := th }
    else some app

/-- Successive calls of `trie::insert`, one for each pair of a string and a
decoration, in order. -/
def trie.inserts {U : Type} (t : trie U) (es : List (string_t × U)) : trie U :=
  es.foldl (fun t e => t.insert e.1 e.2) t

/-- The method `FLSocket::doAccept_` on a listening socket, given the
descriptor `newfd` that `::accept` returns and the value `rval` that
`::setsockopt(newfd, SOL_SOCKET, SO_RCVBUF, ...)` returns when it is called:
whether `FLLogError` was called, and the exception thrown or the state of the
owner after `cbClient_->invoke(note)` with the new socket. The new socket is
a copy of the listening one with the new descriptor; `accepts` is the other
end of the new connection. -/
def FLSocket.doAccept_ {σ : Type} (this : FLSocket) (cbClient_ : FLSocket → σ → σ)
    (accepts : Nat → Option Nat) (newfd rval : Int) (s : σ) : Bool × Except FLException σ :=
  if newfd < 0 then (true, .error .mk)
  else if rval ≠ 0 then (true, .error .mk)
  else
    (false, .ok (cbClient_
      { this with fd_ := newfd, accepts := accepts, n_send := 0, sent := [] } s))

/-- An owner that consumes every line each time it is invoked, as the header
asks, and keeps, for each invocation in order, the lines it found in
`lines()`. -/
def observe (r : SocketReader) (calls : List (List string_t)) :
    Option (SocketReader × List (List string_t)) :=
  some ({ r with _lines := [] }, calls ++ [r._lines])

/-- The call is a `check_request` or a `make_report`. -/
def Call.steady : Call → Prop
  | .check_request _ _ => True
  | .make_report _ => True
  | _ => False

/-- The time argument of a call (zero for the calls without one). -/
def Call.time : Call → ℚ
  | .check_request _ t => t
  | .receive_report _ t => t
  | .make_report t => t
  | _ => 0

/-- The method `ThrottleApp::OnTimer`: the datagram posted under the subject,
`none` when nothing is published, and the application afterwards. The restart
of the timer is not part of the state. -/
def ThrottleApp.OnTimer (app : ThrottleApp) : Option (Option FLDatagram × ThrottleApp) :=
  match app.now.2._throttle.make_report app.now.1 with
  | none => none
  | some (dg, th) =>
    some (if !app._radio_silence then some dg else none, { app.now.2 with _throttle := th })

/-! ## Reclaim against a variant that keeps every record -/

/-- The loop of a variant of `make_report` that performs the same reporting
and refill as `make_report_loop` but never erases a record. -/
def make_report_loop_keep (t : ℚ) :
    record_map_t → trie Parameters → Option (FLDatagram × record_map_t × trie Parameters)
  | [], rules => some ([], [], rules)
  | (tag, r) :: rest, rules =>
    let hits := r.get_unreported_hits
    let r0 := r.reset_unreported_hits
    match rules.lookup tag with
    | (none, _) => none
    | (some p, rules1) =>
      match r0.get_tokens p.burst p.rate t with
      | none => none
      | some (_, r1) =>
        match make_report_loop_keep t rest rules1 with
        | none => none
        | some (dg, m, rules2) =>
          some (if hits > 0 then (tag, some hits) :: dg else dg, (tag, r1) :: m, rules2)

/-- The variant of `make_report` that never erases a record. -/
def Throttle.make_report_keep (th : Throttle) (t : ℚ) : Option (FLDatagram × Throttle) :=
  match make_report_loop_keep t th._map th._rules with
  | none => none
  | some (dg, m, rules) => some (dg, { _map := m, _rules := rules })

/-- One call on the engine whose `make_report` is the variant that never
erases a record; every other method is the one of `Throttle`. -/
def Throttle.call_keep (th : Throttle) : Call → Option (Answer × Throttle)
  | .make_report t =>
    match th.make_report_keep t with
    | none => none
    | some (dg, th1) => some (.datagram dg, th1)
  | c => th.call c

/-- A sequence of calls on the engine whose `make_report` never erases a
record. -/
def Throttle.calls_keep (th : Throttle) : List Call → Option (List Answer × Throttle)
  | [] => some ([], th)
  | c :: cs =>
    match th.call_keep c with
    | none => none
    | some (a, th1) =>
      match th1.calls_keep cs with
      | none => none
      | some (as, th2) => some (a :: as, th2)

/-- Two answers agree: the same boolean, or two reports that hold the same
entry for every tag. -/
def Answer.agrees : Answer → Answer → Prop
  | .bool b, .bool b' => b = b'
  | .unit, .unit => True
  | .datagram dg, .datagram dg' => ∀ tag, map_find dg tag = map_find dg' tag
  | _, _ => False

/-- The entry a record has in the map after the visit of the variant of
`make_report` at time `t`, under the rules `rules`. -/
def refreshed (rules : trie Parameters) (t : ℚ) (e : string_t × usage_record) :
    string_t × usage_record :=
  match rules.find e.1 with
  | some p => (e.1, ⟨e.2.tokens_at p.burst p.rate t, t, 0⟩)
  | none => e

/-- The engine `th` with reclaim against the engine `th'` without, at a time
`T`: the same decorations in the rules, rates that are not negative, keys that
are distinct, and for every tag either the same record in both maps, or no
record in `th` and in `th'` a record without unreported hits, last updated at
a time that is not zero and not after `T`, that holds at least `burst`
tokens. -/
def Throttle.reclaimed (th th' : Throttle) (T : ℚ) : Prop :=
  th.rooted ∧ (∀ q, th'._rules.deco q = th._rules.deco q) ∧
    (∀ tag p, th.params tag = some p → 0 ≤ p.rate) ∧
    (keys th._map).Nodup ∧ (keys th'._map).Nodup ∧
    ∀ tag, map_find th._map tag = map_find th'._map tag ∨
      (map_find th._map tag = none ∧ ∃ r p, map_find th'._map tag = some r ∧
        th.params tag = some p ∧ r._unreported_hits = 0 ∧ r._last_update ≠ 0 ∧
        r._last_update ≤ T ∧ (p.burst : ℚ) ≤ r._tokens)

/-! ## The arithmetic of `double` -/

/-- The integer nearest to `x`, and the even one of the two when `x` lies half
way between two integers: the rounding rule of IEEE 754 arithmetic. -/
def round_even (x : ℚ) : ℤ :=
  if 2 * Int.fract x < 1 then ⌊x⌋
  else if 1 < 2 * Int.fract x then ⌊x⌋ + 1
  else if ⌊x⌋ % 2 = 0 then ⌊x⌋ else ⌊x⌋ + 1

/-- The exponent of the last of the 53 bits of a significand for `q`:
`2 ^ (double_exponent q + 52) ≤ |q| < 2 ^ (double_exponent q + 53)`. -/
def double_exponent (q : ℚ) : ℤ := Int.log 2 |q| - 52

/-- The double nearest to a positive `q`. -/
def double_pos (q : ℚ) : ℚ :=
  (round_even (q / 2 ^ double_exponent q) : ℚ) * 2 ^ double_exponent q

/-- The value an operation on `double` stores when its exact result is `q`:
the nearest number with a significand of 53 bits, and the one with the even
significand when `q` lies half way between two of them (IEEE 754 binary64,
round to nearest). Every operation rounds once, as on a target that computes
in `double` itself; the exponent range is taken as unbounded, which leaves
out overflow to infinity and the subnormal numbers. -/
def to_double (q : ℚ) : ℚ :=
  if q = 0 then 0 else if 0 < q then double_pos q else - double_pos (-q)

/-! ## throttle.cpp, with the rounding of its `double` operations -/

/-- The method `usage_record::get_tokens` with its operations rounded: the
difference `t - _last_update`, the product `sec_elapsed * rate` and the sum of
`_tokens += ...` each store a double. The comparison with `burst` and the
assignment of `burst` convert an `int`, which is exact. -/
def usage_record.get_tokens_f64 (r : usage_record) (burst : Int) (rate t : ℚ) :
    Option (ℚ × usage_record) :=
  if 0 < t then
    let tokens :=
      if r._last_update ≠ 0 then
        let sec_elapsed := to_double (t - r._last_update)
        let tokens1 := to_double (r._tokens + to_double (sec_elapsed * rate))
        if tokens1 > burst then (burst : ℚ) else tokens1
      else r._tokens
    some (tokens, { r with _tokens := tokens, _last_update := t })
  else none

/-- The method `usage_record::check_request` with its operations rounded:
`_tokens--` stores the double nearest to `_tokens - 1`. -/
def usage_record.check_request_f64 (r : usage_record) (burst : Int) (rate t : ℚ) :
    Option (Bool × usage_record) :=
  match r.get_tokens_f64 burst rate t with
  | none => none
  | some (tokens, r1) =>
    if tokens > 0 then
      some (true, { r1 with _tokens := to_double (r1._tokens - 1),
                            _unreported_hits := r1._unreported_hits + 1 })
    else some (false, r1)

/-- The method `usage_record::record_external_hits` with its operation
rounded: `_tokens -= count` stores the double nearest to `_tokens - count`. -/
def usage_record.record_external_hits_f64 (r : usage_record) (count : Int) : usage_record :=
  { r with _tokens := to_double (r._tokens - count) }

/-- The method `Throttle::check_request` over the rounded operations of the
record. -/
def Throttle.check_request_f64 (th : Throttle) (tag : string_t) (t : ℚ) :
    Option (Bool × Throttle) :=
  match th.get_params tag with
  | none => none
  | some (p, th1) =>
    if p.whitelisted then some (true, th1)
    else
      match th1.get_record tag t with
      | none => none
      | some (r, th2) =>
        match r.check_request_f64 p.burst p.rate t with
        | none => none
        | some (success, r1) => some (success, { th2 with _map := map_set th2._map tag r1 })

/-- The method `Throttle::external_hit` over the rounded operations of the
record. -/
def Throttle.external_hit_f64 (th : Throttle) (tag : string_t) (count : Int) (t : ℚ) :
    Option Throttle :=
  match th.get_record tag t with
  | none => none
  | some (r, th1) =>
    some { th1 with _map := map_set th1._map tag (r.record_external_hits_f64 count) }

/-- The method `Throttle::receive_report` over the rounded operations of the
record. -/
def Throttle.receive_report_f64 (th : Throttle) : FLDatagram → ℚ → Option Throttle
  | [], _ => some th
  | (tag, value) :: dg, t =>
    match value with
    | some external_hits =>
      match th.external_hit_f64 tag external_hits t with
      | none => none
      | some th1 => th1.receive_report_f64 dg t
    | none => th.receive_report_f64 dg t

/-- The loop of `Throttle::make_report` over the rounded operations of the
record. -/
def make_report_loop_f64 (t : ℚ) :
    record_map_t → trie Parameters → Option (FLDatagram × record_map_t × trie Parameters)
  | [], rules => some ([], [], rules)
  | (tag, r) :: rest, rules =>
    let hits := r.get_unreported_hits
    let r0 := r.reset_unreported_hits
    match rules.lookup tag with
    | (none, _) => none
    | (some p, rules1) =>
      match r0.get_tokens_f64 p.burst p.rate t with
      | none => none
      | some (tokens, r1) =>
        match make_report_loop_f64 t rest rules1 with
        | none => none
        | some (dg, m, rules2) =>
          some (if hits > 0 then (tag, some hits) :: dg else dg,
                if tokens ≥ p.burst then m else (tag, r1) :: m,
                rules2)

/-- The method `Throttle::make_report` over the rounded operations of the
record. -/
def Throttle.make_report_f64 (th : Throttle) (t : ℚ) : Option (FLDatagram × Throttle) :=
  match make_report_loop_f64 t th._map th._rules with
  | none => none
  | some (dg, m, rules) => some (dg, { _map := m, _rules := rules })

/-- Consecutive calls `usage_record::check_request(burst, rate, t)` for the
times `ts`, in order, with the operations rounded. -/
def usage_record.check_requests_f64 (r : usage_record) (burst : Int) (rate : ℚ) :
    List ℚ → Option (List Bool × usage_record)
  | [] => some ([], r)
  | t :: ts =>
    match r.check_request_f64 burst rate t with
    | none => none
    | some (b, r1) =>
      match r1.check_requests_f64 burst rate ts with
      | none => none
      | some (bs, r2) => some (b :: bs, r2)

/-- Consecutive calls `Throttle::check_request(tag, t)` for the times `ts`, in
order, with the operations rounded. -/
def Throttle.check_requests_f64 (th : Throttle) (tag : string_t) :
    List ℚ → Option (List Bool × Throttle)
  | [] => some ([], th)
  | t :: ts =>
    match th.check_request_f64 tag t with
    | none => none
    | some (b, th1) =>
      match th1.check_requests_f64 tag ts with
      | none => none
      | some (bs, th2) => some (b :: bs, th2)

/-- One call with the operations rounded: what it returns and the engine
afterwards, `none` when the process aborts. -/
def Throttle.call_f64 (th : Throttle) : Call → Option (Answer × Throttle)
  | .check_request tag t =>
    match th.check_request_f64 tag t with
    | none => none
    | some (b, th1) => some (.bool b, th1)
  | .whitelist q => some (.unit, th.whitelist q)
  | .add_rule q p => some (.unit, th.add_rule q p)
  | .receive_report dg t =>
    match th.receive_report_f64 dg t with
    | none => none
    | some th1 => some (.unit, th1)
  | .make_report t =>
    match th.make_report_f64 t with
    | none => none
    | some (dg, th1) => some (.datagram dg, th1)

/-- A sequence of calls, in order, with the operations rounded. -/
def Throttle.calls_f64 (th : Throttle) : List Call → Option (List Answer × Throttle)
  | [] => some ([], th)
  | c :: cs =>
    match th.call_f64 c with
    | none => none
    | some (a, th1) =>
      match th1.calls_f64 cs with
      | none => none
      | some (as, th2) => some (a :: as, th2)

/-- The inner loop of `exchange_messages` over the rounded operations. -/
def deliver_f64 (rpt : FLDatagram) (when : ℚ) (i : Nat) :
    Nat → List Throttle → Option (List Throttle)
  | _, [] => some []
  | j, other :: vt =>
    match (if i ≠ j then other.receive_report_f64 rpt when else some other) with
    | none => none
    | some other1 =>
      match deliver_f64 rpt when i (j + 1) vt with
      | none => none
      | some vt1 => some (other1 :: vt1)

/-- The outer loop of `exchange_messages` over the rounded operations. -/
def exchange_from_f64 (when : ℚ) : Nat → Nat → List Throttle → Option (List Throttle)
  | 0, _, vt => some vt
  | n + 1, i, vt =>
    match vt.get? i with
    | none => some vt
    | some t =>
      match t.make_report_f64 when with
      | none => none
      | some (rpt, t1) =>
        match deliver_f64 rpt when i 0 (vt.set i t1) with
        | none => none
        | some vt1 => exchange_from_f64 when n (i + 1) vt1

/-- The function `exchange_messages` over the rounded operations. -/
def exchange_messages_f64 (vt : List Throttle) (when : ℚ) : Option (List Throttle) :=
  exchange_from_f64 when vt.length 0 vt

/-- The token count `get_tokens(burst, rate, t)` returns for a record in the
arithmetic of `double`, when `t > 0`. -/
def usage_record.tokens_at_f64 (r : usage_record) (burst : Int) (rate t : ℚ) : ℚ :=
  if r._last_update ≠ 0 then
    min (burst : ℚ) (to_double (r._tokens + to_double (to_double (t - r._last_update) * rate)))
  else r._tokens

/-- The entry a record leaves in the map after the visit of `make_report` at
time `t` in the arithmetic of `double`: none when its bucket is full. -/
def survivor_f64 (rules : trie Parameters) (t : ℚ) (e : string_t × usage_record) :
    Option (string_t × usage_record) :=
  match rules.find e.1 with
  | some p =>
    if e.2.tokens_at_f64 p.burst p.rate t ≥ p.burst then none
    else some (e.1, ⟨e.2.tokens_at_f64 p.burst p.rate t, t, 0⟩)
  | none => none

/-- The record map after `external_hit` for one entry of a report received at
time `t` in the arithmetic of `double`. -/
def debit_f64 (rules : trie Parameters) (t : ℚ) (m : record_map_t) (e : string_t × Option Int) :
    record_map_t :=
  match e.2, rules.find e.1 with
  | some count, some p =>
    map_set m e.1
      (((map_find m e.1).getD (usage_record.new p.burst t)).record_external_hits_f64 count)
  | _, _ => m

/-- The engine runs under the default rule `(burst, rate)` alone, and every
record of its map was last updated at a positive time not after `T` and holds
a double of at least `-1` and at most `burst` tokens. -/
def Throttle.in_range_f64 (th : Throttle) (burst : Int) (rate T : ℚ) : Prop :=
  th.rooted ∧ (∀ tag, th.params tag = some ⟨burst, rate, false⟩) ∧
    ∀ e ∈ th._map, 0 < e.2._last_update ∧ e.2._last_update ≤ T ∧
      -1 ≤ e.2._tokens ∧ e.2._tokens ≤ burst

section map_lemmas
variable {K V : Type} [DecidableEq K]

theorem map_find_set (m : List (K × V)) (c : K) (v : V) (c' : K) :
    map_find (map_set m c v) c' = if c = c' then some v else map_find m c' := by
  induction m with
  | nil => simp [map_set, map_find]
  | cons e m ih =>
    obtain ⟨k, w⟩ := e
    by_cases h : k = c
    · subst h
      by_cases h' : k = c' <;> simp [map_set, map_find, h']
    · by_cases h' : k = c'
      · subst h'
        have : ¬ c = k := fun e => h e.symm
        simp [map_set, map_find, h, this]
      · simp [map_set, map_find, h, h', ih]

theorem map_set_set (m : List (K × V)) (c : K) (v w : V) :
    map_set (map_set m c v) c w = map_set m c w := by
  induction m with
  | nil => simp [map_set]
  | cons e m ih =>
    obtain ⟨k, u⟩ := e
    by_cases h : k = c <;> simp [map_set, h, ih]

theorem map_set_of_find (m : List (K × V)) (c : K) (v : V) (h : map_find m c = some v) :
    map_set m c v = m := by
  induction m with
  | nil => simp [map_find] at h
  | cons e m ih =>
    obtain ⟨k, u⟩ := e
    by_cases hk : k = c
    · simp [map_find, hk] at h
      simp [map_set, hk, h]
    · simp [map_find, hk] at h
      simp [map_set, hk, ih h]

theorem map_find_of_set_eq (m : List (K × V)) (c : K) (v : V) (h : map_set m c v = m) :
    map_find m c = some v := by
  have := map_find_set m c v c
  rw [h] at this
  simpa using this

end map_lemmas

section trie_lemmas
variable {U : Type}

theorem child_mk_set (ch : List (Char × Option (trie_node U))) (d : Option U) (c : Char)
    (e : Option (trie_node U)) (c' : Char) :
    (trie_node.mk (map_set ch c e) d).child c' =
      if c = c' then e else (trie_node.mk ch d).child c' := by
  unfold trie_node.child
  simp only [trie_node.children, map_find_set]
  split <;> simp

theorem child_eq_some (n : trie_node U) (c : Char) (next : trie_node U)
    (h : map_find n.children c = some (some next)) : n.child c = some next := by
  simp [trie_node.child, h]

theorem child_eq_none (n : trie_node U) (c : Char)
    (h : ∀ next, map_find n.children c ≠ some (some next)) : n.child c = none := by
  unfold trie_node.child
  cases hm : map_find n.children c with
  | none => rfl
  | some e =>
    cases e with
    | none => rfl
    | some next => exact absurd hm (h next)

theorem get_data_new (q : string_t) : get_data (trie_node.new : trie_node U) q = none := by
  cases q with
  | nil => rfl
  | cons c cs => simp [get_data, trie_node.child, trie_node.new, trie_node.children, map_find]

theorem lowest_none (s : string_t) (b : Option U) : lowest (fun _ => none) s b = b := by
  induction s with
  | nil => rfl
  | cons c cs ih => simpa [lowest] using ih

theorem mk_children_data (n : trie_node U) : trie_node.mk n.children n.data = n := by
  cases n; rfl

theorem traverse_loop_edge (k : trie_node U → trie_node U) (create track : Bool) (c : Char)
    (cs : string_t) (p : trie_node U) (b : Option U) (next : trie_node U)
    (h : map_find p.children c = some (some next)) :
    traverse_loop k create track (c :: cs) p b =
      (.mk (map_set p.children c (some (traverse_loop k create track cs next
          (if track && next.data.isSome then next.data else b)).1)) p.data,
        (traverse_loop k create track cs next
          (if track && next.data.isSome then next.data else b)).2) := by
  simp only [traverse_loop, h]

theorem traverse_loop_create (k : trie_node U → trie_node U) (track : Bool) (c : Char)
    (cs : string_t) (p : trie_node U) (b : Option U)
    (h : ∀ next, map_find p.children c ≠ some (some next)) :
    traverse_loop k true track (c :: cs) p b =
      (.mk (map_set p.children c (some (traverse_loop k true track cs trie_node.new b).1))
        p.data, (traverse_loop k true track cs trie_node.new b).2) := by
  cases hm : map_find p.children c with
  | none => simp only [traverse_loop, hm, if_true]
  | some e =>
    cases e with
    | none => simp only [traverse_loop, hm, if_true]
    | some next => exact absurd hm (h next)

theorem traverse_loop_off (k : trie_node U → trie_node U) (track : Bool) (c : Char)
    (cs : string_t) (p : trie_node U) (b : Option U)
    (h : ∀ next, map_find p.children c ≠ some (some next)) :
    traverse_loop k false track (c :: cs) p b =
      (k (.mk (map_set p.children c none) p.data), b) := by
  cases hm : map_find p.children c with
  | none => simp [traverse_loop, hm]
  | some e =>
    cases e with
    | none => simp [traverse_loop, hm]
    | some next => exact absurd hm (h next)

theorem edge_cases (p : trie_node U) (c : Char) :
    (∃ next, map_find p.children c = some (some next)) ∨
      (∀ next, map_find p.children c ≠ some (some next)) := by
  cases hm : map_find p.children c with
  | none => right; intro next; simp
  | some e =>
    cases e with
    | none => right; intro next; simp
    | some next => left; exact ⟨next, rfl⟩

theorem get_data_cons (n : trie_node U) (c : Char) (q : string_t) :
    get_data n (c :: q) = match n.child c with
      | some next => get_data next q
      | none => none := by
  simp only [get_data]

theorem get_data_mk_set (ch : List (Char × Option (trie_node U))) (d d' : Option U) (c : Char)
    (e : Option (trie_node U)) (c' : Char) (q : string_t) :
    get_data (trie_node.mk (map_set ch c e) d') (c' :: q) =
      if c = c' then (match e with | some x => get_data x q | none => none)
      else get_data (trie_node.mk ch d) (c' :: q) := by
  rw [get_data_cons, get_data_cons, child_mk_set]
  by_cases h : c = c'
  · simp [h]
  · simp only [h, if_false]
    rfl

/-- With `create == false` the walk returns the lowest decoration along `s`. -/
theorem traverse_lookup_snd (s : string_t) (n : trie_node U) (b : Option U) :
    (traverse_loop id false true s n b).2 = lowest (get_data n) s b := by
  induction s generalizing n b with
  | nil => rfl
  | cons c cs ih =>
    rcases edge_cases n c with ⟨next, hm⟩ | hm
    · have hc : n.child c = some next := child_eq_some n c next hm
      have hf : (fun q => get_data n (c :: q)) = get_data next := by
        funext q; simp [get_data, hc]
      rw [traverse_loop_edge _ _ _ _ _ _ _ _ hm]
      simp only [lowest, hf, ih]
      congr 1
      simp only [get_data, hc]
      cases hd : next.data <;> simp
    · have hc : n.child c = none := child_eq_none n c hm
      have hf : (fun q => get_data n (c :: q)) = fun _ => none := by
        funext q; simp [get_data, hc]
      rw [traverse_loop_off _ _ _ _ _ _ hm]
      simp [lowest, hf, lowest_none, get_data, hc]

/-- With `create == false` the walk leaves every decoration where it was. -/
theorem get_data_traverse_lookup (track : Bool) (s : string_t) (n : trie_node U) (b : Option U)
    (q : string_t) : get_data (traverse_loop id false track s n b).1 q = get_data n q := by
  induction s generalizing n b q with
  | nil => rfl
  | cons c cs ih =>
    rcases edge_cases n c with ⟨next, hm⟩ | hm
    · rw [traverse_loop_edge _ _ _ _ _ _ _ _ hm]
      cases q with
      | nil => cases n; rfl
      | cons c' q' =>
        obtain ⟨ch, d⟩ := n
        simp only [trie_node.children, trie_node.data] at hm ⊢
        rw [get_data_mk_set ch d d]
        by_cases hcc : c = c'
        · subst hcc
          simp only [if_true, ih]
          rw [get_data_cons, child_eq_some _ c next (by simpa [trie_node.children] using hm)]
        · simp [hcc]
    · rw [traverse_loop_off _ _ _ _ _ _ hm]
      cases q with
      | nil => cases n; rfl
      | cons c' q' =>
        obtain ⟨ch, d⟩ := n
        simp only [trie_node.children, trie_node.data, id] at hm ⊢
        rw [get_data_mk_set ch d d]
        by_cases hcc : c = c'
        · subst hcc
          simp only [if_true]
          rw [get_data_cons, child_eq_none _ c (by simpa [trie_node.children] using hm)]
        · simp [hcc]

/-- With `create == true` the walk followed by the write of `insert` puts the
new decoration under `s` and leaves every other decoration where it was. -/
theorem get_data_traverse_insert (u : U) (s : string_t) (n : trie_node U) (b : Option U)
    (q : string_t) :
    get_data (traverse_loop (trie_node.set_data u) true false s n b).1 q =
      if q = s then some u else get_data n q := by
  induction s generalizing n b q with
  | nil =>
    obtain ⟨ch, d⟩ := n
    cases q with
    | nil => simp [traverse_loop, get_data, trie_node.data, trie_node.set_data]
    | cons c' q' =>
      simp [traverse_loop, get_data, trie_node.child, trie_node.children, trie_node.set_data]
  | cons c cs ih =>
    rcases edge_cases n c with ⟨next, hm⟩ | hm
    · rw [traverse_loop_edge _ _ _ _ _ _ _ _ hm]
      cases q with
      | nil => cases n; simp [get_data, trie_node.data]
      | cons c' q' =>
        obtain ⟨ch, d⟩ := n
        simp only [trie_node.children, trie_node.data] at hm ⊢
        rw [get_data_mk_set ch d d]
        by_cases hcc : c = c'
        · subst hcc
          simp only [if_true, ih]
          rw [get_data_cons, child_eq_some _ c next (by simpa [trie_node.children] using hm)]
          simp
        · have : ¬ c' = c := fun e => hcc e.symm
          simp [hcc, this]
    · rw [traverse_loop_create _ _ _ _ _ _ hm]
      cases q with
      | nil => cases n; simp [get_data, trie_node.data]
      | cons c' q' =>
        obtain ⟨ch, d⟩ := n
        simp only [trie_node.children, trie_node.data] at hm ⊢
        rw [get_data_mk_set ch d d]
        by_cases hcc : c = c'
        · subst hcc
          simp only [if_true, ih, get_data_new]
          rw [get_data_cons, child_eq_none _ c (by simpa [trie_node.children] using hm)]
          simp
        · have : ¬ c' = c := fun e => hcc e.symm
          simp [hcc, this]

theorem trie.lookup_fst (t : trie U) (s : string_t) : (t.lookup s).1 = t.find s := by
  simp only [trie.lookup, trie.traverse_data, trie.find, traverse_lookup_snd]
  rfl

theorem trie.deco_lookup (t : trie U) (s q : string_t) : (t.lookup s).2.deco q = t.deco q := by
  simp [trie.lookup, trie.traverse_data, trie.deco, get_data_traverse_lookup]

theorem trie.deco_insert (t : trie U) (p : string_t) (u : U) (q : string_t) :
    (t.insert p u).deco q = if q = p then some u else t.deco q := by
  simp [trie.insert, trie.traverse_nodata, trie.deco, get_data_traverse_insert]

theorem trie.deco_new (q : string_t) : (trie.new : trie U).deco q = none := by
  simp [trie.new, trie.deco, get_data_new]

theorem trie.find_congr (t t' : trie U) (h : ∀ q, t.deco q = t'.deco q) (s : string_t) :
    t.find s = t'.find s := by
  have : t.deco = t'.deco := funext h
  simp [trie.find, this]

end trie_lemmas

/-! ## Longest-prefix match -/

section lowest_lemmas
variable {U : Type}

theorem lowest_of_none (f : string_t → Option U) (s : string_t) (b : Option U)
    (h : ∀ q, q <+: s → q ≠ [] → f q = none) : lowest f s b = b := by
  induction s generalizing f b with
  | nil => rfl
  | cons c cs ih =>
    have h1 : f [c] = none := h [c] (by simp) (by simp)
    simp only [lowest, h1]
    apply ih
    intro q hq hne
    exact h (c :: q) (by simpa using hq) (by simp)

theorem lowest_isSome (f : string_t → Option U) (s : string_t) (b : Option U)
    (h : b.isSome) : (lowest f s b).isSome := by
  induction s generalizing f b with
  | nil => exact h
  | cons c cs ih =>
    simp only [lowest]
    apply ih
    cases hf : f [c] with
    | none => simpa using h
    | some u => rfl

/-- The lowest decoration is the one under the longest decorated non-empty
prefix of `s`, or the initial one when no non-empty prefix is decorated. -/
theorem lowest_longest (f : string_t → Option U) (s : string_t) (b : Option U) :
    (∃ q, q <+: s ∧ q ≠ [] ∧ lowest f s b = f q ∧ (f q).isSome ∧
        ∀ q', q' <+: s → (f q').isSome → q'.length ≤ q.length) ∨
      (lowest f s b = b ∧ ∀ q', q' <+: s → q' ≠ [] → f q' = none) := by
  induction s generalizing f b with
  | nil =>
    right
    refine ⟨rfl, ?_⟩
    intro q' hq hne
    exact absurd (List.prefix_nil.mp hq) hne
  | cons c cs ih =>
    rcases ih (fun q => f (c :: q)) (match f [c] with | some u => some u | none => b) with
      ⟨q, hq, hne, hl, hs, hmax⟩ | ⟨hl, hnone⟩
    · left
      refine ⟨c :: q, by simpa using hq, by simp, by simpa [lowest] using hl, hs, ?_⟩
      intro q' hq' hs'
      cases q' with
      | nil => simp
      | cons a q'' =>
        obtain ⟨rfl, hp⟩ := List.cons_prefix_cons.mp hq'
        simpa using hmax q'' hp hs'
    · cases hf : f [c] with
      | none =>
        right
        simp only [hf] at hl
        refine ⟨by simpa [lowest, hf] using hl, ?_⟩
        intro q' hq' hne'
        cases q' with
        | nil => exact absurd rfl hne'
        | cons a q'' =>
          obtain ⟨rfl, hp⟩ := List.cons_prefix_cons.mp hq'
          cases q'' with
          | nil => exact hf
          | cons a' q3 => exact hnone (a' :: q3) hp (by simp)
      | some u =>
        left
        simp only [hf] at hl
        refine ⟨[c], by simp, by simp, by simpa [lowest, hf] using hl, by simp [hf], ?_⟩
        intro q' hq' hs'
        cases q' with
        | nil => simp
        | cons a q'' =>
          obtain ⟨rfl, hp⟩ := List.cons_prefix_cons.mp hq'
          cases q'' with
          | nil => simp
          | cons a' q3 =>
            have := hnone (a' :: q3) hp (by simp)
            simp [this] at hs'

/-- The result of a lookup is stored under a prefix of the string, and no
decorated prefix of the string is longer. -/
theorem trie.find_longest (t : trie U) (s : string_t) :
    ∃ q, q <+: s ∧ t.find s = t.deco q ∧
      (∀ q', q' <+: s → (t.deco q').isSome → q'.length ≤ q.length) ∧
      (q = [] ↔ ∀ q', q' <+: s → q' ≠ [] → t.deco q' = none) := by
  rcases lowest_longest t.deco s (t.deco []) with ⟨q, hq, hne, hl, hs, hmax⟩ | ⟨hl, hnone⟩
  · refine ⟨q, hq, hl, hmax, ?_⟩
    constructor
    · intro h; exact absurd h hne
    · intro h
      have := h q hq hne
      simp [this] at hs
  · refine ⟨[], List.nil_prefix, hl, ?_, by simpa using hnone⟩
    intro q' hq' hs'
    cases q' with
    | nil => simp
    | cons a q'' =>
      have := hnone (a :: q'') hq' (by simp)
      simp [this] at hs'

end lowest_lemmas

theorem Throttle.rooted_iff (th : Throttle) : th.rooted ↔ (th._rules.deco []).isSome :=
  Iff.rfl

theorem Throttle.get_params_eq (th : Throttle) (tag : string_t) :
    th.get_params tag = (th.params tag).map (fun p => (p, th.probe tag)) := by
  unfold Throttle.get_params Throttle.params Throttle.probe
  rw [← trie.lookup_fst]
  cases h : th._rules.lookup tag with
  | mk r rules1 => cases r <;> rfl

theorem Throttle.probe_map (th : Throttle) (tag : string_t) : (th.probe tag)._map = th._map := rfl

theorem Throttle.probe_deco (th : Throttle) (tag q : string_t) :
    (th.probe tag)._rules.deco q = th._rules.deco q := trie.deco_lookup _ _ _

theorem Throttle.params_congr (th th' : Throttle)
    (h : ∀ q, th'._rules.deco q = th._rules.deco q) (tag : string_t) :
    th'.params tag = th.params tag :=
  trie.find_congr _ _ h tag

theorem Throttle.probe_params (th : Throttle) (tag tag' : string_t) :
    (th.probe tag).params tag' = th.params tag' :=
  Throttle.params_congr _ _ (th.probe_deco tag) tag'

theorem Throttle.params_isSome (th : Throttle) (h : th.rooted) (tag : string_t) :
    (th.params tag).isSome :=
  lowest_isSome _ _ _ h

theorem Throttle.new_deco (burst : Int) (rate : ℚ) (q : string_t) :
    (Throttle.new burst rate)._rules.deco q =
      if q = [] then some ⟨burst, rate, false⟩ else none := by
  simp [Throttle.new, trie.deco_insert, trie.deco_new]

theorem Throttle.new_params (burst : Int) (rate : ℚ) (tag : string_t) :
    (Throttle.new burst rate).params tag = some ⟨burst, rate, false⟩ := by
  unfold Throttle.params trie.find
  rw [lowest_of_none]
  · simp [Throttle.new_deco]
  · intro q _ hne
    simp [Throttle.new_deco, hne]

theorem Throttle.new_rooted (burst : Int) (rate : ℚ) : (Throttle.new burst rate).rooted := by
  rw [Throttle.rooted_iff]
  simp [Throttle.new_deco]

/-! ## Records -/

theorem usage_record.get_tokens_eq (r : usage_record) (burst : Int) (rate t : ℚ) (ht : 0 < t)
    (hl : r._last_update ≠ 0) :
    r.get_tokens burst rate t =
      some (r.refilled burst rate t,
        { r with _tokens := r.refilled burst rate t, _last_update := t }) := by
  have hmin : (if r._tokens + (t - r._last_update) * rate > (burst : ℚ) then (burst : ℚ)
      else r._tokens + (t - r._last_update) * rate) = r.refilled burst rate t := by
    unfold usage_record.refilled
    split
    · rw [min_eq_left]; linarith
    · rw [min_eq_right]; linarith
  simp only [usage_record.get_tokens, ht, hl, if_true, ne_eq, not_false_eq_true, hmin]

theorem usage_record.check_request_eq (r : usage_record) (burst : Int) (rate t : ℚ) (ht : 0 < t)
    (hl : r._last_update ≠ 0) :
    r.check_request burst rate t =
      if 0 < r.refilled burst rate t then
        some (true, { _tokens := r.refilled burst rate t - 1, _last_update := t,
                      _unreported_hits := r._unreported_hits + 1 })
      else
        some (false, { _tokens := r.refilled burst rate t, _last_update := t,
                       _unreported_hits := r._unreported_hits }) := by
  simp only [usage_record.check_request, usage_record.get_tokens_eq r burst rate t ht hl]

theorem usage_record.refilled_same (r : usage_record) (burst : Int) (rate : ℚ)
    (h : r._tokens ≤ burst) : r.refilled burst rate r._last_update = r._tokens := by
  simp [usage_record.refilled, h]

/-- Consecutive calls at one time `t`: the first `⌈x⌉` succeed, where `x` is
the refilled token count, and the others fail. -/
theorem usage_record.check_requests_same (n : Nat) (r : usage_record) (burst : Int) (rate t : ℚ)
    (ht : 0 < t) (hl : r._last_update ≠ 0) :
    ∃ r', r.check_requests burst rate (List.replicate n t) =
        some (List.replicate (min n ⌈r.refilled burst rate t⌉.toNat) true ++
              List.replicate (n - ⌈r.refilled burst rate t⌉.toNat) false, r') ∧
      (0 < n → r'._last_update = t ∧
        r'._tokens = r.refilled burst rate t - (min n ⌈r.refilled burst rate t⌉.toNat : ℕ)) ∧
      r'._unreported_hits =
        r._unreported_hits + (min n ⌈r.refilled burst rate t⌉.toNat : ℕ) := by
  induction n generalizing r with
  | zero => exact ⟨r, by simp [usage_record.check_requests], by simp, by simp⟩
  | succ n ih =>
    have hle : r.refilled burst rate t ≤ burst := min_le_left _ _
    by_cases hx : 0 < r.refilled burst rate t
    · obtain ⟨r1, hr1⟩ : ∃ r1 : usage_record,
          r1 = ⟨r.refilled burst rate t - 1, t, r._unreported_hits + 1⟩ := ⟨_, rfl⟩
      have h1 : r1.refilled burst rate t = r.refilled burst rate t - 1 := by
        have := usage_record.refilled_same r1 burst rate (by simp [hr1]; linarith)
        simpa [hr1] using this
      obtain ⟨r', hrun, hst, hhit⟩ := ih r1 (by simpa [hr1] using ht.ne')
      have hc : (1 : ℤ) ≤ ⌈r.refilled burst rate t⌉ := Int.one_le_ceil_iff.mpr hx
      have hc1 : ⌈r.refilled burst rate t - 1⌉ = ⌈r.refilled burst rate t⌉ - 1 :=
        Int.ceil_sub_one _
      have ha : ⌈r.refilled burst rate t⌉.toNat = (⌈r.refilled burst rate t⌉ - 1).toNat + 1 := by
        omega
      refine ⟨r', ?_, ?_, ?_⟩
      · simp only [List.replicate_succ, usage_record.check_requests,
          usage_record.check_request_eq r burst rate t ht hl, hx, if_true]
        rw [← hr1, hrun, h1, hc1, ha]
        simp [Nat.succ_min_succ, List.replicate_succ]
      · intro _
        rw [h1, hc1] at hst
        rcases Nat.eq_zero_or_pos n with hn | hn
        · subst hn
          simp only [usage_record.check_requests, List.replicate_zero, Option.some.injEq,
            Prod.mk.injEq] at hrun
          rw [← hrun.2, ha]
          simp [hr1]
        · obtain ⟨h2, h3⟩ := hst hn
          refine ⟨h2, ?_⟩
          rw [h3, ha, Nat.succ_min_succ]
          push_cast
          ring
      · rw [hhit, h1, hc1, ha, Nat.succ_min_succ]
        simp only [hr1]
        push_cast
        ring
    · obtain ⟨r1, hr1⟩ : ∃ r1 : usage_record,
          r1 = ⟨r.refilled burst rate t, t, r._unreported_hits⟩ := ⟨_, rfl⟩
      have h1 : r1.refilled burst rate t = r.refilled burst rate t := by
        have := usage_record.refilled_same r1 burst rate (by simpa [hr1] using hle)
        simpa [hr1] using this
      obtain ⟨r', hrun, hst, hhit⟩ := ih r1 (by simpa [hr1] using ht.ne')
      have hc : ⌈r.refilled burst rate t⌉ ≤ 0 := by
        rw [Int.ceil_le]; push_neg at hx; simpa using hx
      have ha : ⌈r.refilled burst rate t⌉.toNat = 0 := by omega
      refine ⟨r', ?_, ?_, ?_⟩
      · simp only [List.replicate_succ, usage_record.check_requests,
          usage_record.check_request_eq r burst rate t ht hl, hx, if_false]
        rw [← hr1, hrun, h1, ha]
        simp [List.replicate_succ]
      · intro _
        rw [h1] at hst
        rcases Nat.eq_zero_or_pos n with hn | hn
        · subst hn
          simp only [usage_record.check_requests, List.replicate_zero, Option.some.injEq,
            Prod.mk.injEq] at hrun
          rw [← hrun.2, ha]
          simp [hr1]
        · obtain ⟨h2, h3⟩ := hst hn
          refine ⟨h2, ?_⟩
          rw [h3, ha]
          simp
      · rw [hhit, h1, ha]
        simp [hr1]

/-! ## The engine, one tag at a time -/

theorem Throttle.same_rules_refl (th : Throttle) : th.same_rules th := fun _ => rfl

theorem Throttle.same_rules_trans {a b c : Throttle} (h1 : a.same_rules b)
    (h2 : b.same_rules c) : a.same_rules c := fun q => (h2 q).trans (h1 q)

theorem Throttle.same_rules_probe (th : Throttle) (tag : string_t) :
    th.same_rules (th.probe tag) := fun q => th.probe_deco tag q

theorem Throttle.same_rules_params {th th' : Throttle} (h : th.same_rules th')
    (tag : string_t) : th'.params tag = th.params tag :=
  Throttle.params_congr th th' h tag

theorem Throttle.same_rules_rooted {th th' : Throttle} (h : th.same_rules th')
    (hr : th.rooted) : th'.rooted := by
  rw [Throttle.rooted_iff] at *
  rw [h []]
  exact hr

/-- What `get_record` does under parameters `p`. -/
theorem Throttle.get_record_spec (th : Throttle) (tag : string_t) (t : ℚ) (p : Parameters)
    (hp : th.params tag = some p) :
    ∃ th', th.get_record tag t = some (th.record tag p t, th') ∧
      th'._map = map_set th._map tag (th.record tag p t) ∧ th.same_rules th' := by
  unfold Throttle.get_record Throttle.record
  cases hf : map_find th._map tag with
  | some r =>
    exact ⟨th, by simp, by simp [map_set_of_find _ _ _ hf], th.same_rules_refl⟩
  | none =>
    refine ⟨{ th.probe tag with
      _map := map_set (th.probe tag)._map tag (usage_record.new p.burst t) }, ?_, ?_, ?_⟩
    · simp [Throttle.get_params_eq, hp]
    · simp [Throttle.probe_map]
    · exact fun q => th.probe_deco tag q

/-- What `check_request` does to a tag that is not whitelisted, in terms of
the call on its record. -/
theorem Throttle.check_request_spec (th : Throttle) (tag : string_t) (t : ℚ) (p : Parameters)
    (hp : th.params tag = some p) (hw : p.whitelisted = false) (b : Bool) (r1 : usage_record)
    (hr : (th.record tag p t).check_request p.burst p.rate t = some (b, r1)) :
    ∃ th', th.check_request tag t = some (b, th') ∧
      th'._map = map_set th._map tag r1 ∧ th.same_rules th' := by
  have hp1 : (th.probe tag).params tag = some p := by rw [Throttle.probe_params]; exact hp
  obtain ⟨th2, hg, hm, hs⟩ := (th.probe tag).get_record_spec tag t p hp1
  have hrec : (th.probe tag).record tag p t = th.record tag p t := rfl
  rw [hrec] at hg hm
  refine ⟨{ th2 with _map := map_set th2._map tag r1 }, ?_, ?_, ?_⟩
  · simp [Throttle.check_request, Throttle.get_params_eq, hp, hw, hg, hr]
  · simp [hm, Throttle.probe_map, map_set_set]
  · exact fun q => (hs q).trans (th.probe_deco tag q)

/-- What `check_request` does to a whitelisted tag. -/
theorem Throttle.check_request_whitelisted (th : Throttle) (tag : string_t) (t : ℚ)
    (p : Parameters) (hp : th.params tag = some p) (hw : p.whitelisted = true) :
    th.check_request tag t = some (true, th.probe tag) := by
  simp [Throttle.check_request, Throttle.get_params_eq, hp, hw]

theorem Throttle.record_of_find (th : Throttle) (tag : string_t) (p : Parameters) (t : ℚ)
    (r : usage_record) (h : map_find th._map tag = some r) : th.record tag p t = r := by
  simp [Throttle.record, h]

/-- Consecutive calls on a tag that is not whitelisted, in terms of the calls
on its record. -/
theorem Throttle.check_requests_spec (tag : string_t) (p : Parameters)
    (hw : p.whitelisted = false) (ts : List ℚ) (th : Throttle)
    (hp : th.params tag = some p) (bs : List Bool) (r' : usage_record)
    (hr : (th.record tag p (ts.headD 0)).check_requests p.burst p.rate ts = some (bs, r')) :
    ∃ th', th.check_requests tag ts = some (bs, th') ∧
      (ts ≠ [] → th'._map = map_set th._map tag r') ∧ (ts = [] → th' = th) ∧
      th.same_rules th' := by
  induction ts generalizing th bs with
  | nil =>
    simp only [usage_record.check_requests, Option.some.injEq, Prod.mk.injEq] at hr
    exact ⟨th, by simp [Throttle.check_requests, hr.1], by simp, fun _ => rfl,
      th.same_rules_refl⟩
  | cons t ts ih =>
    simp only [List.headD_cons, usage_record.check_requests] at hr
    cases h1 : (th.record tag p t).check_request p.burst p.rate t with
    | none => simp [h1] at hr
    | some br =>
      obtain ⟨b, r1⟩ := br
      simp only [h1] at hr
      cases h2 : r1.check_requests p.burst p.rate ts with
      | none => simp [h2] at hr
      | some bsr =>
        obtain ⟨bs', r2⟩ := bsr
        simp only [h2, Option.some.injEq, Prod.mk.injEq] at hr
        obtain ⟨rfl, rfl⟩ := hr
        obtain ⟨th1, hc, hm, hs⟩ := th.check_request_spec tag t p hp hw b r1 h1
        have hf1 : map_find th1._map tag = some r1 := by simp [hm, map_find_set]
        have hp1 : th1.params tag = some p := by
          rw [Throttle.same_rules_params hs]; exact hp
        have hrec : th1.record tag p (ts.headD 0) = r1 :=
          th1.record_of_find tag p _ r1 hf1
        obtain ⟨th', hrun, hmap, hnil, hs'⟩ := ih th1 hp1 bs' (by rw [hrec]; exact h2)
        refine ⟨th', ?_, ?_, by simp, Throttle.same_rules_trans hs hs'⟩
        · simp [Throttle.check_requests, hc, hrun]
        · intro _
          cases ts with
          | nil =>
            simp only [usage_record.check_requests, Option.some.injEq, Prod.mk.injEq] at h2
            rw [hnil rfl, ← h2.2]
            exact hm
          | cons t' ts' =>
            rw [hmap (by simp), hm, map_set_set]

/-! ## C1 -/

/-- C1: on a fresh `Throttle(burst, rate)` with `burst ≥ 1`, `rate ≥ 0` and
`t0 > 0`, of `burst + 1` consecutive calls `check_request(tag, t0)` the first
`burst` return true and the last one returns false. -/
theorem C1_burst_then_reject (burst : Int) (rate t0 : ℚ) (tag : string_t) (_hb : 1 ≤ burst)
    (_hr : 0 ≤ rate) (ht : 0 < t0) :
    ∃ th, (Throttle.new burst rate).check_requests tag (List.replicate (burst.toNat + 1) t0) =
      some (List.replicate burst.toNat true ++ [false], th) := by
  have hp := Throttle.new_params burst rate tag
  have hrec : (Throttle.new burst rate).record tag ⟨burst, rate, false⟩
      ((List.replicate (burst.toNat + 1) t0).headD 0) = usage_record.new burst t0 := by
    simp [Throttle.record, Throttle.new, map_find, List.replicate_succ]
  have hx : (usage_record.new burst t0).refilled burst rate t0 = burst := by
    simp [usage_record.refilled, usage_record.new]
  obtain ⟨r', hrun, -, -⟩ := usage_record.check_requests_same (burst.toNat + 1)
    (usage_record.new burst t0) burst rate t0 ht (by simpa [usage_record.new] using ht.ne')
  rw [hx, Int.ceil_intCast] at hrun
  have h1 : min (burst.toNat + 1) burst.toNat = burst.toNat := by omega
  have h2 : burst.toNat + 1 - burst.toNat = 1 := by omega
  rw [h1, h2] at hrun
  obtain ⟨th, hth, -⟩ := Throttle.check_requests_spec tag ⟨burst, rate, false⟩ rfl
    (List.replicate (burst.toNat + 1) t0) (Throttle.new burst rate) hp _ r'
    (by rw [hrec]; exact hrun)
  exact ⟨th, by simpa using hth⟩

/-- C1 at `burst = 1`, `rate = 1`, `t0 = 1090026837`, tag `john`: the first
call succeeds and the second fails. -/
theorem C1_burst_then_reject_witness :
    (1 : Int) ≤ 1 ∧ (0 : ℚ) ≤ 1 ∧ (0 : ℚ) < 1090026837 ∧
      ∃ th, (Throttle.new 1 1).check_requests ['j', 'o', 'h', 'n']
          (List.replicate ((1 : Int).toNat + 1) 1090026837) =
        some (List.replicate (1 : Int).toNat true ++ [false], th) :=
  ⟨by decide, by norm_num, by norm_num,
    C1_burst_then_reject 1 1 1090026837 ['j', 'o', 'h', 'n'] (by decide) (by norm_num)
      (by norm_num)⟩

/-! ## C2 -/

theorem Throttle.apply_rule_deco (th : Throttle) (r : Rule) (q : string_t) :
    (th.apply_rule r)._rules.deco q = if q = r.key then some r.value else th._rules.deco q := by
  cases r <;>
    simp [Throttle.apply_rule, Throttle.add_rule, Throttle.whitelist, trie.deco_insert,
      Rule.key, Rule.value]

theorem Throttle.apply_rule_map (th : Throttle) (r : Rule) : (th.apply_rule r)._map = th._map := by
  cases r <;> rfl

theorem Throttle.configure_map (rs : List Rule) (th : Throttle) :
    (th.configure rs)._map = th._map := by
  induction rs generalizing th with
  | nil => rfl
  | cons r rs ih =>
    simp only [Throttle.configure, List.foldl_cons] at ih ⊢
    rw [ih, Throttle.apply_rule_map]

theorem Throttle.configure_deco (rs : List Rule) (th : Throttle) (q : string_t) :
    (th.configure rs)._rules.deco q =
      match rs.reverse.find? (fun r => decide (r.key = q)) with
      | some r => some r.value
      | none => th._rules.deco q := by
  induction rs generalizing th with
  | nil => rfl
  | cons r rs ih =>
    simp only [Throttle.configure, List.foldl_cons] at ih ⊢
    rw [ih, List.reverse_cons, List.find?_append]
    cases hf : rs.reverse.find? (fun r => decide (r.key = q)) with
    | some r' => simp
    | none =>
      by_cases hk : r.key = q
      · simp [Throttle.apply_rule_deco, hk]
      · have hk' : ¬ q = r.key := fun e => hk e.symm
        simp [Throttle.apply_rule_deco, hk, hk']

theorem Throttle.configure_new_deco (burst : Int) (rate : ℚ) (rs : List Rule) (q : string_t) :
    ((Throttle.new burst rate).configure rs)._rules.deco q = installed burst rate rs q := by
  rw [Throttle.configure_deco, Throttle.new_deco]
  rfl

theorem installed_eq_none (burst : Int) (rate : ℚ) (rs : List Rule) (q : string_t) :
    installed burst rate rs q = none ↔ q ≠ [] ∧ ∀ r ∈ rs, r.key ≠ q := by
  unfold installed
  cases hf : rs.reverse.find? (fun r => decide (r.key = q)) with
  | some r' =>
    have hm := List.mem_of_find?_eq_some hf
    have hk := List.find?_some hf
    simp only [false_iff, not_and, reduceCtorEq]
    intro _ hall
    exact hall r' (List.mem_reverse.mp hm) (by simpa using hk)
  | none =>
    rw [List.find?_eq_none] at hf
    by_cases hq : q = []
    · simp [hq]
    · simp only [hq, if_false, ne_eq, not_false_eq_true, true_and, true_iff]
      intro r hr
      simpa using hf r (List.mem_reverse.mpr hr)

/-- C2: after the constructor and any rule insertions `rs`, `get_params(tag)`
returns the parameters most recently inserted under a prefix `q` of the tag
such that no inserted prefix of the tag is longer; and `q` is the empty prefix
if and only if no inserted non-empty prefix is a prefix of the tag. -/
theorem C2_longest_prefix_match (burst : Int) (rate : ℚ) (rs : List Rule) (tag : string_t) :
    ∃ p th' q, ((Throttle.new burst rate).configure rs).get_params tag = some (p, th') ∧
      q <+: tag ∧ installed burst rate rs q = some p ∧
      (∀ q', q' <+: tag → (installed burst rate rs q').isSome → q'.length ≤ q.length) ∧
      (q = [] ↔ ∀ r ∈ rs, r.key ≠ [] → ¬ r.key <+: tag) := by
  obtain ⟨q, hq, hfind, hmax, hdef⟩ :=
    trie.find_longest ((Throttle.new burst rate).configure rs)._rules tag
  have hroot : ((Throttle.new burst rate).configure rs).rooted := by
    rw [Throttle.rooted_iff, Throttle.configure_new_deco]
    cases h : installed burst rate rs [] with
    | some p => rfl
    | none => simp [installed_eq_none] at h
  have hsome := Throttle.params_isSome _ hroot tag
  obtain ⟨p, hp⟩ := Option.isSome_iff_exists.mp hsome
  refine ⟨p, ((Throttle.new burst rate).configure rs).probe tag, q, ?_, hq, ?_, ?_, ?_⟩
  · simp [Throttle.get_params_eq, hp]
  · rw [← Throttle.configure_new_deco, ← hfind]
    exact hp
  · intro q' hq' hs
    apply hmax q' hq'
    rw [Throttle.configure_new_deco]
    exact hs
  · rw [hdef]
    constructor
    · intro h r hr hne hpre
      have := h r.key hpre hne
      rw [Throttle.configure_new_deco, installed_eq_none] at this
      exact this.2 r hr rfl
    · intro h q' hq' hne
      rw [Throttle.configure_new_deco, installed_eq_none]
      refine ⟨hne, ?_⟩
      intro r hr hk
      exact h r hr (by rw [hk]; exact hne) (by rw [hk]; exact hq')

/-! ## C3 -/

theorem usage_record.get_tokens_pos (r : usage_record) (burst : Int) (rate t : ℚ) (ht : 0 < t) :
    r.get_tokens burst rate t =
      some (r.tokens_at burst rate t, ⟨r.tokens_at burst rate t, t, r._unreported_hits⟩) := by
  by_cases hl : r._last_update = 0
  · simp [usage_record.get_tokens, usage_record.tokens_at, ht, hl]
  · rw [usage_record.get_tokens_eq r burst rate t ht hl]
    simp [usage_record.tokens_at, hl]

theorem survivor_congr (rules rules' : trie Parameters) (h : ∀ q, rules'.deco q = rules.deco q)
    (t : ℚ) : survivor rules' t = survivor rules t := by
  funext e
  simp only [survivor, trie.find_congr rules' rules h]

/-- The loop of `make_report` at a time `t > 0` with a decorated root: the
report holds the unreported hits, the map keeps the survivors, and the rules
keep their decorations. -/
theorem make_report_loop_spec (t : ℚ) (ht : 0 < t) (m : record_map_t) (rules : trie Parameters)
    (hroot : (rules.deco []).isSome) :
    ∃ rules', make_report_loop t m rules =
        some (report_of m, m.filterMap (survivor rules t), rules') ∧
      ∀ q, rules'.deco q = rules.deco q := by
  induction m generalizing rules with
  | nil => exact ⟨rules, rfl, fun _ => rfl⟩
  | cons e m ih =>
    obtain ⟨tag, r⟩ := e
    obtain ⟨p, hp⟩ := Option.isSome_iff_exists.mp (lowest_isSome rules.deco tag _ hroot)
    have hp' : rules.find tag = some p := hp
    have hl1 : (rules.lookup tag).1 = some p := by rw [trie.lookup_fst]; exact hp'
    have hd : ∀ q, (rules.lookup tag).2.deco q = rules.deco q := trie.deco_lookup rules tag
    obtain ⟨rules', hrun, hdeco⟩ := ih (rules.lookup tag).2 (by rw [hd]; exact hroot)
    refine ⟨rules', ?_, fun q => (hdeco q).trans (hd q)⟩
    have hlk : rules.lookup tag = (some p, (rules.lookup tag).2) := by
      rw [← hl1]
    have hg : r.reset_unreported_hits.get_tokens p.burst p.rate t =
        some (r.tokens_at p.burst p.rate t, ⟨r.tokens_at p.burst p.rate t, t, 0⟩) :=
      usage_record.get_tokens_pos r.reset_unreported_hits p.burst p.rate t ht
    rw [make_report_loop]
    rw [hlk]
    simp only [hg, hrun, survivor_congr _ _ hd]
    by_cases hh : r._unreported_hits > 0 <;>
      by_cases hk : r.tokens_at p.burst p.rate t ≥ p.burst <;>
      simp [report_of, List.filterMap_cons, survivor, hp', hh, hk,
        usage_record.get_unreported_hits]

theorem Throttle.make_report_spec (th : Throttle) (t : ℚ) (ht : 0 < t) (hroot : th.rooted) :
    ∃ th', th.make_report t = some (report_of th._map, th') ∧
      th'._map = th._map.filterMap (survivor th._rules t) ∧ th.same_rules th' := by
  obtain ⟨rules', hrun, hdeco⟩ := make_report_loop_spec t ht th._map th._rules hroot
  exact ⟨⟨th._map.filterMap (survivor th._rules t), rules'⟩, by simp [Throttle.make_report, hrun],
    rfl, hdeco⟩

theorem usage_record.check_request_pos (r : usage_record) (burst : Int) (rate t : ℚ)
    (ht : 0 < t) :
    r.check_request burst rate t =
      if 0 < r.tokens_at burst rate t then
        some (true, ⟨r.tokens_at burst rate t - 1, t, r._unreported_hits + 1⟩)
      else some (false, ⟨r.tokens_at burst rate t, t, r._unreported_hits⟩) := by
  simp only [usage_record.check_request, usage_record.get_tokens_pos r burst rate t ht]

/-- What `external_hit` does under parameters `p`. -/
theorem Throttle.external_hit_spec (th : Throttle) (tag : string_t) (count : Int) (t : ℚ)
    (p : Parameters) (hp : th.params tag = some p) :
    ∃ th', th.external_hit tag count t = some th' ∧
      th'._map = map_set th._map tag ((th.record tag p t).record_external_hits count) ∧
      th.same_rules th' := by
  obtain ⟨th1, hg, hm, hs⟩ := th.get_record_spec tag t p hp
  refine ⟨⟨map_set th1._map tag ((th.record tag p t).record_external_hits count), th1._rules⟩,
    ?_, ?_, hs⟩
  · simp [Throttle.external_hit, hg]
  · simp [hm, map_set_set]

theorem debit_congr (rules rules' : trie Parameters) (h : ∀ q, rules'.deco q = rules.deco q)
    (t : ℚ) : debit rules' t = debit rules t := by
  funext m e
  simp only [debit, trie.find_congr rules' rules h]

/-- What `receive_report` does when the root of the rules is decorated. -/
theorem Throttle.receive_report_spec (dg : FLDatagram) (t : ℚ) (th : Throttle)
    (hroot : th.rooted) :
    ∃ th', th.receive_report dg t = some th' ∧
      th'._map = dg.foldl (debit th._rules t) th._map ∧ th.same_rules th' := by
  induction dg generalizing th with
  | nil => exact ⟨th, rfl, rfl, th.same_rules_refl⟩
  | cons e dg ih =>
    obtain ⟨tag, value⟩ := e
    cases value with
    | none =>
      obtain ⟨th', h1, h2, h3⟩ := ih th hroot
      exact ⟨th', by simpa [Throttle.receive_report] using h1, by simpa [debit] using h2, h3⟩
    | some count =>
      obtain ⟨p, hp⟩ := Option.isSome_iff_exists.mp (th.params_isSome hroot tag)
      obtain ⟨th1, hx, hm, hs⟩ := th.external_hit_spec tag count t p hp
      obtain ⟨th', h1, h2, h3⟩ := ih th1 (Throttle.same_rules_rooted hs hroot)
      refine ⟨th', ?_, ?_, Throttle.same_rules_trans hs h3⟩
      · simp [Throttle.receive_report, hx, h1]
      · rw [h2, debit_congr th._rules th1._rules hs, hm]
        have hp' : th._rules.find tag = some p := hp
        simp [List.foldl_cons, debit, hp', Throttle.record]

/-! ## Keys of the record map -/

theorem map_find_eq_none_iff (m : record_map_t) (tag : string_t) :
    map_find m tag = none ↔ tag ∉ keys m := by
  induction m with
  | nil => simp [map_find, keys]
  | cons e m ih =>
    obtain ⟨k, r⟩ := e
    by_cases h : k = tag
    · simp [map_find, keys, h]
    · have h' : ¬ tag = k := fun e => h e.symm
      simp only [map_find, h, if_false, ih]
      simp [keys, h']

theorem keys_map_set (m : record_map_t) (tag : string_t) (r : usage_record) :
    keys (map_set m tag r) = if tag ∈ keys m then keys m else keys m ++ [tag] := by
  induction m with
  | nil => simp [map_set, keys]
  | cons e m ih =>
    obtain ⟨k, w⟩ := e
    by_cases h : k = tag
    · simp [map_set, keys, h]
    · have h' : ¬ tag = k := fun e => h e.symm
      simp only [keys, List.map_cons, List.mem_cons, h', false_or, map_set, h, if_false] at ih ⊢
      rw [ih]
      split <;> simp

theorem keys_nodup_map_set (m : record_map_t) (tag : string_t) (r : usage_record)
    (h : (keys m).Nodup) : (keys (map_set m tag r)).Nodup := by
  rw [keys_map_set]
  split
  · exact h
  · rename_i hn
    exact List.Nodup.append h (by simp) (by simpa using hn)

theorem survivor_key (rules : trie Parameters) (t : ℚ) (e e' : string_t × usage_record)
    (h : survivor rules t e = some e') : e'.1 = e.1 ∧ e'.2._unreported_hits = 0 ∧
      e'.2._last_update = t := by
  unfold survivor at h
  split at h
  · split at h
    · simp at h
    · simp only [Option.some.injEq] at h
      subst h
      exact ⟨rfl, rfl, rfl⟩
  · simp at h

theorem keys_survivors_sublist (rules : trie Parameters) (t : ℚ) (m : record_map_t) :
    (keys (m.filterMap (survivor rules t))).Sublist (keys m) := by
  induction m with
  | nil => simp [keys]
  | cons e m ih =>
    simp only [List.filterMap_cons]
    cases hs : survivor rules t e with
    | none => exact List.Sublist.cons _ ih
    | some e' =>
      have := (survivor_key rules t e e' hs).1
      simp only [keys, List.map_cons, this] at ih ⊢
      exact List.Sublist.cons₂ _ ih

theorem keys_nodup_survivors (rules : trie Parameters) (t : ℚ) (m : record_map_t)
    (h : (keys m).Nodup) : (keys (m.filterMap (survivor rules t))).Nodup :=
  List.Nodup.sublist (keys_survivors_sublist rules t m) h

theorem keys_nodup_debit (rules : trie Parameters) (t : ℚ) (dg : FLDatagram)
    (m : record_map_t) (h : (keys m).Nodup) : (keys (dg.foldl (debit rules t) m)).Nodup := by
  induction dg generalizing m with
  | nil => exact h
  | cons e dg ih =>
    simp only [List.foldl_cons]
    apply ih
    unfold debit
    split
    · exact keys_nodup_map_set _ _ _ h
    · exact h

/-! ## C4 -/

theorem map_hits_set (m : record_map_t) (k : string_t) (r : usage_record) (tag : string_t) :
    map_hits (map_set m k r) tag = if k = tag then r._unreported_hits else map_hits m tag := by
  unfold map_hits
  rw [map_find_set]
  by_cases h : k = tag <;> simp [h]

theorem map_hits_debit (rules : trie Parameters) (t : ℚ) (dg : FLDatagram) (m : record_map_t)
    (tag : string_t) : map_hits (dg.foldl (debit rules t) m) tag = map_hits m tag := by
  induction dg generalizing m with
  | nil => rfl
  | cons e dg ih =>
    simp only [List.foldl_cons]
    rw [ih]
    unfold debit
    split
    · rw [map_hits_set]
      split
      · rename_i hk
        subst hk
        unfold map_hits
        cases hf : map_find m e.1 <;>
          simp [usage_record.record_external_hits, usage_record.new]
      · rfl
    · rfl

theorem map_hits_survivors (rules : trie Parameters) (t : ℚ) (m : record_map_t)
    (tag : string_t) : map_hits (m.filterMap (survivor rules t)) tag = 0 := by
  induction m with
  | nil => rfl
  | cons e m ih =>
    simp only [List.filterMap_cons]
    cases hs : survivor rules t e with
    | none => exact ih
    | some e' =>
      obtain ⟨k', r'⟩ := e'
      have hk := survivor_key rules t e (k', r') hs
      unfold map_hits at ih ⊢
      simp only [map_find]
      by_cases h : k' = tag
      · simpa [h] using hk.2.1
      · simpa [h] using ih

theorem map_find_report_of_not_mem (m : record_map_t) (tag : string_t) (h : tag ∉ keys m) :
    map_find (report_of m) tag = none := by
  induction m with
  | nil => rfl
  | cons e m ih =>
    obtain ⟨k, r⟩ := e
    simp only [keys, List.map_cons, List.mem_cons, not_or] at h
    have hk : ¬ k = tag := fun e => h.1 e.symm
    simp only [report_of, List.filterMap_cons]
    split
    · exact ih h.2
    · rename_i e' he
      split at he
      · simp only [Option.some.injEq] at he
        subst he
        simp only [map_find, hk, if_false]
        exact ih h.2
      · simp at he

/-- The report holds, for each tag, the unreported hits of its record when
they are positive, and nothing otherwise. -/
theorem map_find_report_of (m : record_map_t) (hnd : (keys m).Nodup) (tag : string_t) :
    map_find (report_of m) tag =
      if 0 < map_hits m tag then some (some (map_hits m tag)) else none := by
  induction m with
  | nil => simp [report_of, map_find, map_hits]
  | cons e m ih =>
    obtain ⟨k, r⟩ := e
    simp only [keys, List.map_cons, List.nodup_cons] at hnd
    by_cases hk : k = tag
    · subst hk
      have hnone := map_find_report_of_not_mem m k hnd.1
      by_cases hh : r._unreported_hits > 0
      · simp [report_of, map_find, map_hits, hh]
      · have : map_find (report_of ((k, r) :: m)) k = map_find (report_of m) k := by
          simp [report_of, hh]
        rw [this, hnone]
        simp [map_hits, map_find, hh]
    · have h1 : map_find (report_of ((k, r) :: m)) tag = map_find (report_of m) tag := by
        by_cases hh : r._unreported_hits > 0 <;> simp [report_of, map_find, hh, hk]
      have h2 : map_hits ((k, r) :: m) tag = map_hits m tag := by
        simp [map_hits, map_find, hk]
      rw [h1, h2]
      exact ih hnd.2

theorem Throttle.rooted_apply_rule (th : Throttle) (r : Rule) (h : th.rooted) :
    (th.apply_rule r).rooted := by
  rw [Throttle.rooted_iff] at *
  rw [Throttle.apply_rule_deco]
  split
  · rfl
  · exact h

/-- One call at a positive time on an engine whose rules have a decorated root
and whose map has distinct keys: the call returns, both properties persist,
and the unreported hits of `tag` follow the count of its admissions. -/
theorem Throttle.call_hits (tag : string_t) (th : Throttle) (n : Nat) (c : Call)
    (hroot : th.rooted) (hnd : (keys th._map).Nodup) (hn : th.hits_of tag = n)
    (hc : c.timed) :
    ∃ a th1, th.call c = some (a, th1) ∧ th1.rooted ∧ (keys th1._map).Nodup ∧
      th1.hits_of tag = count_step tag th c a n := by
  cases c with
  | check_request tag' t =>
    have ht : 0 < t := hc
    obtain ⟨p, hp⟩ := Option.isSome_iff_exists.mp (th.params_isSome hroot tag')
    have hl : (th._rules.lookup tag').1 = some p := by rw [trie.lookup_fst]; exact hp
    by_cases hw : p.whitelisted = true
    · refine ⟨.bool true, th.probe tag', ?_, ?_, hnd, ?_⟩
      · simp [Throttle.call, th.check_request_whitelisted tag' t p hp hw]
      · exact Throttle.same_rules_rooted (th.same_rules_probe tag') hroot
      · simp only [count_step, hl, Option.map_some', hw]
        simpa using hn
    · have hw' : p.whitelisted = false := by simpa using hw
      have hrec : (th.record tag' p t)._unreported_hits = th.hits_of tag' := by
        unfold Throttle.record Throttle.hits_of map_hits
        cases map_find th._map tag' <;> simp [usage_record.new]
      by_cases hx : 0 < (th.record tag' p t).tokens_at p.burst p.rate t
      · obtain ⟨th1, h1, hm, hs⟩ := th.check_request_spec tag' t p hp hw' true _
          (by rw [usage_record.check_request_pos _ _ _ _ ht, if_pos hx])
        refine ⟨.bool true, th1, by simp [Throttle.call, h1],
          Throttle.same_rules_rooted hs hroot, by rw [hm]; exact keys_nodup_map_set _ _ _ hnd, ?_⟩
        unfold Throttle.hits_of
        rw [hm, map_hits_set]
        simp only [count_step, hl, Option.map_some', hw', and_true]
        by_cases hk : tag' = tag
        · subst hk
          simp only [if_true, hrec, hn]
          push_cast
          rfl
        · simpa [hk] using hn
      · obtain ⟨th1, h1, hm, hs⟩ := th.check_request_spec tag' t p hp hw' false _
          (by rw [usage_record.check_request_pos _ _ _ _ ht, if_neg hx])
        refine ⟨.bool false, th1, by simp [Throttle.call, h1],
          Throttle.same_rules_rooted hs hroot, by rw [hm]; exact keys_nodup_map_set _ _ _ hnd, ?_⟩
        unfold Throttle.hits_of
        rw [hm, map_hits_set]
        simp only [count_step]
        by_cases hk : tag' = tag
        · subst hk
          simp only [if_true, hrec, hn]
        · simpa [hk] using hn
  | whitelist q =>
    exact ⟨.unit, th.whitelist q, rfl, th.rooted_apply_rule (.whitelist q) hroot, hnd, hn⟩
  | add_rule q p =>
    exact ⟨.unit, th.add_rule q p, rfl, th.rooted_apply_rule (.add_rule q p) hroot, hnd, hn⟩
  | receive_report dg t =>
    obtain ⟨th1, h1, hm, hs⟩ := Throttle.receive_report_spec dg t th hroot
    refine ⟨.unit, th1, by simp [Throttle.call, h1], Throttle.same_rules_rooted hs hroot,
      by rw [hm]; exact keys_nodup_debit _ _ _ _ hnd, ?_⟩
    unfold Throttle.hits_of
    rw [hm, map_hits_debit]
    exact hn
  | make_report t =>
    have ht : 0 < t := hc
    obtain ⟨th1, h1, hm, hs⟩ := th.make_report_spec t ht hroot
    refine ⟨.datagram (report_of th._map), th1, by simp [Throttle.call, h1],
      Throttle.same_rules_rooted hs hroot, by rw [hm]; exact keys_nodup_survivors _ _ _ hnd, ?_⟩
    unfold Throttle.hits_of
    rw [hm, map_hits_survivors]
    rfl

/-- A sequence of calls at positive times: all of them return, and the
unreported hits of `tag` follow the count of its admissions. -/
theorem Throttle.calls_hits (tag : string_t) (cs : List Call) (th : Throttle) (n : Nat)
    (hroot : th.rooted) (hnd : (keys th._map).Nodup) (hn : th.hits_of tag = n)
    (hcs : ∀ c ∈ cs, c.timed) :
    ∃ as th', th.calls cs = some (as, th') ∧ th'.rooted ∧ (keys th'._map).Nodup ∧
      th'.hits_of tag = Throttle.admitted_since_report tag th cs n := by
  induction cs generalizing th n with
  | nil => exact ⟨[], th, rfl, hroot, hnd, hn⟩
  | cons c cs ih =>
    obtain ⟨a, th1, h1, hr1, hnd1, hn1⟩ :=
      Throttle.call_hits tag th n c hroot hnd hn (hcs c (by simp))
    obtain ⟨as, th', h2, hr2, hnd2, hn2⟩ :=
      ih th1 _ hr1 hnd1 hn1 (fun c' hc' => hcs c' (by simp [hc']))
    refine ⟨a :: as, th', by simp [Throttle.calls, h1, h2], hr2, hnd2, ?_⟩
    simp only [Throttle.admitted_since_report, h1]
    exact hn2

/-- C4: after the constructor and any calls `cs` at positive times, a
`make_report(t)` with `t > 0` returns a map that holds for each tag the number
of `check_request` calls on it that returned true through a usage record since
the previous `make_report` (or since construction) when that number is
positive, and does not hold the tag otherwise; hits received from peers are
not counted. -/
theorem C4_report_content (burst : Int) (rate : ℚ) (cs : List Call) (t : ℚ) (tag : string_t)
    (hcs : ∀ c ∈ cs, c.timed) (ht : 0 < t) :
    ∃ as th dg th', (Throttle.new burst rate).calls cs = some (as, th) ∧
      th.make_report t = some (dg, th') ∧
      map_find dg tag =
        if 0 < Throttle.admitted_since_report tag (Throttle.new burst rate) cs 0 then
          some (some (Throttle.admitted_since_report tag (Throttle.new burst rate) cs 0 : Int))
        else none := by
  obtain ⟨as, th, h1, hroot, hnd, hn⟩ :=
    Throttle.calls_hits tag cs (Throttle.new burst rate) 0 (Throttle.new_rooted burst rate)
      (by simp [Throttle.new, keys]) (by simp [Throttle.hits_of, map_hits, Throttle.new, map_find])
      hcs
  obtain ⟨th', h2, -, -⟩ := th.make_report_spec t ht hroot
  refine ⟨as, th, report_of th._map, th', h1, h2, ?_⟩
  rw [map_find_report_of _ hnd]
  unfold Throttle.hits_of at hn
  rw [hn]
  simp

/-- C4 with one admitted call before the report. -/
theorem C4_report_content_witness :
    (∀ c ∈ [Call.check_request ['a'] 1], c.timed) ∧ (0 : ℚ) < 2 ∧
      ∃ as th dg th', (Throttle.new 1 1).calls [Call.check_request ['a'] 1] = some (as, th) ∧
        th.make_report 2 = some (dg, th') ∧
        map_find dg ['a'] =
          if 0 < Throttle.admitted_since_report ['a'] (Throttle.new 1 1)
              [Call.check_request ['a'] 1] 0 then
            some (some (Throttle.admitted_since_report ['a'] (Throttle.new 1 1)
              [Call.check_request ['a'] 1] 0 : Int))
          else none :=
  ⟨by simp [Call.timed], by norm_num,
    C4_report_content 1 1 [Call.check_request ['a'] 1] 2 ['a'] (by simp [Call.timed])
      (by norm_num)⟩

/-! ## C5 -/

theorem Throttle.holds_new (burst : Int) (rate : ℚ) (tag : string_t) (t : ℚ) :
    (Throttle.new burst rate).holds burst rate tag t ⟨burst, t, 0⟩ :=
  ⟨Throttle.new_rooted burst rate, Throttle.new_params burst rate tag, rfl, le_refl _,
    Or.inl ⟨rfl, rfl⟩⟩

theorem Throttle.holds_record {th : Throttle} {burst : Int} {rate : ℚ} {tag : string_t} {t : ℚ}
    {v : usage_record} (h : th.holds burst rate tag t v) :
    th.record tag ⟨burst, rate, false⟩ t = v := by
  obtain ⟨-, -, -, -, ⟨hm, hv⟩ | hm⟩ := h
  · simp [Throttle.record, hm, map_find, hv, usage_record.new]
  · simp [Throttle.record, hm, map_find]

theorem Throttle.holds_map_set {th : Throttle} {burst : Int} {rate : ℚ} {tag : string_t} {t : ℚ}
    {v : usage_record} (h : th.holds burst rate tag t v) (r : usage_record) :
    map_set th._map tag r = [(tag, r)] := by
  obtain ⟨-, -, -, -, ⟨hm, -⟩ | hm⟩ := h <;> simp [hm, map_set]

theorem Throttle.holds_tokens_at {th : Throttle} {burst : Int} {rate : ℚ} {tag : string_t}
    {t : ℚ} {v : usage_record} (h : th.holds burst rate tag t v) (ht : 0 < t) :
    v.tokens_at burst rate t = v._tokens := by
  obtain ⟨-, -, hl, hle, -⟩ := h
  have hne : v._last_update ≠ 0 := by rw [hl]; exact ht.ne'
  simp only [usage_record.tokens_at, hne, ne_eq, not_false_eq_true, if_true]
  rw [← hl]
  exact usage_record.refilled_same v burst rate hle

/-- A `check_request(tag, t)` on such an engine succeeds exactly when the
bucket holds tokens. -/
theorem Throttle.holds_check_request {th : Throttle} {burst : Int} {rate : ℚ} {tag : string_t}
    {t : ℚ} {v : usage_record} (h : th.holds burst rate tag t v) (ht : 0 < t) :
    ∃ th', th.check_request tag t = some (decide (0 < v._tokens), th') := by
  have hrec := Throttle.holds_record h
  have htok := Throttle.holds_tokens_at h ht
  by_cases hx : 0 < v._tokens
  · obtain ⟨th', h1, -⟩ := th.check_request_spec tag t ⟨burst, rate, false⟩ h.2.1 rfl true
      ⟨v._tokens - 1, t, v._unreported_hits + 1⟩
      (by rw [hrec, usage_record.check_request_pos _ _ _ _ ht, htok, if_pos hx])
    exact ⟨th', by simp [h1, hx]⟩
  · obtain ⟨th', h1, -⟩ := th.check_request_spec tag t ⟨burst, rate, false⟩ h.2.1 rfl false
      ⟨v._tokens, t, v._unreported_hits⟩
      (by rw [hrec, usage_record.check_request_pos _ _ _ _ ht, htok, if_neg hx])
    exact ⟨th', by simp [h1, hx]⟩

/-- `n` calls `check_request(tag, t)` on such an engine with at least `n`
tokens all succeed. -/
theorem Throttle.holds_check_requests {th : Throttle} {burst : Int} {rate : ℚ} {tag : string_t}
    {t : ℚ} {v : usage_record} (h : th.holds burst rate tag t v) (ht : 0 < t) (n : Nat)
    (hn : (n : ℚ) ≤ v._tokens) :
    ∃ th', th.check_requests tag (List.replicate n t) = some (List.replicate n true, th') ∧
      th'.holds burst rate tag t ⟨v._tokens - n, t, v._unreported_hits + n⟩ := by
  have hrec := Throttle.holds_record h
  have htok := Throttle.holds_tokens_at h ht
  rcases Nat.eq_zero_or_pos n with h0 | hpos
  · subst h0
    refine ⟨th, rfl, ?_⟩
    have hv : (⟨v._tokens - ((0 : ℕ) : ℚ), t, v._unreported_hits + ((0 : ℕ) : Int)⟩ :
        usage_record) = v := by
      have hl := h.2.2.1
      cases v
      simp only at hl
      simp [hl]
    rw [hv]
    exact h
  obtain ⟨hroot, hp, hl, hle, hm⟩ := h
  have hne : v._last_update ≠ 0 := by rw [hl]; exact ht.ne'
  have hx : v.refilled burst rate t = v._tokens := by
    simpa [usage_record.tokens_at, hne] using htok
  obtain ⟨r', hrun, hst, hhit⟩ := usage_record.check_requests_same n v burst rate t ht hne
  rw [hx] at hrun hst hhit
  have hce : n ≤ ⌈v._tokens⌉.toNat := by
    have : (n : Int) ≤ ⌈v._tokens⌉ := by
      have := Int.le_ceil v._tokens
      have h3 : ((n : Int) : ℚ) ≤ (⌈v._tokens⌉ : ℚ) := by push_cast; linarith
      exact_mod_cast h3
    omega
  have hmin : min n ⌈v._tokens⌉.toNat = n := min_eq_left hce
  have hsub : n - ⌈v._tokens⌉.toNat = 0 := by omega
  rw [hmin, hsub] at hrun
  rw [hmin] at hst hhit
  simp only [List.replicate_zero, List.append_nil] at hrun
  have hhead : (List.replicate n t).headD 0 = t := by
    cases n with
    | zero => omega
    | succ k => simp [List.replicate_succ]
  have hne' : List.replicate n t ≠ [] := by
    cases n with
    | zero => omega
    | succ k => simp [List.replicate_succ]
  obtain ⟨th', hth, hmap, -, hs⟩ := Throttle.check_requests_spec tag ⟨burst, rate, false⟩ rfl
    (List.replicate n t) th hp _ r' (by rw [hhead, hrec]; exact hrun)
  refine ⟨th', hth, Throttle.same_rules_rooted hs hroot, ?_, rfl, ?_, ?_⟩
  · rw [Throttle.same_rules_params hs]; exact hp
  · simp only; linarith [(Nat.cast_nonneg n : (0 : ℚ) ≤ n)]
  · right
    rw [hmap hne']
    have hr' : r' = ⟨v._tokens - n, t, v._unreported_hits + n⟩ := by
      obtain ⟨h1, h2⟩ := hst hpos
      cases r'
      simp only at h1 h2 hhit
      simp [h1, h2, hhit]
    rw [hr']
    rcases hm with ⟨hm, -⟩ | hm <;> simp [hm, map_set]

/-- A `make_report(t)` on such an engine reports the unreported hits of the
tag, if any, and leaves the tokens as they are. -/
theorem Throttle.holds_make_report {th : Throttle} {burst : Int} {rate : ℚ} {tag : string_t}
    {t : ℚ} {v : usage_record} (h : th.holds burst rate tag t v) (ht : 0 < t) :
    ∃ th', th.make_report t =
        some (if 0 < v._unreported_hits then [(tag, some v._unreported_hits)] else [], th') ∧
      th'.holds burst rate tag t ⟨v._tokens, t, 0⟩ := by
  have htok := Throttle.holds_tokens_at h ht
  obtain ⟨hroot, hp, hl, hle, hm⟩ := h
  obtain ⟨th', h1, hmap, hs⟩ := th.make_report_spec t ht hroot
  have hp' : th._rules.find tag = some ⟨burst, rate, false⟩ := hp
  rcases hm with ⟨hm, hv⟩ | hm
  · refine ⟨th', ?_, Throttle.same_rules_rooted hs hroot, ?_, rfl, hle, Or.inl ⟨?_, ?_⟩⟩
    · rw [h1, hm, hv]; simp [report_of]
    · rw [Throttle.same_rules_params hs]; exact hp
    · rw [hmap, hm]; rfl
    · rw [hv]
  · refine ⟨th', ?_, Throttle.same_rules_rooted hs hroot, ?_, rfl, hle, ?_⟩
    · rw [h1, hm]
      by_cases hh : 0 < v._unreported_hits <;> simp [report_of, hh]
    · rw [Throttle.same_rules_params hs]; exact hp
    · rw [hmap, hm]
      by_cases hfull : v._tokens ≥ burst
      · left
        have : v._tokens = burst := le_antisymm hle hfull
        simp [survivor, hp', htok, hfull, this]
      · right
        simp [survivor, hp', htok, hfull]

/-- The report `[(tag, count)]` with `count ≥ 0`, received by such an engine,
takes `count` tokens from the bucket of the tag. -/
theorem Throttle.holds_receive_report {th : Throttle} {burst : Int} {rate : ℚ} {tag : string_t}
    {t : ℚ} {v : usage_record} (h : th.holds burst rate tag t v) (count : Int)
    (hc : 0 ≤ count) :
    ∃ th', th.receive_report [(tag, some count)] t = some th' ∧
      th'.holds burst rate tag t ⟨v._tokens - count, t, v._unreported_hits⟩ := by
  have hrec := Throttle.holds_record h
  have hset := Throttle.holds_map_set h
  obtain ⟨hroot, hp, hl, hle, hm⟩ := h
  obtain ⟨th', h1, hmap, hs⟩ := Throttle.receive_report_spec [(tag, some count)] t th hroot
  have hp' : th._rules.find tag = some ⟨burst, rate, false⟩ := hp
  have hcq : (0 : ℚ) ≤ count := by exact_mod_cast hc
  refine ⟨th', h1, Throttle.same_rules_rooted hs hroot, ?_, rfl, ?_, Or.inr ?_⟩
  · rw [Throttle.same_rules_params hs]; exact hp
  · simp only; linarith
  · rw [hmap]
    simp only [List.foldl_cons, List.foldl_nil, debit, hp']
    have : (map_find th._map tag).getD (usage_record.new burst t) = v := hrec
    rw [this, hset]
    cases v
    simp only at hl
    simp [usage_record.record_external_hits, hl]

/-- The report of such an engine, received by another such engine. -/
theorem Throttle.holds_receive_of {th : Throttle} {burst : Int} {rate : ℚ} {tag : string_t}
    {t : ℚ} {v : usage_record} (h : th.holds burst rate tag t v) (hits : Int)
    (hh : 0 ≤ hits) :
    ∃ th', th.receive_report (if 0 < hits then [(tag, some hits)] else []) t = some th' ∧
      th'.holds burst rate tag t ⟨v._tokens - hits, t, v._unreported_hits⟩ := by
  by_cases hpos : 0 < hits
  · simpa [hpos] using Throttle.holds_receive_report h hits hh
  · have h0 : hits = 0 := by omega
    subst h0
    refine ⟨th, by simp [Throttle.receive_report], ?_⟩
    have hv : (⟨v._tokens - ((0 : Int) : ℚ), t, v._unreported_hits⟩ : usage_record) = v := by
      have hl := h.2.2.1
      cases v
      simp only at hl
      simp [hl]
    rw [hv]
    exact h

/-- The function `exchange_messages` on two engines: the report of the first
goes to the second, then the report of the second goes to the first. -/
theorem exchange_messages_two (th0 th1 th0a th1a th1b th0b : Throttle) (rpt0 rpt1 : FLDatagram)
    (when : ℚ) (h1 : th0.make_report when = some (rpt0, th0a))
    (h2 : th1.receive_report rpt0 when = some th1a)
    (h3 : th1a.make_report when = some (rpt1, th1b))
    (h4 : th0a.receive_report rpt1 when = some th0b) :
    exchange_messages [th0, th1] when = some [th0b, th1b] := by
  simp [exchange_messages, exchange_from, deliver, h1, h2, h3, h4]

/-- C5: two fresh engines `Throttle(burst, rate)` with `burst ≥ 1` admit `a`
and `c` requests for `tag` at time `t > 0` (`a, c ≤ burst`); after
`exchange_messages` at `t` the record of the tag on either engine, which
exists when `a + c > 0`, holds `burst - (a + c)` tokens, and a
`check_request(tag, t)` on either engine returns true iff `a + c < burst`. -/
theorem C5_two_instance_convergence (burst : Int) (rate t : ℚ) (tag : string_t) (a c : Nat)
    (_hb : 1 ≤ burst) (ht : 0 < t) (ha : (a : Int) ≤ burst) (hc : (c : Int) ≤ burst) :
    ∃ e0 e1 e0' e1' e0'' e1'',
      (Throttle.new burst rate).check_requests tag (List.replicate a t) =
        some (List.replicate a true, e0) ∧
      (Throttle.new burst rate).check_requests tag (List.replicate c t) =
        some (List.replicate c true, e1) ∧
      exchange_messages [e0, e1] t = some [e0', e1'] ∧
      (∀ r, map_find e0'._map tag = some r → r._tokens = burst - (a + c)) ∧
      (∀ r, map_find e1'._map tag = some r → r._tokens = burst - (a + c)) ∧
      (0 < a + c → (map_find e0'._map tag).isSome ∧ (map_find e1'._map tag).isSome) ∧
      e0'.check_request tag t = some (decide ((a : Int) + c < burst), e0'') ∧
      e1'.check_request tag t = some (decide ((a : Int) + c < burst), e1'') := by
  have haq : (a : ℚ) ≤ burst := by exact_mod_cast ha
  have hcq : (c : ℚ) ≤ burst := by exact_mod_cast hc
  obtain ⟨e0, hr0, hh0⟩ :=
    Throttle.holds_check_requests (Throttle.holds_new burst rate tag t) ht a haq
  obtain ⟨e1, hr1, hh1⟩ :=
    Throttle.holds_check_requests (Throttle.holds_new burst rate tag t) ht c hcq
  obtain ⟨e0a, hm0, hh0a⟩ := Throttle.holds_make_report hh0 ht
  obtain ⟨e1a, hv1, hh1a⟩ := Throttle.holds_receive_of hh1 ((0 : Int) + a) (by omega)
  obtain ⟨e1b, hm1, hh1b⟩ := Throttle.holds_make_report hh1a ht
  obtain ⟨e0b, hv0, hh0b⟩ := Throttle.holds_receive_of hh0a ((0 : Int) + c) (by omega)
  obtain ⟨e0'', hc0⟩ := Throttle.holds_check_request hh0b ht
  obtain ⟨e1'', hc1⟩ := Throttle.holds_check_request hh1b ht
  have hx := exchange_messages_two e0 e1 e0a e1a e1b e0b _ _ t hm0 hv1 hm1 hv0
  have key : ∀ (e : Throttle) (x : ℚ) (h : Int),
      e.holds burst rate tag t ⟨x, t, h⟩ → x = burst - (a + c) →
      (∀ r, map_find e._map tag = some r → r._tokens = burst - (a + c)) ∧
      (0 < a + c → (map_find e._map tag).isSome) := by
    intro e x h hh hx
    obtain ⟨-, -, -, -, ⟨hm, hv⟩ | hm⟩ := hh
    · constructor
      · intro r hr; simp [hm, map_find] at hr
      · intro hpos
        simp only [usage_record.mk.injEq] at hv
        have : ((a + c : ℕ) : ℚ) = 0 := by push_cast; linarith [hv.1]
        have : a + c = 0 := by exact_mod_cast this
        omega
    · constructor
      · intro r hr
        simp only [hm, map_find, if_true, Option.some.injEq] at hr
        rw [← hr]; exact hx
      · intro _; simp [hm, map_find]
  have k0 := key e0b _ _ hh0b (by push_cast; ring)
  have k1 := key e1b _ _ hh1b (by push_cast; ring)
  have hdec0 : decide ((0 : ℚ) < burst - a - ((0 : Int) + c : Int)) =
      decide ((a : Int) + c < burst) := by
    congr 1
    apply propext
    constructor
    · intro h
      have h' : ((a : Int) + c : ℚ) < (burst : ℚ) := by push_cast at h ⊢; linarith
      exact_mod_cast h'
    · intro h
      have h' : ((a : Int) + c : ℚ) < (burst : ℚ) := by exact_mod_cast h
      push_cast at h' ⊢; linarith
  have hdec1 : decide ((0 : ℚ) < burst - c - ((0 : Int) + a : Int)) =
      decide ((a : Int) + c < burst) := by
    congr 1
    apply propext
    constructor
    · intro h
      have h' : ((a : Int) + c : ℚ) < (burst : ℚ) := by push_cast at h ⊢; linarith
      exact_mod_cast h'
    · intro h
      have h' : ((a : Int) + c : ℚ) < (burst : ℚ) := by exact_mod_cast h
      push_cast at h' ⊢; linarith
  refine ⟨e0, e1, e0b, e1b, e0'', e1'', hr0, hr1, ?_, k0.1, k1.1,
    fun hpos => ⟨k0.2 hpos, k1.2 hpos⟩, ?_, ?_⟩
  · simpa using hx
  · rw [hc0]; simp only [hdec0]
  · rw [hc1]; simp only [hdec1]

/-- C5 at `burst = 10`, `rate = 1`, `t = 1090012345`, tag `john` and five
admissions on either engine. -/
theorem C5_two_instance_convergence_witness :
    (1 : Int) ≤ 10 ∧ (0 : ℚ) < 1090012345 ∧ ((5 : ℕ) : Int) ≤ 10 ∧ ((5 : ℕ) : Int) ≤ 10 ∧
    ∃ e0 e1 e0' e1' e0'' e1'',
      (Throttle.new 10 1).check_requests ['j', 'o', 'h', 'n'] (List.replicate 5 1090012345) =
        some (List.replicate 5 true, e0) ∧
      (Throttle.new 10 1).check_requests ['j', 'o', 'h', 'n'] (List.replicate 5 1090012345) =
        some (List.replicate 5 true, e1) ∧
      exchange_messages [e0, e1] 1090012345 = some [e0', e1'] ∧
      (∀ r, map_find e0'._map ['j', 'o', 'h', 'n'] = some r →
        r._tokens = (10 : Int) - ((5 : ℕ) + (5 : ℕ))) ∧
      (∀ r, map_find e1'._map ['j', 'o', 'h', 'n'] = some r →
        r._tokens = (10 : Int) - ((5 : ℕ) + (5 : ℕ))) ∧
      (0 < 5 + 5 → (map_find e0'._map ['j', 'o', 'h', 'n']).isSome ∧
        (map_find e1'._map ['j', 'o', 'h', 'n']).isSome) ∧
      e0'.check_request ['j', 'o', 'h', 'n'] 1090012345 =
        some (decide (((5 : ℕ) : Int) + (5 : ℕ) < 10), e0'') ∧
      e1'.check_request ['j', 'o', 'h', 'n'] 1090012345 =
        some (decide (((5 : ℕ) : Int) + (5 : ℕ) < 10), e1'') :=
  ⟨by decide, by norm_num, by decide, by decide,
    C5_two_instance_convergence 10 1 1090012345 ['j', 'o', 'h', 'n'] 5 5 (by decide)
      (by norm_num) (by decide) (by decide)⟩

/-! ## Engines that behave alike -/

theorem Throttle.equiv_refl (th : Throttle) : th.equiv th := ⟨rfl, fun _ => rfl⟩

theorem Throttle.equiv_symm {a b : Throttle} (h : a.equiv b) : b.equiv a :=
  ⟨h.1.symm, fun q => (h.2 q).symm⟩

theorem Throttle.equiv_trans {a b c : Throttle} (h1 : a.equiv b) (h2 : b.equiv c) :
    a.equiv c := ⟨h1.1.trans h2.1, fun q => (h1.2 q).trans (h2.2 q)⟩

theorem Throttle.equiv_probe (th : Throttle) (tag : string_t) : (th.probe tag).equiv th :=
  ⟨rfl, fun q => th.probe_deco tag q⟩

theorem Throttle.equiv_params {th th' : Throttle} (h : th.equiv th') (tag : string_t) :
    th.params tag = th'.params tag :=
  trie.find_congr _ _ h.2 tag

theorem sim_refl {α : Type} (x : Option (α × Throttle)) : sim x x := by
  cases x with
  | none => trivial
  | some v => exact ⟨rfl, Throttle.equiv_refl _⟩

theorem Throttle.sim_get_params {th th' : Throttle} (h : th.equiv th') (tag : string_t) :
    sim (th.get_params tag) (th'.get_params tag) := by
  rw [Throttle.get_params_eq, Throttle.get_params_eq, Throttle.equiv_params h tag]
  cases th'.params tag with
  | none => trivial
  | some p =>
    exact ⟨rfl, Throttle.equiv_trans (th.equiv_probe tag)
      (Throttle.equiv_trans h (Throttle.equiv_symm (th'.equiv_probe tag)))⟩

theorem Throttle.sim_get_record {th th' : Throttle} (h : th.equiv th') (tag : string_t) (t : ℚ) :
    sim (th.get_record tag t) (th'.get_record tag t) := by
  unfold Throttle.get_record
  rw [← h.1]
  cases map_find th._map tag with
  | some r => exact ⟨rfl, h⟩
  | none =>
    have hs := Throttle.sim_get_params h tag
    cases h1 : th.get_params tag with
    | none =>
      cases h2 : th'.get_params tag with
      | none => trivial
      | some v => simp [sim, h1, h2] at hs
    | some v =>
      cases h2 : th'.get_params tag with
      | none => simp [sim, h1, h2] at hs
      | some v' =>
        obtain ⟨p, th1⟩ := v
        obtain ⟨p', th1'⟩ := v'
        simp only [sim, h1, h2] at hs
        obtain ⟨rfl, he⟩ := hs
        refine ⟨rfl, ?_, he.2⟩
        show map_set th1._map tag _ = map_set th1'._map tag _
        rw [he.1]

theorem Throttle.sim_check_request {th th' : Throttle} (h : th.equiv th') (tag : string_t)
    (t : ℚ) : sim (th.check_request tag t) (th'.check_request tag t) := by
  unfold Throttle.check_request
  have hs := Throttle.sim_get_params h tag
  cases h1 : th.get_params tag with
  | none =>
    cases h2 : th'.get_params tag with
    | none => trivial
    | some v => simp [sim, h1, h2] at hs
  | some v =>
    cases h2 : th'.get_params tag with
    | none => simp [sim, h1, h2] at hs
    | some v' =>
      obtain ⟨p, th1⟩ := v
      obtain ⟨p', th1'⟩ := v'
      simp only [sim, h1, h2] at hs
      obtain ⟨rfl, he⟩ := hs
      cases hw : p.whitelisted with
      | true =>
        simp only [hw, ↓reduceIte]
        exact ⟨rfl, he⟩
      | false =>
        simp only [hw, Bool.false_eq_true, ↓reduceIte]
        have hr := Throttle.sim_get_record he tag t
        cases h3 : th1.get_record tag t with
        | none =>
          cases h4 : th1'.get_record tag t with
          | none => trivial
          | some w => simp [sim, h3, h4] at hr
        | some w =>
          cases h4 : th1'.get_record tag t with
          | none => simp [sim, h3, h4] at hr
          | some w' =>
            obtain ⟨r, th2⟩ := w
            obtain ⟨r', th2'⟩ := w'
            simp only [sim, h3, h4] at hr
            obtain ⟨rfl, he2⟩ := hr
            cases h5 : r.check_request p.burst p.rate t with
            | none => simp only [h5]; trivial
            | some br =>
              simp only [h5]
              refine ⟨rfl, ?_, he2.2⟩
              show map_set th2._map tag _ = map_set th2'._map tag _
              rw [he2.1]

theorem Throttle.sim_external_hit {th th' : Throttle} (h : th.equiv th') (tag : string_t)
    (count : Int) (t : ℚ) :
    sim_unit (th.external_hit tag count t) (th'.external_hit tag count t) := by
  unfold Throttle.external_hit
  have hr := Throttle.sim_get_record h tag t
  cases h3 : th.get_record tag t with
  | none =>
    cases h4 : th'.get_record tag t with
    | none => trivial
    | some w => simp [sim, h3, h4] at hr
  | some w =>
    cases h4 : th'.get_record tag t with
    | none => simp [sim, h3, h4] at hr
    | some w' =>
      obtain ⟨r, th2⟩ := w
      obtain ⟨r', th2'⟩ := w'
      simp only [sim, h3, h4] at hr
      obtain ⟨rfl, he2⟩ := hr
      refine ⟨?_, he2.2⟩
      show map_set th2._map tag _ = map_set th2'._map tag _
      rw [he2.1]

theorem Throttle.sim_receive_report (dg : FLDatagram) (t : ℚ) {th th' : Throttle}
    (h : th.equiv th') : sim_unit (th.receive_report dg t) (th'.receive_report dg t) := by
  induction dg generalizing th th' with
  | nil => exact h
  | cons e dg ih =>
    obtain ⟨tag, value⟩ := e
    cases value with
    | none => exact ih h
    | some count =>
      simp only [Throttle.receive_report]
      have hx := Throttle.sim_external_hit h tag count t
      cases h1 : th.external_hit tag count t with
      | none =>
        cases h2 : th'.external_hit tag count t with
        | none => trivial
        | some w => simp [sim_unit, h1, h2] at hx
      | some w =>
        cases h2 : th'.external_hit tag count t with
        | none => simp [sim_unit, h1, h2] at hx
        | some w' =>
          simp only [sim_unit, h1, h2] at hx
          exact ih hx

theorem make_report_loop_cons (t : ℚ) (tag : string_t) (r : usage_record) (rest : record_map_t)
    (rules : trie Parameters) :
    make_report_loop t ((tag, r) :: rest) rules =
      match rules.find tag with
      | none => none
      | some p =>
        match r.reset_unreported_hits.get_tokens p.burst p.rate t with
        | none => none
        | some (tokens, r1) =>
          match make_report_loop t rest (rules.lookup tag).2 with
          | none => none
          | some (dg, m, rules2) =>
            some (if r.get_unreported_hits > 0 then (tag, some r.get_unreported_hits) :: dg
                  else dg,
                  if tokens ≥ p.burst then m else (tag, r1) :: m,
                  rules2) := by
  cases hl : rules.lookup tag with
  | mk o rules1 =>
    have hf : rules.find tag = o := by rw [← trie.lookup_fst, hl]
    cases o with
    | none => simp [make_report_loop, hl, hf]
    | some p => simp [make_report_loop, hl, hf]

theorem sim_make_report_loop (t : ℚ) (m : record_map_t) (rules rules' : trie Parameters)
    (h : ∀ q, rules.deco q = rules'.deco q) :
    sim_loop (make_report_loop t m rules) (make_report_loop t m rules') := by
  induction m generalizing rules rules' with
  | nil => exact ⟨rfl, rfl, h⟩
  | cons e m ih =>
    obtain ⟨tag, r⟩ := e
    rw [make_report_loop_cons, make_report_loop_cons, trie.find_congr rules rules' h]
    cases rules'.find tag with
    | none => trivial
    | some p =>
      cases hg : r.reset_unreported_hits.get_tokens p.burst p.rate t with
      | none => simp only [hg]; trivial
      | some v =>
        obtain ⟨tokens, r1⟩ := v
        have hi := ih (rules.lookup tag).2 (rules'.lookup tag).2
          (fun q => by rw [trie.deco_lookup, trie.deco_lookup]; exact h q)
        cases h1 : make_report_loop t m (rules.lookup tag).2 with
        | none =>
          cases h2 : make_report_loop t m (rules'.lookup tag).2 with
          | none => simp only [hg, h1, h2]; trivial
          | some w => simp [sim_loop, h1, h2] at hi
        | some w =>
          cases h2 : make_report_loop t m (rules'.lookup tag).2 with
          | none => simp [sim_loop, h1, h2] at hi
          | some w' =>
            obtain ⟨dg, m1, rules1⟩ := w
            obtain ⟨dg', m1', rules1'⟩ := w'
            simp only [sim_loop, h1, h2] at hi
            obtain ⟨rfl, rfl, hd⟩ := hi
            simp only [hg, h1, h2]
            exact ⟨rfl, rfl, hd⟩

theorem Throttle.sim_make_report {th th' : Throttle} (h : th.equiv th') (t : ℚ) :
    sim (th.make_report t) (th'.make_report t) := by
  unfold Throttle.make_report
  have hs := sim_make_report_loop t th._map th._rules th'._rules h.2
  rw [← h.1]
  cases h1 : make_report_loop t th._map th._rules with
  | none =>
    cases h2 : make_report_loop t th._map th'._rules with
    | none => trivial
    | some w => simp [sim_loop, h1, h2] at hs
  | some w =>
    cases h2 : make_report_loop t th._map th'._rules with
    | none => simp [sim_loop, h1, h2] at hs
    | some w' =>
      obtain ⟨dg, m1, rules1⟩ := w
      obtain ⟨dg', m1', rules1'⟩ := w'
      simp only [sim_loop, h1, h2] at hs
      obtain ⟨rfl, rfl, hd⟩ := hs
      exact ⟨rfl, rfl, hd⟩

theorem Throttle.equiv_insert {th th' : Throttle} (h : th.equiv th') (q : string_t)
    (p : Parameters) :
    Throttle.equiv ⟨th._map, th._rules.insert q p⟩ ⟨th'._map, th'._rules.insert q p⟩ := by
  refine ⟨h.1, fun q' => ?_⟩
  simp only [trie.deco_insert, h.2 q']

theorem Throttle.sim_call {th th' : Throttle} (h : th.equiv th') (c : Call) :
    sim (th.call c) (th'.call c) := by
  cases c with
  | check_request tag t =>
    have hs := Throttle.sim_check_request h tag t
    simp only [Throttle.call]
    cases h1 : th.check_request tag t with
    | none =>
      cases h2 : th'.check_request tag t with
      | none => trivial
      | some w => simp [sim, h1, h2] at hs
    | some w =>
      cases h2 : th'.check_request tag t with
      | none => simp [sim, h1, h2] at hs
      | some w' =>
        obtain ⟨b, th1⟩ := w
        obtain ⟨b', th1'⟩ := w'
        simp only [sim, h1, h2] at hs
        obtain ⟨rfl, he⟩ := hs
        exact ⟨rfl, he⟩
  | whitelist q => exact ⟨rfl, Throttle.equiv_insert h q _⟩
  | add_rule q p => exact ⟨rfl, Throttle.equiv_insert h q p⟩
  | receive_report dg t =>
    have hs := Throttle.sim_receive_report dg t h
    simp only [Throttle.call]
    cases h1 : th.receive_report dg t with
    | none =>
      cases h2 : th'.receive_report dg t with
      | none => trivial
      | some w => simp [sim_unit, h1, h2] at hs
    | some w =>
      cases h2 : th'.receive_report dg t with
      | none => simp [sim_unit, h1, h2] at hs
      | some w' =>
        simp only [sim_unit, h1, h2] at hs
        exact ⟨rfl, hs⟩
  | make_report t =>
    have hs := Throttle.sim_make_report h t
    simp only [Throttle.call]
    cases h1 : th.make_report t with
    | none =>
      cases h2 : th'.make_report t with
      | none => trivial
      | some w => simp [sim, h1, h2] at hs
    | some w =>
      cases h2 : th'.make_report t with
      | none => simp [sim, h1, h2] at hs
      | some w' =>
        obtain ⟨b, th1⟩ := w
        obtain ⟨b', th1'⟩ := w'
        simp only [sim, h1, h2] at hs
        obtain ⟨rfl, he⟩ := hs
        exact ⟨rfl, he⟩

/-- Engines that are alike answer every sequence of calls alike. -/
theorem Throttle.sim_calls (cs : List Call) {th th' : Throttle} (h : th.equiv th') :
    sim (th.calls cs) (th'.calls cs) := by
  induction cs generalizing th th' with
  | nil => exact ⟨rfl, h⟩
  | cons c cs ih =>
    have hs := Throttle.sim_call h c
    simp only [Throttle.calls]
    cases h1 : th.call c with
    | none =>
      cases h2 : th'.call c with
      | none => trivial
      | some w => simp [sim, h1, h2] at hs
    | some w =>
      cases h2 : th'.call c with
      | none => simp [sim, h1, h2] at hs
      | some w' =>
        obtain ⟨a, th1⟩ := w
        obtain ⟨a', th1'⟩ := w'
        simp only [sim, h1, h2] at hs
        obtain ⟨rfl, he⟩ := hs
        have hi := ih he
        cases h3 : th1.calls cs with
        | none =>
          cases h4 : th1'.calls cs with
          | none => simp only [h3, h4]; trivial
          | some w => simp [sim, h3, h4] at hi
        | some w =>
          cases h4 : th1'.calls cs with
          | none => simp [sim, h3, h4] at hi
          | some w' =>
            obtain ⟨as, th2⟩ := w
            obtain ⟨as', th2'⟩ := w'
            simp only [sim, h3, h4] at hi
            obtain ⟨rfl, he2⟩ := hi
            simp only [h3, h4]
            exact ⟨rfl, he2⟩

theorem sim_answers {α : Type} {x y : Option (α × Throttle)} (h : sim x y) :
    x.map Prod.fst = y.map Prod.fst := by
  cases x with
  | none =>
    cases y with
    | none => rfl
    | some w => simp [sim] at h
  | some v =>
    cases y with
    | none => simp [sim] at h
    | some w =>
      obtain ⟨a, th⟩ := v
      obtain ⟨b, th'⟩ := w
      simp only [sim] at h
      simp [h.1]

/-! ## C6 -/

/-- C6: when the lookup of `tag` in the rules returns whitelisted parameters,
`check_request(tag, t)` returns true at every `t`, positive or not, leaves the
record map as it is, and every later sequence of calls (every `make_report`
among them) returns what it returns without the call. -/
theorem C6_whitelist_short_circuit (th : Throttle) (tag : string_t) (t : ℚ) (p : Parameters)
    (hp : (th._rules.lookup tag).1 = some p) (hw : p.whitelisted = true) :
    ∃ th', th.check_request tag t = some (true, th') ∧ th'._map = th._map ∧
      ∀ cs : List Call, (th'.calls cs).map Prod.fst = (th.calls cs).map Prod.fst := by
  have hp' : th.params tag = some p := by
    unfold Throttle.params
    rw [← trie.lookup_fst]
    exact hp
  refine ⟨th.probe tag, th.check_request_whitelisted tag t p hp' hw, rfl, fun cs => ?_⟩
  exact sim_answers (Throttle.sim_calls cs (th.equiv_probe tag))

/-- C6 on the engine `Throttle(1, 1)` after `whitelist("w")`, for the tag
`wx` at time `0`. -/
theorem C6_whitelist_short_circuit_witness :
    (((Throttle.new 1 1).whitelist ['w'])._rules.lookup ['w', 'x']).1 = some ⟨0, 0, true⟩ ∧
      (⟨0, 0, true⟩ : Parameters).whitelisted = true ∧
      ∃ th', ((Throttle.new 1 1).whitelist ['w']).check_request ['w', 'x'] 0 = some (true, th') ∧
        th'._map = ((Throttle.new 1 1).whitelist ['w'])._map ∧
        ∀ cs : List Call, (th'.calls cs).map Prod.fst =
          (((Throttle.new 1 1).whitelist ['w']).calls cs).map Prod.fst :=
  ⟨rfl, rfl,
    C6_whitelist_short_circuit ((Throttle.new 1 1).whitelist ['w']) ['w', 'x'] 0 ⟨0, 0, true⟩
      rfl rfl⟩

/-! ## C7 -/

theorem map_find_survivors_not_mem (rules : trie Parameters) (t : ℚ) (m : record_map_t)
    (tag : string_t) (h : tag ∉ keys m) : map_find (m.filterMap (survivor rules t)) tag = none := by
  rw [map_find_eq_none_iff]
  intro hmem
  exact h ((keys_survivors_sublist rules t m).subset hmem)

/-- The record of a tag after the visit of `make_report`, in a map with
distinct keys. -/
theorem map_find_survivors (rules : trie Parameters) (t : ℚ) (m : record_map_t)
    (hnd : (keys m).Nodup) (tag : string_t) :
    map_find (m.filterMap (survivor rules t)) tag =
      match map_find m tag with
      | some r => (survivor rules t (tag, r)).map Prod.snd
      | none => none := by
  induction m with
  | nil => rfl
  | cons e m ih =>
    obtain ⟨k, r⟩ := e
    simp only [keys, List.map_cons, List.nodup_cons] at hnd
    by_cases hk : k = tag
    · subst hk
      have hnone := map_find_survivors_not_mem rules t m k hnd.1
      simp only [List.filterMap_cons, map_find, if_true]
      cases hs : survivor rules t (k, r) with
      | none => simpa using hnone
      | some e' =>
        have := (survivor_key rules t (k, r) e' hs).1
        obtain ⟨k', r'⟩ := e'
        simp only at this
        simp [map_find, this]
    · simp only [List.filterMap_cons, map_find, hk, if_false]
      cases hs : survivor rules t (k, r) with
      | none => exact ih hnd.2
      | some e' =>
        have := (survivor_key rules t (k, r) e' hs).1
        obtain ⟨k', r'⟩ := e'
        simp only at this
        simp only [map_find, this, hk, if_false]
        exact ih hnd.2

/-- C7, amended: after `make_report(t)` with `t > 0`, a tag that had a record
keeps it, refilled, with `last_update = t` and no unreported hits, iff its
refilled token count is below `burst`, and has none otherwise; a tag without
a record still has none. For a tag without a record afterwards, `get_record`
creates one with `tokens = burst`: a `receive_report` entry for the tag leaves
that record debited, and, when the tag is not whitelisted, a `check_request`
leaves that record after its own `check_request`. -/
theorem C7_reclaim (th : Throttle) (t : ℚ) (ht : 0 < t) (hroot : th.rooted)
    (hnd : (keys th._map).Nodup) :
    ∃ dg th', th.make_report t = some (dg, th') ∧
      (∀ tag r p x r1, map_find th._map tag = some r → (th._rules.lookup tag).1 = some p →
        r.get_tokens p.burst p.rate t = some (x, r1) →
        map_find th'._map tag = if x < p.burst then some ⟨x, t, 0⟩ else none) ∧
      (∀ tag, map_find th._map tag = none → map_find th'._map tag = none) ∧
      (∀ tag p t', map_find th'._map tag = none → (th'._rules.lookup tag).1 = some p →
        (∃ th1, th'.get_record tag t' = some (usage_record.new p.burst t', th1)) ∧
        (∀ count, ∃ th'', th'.receive_report [(tag, some count)] t' = some th'' ∧
          map_find th''._map tag =
            some ((usage_record.new p.burst t').record_external_hits count)) ∧
        (p.whitelisted = false → ∀ b r1,
          (usage_record.new p.burst t').check_request p.burst p.rate t' = some (b, r1) →
          ∃ th'', th'.check_request tag t' = some (b, th'') ∧
            map_find th''._map tag = some r1)) := by
  obtain ⟨th', h1, hmap, hs⟩ := th.make_report_spec t ht hroot
  have hroot' : th'.rooted := Throttle.same_rules_rooted hs hroot
  refine ⟨report_of th._map, th', h1, ?_, ?_, ?_⟩
  · intro tag r p x r1 hf hp hg
    rw [trie.lookup_fst] at hp
    rw [usage_record.get_tokens_pos r p.burst p.rate t ht] at hg
    simp only [Option.some.injEq, Prod.mk.injEq] at hg
    rw [hmap, map_find_survivors _ _ _ hnd, hf]
    simp only [survivor, hp, hg.1]
    by_cases hx : x < p.burst
    · have : ¬ x ≥ (p.burst : ℚ) := not_le.mpr hx
      simp [this, hx]
    · have : x ≥ (p.burst : ℚ) := not_lt.mp hx
      simp [this, hx]
  · intro tag hf
    rw [hmap, map_find_survivors _ _ _ hnd, hf]
  · intro tag p t' hf hp
    rw [trie.lookup_fst] at hp
    have hp' : th'.params tag = some p := hp
    have hrec : th'.record tag p t' = usage_record.new p.burst t' := by
      simp [Throttle.record, hf]
    refine ⟨?_, ?_, ?_⟩
    · obtain ⟨th1, hg, -⟩ := th'.get_record_spec tag t' p hp'
      exact ⟨th1, by rw [hg, hrec]⟩
    · intro count
      obtain ⟨th'', hr, hm, -⟩ := Throttle.receive_report_spec [(tag, some count)] t' th' hroot'
      refine ⟨th'', hr, ?_⟩
      rw [hm]
      simp [debit, hp, hf, map_find_set]
    · intro hw b r1 hc
      obtain ⟨th'', hcr, hm, -⟩ := th'.check_request_spec tag t' p hp' hw b r1
        (by rw [hrec]; exact hc)
      exact ⟨th'', hcr, by rw [hm, map_find_set]; simp⟩

/-- C7, amended, on the engine `Throttle(1, 1)` after one admitted request for
`a` at time `1`, for the report at time `5`. -/
theorem C7_reclaim_witness :
    (0 : ℚ) < 5 ∧ (⟨[(['a'], ⟨0, 1, 1⟩)], (Throttle.new 1 1)._rules⟩ : Throttle).rooted ∧
      (keys (⟨[(['a'], ⟨0, 1, 1⟩)], (Throttle.new 1 1)._rules⟩ : Throttle)._map).Nodup ∧
      ∃ dg th', (⟨[(['a'], ⟨0, 1, 1⟩)], (Throttle.new 1 1)._rules⟩ : Throttle).make_report 5 =
        some (dg, th') ∧ map_find th'._map ['b'] = none :=
  ⟨by norm_num, Throttle.new_rooted 1 1, by simp [keys],
    by
      obtain ⟨dg, th', h1, -, h3, -⟩ :=
        C7_reclaim ⟨[(['a'], ⟨0, 1, 1⟩)], (Throttle.new 1 1)._rules⟩ 5 (by norm_num)
          (Throttle.new_rooted 1 1) (by simp [keys])
      exact ⟨dg, th', h1, h3 ['b'] (by simp [map_find])⟩⟩

/-- C7 as stated fails for a whitelisted tag: on `Throttle(1, 1)`, after an
admitted `check_request("a", 1)` and `whitelist("a")`, the tag `a` has a
record; `make_report(5)` removes it; the next `check_request("a", 6)` does not
create it again. -/
theorem C7_counterexample :
    ((Throttle.new 1 1).calls
        [.check_request ['a'] 1, .whitelist ['a']]).map
          (fun x => (map_find x.2._map ['a']).isSome) = some true ∧
      ((Throttle.new 1 1).calls
        [.check_request ['a'] 1, .whitelist ['a'], .make_report 5]).map
          (fun x => (map_find x.2._map ['a']).isSome) = some false ∧
      ((Throttle.new 1 1).calls
        [.check_request ['a'] 1, .whitelist ['a'], .make_report 5,
          .check_request ['a'] 6]).map
          (fun x => (map_find x.2._map ['a']).isSome) = some false := by
  simp [Throttle.calls, Throttle.call, Throttle.new, Throttle.check_request,
    Throttle.get_params, Throttle.get_record, Throttle.whitelist, Throttle.make_report,
    make_report_loop, trie.lookup, trie.insert, trie.new, trie.traverse_data,
    trie.traverse_nodata, traverse_loop, trie_node.new, trie_node.children, trie_node.data,
    trie_node.set_data, map_find, map_set, usage_record.new, usage_record.check_request,
    usage_record.get_tokens, usage_record.reset_unreported_hits,
    usage_record.get_unreported_hits]

/-! ## Lookups leave the trie settled -/

section probe_lemmas
variable {U : Type}

theorem probe_node_edge (c : Char) (cs : string_t) (p next : trie_node U)
    (h : map_find p.children c = some (some next)) :
    probe_node (c :: cs) p = .mk (map_set p.children c (some (probe_node cs next))) p.data := by
  simp only [probe_node, h]

theorem probe_node_off (c : Char) (cs : string_t) (p : trie_node U)
    (h : ∀ next, map_find p.children c ≠ some (some next)) :
    probe_node (c :: cs) p = .mk (map_set p.children c none) p.data := by
  cases hm : map_find p.children c with
  | none => simp [probe_node, hm]
  | some e =>
    cases e with
    | none => simp [probe_node, hm]
    | some next => exact absurd hm (h next)

theorem traverse_loop_probe (track : Bool) (s : string_t) (n : trie_node U) (b : Option U) :
    (traverse_loop id false track s n b).1 = probe_node s n := by
  induction s generalizing n b with
  | nil => rfl
  | cons c cs ih =>
    rcases edge_cases n c with ⟨next, hm⟩ | hm
    · rw [traverse_loop_edge _ _ _ _ _ _ _ _ hm, probe_node_edge _ _ _ _ hm, ih]
    · rw [traverse_loop_off _ _ _ _ _ _ hm, probe_node_off _ _ _ hm]
      rfl

theorem trie.lookup_snd (t : trie U) (s : string_t) :
    (t.lookup s).2 = ⟨probe_node s t._root⟩ := by
  simp only [trie.lookup, trie.traverse_data, traverse_loop_probe]

/-- A second lookup of the same string changes nothing. -/
theorem probe_node_idem (s : string_t) (n : trie_node U) :
    probe_node s (probe_node s n) = probe_node s n := by
  induction s generalizing n with
  | nil => rfl
  | cons c cs ih =>
    rcases edge_cases n c with ⟨next, hm⟩ | hm
    · rw [probe_node_edge _ _ _ _ hm]
      rw [probe_node_edge c cs _ (probe_node cs next)
        (by simp [trie_node.children, map_find_set])]
      simp only [trie_node.children, trie_node.data, map_set_set, ih]
    · rw [probe_node_off _ _ _ hm]
      rw [probe_node_off c cs _ (by simp [trie_node.children, map_find_set])]
      simp only [trie_node.children, trie_node.data, map_set_set]

/-- A lookup of another string does not unsettle a string. -/
theorem probe_node_settled (s s' : string_t) (n : trie_node U) (h : probe_node s n = n) :
    probe_node s (probe_node s' n) = probe_node s' n := by
  induction s generalizing s' n with
  | nil => rfl
  | cons c cs ih =>
    cases s' with
    | nil => exact h
    | cons c' cs' =>
      obtain ⟨ch, d⟩ := n
      rcases edge_cases (trie_node.mk ch d) c with ⟨next, hm⟩ | hm
      · rw [probe_node_edge _ _ _ _ hm] at h
        simp only [trie_node.children, trie_node.data, trie_node.mk.injEq, and_true] at h hm
        have hfix : probe_node cs next = next := by
          have := map_find_of_set_eq _ _ _ h
          rw [hm] at this
          simpa using this.symm
        by_cases hcc : c' = c
        · subst hcc
          rw [probe_node_edge c' cs' _ next (by simpa [trie_node.children] using hm)]
          rw [probe_node_edge c' cs _ (probe_node cs' next)
            (by simp [trie_node.children, map_find_set])]
          simp only [trie_node.children, trie_node.data, map_set_set, ih cs' next hfix]
        · have hstep : ∀ Y, probe_node (c :: cs) (trie_node.mk (map_set ch c' Y) d) =
              trie_node.mk (map_set ch c' Y) d := by
            intro Y
            have hf : map_find (map_set ch c' Y) c = some (some next) := by
              rw [map_find_set]; simp [hcc, hm]
            rw [probe_node_edge c cs _ next (by simpa [trie_node.children] using hf)]
            simp only [trie_node.children, trie_node.data, hfix]
            rw [map_set_of_find _ _ _ hf]
          rcases edge_cases (trie_node.mk ch d) c' with ⟨next', hm'⟩ | hm'
          · rw [probe_node_edge _ _ _ _ hm']
            exact hstep _
          · rw [probe_node_off _ _ _ hm']
            exact hstep _
      · rw [probe_node_off _ _ _ hm] at h
        simp only [trie_node.children, trie_node.data, trie_node.mk.injEq, and_true] at h
        have hnull : map_find ch c = some none := map_find_of_set_eq _ _ _ h
        by_cases hcc : c' = c
        · subst hcc
          rw [probe_node_off c' cs' _ hm]
          rw [probe_node_off c' cs _ (by simp [trie_node.children, map_find_set])]
          simp only [trie_node.children, trie_node.data, map_set_set]
        · have hstep : ∀ Y, probe_node (c :: cs) (trie_node.mk (map_set ch c' Y) d) =
              trie_node.mk (map_set ch c' Y) d := by
            intro Y
            have hf : map_find (map_set ch c' Y) c = some none := by
              rw [map_find_set]; simp [hcc, hnull]
            rw [probe_node_off c cs _ (by simp [trie_node.children, hf])]
            simp only [trie_node.children, trie_node.data]
            rw [map_set_of_find _ _ _ hf]
          rcases edge_cases (trie_node.mk ch d) c' with ⟨next', hm'⟩ | hm'
          · rw [probe_node_edge _ _ _ _ hm']
            exact hstep _
          · rw [probe_node_off _ _ _ hm']
            exact hstep _

theorem trie.lookup_idem (t : trie U) (s : string_t) : ((t.lookup s).2.lookup s).2 = (t.lookup s).2 := by
  simp only [trie.lookup_snd, probe_node_idem]

theorem trie.lookup_settled (t : trie U) (s s' : string_t) (h : (t.lookup s).2 = t) :
    ((t.lookup s').2.lookup s).2 = (t.lookup s').2 := by
  simp only [trie.lookup_snd] at h ⊢
  have h' : probe_node s t._root = t._root := by
    have := congrArg trie._root h
    simpa using this
  rw [probe_node_settled s s' _ h']

theorem probe_all_deco (tags : List string_t) (rules : trie U) (q : string_t) :
    (probe_all rules tags).deco q = rules.deco q := by
  induction tags generalizing rules with
  | nil => rfl
  | cons tag tags ih =>
    simp only [probe_all, List.foldl_cons] at ih ⊢
    rw [ih, trie.deco_lookup]

theorem probe_all_keeps_settled (tags : List string_t) (rules : trie U) (s : string_t)
    (h : (rules.lookup s).2 = rules) :
    ((probe_all rules tags).lookup s).2 = probe_all rules tags := by
  induction tags generalizing rules with
  | nil => exact h
  | cons tag tags ih =>
    simp only [probe_all, List.foldl_cons] at ih ⊢
    exact ih _ (trie.lookup_settled rules s tag h)

/-- After the lookups of `tags`, each of them is settled. -/
theorem probe_all_settled (tags : List string_t) (rules : trie U) (s : string_t)
    (hs : s ∈ tags) : ((probe_all rules tags).lookup s).2 = probe_all rules tags := by
  induction tags generalizing rules with
  | nil => simp at hs
  | cons tag tags ih =>
    rcases List.mem_cons.mp hs with rfl | hmem
    · simp only [probe_all, List.foldl_cons]
      exact probe_all_keeps_settled tags _ s (trie.lookup_idem rules s)
    · simp only [probe_all, List.foldl_cons] at ih ⊢
      exact ih _ hmem

/-- Lookups of strings that are settled change nothing. -/
theorem probe_all_of_settled (tags : List string_t) (rules : trie U)
    (h : ∀ s ∈ tags, (rules.lookup s).2 = rules) : probe_all rules tags = rules := by
  induction tags with
  | nil => rfl
  | cons tag tags ih =>
    simp only [probe_all, List.foldl_cons]
    rw [h tag (by simp)]
    exact ih (fun s hs => h s (by simp [hs]))

end probe_lemmas

/-! ## C8 -/

/-- The loop of `make_report` at a time `t > 0` with a decorated root, with
the rules it leaves. -/
theorem make_report_loop_eq (t : ℚ) (ht : 0 < t) (m : record_map_t) (rules : trie Parameters)
    (hroot : (rules.deco []).isSome) :
    make_report_loop t m rules =
      some (report_of m, m.filterMap (survivor rules t), probe_all rules (keys m)) := by
  induction m generalizing rules with
  | nil => rfl
  | cons e m ih =>
    obtain ⟨tag, r⟩ := e
    obtain ⟨p, hp⟩ := Option.isSome_iff_exists.mp (lowest_isSome rules.deco tag _ hroot)
    have hp' : rules.find tag = some p := hp
    have hd : ∀ q, (rules.lookup tag).2.deco q = rules.deco q := trie.deco_lookup rules tag
    have hrun := ih (rules.lookup tag).2 (by rw [hd]; exact hroot)
    have hg : r.reset_unreported_hits.get_tokens p.burst p.rate t =
        some (r.tokens_at p.burst p.rate t, ⟨r.tokens_at p.burst p.rate t, t, 0⟩) :=
      usage_record.get_tokens_pos r.reset_unreported_hits p.burst p.rate t ht
    rw [make_report_loop_cons, hp']
    simp only [hg, hrun, survivor_congr _ _ hd]
    by_cases hh : r._unreported_hits > 0 <;>
      by_cases hk : r.tokens_at p.burst p.rate t ≥ p.burst <;>
      simp [report_of, List.filterMap_cons, survivor, hp', hh, hk,
        usage_record.get_unreported_hits, probe_all, keys]

theorem Throttle.make_report_eq (th : Throttle) (t : ℚ) (ht : 0 < t) (hroot : th.rooted) :
    th.make_report t = some (report_of th._map,
      ⟨th._map.filterMap (survivor th._rules t), probe_all th._rules (keys th._map)⟩) := by
  simp [Throttle.make_report, make_report_loop_eq t ht th._map th._rules hroot]

theorem survivor_idem (rules : trie Parameters) (t : ℚ) (ht : 0 < t)
    (e e' : string_t × usage_record) (h : survivor rules t e = some e') :
    survivor rules t e' = some e' := by
  unfold survivor at h
  cases hp : rules.find e.1 with
  | none => simp [hp] at h
  | some p =>
    simp only [hp] at h
    by_cases hk : e.2.tokens_at p.burst p.rate t ≥ p.burst
    · simp [hk] at h
    · simp only [hk, if_false, Option.some.injEq] at h
      subst h
      have hx : e.2.tokens_at p.burst p.rate t ≤ p.burst := by linarith [not_le.mp hk]
      have htok : usage_record.tokens_at ⟨e.2.tokens_at p.burst p.rate t, t, 0⟩ p.burst p.rate t =
          e.2.tokens_at p.burst p.rate t := by
        have hne : t ≠ 0 := ht.ne'
        simp only [usage_record.tokens_at, hne, ne_eq, not_false_eq_true, if_true]
        exact usage_record.refilled_same ⟨e.2.tokens_at p.burst p.rate t, t, 0⟩ p.burst p.rate hx
      simp only [survivor, hp, htok, hk, if_false]

theorem filterMap_survivor_idem (rules : trie Parameters) (t : ℚ) (ht : 0 < t)
    (m : record_map_t) :
    (m.filterMap (survivor rules t)).filterMap (survivor rules t) =
      m.filterMap (survivor rules t) := by
  induction m with
  | nil => rfl
  | cons e m ih =>
    simp only [List.filterMap_cons]
    cases hs : survivor rules t e with
    | none => exact ih
    | some e' =>
      simp only [List.filterMap_cons, survivor_idem rules t ht e e' hs, ih]

theorem report_of_survivors (rules : trie Parameters) (t : ℚ) (m : record_map_t) :
    report_of (m.filterMap (survivor rules t)) = [] := by
  induction m with
  | nil => rfl
  | cons e m ih =>
    simp only [List.filterMap_cons]
    cases hs : survivor rules t e with
    | none => exact ih
    | some e' =>
      have h0 := (survivor_key rules t e e' hs).2.1
      simp only [report_of, List.filterMap_cons, h0, gt_iff_lt, lt_self_iff_false, if_false]
      exact ih

/-- C8: on an engine whose rules have a decorated root, `make_report(t)` with
`t > 0` returns the pending counts (the unreported hits of the records that
have some), and a second `make_report(t)` right after it returns an empty map
and leaves the engine as the first call left it. -/
theorem C8_make_report_idempotent (th : Throttle) (t : ℚ) (ht : 0 < t) (hroot : th.rooted) :
    ∃ th1, th.make_report t = some (report_of th._map, th1) ∧
      th1.make_report t = some ([], th1) := by
  refine ⟨_, th.make_report_eq t ht hroot, ?_⟩
  have hroot1 : Throttle.rooted ⟨th._map.filterMap (survivor th._rules t),
      probe_all th._rules (keys th._map)⟩ := by
    rw [Throttle.rooted_iff, probe_all_deco]
    exact hroot
  rw [Throttle.make_report_eq _ t ht hroot1]
  have hsurv : survivor (probe_all th._rules (keys th._map)) t = survivor th._rules t :=
    survivor_congr _ _ (probe_all_deco (keys th._map) th._rules) t
  have hrules : probe_all (probe_all th._rules (keys th._map))
      (keys (th._map.filterMap (survivor th._rules t))) =
      probe_all th._rules (keys th._map) := by
    apply probe_all_of_settled
    intro s hs
    exact probe_all_settled _ _ s ((keys_survivors_sublist th._rules t th._map).subset hs)
  simp only [hsurv, filterMap_survivor_idem _ _ ht, report_of_survivors, hrules]

/-- C8 on the engine `Throttle(1, 1)` holding a record with one unreported
hit, at time `5`. -/
theorem C8_make_report_idempotent_witness :
    (0 : ℚ) < 5 ∧ (⟨[(['a'], ⟨0, 4, 1⟩)], (Throttle.new 1 1)._rules⟩ : Throttle).rooted ∧
      ∃ th1, (⟨[(['a'], ⟨0, 4, 1⟩)], (Throttle.new 1 1)._rules⟩ : Throttle).make_report 5 =
          some (report_of [(['a'], ⟨0, 4, 1⟩)], th1) ∧
        th1.make_report 5 = some ([], th1) :=
  ⟨by norm_num, Throttle.new_rooted 1 1,
    C8_make_report_idempotent ⟨[(['a'], ⟨0, 4, 1⟩)], (Throttle.new 1 1)._rules⟩ 5 (by norm_num)
      (Throttle.new_rooted 1 1)⟩

/-! ## C9 -/

theorem map_find_debit_frame (rules : trie Parameters) (t : ℚ) (dg : FLDatagram)
    (m : record_map_t) (tag : string_t) (h : ∀ count, (tag, some count) ∉ dg) :
    map_find (dg.foldl (debit rules t) m) tag = map_find m tag := by
  induction dg generalizing m with
  | nil => rfl
  | cons e dg ih =>
    simp only [List.foldl_cons]
    rw [ih _ (fun count hmem => h count (List.mem_cons_of_mem _ hmem))]
    obtain ⟨k, v⟩ := e
    unfold debit
    split
    · rename_i count p hv hp
      simp only at hv
      subst hv
      rw [map_find_set]
      have hk : ¬ k = tag := by
        intro hk
        subst hk
        exact h count (by simp)
      simp [hk]
    · rfl

/-- C18, amended: when the engine has no record for `tag` and the lookup of
the tag gives parameters `p`, `get_record(tag, t)` creates the record with
`tokens = p.burst`, `last_update = t` (the time of the call, not `0`) and no
unreported hits; `external_hit(tag, count, t)` leaves that record debited by
`count`, and, when `p` is not whitelisted, `check_request(tag, t)` leaves that
record after its own `check_request`. -/
theorem C18_record_construction (th : Throttle) (tag : string_t) (t : ℚ) (p : Parameters)
    (hf : map_find th._map tag = none) (hp : (th._rules.lookup tag).1 = some p) :
    (∃ th1, th.get_record tag t = some (⟨p.burst, t, 0⟩, th1) ∧
      map_find th1._map tag = some ⟨p.burst, t, 0⟩) ∧
    (∀ count, ∃ th1, th.external_hit tag count t = some th1 ∧
      map_find th1._map tag = some ⟨p.burst - count, t, 0⟩) ∧
    (p.whitelisted = false → ∀ b r1,
      (⟨p.burst, t, 0⟩ : usage_record).check_request p.burst p.rate t = some (b, r1) →
      ∃ th1, th.check_request tag t = some (b, th1) ∧ map_find th1._map tag = some r1) := by
  rw [trie.lookup_fst] at hp
  have hp' : th.params tag = some p := hp
  have hrec : th.record tag p t = ⟨p.burst, t, 0⟩ := by
    simp [Throttle.record, hf, usage_record.new]
  refine ⟨?_, ?_, ?_⟩
  · obtain ⟨th1, hg, hm, -⟩ := th.get_record_spec tag t p hp'
    rw [hrec] at hg hm
    exact ⟨th1, hg, by rw [hm, map_find_set]; simp⟩
  · intro count
    obtain ⟨th1, hx, hm, -⟩ := th.external_hit_spec tag count t p hp'
    rw [hrec] at hm
    exact ⟨th1, hx, by rw [hm, map_find_set]; simp [usage_record.record_external_hits]⟩
  · intro hw b r1 hc
    obtain ⟨th1, hcr, hm, -⟩ := th.check_request_spec tag t p hp' hw b r1
      (by rw [hrec]; exact hc)
    exact ⟨th1, hcr, by rw [hm, map_find_set]; simp⟩

/-- C18, amended, on a fresh `Throttle(1, 1)` for the tag `a` at time `5`. -/
theorem C18_record_construction_witness :
    map_find (Throttle.new 1 1)._map ['a'] = none ∧
      ((Throttle.new 1 1)._rules.lookup ['a']).1 = some ⟨1, 1, false⟩ ∧
      ∃ th1, (Throttle.new 1 1).get_record ['a'] 5 = some (⟨(1 : Int), 5, 0⟩, th1) ∧
        map_find th1._map ['a'] = some ⟨(1 : Int), 5, 0⟩ :=
  ⟨rfl, rfl, (C18_record_construction (Throttle.new 1 1) ['a'] 5 ⟨1, 1, false⟩ rfl rfl).1⟩

/-- C18 as stated fails: on a fresh `Throttle(1, 1)`, the record created for
`a` by `get_record` at time `5`, and the one a `receive_report` at time `5`
creates, have `last_update = 5`, not `0`. -/
theorem C18_counterexample :
    ((Throttle.new 1 1).get_record ['a'] 5).map (fun x => x.1._last_update) = some 5 ∧
      ((Throttle.new 1 1).receive_report [(['a'], some 0)] 5).map
        (fun th => (map_find th._map ['a']).map (fun r => r._last_update)) = some (some 5) ∧
      (5 : ℚ) ≠ 0 := by
  refine ⟨?_, ?_, by norm_num⟩ <;>
  simp [Throttle.receive_report, Throttle.external_hit, Throttle.new, Throttle.get_params,
    Throttle.get_record, trie.lookup, trie.insert, trie.new, trie.traverse_data,
    trie.traverse_nodata, traverse_loop, trie_node.new, trie_node.children, trie_node.data,
    trie_node.set_data, map_find, map_set, usage_record.new, usage_record.record_external_hits]

/-! ## Every call keeps the decorations -/

theorem Throttle.get_record_rules {th th1 : Throttle} {tag : string_t} {t : ℚ}
    {r : usage_record} (h : th.get_record tag t = some (r, th1)) : th.same_rules th1 := by
  unfold Throttle.get_record at h
  cases hf : map_find th._map tag with
  | some r0 =>
    simp only [hf, Option.some.injEq, Prod.mk.injEq] at h
    rw [← h.2]
    exact th.same_rules_refl
  | none =>
    simp only [hf, Throttle.get_params_eq] at h
    cases hp : th.params tag with
    | none => simp [hp] at h
    | some p =>
      simp only [hp, Option.map_some', Option.some.injEq, Prod.mk.injEq] at h
      rw [← h.2]
      exact fun q => th.probe_deco tag q

theorem Throttle.check_request_rules {th th1 : Throttle} {tag : string_t} {t : ℚ} {b : Bool}
    (h : th.check_request tag t = some (b, th1)) : th.same_rules th1 := by
  unfold Throttle.check_request at h
  simp only [Throttle.get_params_eq] at h
  cases hp : th.params tag with
  | none => simp [hp] at h
  | some p =>
    simp only [hp, Option.map_some'] at h
    cases hw : p.whitelisted with
    | true =>
      simp only [hw, ↓reduceIte, Option.some.injEq, Prod.mk.injEq] at h
      rw [← h.2]
      exact th.same_rules_probe tag
    | false =>
      simp only [hw, Bool.false_eq_true, ↓reduceIte] at h
      cases hg : (th.probe tag).get_record tag t with
      | none => simp [hg] at h
      | some w =>
        obtain ⟨r, th2⟩ := w
        simp only [hg] at h
        cases hc : r.check_request p.burst p.rate t with
        | none => simp [hc] at h
        | some br =>
          simp only [hc, Option.some.injEq, Prod.mk.injEq] at h
          rw [← h.2]
          exact fun q => ((Throttle.get_record_rules hg) q).trans (th.probe_deco tag q)

theorem Throttle.external_hit_rules {th th1 : Throttle} {tag : string_t} {count : Int} {t : ℚ}
    (h : th.external_hit tag count t = some th1) : th.same_rules th1 := by
  unfold Throttle.external_hit at h
  cases hg : th.get_record tag t with
  | none => simp [hg] at h
  | some w =>
    obtain ⟨r, th2⟩ := w
    simp only [hg, Option.some.injEq] at h
    rw [← h]
    exact fun q => Throttle.get_record_rules hg q

theorem Throttle.receive_report_rules (dg : FLDatagram) (t : ℚ) {th th1 : Throttle}
    (h : th.receive_report dg t = some th1) : th.same_rules th1 := by
  induction dg generalizing th with
  | nil =>
    simp only [Throttle.receive_report, Option.some.injEq] at h
    rw [← h]
    exact th.same_rules_refl
  | cons e dg ih =>
    obtain ⟨tag, value⟩ := e
    cases value with
    | none => exact ih h
    | some count =>
      simp only [Throttle.receive_report] at h
      cases hx : th.external_hit tag count t with
      | none => simp [hx] at h
      | some th2 =>
        simp only [hx] at h
        exact Throttle.same_rules_trans (Throttle.external_hit_rules hx) (ih h)

theorem make_report_loop_deco (t : ℚ) (m : record_map_t) (rules : trie Parameters)
    (dg : FLDatagram) (m' : record_map_t) (rules' : trie Parameters)
    (h : make_report_loop t m rules = some (dg, m', rules')) :
    ∀ q, rules'.deco q = rules.deco q := by
  induction m generalizing rules dg m' rules' with
  | nil =>
    simp only [make_report_loop, Option.some.injEq, Prod.mk.injEq] at h
    rw [← h.2.2]
    exact fun _ => rfl
  | cons e m ih =>
    obtain ⟨tag, r⟩ := e
    rw [make_report_loop_cons] at h
    cases hp : rules.find tag with
    | none => simp [hp] at h
    | some p =>
      simp only [hp] at h
      cases hg : r.reset_unreported_hits.get_tokens p.burst p.rate t with
      | none => simp [hg] at h
      | some v =>
        obtain ⟨tokens, r1⟩ := v
        simp only [hg] at h
        cases hl : make_report_loop t m (rules.lookup tag).2 with
        | none => simp [hl] at h
        | some w =>
          obtain ⟨dg1, m1, rules1⟩ := w
          simp only [hl, Option.some.injEq, Prod.mk.injEq] at h
          rw [← h.2.2]
          exact fun q => (ih _ _ _ _ hl q).trans (trie.deco_lookup rules tag q)

theorem Throttle.make_report_rules {th th1 : Throttle} {t : ℚ} {dg : FLDatagram}
    (h : th.make_report t = some (dg, th1)) : th.same_rules th1 := by
  unfold Throttle.make_report at h
  cases hl : make_report_loop t th._map th._rules with
  | none => simp [hl] at h
  | some w =>
    obtain ⟨dg1, m1, rules1⟩ := w
    simp only [hl, Option.some.injEq, Prod.mk.injEq] at h
    rw [← h.2]
    exact make_report_loop_deco t _ _ _ _ _ hl

/-- A call that returns leaves the root of the rules decorated. -/
theorem Throttle.call_rooted {th th1 : Throttle} {c : Call} {a : Answer}
    (hroot : th.rooted) (h : th.call c = some (a, th1)) : th1.rooted := by
  cases c with
  | check_request tag t =>
    simp only [Throttle.call] at h
    cases hc : th.check_request tag t with
    | none => simp [hc] at h
    | some w =>
      obtain ⟨b, th2⟩ := w
      simp only [hc, Option.some.injEq, Prod.mk.injEq] at h
      rw [← h.2]
      exact Throttle.same_rules_rooted (Throttle.check_request_rules hc) hroot
  | whitelist q =>
    simp only [Throttle.call, Option.some.injEq, Prod.mk.injEq] at h
    rw [← h.2]
    exact th.rooted_apply_rule (.whitelist q) hroot
  | add_rule q p =>
    simp only [Throttle.call, Option.some.injEq, Prod.mk.injEq] at h
    rw [← h.2]
    exact th.rooted_apply_rule (.add_rule q p) hroot
  | receive_report dg t =>
    simp only [Throttle.call] at h
    cases hc : th.receive_report dg t with
    | none => simp [hc] at h
    | some th2 =>
      simp only [hc, Option.some.injEq, Prod.mk.injEq] at h
      rw [← h.2]
      exact Throttle.same_rules_rooted (Throttle.receive_report_rules dg t hc) hroot
  | make_report t =>
    simp only [Throttle.call] at h
    cases hc : th.make_report t with
    | none => simp [hc] at h
    | some w =>
      obtain ⟨dg, th2⟩ := w
      simp only [hc, Option.some.injEq, Prod.mk.injEq] at h
      rw [← h.2]
      exact Throttle.same_rules_rooted (Throttle.make_report_rules hc) hroot

theorem Throttle.calls_rooted (cs : List Call) {th th1 : Throttle} {as : List Answer}
    (hroot : th.rooted) (h : th.calls cs = some (as, th1)) : th1.rooted := by
  induction cs generalizing th as th1 with
  | nil =>
    simp only [Throttle.calls, Option.some.injEq, Prod.mk.injEq] at h
    rw [← h.2]
    exact hroot
  | cons c cs ih =>
    simp only [Throttle.calls] at h
    cases hc : th.call c with
    | none => simp [hc] at h
    | some w =>
      obtain ⟨a, th2⟩ := w
      simp only [hc] at h
      cases hr : th2.calls cs with
      | none => simp [hr] at h
      | some w' =>
        obtain ⟨as', th3⟩ := w'
        simp only [hr, Option.some.injEq, Prod.mk.injEq] at h
        rw [← h.2]
        exact ih (Throttle.call_rooted hroot hc) hr

/-- What `check_request` does at a time `t > 0` under parameters `p`. -/
theorem Throttle.check_request_admission (th : Throttle) (tag : string_t) (t : ℚ) (p : Parameters)
    (ht : 0 < t) (hp : th.params tag = some p) :
    ∃ th', th.check_request tag t = some ((admission p (map_find th._map tag) t).1, th') ∧
      map_find th'._map tag = (admission p (map_find th._map tag) t).2 ∧
      (∀ tag', tag' ≠ tag → map_find th'._map tag' = map_find th._map tag') ∧
      th.same_rules th' := by
  cases hw : p.whitelisted with
  | true =>
    refine ⟨th.probe tag, ?_, ?_, fun _ _ => rfl, th.same_rules_probe tag⟩
    · rw [th.check_request_whitelisted tag t p hp hw]
      simp [admission, hw]
    · simp [admission, hw, Throttle.probe_map]
  | false =>
    have hrec : th.record tag p t = (map_find th._map tag).getD (usage_record.new p.burst t) :=
      rfl
    by_cases hx : 0 < (th.record tag p t).tokens_at p.burst p.rate t
    · obtain ⟨th', h1, hm, hs⟩ := th.check_request_spec tag t p hp hw true _
        (by rw [usage_record.check_request_pos _ _ _ _ ht, if_pos hx])
      rw [hrec] at hx
      refine ⟨th', ?_, ?_, ?_, hs⟩
      · rw [h1]; simp [admission, hw, hx]
      · rw [hm, map_find_set]; simp [admission, hw, hx, hrec]
      · intro tag' hne
        rw [hm, map_find_set]
        simp [Ne.symm hne]
    · obtain ⟨th', h1, hm, hs⟩ := th.check_request_spec tag t p hp hw false _
        (by rw [usage_record.check_request_pos _ _ _ _ ht, if_neg hx])
      rw [hrec] at hx
      refine ⟨th', ?_, ?_, ?_, hs⟩
      · rw [h1]; simp [admission, hw, hx]
      · rw [hm, map_find_set]; simp [admission, hw, hx, hrec]
      · intro tag' hne
        rw [hm, map_find_set]
        simp [Ne.symm hne]

/-! ## C16 -/

/-- C16: in every engine reached from the constructor by a sequence of calls
that returned, the lookup of every tag returns parameters, so `get_params`
returns, and `check_request(tag, t)` returns a boolean for every tag and every
`t > 0`. -/
theorem C16_check_request_never_fails (burst : Int) (rate : ℚ) (cs : List Call)
    (as : List Answer) (th : Throttle) (h : (Throttle.new burst rate).calls cs = some (as, th))
    (tag : string_t) :
    (∃ p th1, (th._rules.lookup tag).1 = some p ∧ th.get_params tag = some (p, th1)) ∧
      ∀ t, 0 < t → ∃ b th', th.check_request tag t = some (b, th') := by
  have hroot : th.rooted := Throttle.calls_rooted cs (Throttle.new_rooted burst rate) h
  obtain ⟨p, hp⟩ := Option.isSome_iff_exists.mp (th.params_isSome hroot tag)
  refine ⟨⟨p, th.probe tag, by rw [trie.lookup_fst]; exact hp, by
    simp [Throttle.get_params_eq, hp]⟩, ?_⟩
  intro t ht
  obtain ⟨th', h1, -⟩ := th.check_request_admission tag t p ht hp
  exact ⟨_, th', h1⟩

/-- C16 on the engine `Throttle(1, 1)` after `whitelist("w")`, for the tag
`x`. -/
theorem C16_check_request_never_fails_witness :
    (Throttle.new 1 1).calls [.whitelist ['w']] =
        some ([.unit], (Throttle.new 1 1).whitelist ['w']) ∧
      (∃ p th1, (((Throttle.new 1 1).whitelist ['w'])._rules.lookup ['x']).1 = some p ∧
        ((Throttle.new 1 1).whitelist ['w']).get_params ['x'] = some (p, th1)) ∧
      ∀ t, 0 < t → ∃ b th',
        ((Throttle.new 1 1).whitelist ['w']).check_request ['x'] t = some (b, th') :=
  ⟨rfl, C16_check_request_never_fails 1 1 [.whitelist ['w']] [.unit]
    ((Throttle.new 1 1).whitelist ['w']) rfl ['x']⟩

/-! ## C15 -/

theorem Throttle.call_check_request (th : Throttle) (tag : string_t) (t : ℚ) (b : Bool)
    (th' : Throttle) (h : th.check_request tag t = some (b, th')) :
    th.call (.check_request tag t) = some (.bool b, th') := by
  simp [Throttle.call, h]

/-- Calls of `check_request` on any tags against the calls on `b` alone, from
engines that agree on the record of `b` and on the decorations: both runs
return, with the same answers for `b`. -/
theorem Throttle.calls_on_tag (b : string_t) (cs : List (string_t × ℚ))
    (hpos : ∀ c ∈ cs, 0 < c.2) (th1 th2 : Throttle) (hroot : th1.rooted)
    (hdeco : ∀ q, th2._rules.deco q = th1._rules.deco q)
    (hrec : map_find th1._map b = map_find th2._map b) :
    ∃ as1 e1 as2 e2, th1.calls (cs.map check_call) = some (as1, e1) ∧
      th2.calls ((cs.filter (fun c => decide (c.1 = b))).map check_call) = some (as2, e2) ∧
      ((cs.zip as1).filter (fun x => decide (x.1.1 = b))).map (fun x => x.2) = as2 := by
  induction cs generalizing th1 th2 with
  | nil => exact ⟨[], th1, [], th2, rfl, rfl, rfl⟩
  | cons c cs ih =>
    obtain ⟨tag, t⟩ := c
    have ht : 0 < t := hpos (tag, t) (by simp)
    have hpos' : ∀ c ∈ cs, 0 < c.2 := fun c hc => hpos c (by simp [hc])
    obtain ⟨p, hp⟩ := Option.isSome_iff_exists.mp (th1.params_isSome hroot tag)
    obtain ⟨e1, hc1, hm1, hfr1, hs1⟩ := th1.check_request_admission tag t p ht hp
    have hroot1 : e1.rooted := Throttle.same_rules_rooted hs1 hroot
    by_cases hk : tag = b
    · subst hk
      have hp2 : th2.params tag = some p := by
        rw [Throttle.params_congr th1 th2 hdeco]; exact hp
      obtain ⟨e2, hc2, hm2, -, hs2⟩ := th2.check_request_admission tag t p ht hp2
      rw [← hrec] at hc2 hm2
      obtain ⟨as1, f1, as2, f2, hr1, hr2, heq⟩ := ih hpos' e1 e2 hroot1
        (fun q => ((hs2 q).trans (hdeco q)).trans (hs1 q).symm) (by rw [hm1, hm2])
      refine ⟨Answer.bool (admission p (map_find th1._map tag) t).1 :: as1, f1,
        Answer.bool (admission p (map_find th1._map tag) t).1 :: as2, f2, ?_, ?_, ?_⟩
      · simp only [List.map_cons, Throttle.calls, check_call,
          th1.call_check_request tag t _ e1 hc1, hr1]
      · simp only [List.filter_cons, decide_True, ↓reduceIte, List.map_cons, Throttle.calls,
          check_call, th2.call_check_request tag t _ e2 hc2, hr2]
      · simp only [List.zip_cons_cons, List.filter_cons, decide_True, ↓reduceIte, List.map_cons,
          heq]
    · obtain ⟨as1, f1, as2, f2, hr1, hr2, heq⟩ := ih hpos' e1 th2 hroot1
        (fun q => (hdeco q).trans (hs1 q).symm)
        (by rw [hfr1 b (fun e => hk e.symm)]; exact hrec)
      refine ⟨Answer.bool (admission p (map_find th1._map tag) t).1 :: as1, f1, as2, f2,
        ?_, ?_, ?_⟩
      · simp only [List.map_cons, Throttle.calls, check_call,
          th1.call_check_request tag t _ e1 hc1, hr1]
      · simp only [List.filter_cons, hk, decide_False, Bool.false_eq_true, ↓reduceIte]
        exact hr2
      · simp only [List.zip_cons_cons, List.filter_cons, hk, decide_False, Bool.false_eq_true,
          ↓reduceIte]
        exact heq

/-- C15: on an engine whose rules have a decorated root, a
`check_request(a, t)` with `a ≠ b` and `t > 0` returns and leaves the record
of `b` as it is, present or not; and in a sequence of `check_request` calls at
positive times on any tags, the calls on `b` get the answers they get when
they are made alone. -/
theorem C15_cross_tag_independence (th : Throttle) (hroot : th.rooted) (b : string_t)
    (cs : List (string_t × ℚ)) (hpos : ∀ c ∈ cs, 0 < c.2) :
    (∀ a t, a ≠ b → 0 < t → ∃ ans th', th.check_request a t = some (ans, th') ∧
      map_find th'._map b = map_find th._map b) ∧
    ∃ as1 e1 as2 e2, th.calls (cs.map check_call) = some (as1, e1) ∧
      th.calls ((cs.filter (fun c => decide (c.1 = b))).map check_call) = some (as2, e2) ∧
      ((cs.zip as1).filter (fun x => decide (x.1.1 = b))).map (fun x => x.2) = as2 := by
  refine ⟨?_, Throttle.calls_on_tag b cs hpos th th hroot (fun _ => rfl) rfl⟩
  intro a t hne ht
  obtain ⟨p, hp⟩ := Option.isSome_iff_exists.mp (th.params_isSome hroot a)
  obtain ⟨th', h1, -, hfr, -⟩ := th.check_request_admission a t p ht hp
  exact ⟨_, th', h1, hfr b (fun e => hne e.symm)⟩

/-- C15 on a fresh `Throttle(10, 1)` for calls on `john` and
`someoneelse`. -/
theorem C15_cross_tag_independence_witness :
    (Throttle.new 10 1).rooted ∧
      (∀ c ∈ [(['j'], (1 : ℚ)), (['s'], (2 : ℚ))], 0 < c.2) ∧
      ∃ as1 e1 as2 e2,
        (Throttle.new 10 1).calls
          ([(['j'], (1 : ℚ)), (['s'], (2 : ℚ))].map check_call) = some (as1, e1) ∧
        (Throttle.new 10 1).calls
          (([(['j'], (1 : ℚ)), (['s'], (2 : ℚ))].filter
            (fun c => decide (c.1 = ['s']))).map check_call) = some (as2, e2) ∧
        (([(['j'], (1 : ℚ)), (['s'], (2 : ℚ))].zip as1).filter
          (fun x => decide (x.1.1 = ['s']))).map (fun x => x.2) = as2 :=
  ⟨Throttle.new_rooted 10 1, by simp,
    (C15_cross_tag_independence (Throttle.new 10 1) (Throttle.new_rooted 10 1) ['s']
      [(['j'], 1), (['s'], 2)] (by simp)).2⟩

/-! ## C17 -/

/-- C17 fails on the code: after `Throttle(10, 1)`, `whitelist("1")` and
`add_rule("12", Parameters(1, 1))`, the whitelisted prefix `1` is a prefix of
the tag `123`, and of two calls `check_request("123", 5)` the second returns
false. -/
theorem C17_whitelist_shadowed :
    ['1'] <+: ['1', '2', '3'] ∧
      ((((Throttle.new 10 1).whitelist ['1']).add_rule ['1', '2'] ⟨1, 1, false⟩).check_requests
        ['1', '2', '3'] [5, 5]).map Prod.fst = some [true, false] := by
  refine ⟨by simp, ?_⟩
  norm_num [Throttle.check_requests, Throttle.new, Throttle.check_request,
    Throttle.get_params, Throttle.get_record, Throttle.whitelist, Throttle.add_rule,
    trie.lookup, trie.insert, trie.new, trie.traverse_data,
    trie.traverse_nodata, traverse_loop, trie_node.new, trie_node.children, trie_node.data,
    trie_node.set_data, map_find, map_set, usage_record.new, usage_record.check_request,
    usage_record.get_tokens]

/-! ## The line reader -/

theorem scan_chars_append (a b : List Char) (st : List string_t × string_t)
    (ha : '\x00' ∉ a) : scan_chars (a ++ b) st = scan_chars b (scan_chars a st) := by
  induction a generalizing st with
  | nil => rfl
  | cons c cs ih =>
    obtain ⟨lines, line⟩ := st
    simp only [List.mem_cons, not_or] at ha
    have hc : ¬ c = '\x00' := fun e => ha.1 e.symm
    by_cases hn : c = '\n'
    · simp only [List.cons_append, scan_chars, hc, if_false, hn, ne_eq, not_true_eq_false]
      exact ih _ ha.2
    · simp only [List.cons_append, scan_chars, hc, if_false, hn, ne_eq, not_false_eq_true,
        if_true]
      exact ih _ ha.2

theorem scan_chars_lines (cs : List Char) (lines : List string_t) (line : string_t) :
    scan_chars cs (lines, line) =
      (lines ++ (scan_chars cs ([], line)).1, (scan_chars cs ([], line)).2) := by
  induction cs generalizing lines line with
  | nil => simp [scan_chars]
  | cons c cs ih =>
    by_cases hc : c = '\x00'
    · simp [scan_chars, hc]
    · by_cases hn : c = '\n'
      · simp only [scan_chars, hc, if_false, hn, ne_eq, not_true_eq_false, List.nil_append]
        rw [ih (lines ++ [line]) [], ih [line] []]
        simp
      · simp only [scan_chars, hc, if_false, hn, ne_eq, not_false_eq_true, if_true]
        exact ih lines (line ++ [c])

/-- The loop over a chunk without NUL adds the chunk to the bytes the buffer
of lines and the partial line stand for. -/
theorem framed_scan_chars (cs : List Char) (st : List string_t × string_t)
    (h0 : '\x00' ∉ cs) : framed (scan_chars cs st) = framed st ++ cs := by
  induction cs generalizing st with
  | nil => simp [scan_chars]
  | cons c cs ih =>
    obtain ⟨lines, line⟩ := st
    simp only [List.mem_cons, not_or] at h0
    have hc : ¬ c = '\x00' := fun e => h0.1 e.symm
    by_cases hn : c = '\n'
    · subst hn
      simp only [scan_chars, if_neg hc, ne_eq, not_true_eq_false, if_false]
      rw [ih _ h0.2]
      simp [framed]
    · simp only [scan_chars, hc, if_false, hn, ne_eq, not_false_eq_true, if_true]
      rw [ih _ h0.2]
      simp [framed]

/-- The loop over a chunk without NUL completes one line for each newline of
the chunk. -/
theorem length_scan_chars (cs : List Char) (st : List string_t × string_t)
    (h0 : '\x00' ∉ cs) : (scan_chars cs st).1.length = st.1.length + cs.count '\n' := by
  induction cs generalizing st with
  | nil => simp [scan_chars]
  | cons c cs ih =>
    obtain ⟨lines, line⟩ := st
    simp only [List.mem_cons, not_or] at h0
    have hc : ¬ c = '\x00' := fun e => h0.1 e.symm
    by_cases hn : c = '\n'
    · subst hn
      simp only [scan_chars, if_neg hc, ne_eq, not_true_eq_false, if_false]
      rw [ih _ h0.2]
      simp [List.count_cons]
      omega
    · simp only [scan_chars, hc, if_false, hn, ne_eq, not_false_eq_true, if_true]
      rw [ih _ h0.2]
      have : ¬ ('\n' = c) := fun e => hn e.symm
      simp [List.count_cons, hn]

/-- No line and no partial line holds a newline. -/
theorem newline_free_scan_chars (cs : List Char) (st : List string_t × string_t)
    (h1 : ∀ l ∈ st.1, '\n' ∉ l) (h2 : '\n' ∉ st.2) :
    (∀ l ∈ (scan_chars cs st).1, '\n' ∉ l) ∧ '\n' ∉ (scan_chars cs st).2 := by
  induction cs generalizing st with
  | nil => exact ⟨h1, h2⟩
  | cons c cs ih =>
    obtain ⟨lines, line⟩ := st
    by_cases hc : c = '\x00'
    · simp only [scan_chars, hc, if_true]
      exact ⟨h1, h2⟩
    · by_cases hn : c = '\n'
      · simp only [scan_chars, hc, if_false, hn, ne_eq, not_true_eq_false]
        apply ih
        · intro l hl
          rcases List.mem_append.mp hl with hl | hl
          · exact h1 l hl
          · simp only [List.mem_singleton] at hl
            rw [hl]; exact h2
        · simp
      · simp only [scan_chars, hc, if_false, hn, ne_eq, not_false_eq_true, if_true]
        apply ih
        · exact h1
        · simp only [List.mem_append, List.mem_singleton, not_or]
          exact ⟨h2, fun e => hn e.symm⟩

/-- One call of `OnSocketReadable` that reads a chunk, with the owner
`collect`: the owner sees the lines the chunk completes, the reader keeps the
partial line. -/
theorem SocketReader.OnSocketReadable_collect (fuel : Nat) (hfuel : 1 ≤ fuel)
    (r : SocketReader) (sock : FLSocket) (hs : r._socket = some sock) (hl : r._lines = [])
    (seen : List string_t) (chunk : List Char) (hne : chunk ≠ []) :
    r.OnSocketReadable collect fuel seen (.bytes chunk) =
      some ({ r with _line := (scan_chars chunk ([], r._line)).2 },
        seen ++ (scan_chars chunk ([], r._line)).1) := by
  have hlen : chunk.length > 0 := List.length_pos.mpr hne
  obtain ⟨f, rfl⟩ : ∃ f, fuel = f + 1 := ⟨fuel - 1, by omega⟩
  cases hsc : (scan_chars chunk ([], r._line)).1 with
  | nil =>
    simp [SocketReader.OnSocketReadable, hs, FLSocket.read, hlen, hl, notify_lines, hsc]
  | cons l ls =>
    cases f with
    | zero =>
      simp [SocketReader.OnSocketReadable, hs, FLSocket.read, hlen, hl, notify_lines, hsc,
        collect]
    | succ f =>
      simp [SocketReader.OnSocketReadable, hs, FLSocket.read, hlen, hl, notify_lines, hsc,
        collect]

/-- Successive calls of `OnSocketReadable` that read chunks without NUL, with
the owner `collect`: what the owner sees and what the reader keeps are those
of the loop over all the bytes. -/
theorem SocketReader.feed_collect (fuel : Nat) (hfuel : 1 ≤ fuel) (chunks : List (List Char))
    (hne : ∀ c ∈ chunks, c ≠ []) (h0 : ∀ c ∈ chunks, '\x00' ∉ c) (r : SocketReader)
    (sock : FLSocket) (hs : r._socket = some sock) (hl : r._lines = [])
    (seen : List string_t) :
    SocketReader.feed collect fuel r seen (chunks.map RecvResult.bytes) =
      some ({ r with _line := (scan_chars chunks.flatten ([], r._line)).2 },
        seen ++ (scan_chars chunks.flatten ([], r._line)).1) := by
  induction chunks generalizing r seen with
  | nil =>
    cases r
    simp only at hl
    simp [SocketReader.feed, scan_chars, hl]
  | cons c cs ih =>
    have hc0 : '\x00' ∉ c := h0 c (by simp)
    simp only [List.map_cons, SocketReader.feed,
      SocketReader.OnSocketReadable_collect fuel hfuel r sock hs hl seen c (hne c (by simp))]
    have hrec := ih (fun c' hc' => hne c' (by simp [hc'])) (fun c' hc' => h0 c' (by simp [hc']))
      { r with _line := (scan_chars c ([], r._line)).2 } hs hl
      (seen ++ (scan_chars c ([], r._line)).1)
    rw [hrec]
    simp only [List.flatten_cons, scan_chars_append c cs.flatten _ hc0]
    rw [scan_chars_lines cs.flatten (scan_chars c ([], r._line)).1]
    simp [List.append_assoc]

/-! ## C12 -/

/-- C12 (amended): when chunks of bytes without NUL, none of them empty, are
read by successive calls of `OnSocketReadable` on a new reader, the owner is
notified of exactly as many lines as the bytes hold newlines, in order; these
lines, each followed by a newline, and then the partial line the reader keeps
are the bytes read, and neither a line nor the partial line holds a newline,
so the lines joined are the bytes up to and including the last newline. -/
theorem C12_line_framing (fuel this : Nat) (sock : FLSocket) (chunks : List (List Char))
    (hfuel : 1 ≤ fuel) (hne : ∀ c ∈ chunks, c ≠ []) (h0 : ∀ c ∈ chunks, '\x00' ∉ c) :
    ∃ r' seen,
      SocketReader.feed collect fuel (SocketReader.new this sock) []
          (chunks.map RecvResult.bytes) = some (r', seen) ∧
        seen.length = chunks.flatten.count '\n' ∧
        (seen.map (fun l => l ++ ['\n'])).flatten ++ r'._line = chunks.flatten ∧
        (∀ l ∈ seen, '\n' ∉ l) ∧ '\n' ∉ r'._line ∧ r'._lines = [] := by
  have h0f : '\x00' ∉ chunks.flatten := by
    intro h
    obtain ⟨c, hc, hx⟩ := List.mem_flatten.mp h
    exact h0 c hc hx
  refine ⟨_, _, SocketReader.feed_collect fuel hfuel chunks hne h0 (SocketReader.new this sock)
    sock rfl rfl [], ?_, ?_, ?_, ?_, rfl⟩
  · simpa [SocketReader.new] using length_scan_chars chunks.flatten ([], []) h0f
  · simpa [SocketReader.new, framed] using framed_scan_chars chunks.flatten ([], []) h0f
  · simpa [SocketReader.new] using
      (newline_free_scan_chars chunks.flatten ([], []) (by simp) (by simp)).1
  · simpa [SocketReader.new] using
      (newline_free_scan_chars chunks.flatten ([], []) (by simp) (by simp)).2

/-- C12 on the chunks `a\nb` and `c\n\nd` read by a new reader: three lines,
with `d` kept as the partial line. -/
theorem C12_line_framing_witness :
    1 ≤ 1 ∧ (∀ c ∈ [['a', '\n', 'b'], ['c', '\n', '\n', 'd']], c ≠ []) ∧
      (∀ c ∈ [['a', '\n', 'b'], ['c', '\n', '\n', 'd']], '\x00' ∉ c) ∧
      ∃ r' seen,
        SocketReader.feed collect 1 (SocketReader.new 0 ⟨3, true, fun _ => some 3, 0, []⟩) []
            ([['a', '\n', 'b'], ['c', '\n', '\n', 'd']].map RecvResult.bytes) =
              some (r', seen) ∧
          seen.length = [['a', '\n', 'b'], ['c', '\n', '\n', 'd']].flatten.count '\n' ∧
          (seen.map (fun l => l ++ ['\n'])).flatten ++ r'._line =
            [['a', '\n', 'b'], ['c', '\n', '\n', 'd']].flatten ∧
          (∀ l ∈ seen, '\n' ∉ l) ∧ '\n' ∉ r'._line ∧ r'._lines = [] :=
  ⟨by decide, by decide, by decide,
    C12_line_framing 1 0 ⟨3, true, fun _ => some 3, 0, []⟩
      [['a', '\n', 'b'], ['c', '\n', '\n', 'd']] (by decide) (by decide) (by decide)⟩

/-- C12 as stated fails on bytes with a NUL: of the one chunk `a`, NUL, `b`,
newline, which holds one newline, the owner of a new reader is notified of no
line, and the reader keeps `a` alone as the partial line. -/
theorem C12_counterexample :
    (['a', '\x00', 'b', '\n'] : List Char).count '\n' = 1 ∧
      ∃ r', SocketReader.feed collect 1 (SocketReader.new 0 ⟨3, true, fun _ => some 3, 0, []⟩) []
          [RecvResult.bytes ['a', '\x00', 'b', '\n']] = some (r', []) ∧
        r'._line = ['a'] ∧ r'._lines = [] :=
  ⟨by decide, _, rfl, rfl, rfl⟩

/-! ## C13 -/

/-- C13: when a stream of bytes without NUL is split into chunks, none of them
empty, and the chunks are read by successive calls of `OnSocketReadable` on a
new reader, the lines the owner is notified of and the reader afterwards, with
its partial line, are those of one call that reads the whole stream as a
single chunk. -/
theorem C13_chunking_invariance (fuel this : Nat) (sock : FLSocket)
    (chunks : List (List Char)) (hfuel : 1 ≤ fuel) (hc : chunks ≠ [])
    (hne : ∀ c ∈ chunks, c ≠ []) (h0 : ∀ c ∈ chunks, '\x00' ∉ c) :
    ∃ r' seen,
      SocketReader.feed collect fuel (SocketReader.new this sock) []
          (chunks.map RecvResult.bytes) = some (r', seen) ∧
        SocketReader.feed collect fuel (SocketReader.new this sock) []
          [RecvResult.bytes chunks.flatten] = some (r', seen) := by
  have h0f : '\x00' ∉ chunks.flatten := by
    intro h
    obtain ⟨c, hc, hx⟩ := List.mem_flatten.mp h
    exact h0 c hc hx
  have hnf : chunks.flatten ≠ [] := by
    obtain ⟨c, cs, rfl⟩ := List.exists_cons_of_ne_nil hc
    have := hne c (by simp)
    simp [this]
  refine ⟨_, _, SocketReader.feed_collect fuel hfuel chunks hne h0 (SocketReader.new this sock)
    sock rfl rfl [], ?_⟩
  have h1 := SocketReader.feed_collect fuel hfuel [chunks.flatten]
    (by simpa using hnf) (by simpa using h0f) (SocketReader.new this sock) sock rfl rfl []
  simpa using h1

/-- C13 on the chunks `OK\nhel` and `lo\n\n` read by a new reader: the lines
are `OK`, `hello` and the empty line, and no partial line is kept. -/
theorem C13_chunking_invariance_witness :
    1 ≤ 1 ∧ [['O', 'K', '\n', 'h', 'e', 'l'], ['l', 'o', '\n', '\n']] ≠ [] ∧
      (∀ c ∈ [['O', 'K', '\n', 'h', 'e', 'l'], ['l', 'o', '\n', '\n']], c ≠ []) ∧
      (∀ c ∈ [['O', 'K', '\n', 'h', 'e', 'l'], ['l', 'o', '\n', '\n']], '\x00' ∉ c) ∧
      (∃ r' seen,
        SocketReader.feed collect 1 (SocketReader.new 0 ⟨3, true, fun _ => some 3, 0, []⟩) []
            ([['O', 'K', '\n', 'h', 'e', 'l'], ['l', 'o', '\n', '\n']].map RecvResult.bytes) =
              some (r', seen) ∧
          SocketReader.feed collect 1 (SocketReader.new 0 ⟨3, true, fun _ => some 3, 0, []⟩) []
            [RecvResult.bytes [['O', 'K', '\n', 'h', 'e', 'l'], ['l', 'o', '\n', '\n']].flatten] =
              some (r', seen)) ∧
      (SocketReader.feed collect 1 (SocketReader.new 0 ⟨3, true, fun _ => some 3, 0, []⟩) []
          ([['O', 'K', '\n', 'h', 'e', 'l'], ['l', 'o', '\n', '\n']].map RecvResult.bytes)).map
            (fun x => (x.2, x.1._line)) =
        some ([['O', 'K'], ['h', 'e', 'l', 'l', 'o'], []], []) :=
  ⟨by decide, by decide, by decide, by decide,
    C13_chunking_invariance 1 0 ⟨3, true, fun _ => some 3, 0, []⟩
      [['O', 'K', '\n', 'h', 'e', 'l'], ['l', 'o', '\n', '\n']]
      (by decide) (by decide) (by decide) (by decide), rfl⟩

/-! ## What `write` and `check_request` give -/

/-- What `::send` gives: the descriptor and the behaviour of the connection
are kept; either nothing is sent, or a beginning of the buffer is, which is
not empty when there is something to send and the connection does not take
zero bytes. -/
theorem FLSocket.send_spec (sock : FLSocket) (buffer : List Char) (length : Int) :
    (sock.send buffer length).2.fd_ = sock.fd_ ∧
      (sock.send buffer length).2.initialized_ = sock.initialized_ ∧
      (sock.send buffer length).2.accepts = sock.accepts ∧
      (((sock.send buffer length).1 = -1 ∧ (sock.send buffer length).2.sent = sock.sent) ∨
        (0 ≤ (sock.send buffer length).1 ∧ (sock.send buffer length).1 ≤ length ∧
          (sock.send buffer length).2.sent =
            sock.sent ++ buffer.take (sock.send buffer length).1.toNat ∧
          (0 < length → sock.accepts sock.n_send ≠ some 0 →
            0 < (sock.send buffer length).1))) ∧
      (∀ n : Nat, sock.accepts sock.n_send = some n → 0 ≤ length → length ≤ n →
        (sock.send buffer length).1 = length) := by
  cases ha : sock.accepts sock.n_send with
  | none => simp [FLSocket.send, ha]
  | some n =>
    by_cases hl : length < 0
    · have e : sock.send buffer length = (-1, { sock with n_send := sock.n_send + 1 }) := by
        simp [FLSocket.send, ha, hl]
      rw [e]
      refine ⟨rfl, rfl, rfl, Or.inl ⟨rfl, rfl⟩, ?_⟩
      intro m _ h1 _
      omega
    · have e : sock.send buffer length = (min (n : Int) length,
          { sock with n_send := sock.n_send + 1,
                      sent := sock.sent ++ buffer.take (min (n : Int) length).toNat }) := by
        simp [FLSocket.send, ha, hl]
      rw [e]
      refine ⟨rfl, rfl, rfl, Or.inr ⟨le_min (Int.ofNat_nonneg _) (by omega), min_le_right _ _,
        rfl, ?_⟩, ?_⟩
      · intro h1 h2
        have hn : n ≠ 0 := fun e => h2 (by rw [e])
        have : (0 : Int) < n := by omega
        exact lt_min this h1
      · intro m hm _ h2
        simp only [Option.some.injEq] at hm
        subst hm
        exact min_eq_right h2

/-- The method `write` on an open stream socket whose connection never takes
zero bytes returns or throws, after it has sent a beginning of the buffer, all
of it when it returns and when the first `::send` takes it all. -/
theorem FLSocket.write_spec (m : Nat) (sock : FLSocket) (buffer : List Char) (length : Int)
    (hm : length.toNat ≤ m) (hfd : 0 ≤ sock.fd_) (hi : sock.initialized_ = true)
    (hz : ∀ k, sock.accepts k ≠ some 0) :
    ∃ res sock1 p, sock.write buffer length = some (res, sock1) ∧
      sock1.fd_ = sock.fd_ ∧ sock1.initialized_ = true ∧
      sock1.accepts = sock.accepts ∧ sock1.sent = sock.sent ++ p ∧
      p <+: buffer.take length.toNat ∧
      (∀ n : Nat, sock.accepts sock.n_send = some n → 0 ≤ length → length ≤ n →
        p = buffer.take length.toNat) := by
  induction m generalizing sock buffer length with
  | zero =>
    obtain ⟨h1, h2, h3, h4, h5⟩ := sock.send_spec buffer length
    rw [FLSocket.write]
    have hfd' : ¬ sock.fd_ < 0 := by omega
    simp only [hfd', if_false, hi, Bool.true_eq_false]
    rcases h4 with ⟨h4, h4s⟩ | ⟨h4a, h4b, h4s, h4p⟩
    · refine ⟨.error .mk, (sock.send buffer length).2, [], ?_, h1, h2.trans hi, h3, by simp [h4s],
        List.nil_prefix, ?_⟩
      · simp [h4]
      · intro n hn h0 hle
        have := h5 n hn h0 hle
        omega
    · have hl0 : length ≤ 0 := by omega
      have hs0 : (sock.send buffer length).1 = length := by omega
      have ht : length.toNat = 0 := by omega
      have ht1 : (sock.send buffer length).1.toNat = 0 := by omega
      refine ⟨.ok (sock.send buffer length).1, (sock.send buffer length).2, [], ?_, h1, h2.trans hi, h3,
        by simp [h4s, ht1], List.nil_prefix, ?_⟩
      · have hne : ¬ (sock.send buffer length).1 = -1 := by omega
        rw [if_neg hne, if_neg (not_not.mpr hs0)]
      · intro n _ _ _
        simp [ht]
  | succ m ih =>
    obtain ⟨h1, h2, h3, h4, h5⟩ := sock.send_spec buffer length
    rw [FLSocket.write]
    have hfd' : ¬ sock.fd_ < 0 := by omega
    simp only [hfd', if_false, hi, Bool.true_eq_false]
    rcases h4 with ⟨h4, h4s⟩ | ⟨h4a, h4b, h4s, h4p⟩
    · refine ⟨.error .mk, (sock.send buffer length).2, [], ?_, h1, h2.trans hi, h3, by simp [h4s],
        List.nil_prefix, ?_⟩
      · simp [h4]
      · intro n hn h0 hle
        have := h5 n hn h0 hle
        omega
    · have hne : ¬ (sock.send buffer length).1 = -1 := by omega
      by_cases heq : (sock.send buffer length).1 = length
      · refine ⟨.ok (sock.send buffer length).1, (sock.send buffer length).2,
          buffer.take (sock.send buffer length).1.toNat, ?_, h1, h2.trans hi, h3, h4s, ?_, ?_⟩
        · rw [if_neg hne, if_neg (not_not.mpr heq)]
        · rw [heq]
        · intro n _ _ _
          rw [heq]
      · have hpos : 0 < length := by omega
        have hs : 0 < (sock.send buffer length).1 := h4p hpos (hz _)
        have hs0 : ¬ (sock.send buffer length).1 = 0 := by omega
        simp only [hne, if_false, ne_eq, heq, not_false_eq_true, if_true, hs0]
        have hsplit : buffer.take length.toNat =
            buffer.take (sock.send buffer length).1.toNat ++
              (buffer.drop (sock.send buffer length).1.toNat).take
                (length - (sock.send buffer length).1).toNat := by
          have : length.toNat = (sock.send buffer length).1.toNat +
              (length - (sock.send buffer length).1).toNat := by omega
          rw [this, List.take_add]
        by_cases hdiv : Int.tdiv length (sock.send buffer length).1 < 10
        · simp only [hdiv, if_true]
          obtain ⟨res, sock1, p, hw, g1, g2, g3, g4, g5, -⟩ :=
            ih (sock.send buffer length).2 (buffer.drop (sock.send buffer length).1.toNat)
              (length - (sock.send buffer length).1) (by omega) (by rw [h1]; exact hfd)
              (by rw [h2]; exact hi) (by rw [h3]; exact hz)
          refine ⟨match res with
              | .error e => .error e
              | .ok n => .ok ((sock.send buffer length).1 + n), sock1,
            buffer.take (sock.send buffer length).1.toNat ++ p, ?_, g1.trans h1, g2,
            g3.trans h3, ?_, ?_, ?_⟩
          · simp only [hw]
            cases res <;> rfl
          · rw [g4, h4s, List.append_assoc]
          · rw [hsplit]
            exact (List.prefix_append_right_inj _).mpr g5
          · intro n hn h0 hle
            exact absurd (h5 n hn h0 hle) heq
        · simp only [hdiv, if_false]
          refine ⟨.error .mk, (sock.send buffer length).2,
            buffer.take (sock.send buffer length).1.toNat, rfl, h1, h2.trans hi, h3, h4s, ?_, ?_⟩
          · rw [hsplit]
            exact List.prefix_append _ _
          · intro n hn h0 hle
            exact absurd (h5 n hn h0 hle) heq

/-- C28: `receive_report` on a report leaves the engine that `receive_report`
on the entries of the report whose value is an integer leaves, in their order:
the entries whose value is not an integer are skipped wherever they stand, and
the entries after them are processed. -/
theorem C28_malformed_entries_skipped (th : Throttle) (dg : FLDatagram) (t : ℚ) :
    th.receive_report dg t = th.receive_report (dg.filter (fun e => e.2.isSome)) t := by
  induction dg generalizing th with
  | nil => rfl
  | cons e dg ih =>
    obtain ⟨tag, value⟩ := e
    cases value with
    | none =>
      simp only [Throttle.receive_report, List.filter, Option.isSome_none]
      exact ih th
    | some n =>
      simp only [Throttle.receive_report, List.filter, Option.isSome_some]
      cases h : th.external_hit tag n t with
      | none => rfl
      | some th1 => exact ih th1

/-! ## C26 -/

/-- C26: when the switch `never_throttle` reads true, `check_request(tag)` of
the application returns true and leaves the application as it is, the engine
and the clock included, for one tag and for any sequence of tags; and the
switch is read at each call: once it reads false the call goes to the engine,
in the state it had before the switch was on. -/
theorem C26_never_throttle (app : ThrottleApp) (tag : string_t)
    (h : app._never_throttle = true) :
    app.check_request tag = some (true, app) ∧
      (∀ tags : List string_t,
        app.check_requests tags = some (tags.map (fun _ => true), app)) ∧
      ({ app with _never_throttle := false } : ThrottleApp).check_request tag =
        (app._throttle.check_request tag (app.clock app.ticks)).map
          (fun x => (x.1, { app with _never_throttle := false, _throttle := x.2,
                                     ticks := app.ticks + 1 })) := by
  have h1 : ∀ tag', app.check_request tag' = some (true, app) := by
    intro tag'
    simp [ThrottleApp.check_request, h]
  refine ⟨h1 tag, ?_, ?_⟩
  · intro tags
    induction tags with
    | nil => rfl
    | cons tag' tags ih => simp [ThrottleApp.check_requests, h1, ih]
  · simp only [ThrottleApp.check_request, ThrottleApp.now, Bool.false_eq_true, if_false]
    cases app._throttle.check_request tag (app.clock app.ticks) with
    | none => rfl
    | some x => rfl

/-- C26 on an application with the switch on and the engine `Throttle(1, 1)`,
for the tag `a`. -/
theorem C26_never_throttle_witness :
    (⟨Throttle.new 1 1, true, false, [], fun _ => 1, 0⟩ : ThrottleApp)._never_throttle = true ∧
      ((⟨Throttle.new 1 1, true, false, [], fun _ => 1, 0⟩ : ThrottleApp).check_request ['a'] =
          some (true, ⟨Throttle.new 1 1, true, false, [], fun _ => 1, 0⟩) ∧
        (∀ tags : List string_t,
          (⟨Throttle.new 1 1, true, false, [], fun _ => 1, 0⟩ : ThrottleApp).check_requests tags =
            some (tags.map (fun _ => true), ⟨Throttle.new 1 1, true, false, [], fun _ => 1, 0⟩)) ∧
        ({ (⟨Throttle.new 1 1, true, false, [], fun _ => 1, 0⟩ : ThrottleApp) with
            _never_throttle := false } : ThrottleApp).check_request ['a'] =
          ((⟨Throttle.new 1 1, true, false, [], fun _ => 1, 0⟩ : ThrottleApp)._throttle.check_request
              ['a'] ((⟨Throttle.new 1 1, true, false, [], fun _ => 1, 0⟩ : ThrottleApp).clock
                (⟨Throttle.new 1 1, true, false, [], fun _ => 1, 0⟩ : ThrottleApp).ticks)).map
            (fun x => (x.1,
              { (⟨Throttle.new 1 1, true, false, [], fun _ => 1, 0⟩ : ThrottleApp) with
                _never_throttle := false, _throttle := x.2,
                ticks := (⟨Throttle.new 1 1, true, false, [], fun _ => 1, 0⟩ :
                  ThrottleApp).ticks + 1 }))) :=
  ⟨rfl, C26_never_throttle ⟨Throttle.new 1 1, true, false, [], fun _ => 1, 0⟩ ['a'] rfl⟩

/-! ## C27 -/

/-- C27: `OnMessageReceived` hands the datagram of the notification to
`receive_report` of the engine, at the time `now()` returns, when the
notification carries a datagram, is not local, and `radio_silence` reads
false; in every other case it leaves the application, the engine and the clock
included, as it is. -/
theorem C27_inbound_gossip_suppression (app : ThrottleApp) (n : FLNotification) :
    (∀ dg, n.getDatagram = some dg → n.isLocal = false → app._radio_silence = false →
      app.OnMessageReceived n =
        (app._throttle.receive_report dg (app.clock app.ticks)).map
          (fun th => { app with _throttle := th, ticks := app.ticks + 1 })) ∧
      (n.getDatagram = none ∨ n.isLocal = true ∨ app._radio_silence = true →
        app.OnMessageReceived n = some app) := by
  constructor
  · intro dg hd hl hr
    simp only [ThrottleApp.OnMessageReceived, hd, hl, hr, ThrottleApp.now, Bool.not_false,
      Bool.and_self, if_true]
    cases app._throttle.receive_report dg (app.clock app.ticks) with
    | none => rfl
    | some th => rfl
  · intro h
    unfold ThrottleApp.OnMessageReceived
    cases hd : n.getDatagram with
    | none => rfl
    | some dg =>
      rcases h with h | h | h
      · rw [hd] at h; cases h
      · simp [h]
      · simp [h]

/-! ## C24 -/

/-- A lookup returns the decoration under a prefix of the string when no
longer prefix of the string is decorated. -/
theorem trie.find_of_deepest {U : Type} (t : trie U) (p s : string_t) (v : U)
    (hp : p <+: s) (hv : t.deco p = some v)
    (hdeep : ∀ q, q <+: s → p.length < q.length → t.deco q = none) : t.find s = some v := by
  unfold trie.find
  rcases lowest_longest t.deco s (t.deco []) with ⟨q, hq, -, hl, hsome, hmax⟩ | ⟨hl, hnone⟩
  · have h1 : p.length ≤ q.length := hmax p hp (by rw [hv]; rfl)
    have h2 : ¬ p.length < q.length := by
      intro hlt
      rw [hdeep q hq hlt] at hsome
      cases hsome
    have hpq : p <+: q := List.prefix_of_prefix_length_le hp hq h1
    have : p = q := hpq.eq_of_length (by omega)
    rw [hl, ← this, hv]
  · by_cases hne : p = []
    · rw [hl, ← hne, hv]
    · rw [hnone p hp hne] at hv
      cases hv

/-- C24: after `insert(p, v1)`, any inserts, and `insert(p, v2)`, on any trie,
`lookup(p)` returns `v2`. On any engine, after `whitelist(p)` and then
`add_rule(p, params)`, `get_params` returns `params` for every tag of which
`p` is a prefix and no longer prefix carries a rule; after `add_rule(p,
params)` and then `whitelist(p)` it returns the whitelist parameters for these
tags, and `check_request` returns true for them at any time. -/
theorem C24_insert_overwrites {U : Type} (t : trie U) (p : string_t) (v1 v2 : U)
    (others : List (string_t × U)) (th : Throttle) (params : Parameters) :
    ((((t.insert p v1).inserts others).insert p v2).lookup p).1 = some v2 ∧
      (∀ tag, p <+: tag →
        (∀ q, q <+: tag → p.length < q.length → th._rules.deco q = none) →
        (∃ th', ((th.whitelist p).add_rule p params).get_params tag = some (params, th')) ∧
        (∃ th', ((th.add_rule p params).whitelist p).get_params tag =
          some (⟨0, 0, true⟩, th')) ∧
        ∀ time, ∃ th', ((th.add_rule p params).whitelist p).check_request tag time =
          some (true, th')) := by
  constructor
  · rw [trie.lookup_fst]
    apply trie.find_of_deepest _ p p v2 List.prefix_rfl
    · rw [trie.deco_insert, if_pos rfl]
    · intro q hq hlt
      have := hq.length_le
      omega
  · intro tag hp hdeep
    have hne : ∀ q, q <+: tag → p.length < q.length → q ≠ p := by
      intro q _ hlt e
      rw [e] at hlt
      exact lt_irrefl _ hlt
    have h1 : ((th.whitelist p).add_rule p params).params tag = some params := by
      apply trie.find_of_deepest _ p tag params hp
      · simp [Throttle.add_rule, trie.deco_insert]
      · intro q hq hlt
        simp [Throttle.add_rule, Throttle.whitelist, trie.deco_insert, hne q hq hlt,
          hdeep q hq hlt]
    have h2 : ((th.add_rule p params).whitelist p).params tag = some ⟨0, 0, true⟩ := by
      apply trie.find_of_deepest _ p tag _ hp
      · simp [Throttle.whitelist, trie.deco_insert]
      · intro q hq hlt
        simp [Throttle.add_rule, Throttle.whitelist, trie.deco_insert, hne q hq hlt,
          hdeep q hq hlt]
    refine ⟨⟨_, by rw [Throttle.get_params_eq, h1]; rfl⟩,
      ⟨_, by rw [Throttle.get_params_eq, h2]; rfl⟩, fun time => ⟨_,
        Throttle.check_request_whitelisted _ tag time _ h2 rfl⟩⟩

/-! ## C30 -/

/-- C30 (amended): in the accept handler, when `::accept` succeeds, a failure
of `::setsockopt` is logged and an `FLException` is thrown, and the owner is
not called; the new socket, with the accepted descriptor, is handed to the
owner exactly when `::setsockopt` returns zero, and nothing is logged then. -/
theorem C30_accept_receive_buffer {σ : Type} (this : FLSocket) (cbClient_ : FLSocket → σ → σ)
    (accepts : Nat → Option Nat) (newfd rval : Int) (s : σ) (hfd : 0 ≤ newfd) :
    (rval ≠ 0 → this.doAccept_ cbClient_ accepts newfd rval s = (true, .error .mk)) ∧
      (rval = 0 → ∃ newSocket : FLSocket, newSocket.fd_ = newfd ∧
        newSocket.initialized_ = this.initialized_ ∧
        this.doAccept_ cbClient_ accepts newfd rval s = (false, .ok (cbClient_ newSocket s))) := by
  have h : ¬ newfd < 0 := by omega
  constructor
  · intro hr
    simp [FLSocket.doAccept_, h, hr]
  · intro hr
    exact ⟨⟨newfd, this.initialized_, accepts, 0, []⟩, rfl, rfl,
      by simp [FLSocket.doAccept_, h, hr]⟩

/-- C30 on a listening socket with descriptor 3, an owner that keeps the
descriptors it is handed, and the accepted descriptor 5. -/
theorem C30_accept_receive_buffer_witness :
    (0 : Int) ≤ 5 ∧
      (((-1 : Int) ≠ 0 →
        (⟨3, true, fun _ => some 3, 0, []⟩ : FLSocket).doAccept_
          (fun sock (l : List Int) => l ++ [sock.fd_]) (fun _ => some 3) 5 (-1) [] =
            (true, .error .mk)) ∧
      ((-1 : Int) = 0 → ∃ newSocket : FLSocket, newSocket.fd_ = 5 ∧
        newSocket.initialized_ = (⟨3, true, fun _ => some 3, 0, []⟩ : FLSocket).initialized_ ∧
        (⟨3, true, fun _ => some 3, 0, []⟩ : FLSocket).doAccept_
          (fun sock (l : List Int) => l ++ [sock.fd_]) (fun _ => some 3) 5 (-1) [] =
            (false, .ok ((fun sock (l : List Int) => l ++ [sock.fd_]) newSocket [])))) :=
  ⟨by decide, C30_accept_receive_buffer ⟨3, true, fun _ => some 3, 0, []⟩
    (fun sock (l : List Int) => l ++ [sock.fd_]) (fun _ => some 3) 5 (-1) [] (by decide)⟩

/-- C30 as stated fails: `::accept` returns the descriptor 5 and
`::setsockopt` returns `-1`; the handler logs and throws, and the owner, which
would have kept the descriptor, is not called, whereas with `::setsockopt`
returning zero it is. -/
theorem C30_counterexample :
    (⟨3, true, fun _ => some 3, 0, []⟩ : FLSocket).doAccept_
        (fun sock (l : List Int) => l ++ [sock.fd_]) (fun _ => some 3) 5 (-1) [] =
          (true, .error .mk) ∧
      (⟨3, true, fun _ => some 3, 0, []⟩ : FLSocket).doAccept_
        (fun sock (l : List Int) => l ++ [sock.fd_]) (fun _ => some 3) 5 0 [] =
          (false, .ok [5]) := by
  constructor <;> simp [FLSocket.doAccept_]

/-! ## C29 -/

/-- When `write` returns, it returns `length`, and the bytes `::send` has
taken over its calls are the first `length` bytes of the buffer, in order. -/
theorem FLSocket.write_ok (m : Nat) (sock : FLSocket) (buffer : List Char) (length : Int)
    (hm : length.toNat ≤ m) (n : Int) (sock1 : FLSocket)
    (h : sock.write buffer length = some (.ok n, sock1)) :
    n = length ∧ sock1.sent = sock.sent ++ buffer.take length.toNat := by
  induction m generalizing sock buffer length n sock1 with
  | zero =>
    obtain ⟨-, -, -, h4, -⟩ := sock.send_spec buffer length
    rw [FLSocket.write] at h
    by_cases hfd : sock.fd_ < 0
    · simp [hfd] at h
    · cases hi : sock.initialized_ with
      | false => simp [hfd, hi] at h
      | true =>
        simp only [hfd, if_false, hi, Bool.true_eq_false] at h
        by_cases hneg : (sock.send buffer length).1 = -1
        · simp [hneg] at h
        · rcases h4 with ⟨h4, -⟩ | ⟨h4a, h4b, h4s, -⟩
          · exact absurd h4 hneg
          · have hs0 : (sock.send buffer length).1 = length := by omega
            rw [if_neg hneg, if_neg (not_not.mpr hs0)] at h
            simp only [Option.some.injEq, Prod.mk.injEq, Except.ok.injEq] at h
            rw [← h.1, ← h.2, h4s, hs0]
            exact ⟨rfl, rfl⟩
  | succ m ih =>
    obtain ⟨-, -, -, h4, -⟩ := sock.send_spec buffer length
    rw [FLSocket.write] at h
    by_cases hfd : sock.fd_ < 0
    · simp [hfd] at h
    · cases hi : sock.initialized_ with
      | false => simp [hfd, hi] at h
      | true =>
        simp only [hfd, if_false, hi, Bool.true_eq_false] at h
        by_cases hneg : (sock.send buffer length).1 = -1
        · simp [hneg] at h
        · rcases h4 with ⟨h4, -⟩ | ⟨h4a, h4b, h4s, -⟩
          · exact absurd h4 hneg
          · by_cases heq : (sock.send buffer length).1 = length
            · rw [if_neg hneg, if_neg (not_not.mpr heq)] at h
              simp only [Option.some.injEq, Prod.mk.injEq, Except.ok.injEq] at h
              rw [← h.1, ← h.2, h4s, heq]
              exact ⟨rfl, rfl⟩
            · rw [if_neg hneg, if_pos heq] at h
              by_cases hz : (sock.send buffer length).1 = 0
              · simp [hz] at h
              · rw [if_neg hz] at h
                by_cases hdiv : Int.tdiv length (sock.send buffer length).1 < 10
                · rw [if_pos hdiv] at h
                  cases hw : FLSocket.write (sock.send buffer length).2
                      (buffer.drop (sock.send buffer length).1.toNat)
                      (length - (sock.send buffer length).1) with
                  | none => simp [hw] at h
                  | some w =>
                    obtain ⟨res, s⟩ := w
                    cases res with
                    | error e => simp [hw] at h
                    | ok n1 =>
                      simp only [hw, Option.some.injEq, Prod.mk.injEq, Except.ok.injEq] at h
                      obtain ⟨g1, g2⟩ := ih (sock.send buffer length).2 _ _ (by omega) n1 s hw
                      have hsplit : buffer.take length.toNat =
                          buffer.take (sock.send buffer length).1.toNat ++
                            (buffer.drop (sock.send buffer length).1.toNat).take
                              (length - (sock.send buffer length).1).toNat := by
                        have : length.toNat = (sock.send buffer length).1.toNat +
                            (length - (sock.send buffer length).1).toNat := by omega
                        rw [this, List.take_add]
                      refine ⟨by omega, ?_⟩
                      rw [← h.2, g2, h4s, hsplit, List.append_assoc]
                · rw [if_neg hdiv] at h
                  simp at h

/-- C29 fails on the code when a `::send` takes no byte: `write` returns
`length`, with the first `length` bytes of the buffer sent in order, whenever
it returns; but on an open, initialised socket whose `::send` returns 0, the
call `write("OK\n", 3)` sends nothing and ends neither in a return nor in an
`FLException`: `length/bytesSent` divides by zero. -/
theorem C29_write_all_or_throw :
    (∀ (sock : FLSocket) (buffer : List Char) (length n : Int) (sock1 : FLSocket),
      sock.write buffer length = some (.ok n, sock1) →
        n = length ∧ sock1.sent = sock.sent ++ buffer.take length.toNat) ∧
      (⟨3, true, fun _ => some 0, 0, []⟩ : FLSocket).write ['O', 'K', '\n'] 3 = none := by
  refine ⟨fun sock buffer length n sock1 h =>
    FLSocket.write_ok length.toNat sock buffer length le_rfl n sock1 h, ?_⟩
  rw [FLSocket.write]
  simp [FLSocket.send]

/-! ## C22 -/

/-- C22: a call of `OnSocketReadable` on a reader with an open socket and no
line queued, whose owner consumes every line each time it is invoked, invokes
the owner with `lines()` empty if and only if the `read` of the socket threw,
which it does at the end of the stream (zero bytes received) and on an error
of `::recv` other than `EINTR`; the owner is then invoked exactly once, and
the socket of the reader is null. When `read` returns a chunk the socket stays
and the owner is invoked once with the lines the chunk completes, or not at
all when it completes none. -/
theorem C22_eof_signal (fuel : Nat) (r : SocketReader) (sock : FLSocket)
    (calls : List (List string_t)) (got : RecvResult) (hfuel : 1 ≤ fuel)
    (hs : r._socket = some sock) (hl : r._lines = []) :
    ∃ r' new, r.OnSocketReadable observe fuel calls got = some (r', calls ++ new) ∧
      ([] ∈ new ↔ ∃ e, sock.read got = .error e) ∧
      ((∃ e, sock.read got = .error e) ↔ got = .bytes [] ∨ got = .error false) ∧
      ((∃ e, sock.read got = .error e) → new = [[]] ∧ r'._socket = none) ∧
      (∀ chunk, sock.read got = .ok chunk →
        r'._socket = some sock ∧
        new = if (scan_chars chunk ([], r._line)).1 = [] then []
          else [(scan_chars chunk ([], r._line)).1]) := by
  obtain ⟨f, rfl⟩ : ∃ f, fuel = f + 1 := ⟨fuel - 1, by omega⟩
  have hgot : (∃ e, sock.read got = .error e) ↔ got = .bytes [] ∨ got = .error false := by
    cases got with
    | bytes data =>
      cases data with
      | nil =>
        simp only [FLSocket.read, List.length_nil, gt_iff_lt, lt_self_iff_false, if_false, true_or,
          iff_true]
        exact ⟨.mk, trivial⟩
      | cons c cs => simp [FLSocket.read]
    | error eintr =>
      cases eintr with
      | false =>
        simp only [FLSocket.read, Bool.false_eq_true, if_false, or_true, iff_true]
        exact ⟨.mk, trivial⟩
      | true => simp [FLSocket.read]
  cases hr : sock.read got with
  | error e =>
    refine ⟨{ r with _socket := none }, [[]], ?_, ⟨fun _ => ⟨e, rfl⟩, fun _ => by simp⟩,
      by rw [← hgot, hr], fun _ => ⟨rfl, rfl⟩, fun chunk h => by cases h⟩
    simp [SocketReader.OnSocketReadable, hs, hr, hl, notify_lines, observe]
  | ok chunk =>
    have hne : ¬ ∃ e, (Except.ok chunk : Except FLException (List Char)) = .error e := by
      rintro ⟨e, he⟩
      cases he
    cases hsc : (scan_chars chunk ([], r._line)).1 with
    | nil =>
      refine ⟨{ r with _line := (scan_chars chunk ([], r._line)).2 }, [], ?_, by simp,
        by rw [← hgot, hr], fun h => absurd h hne, ?_⟩
      · simp [SocketReader.OnSocketReadable, hs, hr, hl, notify_lines, hsc]
      · intro chunk' h
        simp only [Except.ok.injEq] at h
        subst h
        simp [hs, hsc]
    | cons l ls =>
      refine ⟨{ r with _line := (scan_chars chunk ([], r._line)).2 }, [l :: ls], ?_,
        by simp, by rw [← hgot, hr], fun h => absurd h hne, ?_⟩
      · cases f with
        | zero =>
          simp [SocketReader.OnSocketReadable, hs, hr, hl, notify_lines, hsc, observe]
        | succ f =>
          simp [SocketReader.OnSocketReadable, hs, hr, hl, notify_lines, hsc, observe]
      · intro chunk' h
        simp only [Except.ok.injEq] at h
        subst h
        simp [hs, hsc]

/-- C22 on a new reader at the end of the stream. -/
theorem C22_eof_signal_witness :
    1 ≤ 1 ∧
      (SocketReader.new 0 ⟨3, true, fun _ => some 3, 0, []⟩)._socket =
        some ⟨3, true, fun _ => some 3, 0, []⟩ ∧
      (SocketReader.new 0 ⟨3, true, fun _ => some 3, 0, []⟩)._lines = [] ∧
      ∃ r' new,
        (SocketReader.new 0 ⟨3, true, fun _ => some 3, 0, []⟩).OnSocketReadable observe 1 []
          (.bytes []) = some (r', [] ++ new) ∧
        ([] ∈ new ↔ ∃ e, (⟨3, true, fun _ => some 3, 0, []⟩ : FLSocket).read (.bytes []) =
          .error e) ∧
        ((∃ e, (⟨3, true, fun _ => some 3, 0, []⟩ : FLSocket).read (.bytes []) = .error e) ↔
          RecvResult.bytes [] = .bytes [] ∨ RecvResult.bytes [] = .error false) ∧
        ((∃ e, (⟨3, true, fun _ => some 3, 0, []⟩ : FLSocket).read (.bytes []) = .error e) →
          new = [[]] ∧ r'._socket = none) ∧
        (∀ chunk, (⟨3, true, fun _ => some 3, 0, []⟩ : FLSocket).read (.bytes []) = .ok chunk →
          r'._socket = some ⟨3, true, fun _ => some 3, 0, []⟩ ∧
          new = if (scan_chars chunk
              ([], (SocketReader.new 0 ⟨3, true, fun _ => some 3, 0, []⟩)._line)).1 = [] then []
            else [(scan_chars chunk
              ([], (SocketReader.new 0 ⟨3, true, fun _ => some 3, 0, []⟩)._line)).1]) :=
  ⟨by decide, rfl, rfl,
    C22_eof_signal 1 (SocketReader.new 0 ⟨3, true, fun _ => some 3, 0, []⟩)
      ⟨3, true, fun _ => some 3, 0, []⟩ [] (.bytes []) (by decide) rfl rfl⟩

/-! ## C23 -/

theorem SocketReader.feed_append {σ : Type} (cb : SocketReader → σ → Option (SocketReader × σ))
    (fuel : Nat) (xs ys : List RecvResult) (r : SocketReader) (s : σ) :
    SocketReader.feed cb fuel r s (xs ++ ys) =
      match SocketReader.feed cb fuel r s xs with
      | none => none
      | some (r1, s1) => SocketReader.feed cb fuel r1 s1 ys := by
  induction xs generalizing r s with
  | nil => rfl
  | cons x xs ih =>
    simp only [List.cons_append, SocketReader.feed]
    cases r.OnSocketReadable cb fuel s x with
    | none => rfl
    | some w => exact ih w.1 w.2

/-- The loop over any chunk completes at most one line for each newline of the
chunk. -/
theorem length_scan_chars_le (cs : List Char) (st : List string_t × string_t) :
    (scan_chars cs st).1.length ≤ st.1.length + cs.count '\n' := by
  induction cs generalizing st with
  | nil => simp [scan_chars]
  | cons c cs ih =>
    obtain ⟨lines, line⟩ := st
    by_cases hc : c = '\x00'
    · simp [scan_chars, hc]
    · by_cases hn : c = '\n'
      · subst hn
        simp only [scan_chars, if_neg hc, ne_eq, not_true_eq_false, if_false]
        have := ih (lines ++ [line], [])
        simp only [List.length_append, List.length_singleton] at this
        simp only [List.count_cons_self]
        omega
      · simp only [scan_chars, if_neg hc, ne_eq, hn, not_false_eq_true, if_true]
        have := ih (lines, line ++ [c])
        have hcount : List.count '\n' (c :: cs) = List.count '\n' cs :=
          List.count_cons_of_ne (fun e => hn e.symm) cs
        rw [hcount]
        exact this

/-- Successive calls of `OnSocketReadable` that read chunks of any bytes, with
the owner `collect`: the reader stays open with no line queued, and the owner
sees at most one line for each newline, none of them with a newline in it. -/
theorem SocketReader.feed_collect_any (fuel : Nat) (hfuel : 1 ≤ fuel)
    (chunks : List (List Char)) (hne : ∀ c ∈ chunks, c ≠ []) (r : SocketReader)
    (sock : FLSocket) (hs : r._socket = some sock) (hl : r._lines = [])
    (hline : '\n' ∉ r._line) (seen : List string_t) :
    ∃ r0 new, SocketReader.feed collect fuel r seen (chunks.map RecvResult.bytes) =
        some (r0, seen ++ new) ∧
      r0._socket = some sock ∧ r0._lines = [] ∧ r0.this = r.this ∧ '\n' ∉ r0._line ∧
      new.length ≤ chunks.flatten.count '\n' ∧ ∀ l ∈ new, '\n' ∉ l := by
  induction chunks generalizing r seen with
  | nil => exact ⟨r, [], by simp [SocketReader.feed], hs, hl, rfl, hline, by simp, by simp⟩
  | cons c cs ih =>
    have hfree := newline_free_scan_chars c ([], r._line) (by simp) hline
    obtain ⟨r0, new, h1, h2, h3, h4, h5, h6, h7⟩ :=
      ih (fun c' hc' => hne c' (by simp [hc']))
        { r with _line := (scan_chars c ([], r._line)).2 } hs hl hfree.2
        (seen ++ (scan_chars c ([], r._line)).1)
    refine ⟨r0, (scan_chars c ([], r._line)).1 ++ new, ?_, h2, h3, h4, h5, ?_, ?_⟩
    · simp only [List.map_cons, SocketReader.feed,
        SocketReader.OnSocketReadable_collect fuel hfuel r sock hs hl seen c (hne c (by simp))]
      rw [h1, List.append_assoc]
    · have := length_scan_chars_le c ([], r._line)
      simp only [List.length_nil, zero_add] at this
      simp only [List.length_append, List.flatten_cons, List.count_append]
      omega
    · intro l hl'
      rcases List.mem_append.mp hl' with h | h
      · exact hfree.1 l h
      · exact h7 l h

/-- C23: when chunks of bytes, none of them empty, and then the end of the
stream are read by successive calls of `OnSocketReadable` on a new reader, the
owner is notified at the end of the stream of no line beyond those it had been
notified of before: at most one for each newline, none with a newline in it;
for bytes without NUL these lines, each followed by a newline, and the partial
line the reader holds are the bytes read, so the bytes after the last newline
are in no line. With the application as the owner, the call at the end of the
stream leaves the engine and the clock as they are and writes nothing: the
reader is removed from the table and the partial line goes with it. -/
theorem C23_partial_line_discarded (fuel this : Nat) (sock : FLSocket)
    (chunks : List (List Char)) (hfuel : 1 ≤ fuel) (hne : ∀ c ∈ chunks, c ≠ []) :
    ∃ r0 seen,
      SocketReader.feed collect fuel (SocketReader.new this sock) []
          (chunks.map RecvResult.bytes) = some (r0, seen) ∧
        SocketReader.feed collect fuel (SocketReader.new this sock) []
          (chunks.map RecvResult.bytes ++ [RecvResult.bytes []]) =
            some ({ r0 with _socket := none }, seen) ∧
        seen.length ≤ chunks.flatten.count '\n' ∧ (∀ l ∈ seen, '\n' ∉ l) ∧
        ((∀ c ∈ chunks, '\x00' ∉ c) →
          (seen.map (fun l => l ++ ['\n'])).flatten ++ r0._line = chunks.flatten ∧
            '\n' ∉ r0._line) ∧
        ∀ app : ThrottleApp, this ∈ app._client_readers →
          r0.OnSocketReadable ThrottleApp.OnReadable fuel app (.bytes []) =
            some ({ r0 with _socket := none },
              { app with _client_readers := app._client_readers.erase this }) := by
  obtain ⟨r0, new, h1, h2, h3, h4, h5, h6, h7⟩ :=
    SocketReader.feed_collect_any fuel hfuel chunks hne (SocketReader.new this sock) sock rfl rfl
      (by simp [SocketReader.new]) []
  simp only [List.nil_append] at h1
  have h4' : r0.this = this := h4
  refine ⟨r0, new, h1, ?_, h6, h7, ?_, ?_⟩
  · rw [SocketReader.feed_append, h1]
    obtain ⟨a, b, c, d⟩ := r0
    simp only at h2 h3
    subst h2 h3
    cases fuel <;>
      simp [SocketReader.feed, SocketReader.OnSocketReadable, FLSocket.read, notify_lines, collect]
  · intro h0
    have h0f : '\x00' ∉ chunks.flatten := by
      intro h
      obtain ⟨c, hc, hx⟩ := List.mem_flatten.mp h
      exact h0 c hc hx
    have hx := SocketReader.feed_collect fuel hfuel chunks hne h0 (SocketReader.new this sock)
      sock rfl rfl []
    rw [h1] at hx
    simp only [Option.some.injEq, Prod.mk.injEq, List.nil_append] at hx
    obtain ⟨e1, e2⟩ := hx
    have hfr := framed_scan_chars chunks.flatten ([], []) h0f
    rw [e1, e2]
    refine ⟨?_, ?_⟩
    · simpa [SocketReader.new, framed] using hfr
    · rw [← e1]; exact h5
  · intro app happ
    obtain ⟨a, b, c, d⟩ := r0
    simp only at h2 h3 h4'
    subst h2 h3 h4'
    cases fuel <;>
      simp [SocketReader.OnSocketReadable, FLSocket.read, notify_lines, ThrottleApp.OnReadable,
        happ]

/-- C23 on the chunk `a\nb` and then the end of the stream, read by a new
reader. -/
theorem C23_partial_line_discarded_witness :
    1 ≤ 1 ∧ (∀ c ∈ [['a', '\n', 'b']], c ≠ []) ∧
    ∃ r0 seen,
      SocketReader.feed collect 1 (SocketReader.new 7 ⟨3, true, fun _ => some 3, 0, []⟩) []
          ([['a', '\n', 'b']].map RecvResult.bytes) = some (r0, seen) ∧
        SocketReader.feed collect 1 (SocketReader.new 7 ⟨3, true, fun _ => some 3, 0, []⟩) []
          ([['a', '\n', 'b']].map RecvResult.bytes ++ [RecvResult.bytes []]) =
            some ({ r0 with _socket := none }, seen) ∧
        seen.length ≤ [['a', '\n', 'b']].flatten.count '\n' ∧ (∀ l ∈ seen, '\n' ∉ l) ∧
        ((∀ c ∈ [['a', '\n', 'b']], '\x00' ∉ c) →
          (seen.map (fun l => l ++ ['\n'])).flatten ++ r0._line = [['a', '\n', 'b']].flatten ∧
            '\n' ∉ r0._line) ∧
        ∀ app : ThrottleApp, 7 ∈ app._client_readers →
          r0.OnSocketReadable ThrottleApp.OnReadable 1 app (.bytes []) =
            some ({ r0 with _socket := none },
              { app with _client_readers := app._client_readers.erase 7 }) :=
  ⟨by decide, by decide,
    C23_partial_line_discarded 1 7 ⟨3, true, fun _ => some 3, 0, []⟩ [['a', '\n', 'b']]
      (by decide) (by decide)⟩

/-! ## Membership in the record map -/

theorem mem_of_map_find {K V : Type} [DecidableEq K] (m : List (K × V)) (c : K) (v : V)
    (h : map_find m c = some v) : (c, v) ∈ m := by
  induction m with
  | nil => simp [map_find] at h
  | cons e m ih =>
    obtain ⟨k, w⟩ := e
    by_cases hk : k = c
    · simp only [map_find, hk, if_true, Option.some.injEq] at h
      simp [hk, h]
    · simp only [map_find, hk, if_false] at h
      exact List.mem_cons_of_mem _ (ih h)

theorem mem_map_set {K V : Type} [DecidableEq K] (m : List (K × V)) (c : K) (v : V)
    (e : K × V) (h : e ∈ map_set m c v) : e ∈ m ∨ e = (c, v) := by
  induction m with
  | nil =>
    simp only [map_set, List.mem_singleton] at h
    exact Or.inr h
  | cons x m ih =>
    obtain ⟨k, w⟩ := x
    by_cases hk : k = c
    · simp only [map_set, hk, if_true, List.mem_cons] at h
      rcases h with h | h
      · exact Or.inr h
      · exact Or.inl (List.mem_cons_of_mem _ h)
    · simp only [map_set, hk, if_false, List.mem_cons] at h
      rcases h with h | h
      · exact Or.inl (by simp [h])
      · rcases ih h with h | h
        · exact Or.inl (List.mem_cons_of_mem _ h)
        · exact Or.inr h

/-! ## C38 -/

/-- C38 fails on the code: on an open, initialised stream socket, a `write`
of `length > 0` bytes whose first `::send` returns 0 evaluates
`length/bytesSent` with `bytesSent = 0` and ends neither in a return nor in an
`FLException`; so does `write("NO\n", 3)` when the first `::send` takes one
byte and the second returns 0. When no `::send` returns 0, `write` does end in
a return or an `FLException`. -/
theorem C38_write_divides_by_zero :
    (∀ (sock : FLSocket) (buffer : List Char) (length : Int), 0 ≤ sock.fd_ →
      sock.initialized_ = true → 0 < length → sock.accepts sock.n_send = some 0 →
        sock.write buffer length = none) ∧
      (⟨3, true, fun k => if k = 0 then some 1 else some 0, 0, []⟩ : FLSocket).write
        ['N', 'O', '\n'] 3 = none ∧
      (∀ (sock : FLSocket) (buffer : List Char) (length : Int), 0 ≤ sock.fd_ →
        sock.initialized_ = true → (∀ k, sock.accepts k ≠ some 0) →
          ∃ res sock1, sock.write buffer length = some (res, sock1)) := by
  have hzero : ∀ (sock : FLSocket) (buffer : List Char) (length : Int), 0 ≤ sock.fd_ →
      sock.initialized_ = true → 0 < length → sock.accepts sock.n_send = some 0 →
        sock.write buffer length = none := by
    intro sock buffer length hfd hi hl ha
    have hs : (sock.send buffer length).1 = 0 := by
      have hl' : ¬ length < 0 := by omega
      simp only [FLSocket.send, ha, hl', if_false]
      exact min_eq_left hl.le
    have hfd' : ¬ sock.fd_ < 0 := by omega
    rw [FLSocket.write]
    simp only [hfd', if_false, hi, Bool.true_eq_false, hs]
    have h1 : ¬ ((0 : Int) = -1) := by decide
    have h2 : (0 : Int) ≠ length := by omega
    simp [h1, h2]
  refine ⟨hzero, ?_, ?_⟩
  · rw [FLSocket.write]
    have hs : ((⟨3, true, fun k => if k = 0 then some 1 else some 0, 0, []⟩ : FLSocket).send
        ['N', 'O', '\n'] 3) =
        (1, ⟨3, true, fun k => if k = 0 then some 1 else some 0, 1, ['N']⟩) := by
      simp [FLSocket.send]
    simp only [hs]
    have hrec := hzero ⟨3, true, fun k => if k = 0 then some 1 else some 0, 1, ['N']⟩
      ['O', '\n'] 2 (by decide) rfl (by decide) (by simp)
    have hd : (List.drop (1 : Int).toNat ['N', 'O', '\n']) = ['O', '\n'] := rfl
    have h3 : (3 : Int) - 1 = 2 := by decide
    rw [hd, h3, hrec]
    simp
  · intro sock buffer length hfd hi hz
    obtain ⟨res, sock1, p, hw, -⟩ :=
      FLSocket.write_spec length.toNat sock buffer length le_rfl hfd hi hz
    exact ⟨res, sock1, hw⟩

/-! ## C34 -/

/-- C34: a `lookup(s)` may leave a null edge in the trie, as `lookup("a")`
on the empty trie does, but on every trie it leaves every decoration where it
was, so the result of a later `lookup(s')` and the result of a `lookup(s')`
made after a later `insert(p, v)` are those without it. -/
theorem C34_lookup_pure {U : Type} (t : trie U) (s s' p : string_t) (v : U) :
    ((trie.new : trie U).lookup ['a']).2._root.children = [('a', none)] ∧
      (∀ q, (t.lookup s).2.deco q = t.deco q) ∧
      ((t.lookup s).2.lookup s').1 = (t.lookup s').1 ∧
      (((t.lookup s).2.insert p v).lookup s').1 = ((t.insert p v).lookup s').1 := by
  refine ⟨rfl, trie.deco_lookup t s, ?_, ?_⟩
  · rw [trie.lookup_fst, trie.lookup_fst]
    exact trie.find_congr _ _ (trie.deco_lookup t s) s'
  · rw [trie.lookup_fst, trie.lookup_fst]
    apply trie.find_congr
    intro q
    rw [trie.deco_insert, trie.deco_insert, trie.deco_lookup]

/-! ## C35 -/

/-- The lowest decoration along a string depends on the decorations under the
prefixes of the string alone. -/
theorem lowest_congr_prefix {U : Type} (f g : string_t → Option U) (s : string_t)
    (b : Option U) (h : ∀ q, q <+: s → q ≠ [] → f q = g q) : lowest f s b = lowest g s b := by
  induction s generalizing f g b with
  | nil => rfl
  | cons c cs ih =>
    have h1 : f [c] = g [c] := h [c] (by simp) (by simp)
    simp only [lowest, h1]
    apply ih
    intro q hq _
    exact h (c :: q) (by simpa using hq) (by simp)

theorem trie.find_congr_prefix {U : Type} (t t' : trie U) (s : string_t)
    (h : ∀ q, q <+: s → t.deco q = t'.deco q) : t.find s = t'.find s := by
  unfold trie.find
  rw [h [] List.nil_prefix]
  exact lowest_congr_prefix _ _ s _ (fun q hq _ => h q hq)

/-- C35: when `p` is not a prefix of `s`, `lookup(s)` returns after
`insert(p, v)` what it returned before, on every trie; and on every engine
`get_params` returns for the tag `s` after `add_rule(p, params)` or
`whitelist(p)` the parameters it returned before. -/
theorem C35_insert_frame {U : Type} (t : trie U) (p s : string_t) (v : U) (th : Throttle)
    (params : Parameters) (hp : ¬ p <+: s) :
    ((t.insert p v).lookup s).1 = (t.lookup s).1 ∧
      ((th.add_rule p params).get_params s).map Prod.fst = (th.get_params s).map Prod.fst ∧
      ((th.whitelist p).get_params s).map Prod.fst = (th.get_params s).map Prod.fst := by
  have key : ∀ (U' : Type) (t' : trie U') (v' : U'), (t'.insert p v').find s = t'.find s := by
    intro U' t' v'
    apply trie.find_congr_prefix
    intro q hq
    have hne : q ≠ p := fun e => hp (e ▸ hq)
    rw [trie.deco_insert, if_neg hne]
  refine ⟨?_, ?_, ?_⟩
  · rw [trie.lookup_fst, trie.lookup_fst]
    exact key U t v
  · rw [Throttle.get_params_eq, Throttle.get_params_eq]
    have : (th.add_rule p params).params s = th.params s := key _ th._rules params
    rw [this]
    cases th.params s <;> rfl
  · rw [Throttle.get_params_eq, Throttle.get_params_eq]
    have : (th.whitelist p).params s = th.params s := key _ th._rules _
    rw [this]
    cases th.params s <;> rfl

/-- C35 for the prefix `b` and the string `a`, on the empty trie and on the
engine `Throttle(1, 1)`. -/
theorem C35_insert_frame_witness :
    ¬ (['b'] <+: ['a']) ∧
      ((((trie.new : trie Nat).insert ['b'] 7).lookup ['a']).1 =
          ((trie.new : trie Nat).lookup ['a']).1 ∧
        (((Throttle.new 1 1).add_rule ['b'] ⟨5, 2, false⟩).get_params ['a']).map Prod.fst =
          ((Throttle.new 1 1).get_params ['a']).map Prod.fst ∧
        (((Throttle.new 1 1).whitelist ['b']).get_params ['a']).map Prod.fst =
          ((Throttle.new 1 1).get_params ['a']).map Prod.fst) :=
  ⟨by decide, C35_insert_frame trie.new ['b'] ['a'] 7 (Throttle.new 1 1) ⟨5, 2, false⟩
    (by decide)⟩

/-! ## Refills in exact arithmetic -/

/-- Two refills in a row, at times that do not go back, leave the tokens of
one refill at the later time. -/
theorem usage_record.tokens_at_compose (r : usage_record) (burst : Int) (rate t1 t2 : ℚ)
    (hits : Int) (hl : r._last_update ≠ 0) (hr : 0 ≤ rate) (h12 : t1 ≤ t2) (ht1 : 0 < t1) :
    (⟨r.tokens_at burst rate t1, t1, hits⟩ : usage_record).tokens_at burst rate t2 =
      r.tokens_at burst rate t2 := by
  have ht0 : t1 ≠ 0 := ne_of_gt ht1
  simp only [usage_record.tokens_at, usage_record.refilled, hl, ne_eq, not_false_eq_true,
    if_true, ht0]
  have hx : r._tokens + (t2 - r._last_update) * rate =
      r._tokens + (t1 - r._last_update) * rate + (t2 - t1) * rate := by ring
  have hd : 0 ≤ (t2 - t1) * rate := mul_nonneg (by linarith) hr
  rw [hx]
  rcases le_total (burst : ℚ) (r._tokens + (t1 - r._last_update) * rate) with h | h
  · rw [min_eq_left h, min_eq_left (by linarith), min_eq_left (by linarith)]
  · rw [min_eq_right h]

/-! ## C36 -/

/-- The record `make_report` keeps for a tag is the one `survivor` gives for
the record the map holds for the tag. -/
theorem map_find_survivors_keep (rules : trie Parameters) (t : ℚ) (m : record_map_t)
    (tag : string_t) (r : usage_record) (e' : string_t × usage_record)
    (hf : map_find m tag = some r) (hs : survivor rules t (tag, r) = some e') :
    map_find (m.filterMap (survivor rules t)) tag = some e'.2 := by
  induction m with
  | nil => simp [map_find] at hf
  | cons e m ih =>
    obtain ⟨k, w⟩ := e
    by_cases hk : k = tag
    · subst hk
      simp only [map_find, if_true, Option.some.injEq] at hf
      subst hf
      have hkey := (survivor_key rules t (k, w) e' hs).1
      simp only [List.filterMap_cons, hs]
      obtain ⟨k', w'⟩ := e'
      simp only at hkey
      simp [map_find, hkey]
    · simp only [map_find, hk, if_false] at hf
      simp only [List.filterMap_cons]
      cases hsv : survivor rules t (k, w) with
      | none => exact ih hf
      | some e1 =>
        have hkey := (survivor_key rules t (k, w) e1 hsv).1
        obtain ⟨k1, w1⟩ := e1
        simp only at hkey
        simp only [map_find, hkey, hk, if_false]
        exact ih hf

/-- The engine has its root, the lookup of `tag` gives the parameters of
`whitelist`, and the map holds for `tag` a record with `-count` tokens. -/
theorem Throttle.whitelisted_debt_call (th : Throttle) (tag : string_t) (count : Int)
    (hc : 0 < count) (c : Call) (hroot : th.rooted) (hw : th.params tag = some ⟨0, 0, true⟩)
    (hrec : ∃ r, map_find th._map tag = some r ∧ r._tokens = -(count : ℚ))
    (hs : c.steady) (hpos : 0 < c.time) :
    ∃ a th1, th.call c = some (a, th1) ∧ th1.rooted ∧ th1.params tag = some ⟨0, 0, true⟩ ∧
      ∃ r, map_find th1._map tag = some r ∧ r._tokens = -(count : ℚ) := by
  obtain ⟨r, hf, htok⟩ := hrec
  have hc' : (0 : ℚ) < count := by exact_mod_cast hc
  cases c with
  | check_request tag' t =>
    obtain ⟨p, hp⟩ := Option.isSome_iff_exists.mp (th.params_isSome hroot tag')
    obtain ⟨th1, g1, g2, g3, g4⟩ := th.check_request_admission tag' t p hpos hp
    refine ⟨.bool (admission p (map_find th._map tag') t).1, th1, by simp [Throttle.call, g1],
      Throttle.same_rules_rooted g4 hroot,
      (Throttle.same_rules_params g4 tag).trans hw, r, ?_, htok⟩
    by_cases htag : tag = tag'
    · subst htag
      rw [hw] at hp
      simp only [Option.some.injEq] at hp
      subst hp
      rw [g2, hf]
      simp [admission]
    · rw [g3 tag htag, hf]
  | make_report t =>
    obtain ⟨th1, g1, g2, g3⟩ := th.make_report_spec t hpos hroot
    have hfind : th._rules.find tag = some ⟨0, 0, true⟩ := hw
    have htok' : r.tokens_at 0 0 t = -(count : ℚ) := by
      simp only [usage_record.tokens_at, usage_record.refilled, mul_zero, add_zero, htok,
        Int.cast_zero]
      split
      · exact min_eq_right (by linarith)
      · rfl
    have hsurv : survivor th._rules t (tag, r) = some (tag, ⟨-(count : ℚ), t, 0⟩) := by
      simp only [survivor, hfind, htok', Int.cast_zero]
      rw [if_neg (by linarith)]
    refine ⟨.datagram (report_of th._map), th1, by simp [Throttle.call, g1],
      Throttle.same_rules_rooted g3 hroot,
      (Throttle.same_rules_params g3 tag).trans hw, ⟨-(count : ℚ), t, 0⟩, ?_, rfl⟩
    rw [g2]
    exact map_find_survivors_keep th._rules t th._map tag r _ hf hsurv
  | whitelist q => exact absurd hs (by simp [Call.steady])
  | add_rule q p => exact absurd hs (by simp [Call.steady])
  | receive_report dg t => exact absurd hs (by simp [Call.steady])

/-- C36: for a tag whose lookup gives the parameters installed by `whitelist`
and which has no record, `receive_report` of a report that has for the tag
the one entry `count > 0`, at any time `t`, creates the record of the tag with
`-count` tokens; and every later sequence of `check_request` and `make_report`
calls at positive times returns and leaves a record of the tag with `-count`
tokens in the map: `make_report` never removes it. -/
theorem C36_whitelisted_peer_record (th : Throttle) (tag : string_t) (count : Int) (t : ℚ)
    (dg1 dg2 : FLDatagram) (cs : List Call) (hroot : th.rooted)
    (hw : th.params tag = some ⟨0, 0, true⟩) (hnone : map_find th._map tag = none)
    (hc : 0 < count) (h1 : ∀ n, (tag, some n) ∉ dg1) (h2 : ∀ n, (tag, some n) ∉ dg2)
    (hs : ∀ c ∈ cs, c.steady) (hpos : ∀ c ∈ cs, 0 < c.time) :
    ∃ th1, th.receive_report (dg1 ++ (tag, some count) :: dg2) t = some th1 ∧
      map_find th1._map tag = some ⟨-(count : ℚ), t, 0⟩ ∧
      ∃ as th2, th1.calls cs = some (as, th2) ∧
        ∃ r, map_find th2._map tag = some r ∧ r._tokens = -(count : ℚ) := by
  obtain ⟨th1, g1, g2, g3⟩ := Throttle.receive_report_spec (dg1 ++ (tag, some count) :: dg2) t th
    hroot
  have hfind : th._rules.find tag = some ⟨0, 0, true⟩ := hw
  have hrec : map_find th1._map tag = some ⟨-(count : ℚ), t, 0⟩ := by
    rw [g2, List.foldl_append, List.foldl_cons, map_find_debit_frame _ _ _ _ _ h2]
    have hm1 : map_find (List.foldl (debit th._rules t) th._map dg1) tag = none := by
      rw [map_find_debit_frame _ _ _ _ _ h1, hnone]
    simp only [debit, hfind, hm1, Option.getD_none, map_find_set, if_true]
    simp [usage_record.record_external_hits, usage_record.new]
  refine ⟨th1, g1, hrec, ?_⟩
  have hroot1 : th1.rooted := Throttle.same_rules_rooted g3 hroot
  have hw1 : th1.params tag = some ⟨0, 0, true⟩ := (Throttle.same_rules_params g3 tag).trans hw
  have hex : ∃ r, map_find th1._map tag = some r ∧ r._tokens = -(count : ℚ) := ⟨_, hrec, rfl⟩
  clear hrec g1 g2 g3 hnone hw hroot hfind
  induction cs generalizing th1 with
  | nil => exact ⟨[], th1, rfl, hex⟩
  | cons c cs ih =>
    obtain ⟨a, th2, k1, k2, k3, k4⟩ := Throttle.whitelisted_debt_call th1 tag count hc c hroot1
      hw1 hex (hs c (by simp)) (hpos c (by simp))
    obtain ⟨as, th3, k5, k6⟩ := ih (fun c' hc' => hs c' (by simp [hc']))
      (fun c' hc' => hpos c' (by simp [hc'])) th2 k2 k3 k4
    exact ⟨a :: as, th3, by simp [Throttle.calls, k1, k5], k6⟩

/-- C36 on `Throttle(1, 1)` after `whitelist("w")`, for a report with the
entry `w: 2` received at time 1, followed by a `check_request` on `w` at 2 and
a `make_report` at 3. -/
theorem C36_whitelisted_peer_record_witness :
    ((Throttle.new 1 1).whitelist ['w']).rooted ∧
      ((Throttle.new 1 1).whitelist ['w']).params ['w'] = some ⟨0, 0, true⟩ ∧
      map_find ((Throttle.new 1 1).whitelist ['w'])._map ['w'] = none ∧ (0 : Int) < 2 ∧
      (∀ n, ((['w'] : string_t), some n) ∉ ([] : FLDatagram)) ∧
      (∀ n, ((['w'] : string_t), some n) ∉ ([] : FLDatagram)) ∧
      (∀ c ∈ [Call.check_request ['w'] 2, Call.make_report 3], c.steady) ∧
      (∀ c ∈ [Call.check_request ['w'] 2, Call.make_report 3], 0 < c.time) ∧
      ∃ th1, ((Throttle.new 1 1).whitelist ['w']).receive_report
          ([] ++ ((['w'] : string_t), some (2 : Int)) :: []) 1 = some th1 ∧
        map_find th1._map ['w'] = some ⟨-((2 : Int) : ℚ), 1, 0⟩ ∧
        ∃ as th2, th1.calls [Call.check_request ['w'] 2, Call.make_report 3] = some (as, th2) ∧
          ∃ r, map_find th2._map ['w'] = some r ∧ r._tokens = -((2 : Int) : ℚ) :=
  ⟨rfl, rfl, rfl, by decide, by simp, by simp, by simp [Call.steady], by simp [Call.time],
    C36_whitelisted_peer_record ((Throttle.new 1 1).whitelist ['w']) ['w'] 2 1 [] []
      [Call.check_request ['w'] 2, Call.make_report 3] rfl rfl rfl (by decide) (by simp)
      (by simp) (by simp [Call.steady]) (by simp [Call.time])⟩

/-! ## C37 -/

/-- A `check_request` at a positive time on an engine with its root returns
and keeps the root and the keys of the map distinct. -/
theorem Throttle.check_request_keeps (th : Throttle) (tag : string_t) (t : ℚ) (ht : 0 < t)
    (hroot : th.rooted) (hnd : (keys th._map).Nodup) :
    ∃ b th', th.check_request tag t = some (b, th') ∧ th'.rooted ∧ (keys th'._map).Nodup := by
  obtain ⟨p, hp⟩ := Option.isSome_iff_exists.mp (th.params_isSome hroot tag)
  by_cases hw : p.whitelisted = true
  · exact ⟨true, th.probe tag, th.check_request_whitelisted tag t p hp hw,
      Throttle.same_rules_rooted (th.same_rules_probe tag) hroot, hnd⟩
  · have hw' : p.whitelisted = false := by simpa using hw
    have hcr := usage_record.check_request_pos (th.record tag p t) p.burst p.rate t ht
    by_cases hx : 0 < (th.record tag p t).tokens_at p.burst p.rate t
    · rw [if_pos hx] at hcr
      obtain ⟨th1, h1, hm, hs⟩ := th.check_request_spec tag t p hp hw' _ _ hcr
      exact ⟨true, th1, h1, Throttle.same_rules_rooted hs hroot, by
        rw [hm]; exact keys_nodup_map_set _ _ _ hnd⟩
    · rw [if_neg hx] at hcr
      obtain ⟨th1, h1, hm, hs⟩ := th.check_request_spec tag t p hp hw' _ _ hcr
      exact ⟨false, th1, h1, Throttle.same_rules_rooted hs hroot, by
        rw [hm]; exact keys_nodup_map_set _ _ _ hnd⟩

/-- Calls of `check_request` of the application under a positive clock
return, and keep the clock, the switch `radio_silence`, the root of the rules
and the keys of the map distinct. -/
theorem ThrottleApp.check_requests_keeps (tags : List string_t) (app : ThrottleApp)
    (hclock : ∀ k, 0 < app.clock k) (hroot : app._throttle.rooted)
    (hnd : (keys app._throttle._map).Nodup) :
    ∃ bs app1, app.check_requests tags = some (bs, app1) ∧ app1.clock = app.clock ∧
      app1._radio_silence = app._radio_silence ∧ app1._throttle.rooted ∧
      (keys app1._throttle._map).Nodup := by
  induction tags generalizing app with
  | nil => exact ⟨[], app, rfl, rfl, rfl, hroot, hnd⟩
  | cons tag tags ih =>
    have hstep : ∃ b app1, app.check_request tag = some (b, app1) ∧ app1.clock = app.clock ∧
        app1._radio_silence = app._radio_silence ∧ app1._throttle.rooted ∧
        (keys app1._throttle._map).Nodup := by
      by_cases hn : app._never_throttle = true
      · exact ⟨true, app, by simp [ThrottleApp.check_request, hn], rfl, rfl, hroot, hnd⟩
      · obtain ⟨b, th', h1, h2, h3⟩ :=
          app._throttle.check_request_keeps tag (app.clock app.ticks) (hclock _) hroot hnd
        exact ⟨b, ⟨th', app._never_throttle, app._radio_silence, app._client_readers, app.clock,
          app.ticks + 1⟩, by simp [ThrottleApp.check_request, hn, ThrottleApp.now, h1], rfl,
          rfl, h2, h3⟩
    obtain ⟨b, app1, g1, g2, g3, g4, g5⟩ := hstep
    obtain ⟨bs, app2, k1, k2, k3, k4, k5⟩ := ih app1 (by rw [g2]; exact hclock) g4 g5
    exact ⟨b :: bs, app2, by simp [ThrottleApp.check_requests, g1, k1], k2.trans g2,
      k3.trans g3, k4, k5⟩

/-- C37: with `radio_silence` on, after any requests, `OnTimer` calls
`make_report` and publishes nothing, and the engine it leaves holds no
unreported hit for any tag. So a tick made right after `radio_silence` is
turned off publishes an empty report, and after any later calls on the engine
the unreported hits of a tag, which are what the next report holds for it,
count the admissions since the last `make_report` among these calls, from
zero: those made before the silent tick are in no report. -/
theorem C37_radio_silence_hits_lost (app : ThrottleApp) (tags : List string_t)
    (hsil : app._radio_silence = true) (hclock : ∀ k, 0 < app.clock k)
    (hroot : app._throttle.rooted) (hnd : (keys app._throttle._map).Nodup) :
    ∃ bs app1 app2, app.check_requests tags = some (bs, app1) ∧
      app1.OnTimer = some (none, app2) ∧
      (∀ tag, app2._throttle.hits_of tag = 0) ∧
      (∃ app3, ({ app2 with _radio_silence := false } : ThrottleApp).OnTimer =
        some (some [], app3)) ∧
      ∀ cs : List Call, (∀ c ∈ cs, c.timed) →
        ∃ as th', app2._throttle.calls cs = some (as, th') ∧
          ∀ tag, th'.hits_of tag = Throttle.admitted_since_report tag app2._throttle cs 0 := by
  obtain ⟨bs, app1, g1, g2, g3, g4, g5⟩ := ThrottleApp.check_requests_keeps tags app hclock
    hroot hnd
  have hclock1 : ∀ k, 0 < app1.clock k := by rw [g2]; exact hclock
  obtain ⟨th2, k1, k2, k3⟩ := app1._throttle.make_report_spec (app1.clock app1.ticks)
    (hclock1 _) g4
  have hroot2 : th2.rooted := Throttle.same_rules_rooted k3 g4
  have hnd2 : (keys th2._map).Nodup := by rw [k2]; exact keys_nodup_survivors _ _ _ g5
  have hhits : ∀ tag, th2.hits_of tag = 0 := by
    intro tag
    unfold Throttle.hits_of
    rw [k2]
    exact map_hits_survivors _ _ _ tag
  obtain ⟨th3, m1, -, -⟩ := th2.make_report_spec (app1.clock (app1.ticks + 1)) (hclock1 _) hroot2
  have hempty : report_of th2._map = [] := by rw [k2]; exact report_of_survivors _ _ _
  rw [hempty] at m1
  refine ⟨bs, app1, ⟨th2, app1._never_throttle, app1._radio_silence, app1._client_readers,
    app1.clock, app1.ticks + 1⟩, g1, ?_, hhits, ⟨⟨th3, app1._never_throttle, false,
      app1._client_readers, app1.clock, app1.ticks + 1 + 1⟩, ?_⟩, ?_⟩
  · simp [ThrottleApp.OnTimer, ThrottleApp.now, k1, g3, hsil]
  · simp [ThrottleApp.OnTimer, ThrottleApp.now, m1]
  · intro cs hcs
    obtain ⟨as, th', c1, -, -, -⟩ := Throttle.calls_hits [] cs th2 0 hroot2 hnd2
      (by simpa using hhits []) hcs
    refine ⟨as, th', c1, fun tag => ?_⟩
    obtain ⟨as', th'', c2, -, -, c3⟩ := Throttle.calls_hits tag cs th2 0 hroot2 hnd2
      (by simpa using hhits tag) hcs
    have hc1 : th2.calls cs = some (as, th') := c1
    rw [hc1] at c2
    simp only [Option.some.injEq, Prod.mk.injEq] at c2
    rw [c2.2]
    exact c3

/-- C37 on an application with `radio_silence` on, the engine `Throttle(1,
1)` and a clock that stands at 1, for two requests on the tag `a`. -/
theorem C37_radio_silence_hits_lost_witness :
    (⟨Throttle.new 1 1, false, true, [], fun _ => 1, 0⟩ : ThrottleApp)._radio_silence = true ∧
      (∀ k, 0 < (⟨Throttle.new 1 1, false, true, [], fun _ => 1, 0⟩ : ThrottleApp).clock k) ∧
      (⟨Throttle.new 1 1, false, true, [], fun _ => 1, 0⟩ : ThrottleApp)._throttle.rooted ∧
      (keys (⟨Throttle.new 1 1, false, true, [], fun _ => 1, 0⟩ :
        ThrottleApp)._throttle._map).Nodup ∧
      ∃ bs app1 app2,
        (⟨Throttle.new 1 1, false, true, [], fun _ => 1, 0⟩ : ThrottleApp).check_requests
          [['a'], ['a']] = some (bs, app1) ∧
        app1.OnTimer = some (none, app2) ∧
        (∀ tag, app2._throttle.hits_of tag = 0) ∧
        (∃ app3, ({ app2 with _radio_silence := false } : ThrottleApp).OnTimer =
          some (some [], app3)) ∧
        ∀ cs : List Call, (∀ c ∈ cs, c.timed) →
          ∃ as th', app2._throttle.calls cs = some (as, th') ∧
            ∀ tag, th'.hits_of tag = Throttle.admitted_since_report tag app2._throttle cs 0 :=
  ⟨rfl, fun _ => by norm_num, Throttle.new_rooted 1 1, by simp [keys, Throttle.new],
    C37_radio_silence_hits_lost ⟨Throttle.new 1 1, false, true, [], fun _ => 1, 0⟩
      [['a'], ['a']] rfl (fun _ => by norm_num) (Throttle.new_rooted 1 1)
      (by simp [keys, Throttle.new])⟩

/-! ## C31 -/

theorem refreshed_congr (rules rules' : trie Parameters) (h : ∀ q, rules'.deco q = rules.deco q)
    (t : ℚ) : refreshed rules' t = refreshed rules t := by
  funext e
  simp only [refreshed, trie.find_congr rules' rules h]

theorem refreshed_key (rules : trie Parameters) (t : ℚ) (e : string_t × usage_record) :
    (refreshed rules t e).1 = e.1 := by
  unfold refreshed
  cases rules.find e.1 <;> rfl

/-- The loop of the variant at a time `t > 0` with a decorated root: the
report holds the unreported hits, every record stays, refilled, and the rules
keep their decorations. -/
theorem make_report_loop_keep_spec (t : ℚ) (ht : 0 < t) (m : record_map_t)
    (rules : trie Parameters) (hroot : (rules.deco []).isSome) :
    ∃ rules', make_report_loop_keep t m rules =
        some (report_of m, m.map (refreshed rules t), rules') ∧
      ∀ q, rules'.deco q = rules.deco q := by
  induction m generalizing rules with
  | nil => exact ⟨rules, rfl, fun _ => rfl⟩
  | cons e m ih =>
    obtain ⟨tag, r⟩ := e
    obtain ⟨p, hp⟩ := Option.isSome_iff_exists.mp (lowest_isSome rules.deco tag _ hroot)
    have hp' : rules.find tag = some p := hp
    have hl1 : (rules.lookup tag).1 = some p := by rw [trie.lookup_fst]; exact hp'
    have hd : ∀ q, (rules.lookup tag).2.deco q = rules.deco q := trie.deco_lookup rules tag
    obtain ⟨rules', hrun, hdeco⟩ := ih (rules.lookup tag).2 (by rw [hd]; exact hroot)
    refine ⟨rules', ?_, fun q => (hdeco q).trans (hd q)⟩
    have hlk : rules.lookup tag = (some p, (rules.lookup tag).2) := by
      rw [← hl1]
    have hg : r.reset_unreported_hits.get_tokens p.burst p.rate t =
        some (r.tokens_at p.burst p.rate t, ⟨r.tokens_at p.burst p.rate t, t, 0⟩) :=
      usage_record.get_tokens_pos r.reset_unreported_hits p.burst p.rate t ht
    rw [make_report_loop_keep]
    rw [hlk]
    simp only [hg, hrun, refreshed_congr _ _ hd]
    by_cases hh : r._unreported_hits > 0 <;>
      simp [report_of, List.filterMap_cons, refreshed, hp', hh,
        usage_record.get_unreported_hits]

theorem Throttle.make_report_keep_spec (th : Throttle) (t : ℚ) (ht : 0 < t)
    (hroot : th.rooted) :
    ∃ th', th.make_report_keep t = some (report_of th._map, th') ∧
      th'._map = th._map.map (refreshed th._rules t) ∧ th.same_rules th' := by
  obtain ⟨rules', hrun, hdeco⟩ := make_report_loop_keep_spec t ht th._map th._rules hroot
  exact ⟨⟨th._map.map (refreshed th._rules t), rules'⟩,
    by simp [Throttle.make_report_keep, hrun], rfl, hdeco⟩

theorem keys_refreshed (rules : trie Parameters) (t : ℚ) (m : record_map_t) :
    keys (m.map (refreshed rules t)) = keys m := by
  induction m with
  | nil => rfl
  | cons e m ih =>
    simp only [keys, List.map_cons, refreshed_key] at ih ⊢
    rw [ih]

theorem map_find_refreshed (rules : trie Parameters) (t : ℚ) (m : record_map_t)
    (tag : string_t) :
    map_find (m.map (refreshed rules t)) tag =
      (map_find m tag).map (fun r => (refreshed rules t (tag, r)).2) := by
  induction m with
  | nil => rfl
  | cons e m ih =>
    obtain ⟨k, w⟩ := e
    have hpair : refreshed rules t (k, w) = (k, (refreshed rules t (k, w)).2) :=
      Prod.ext (refreshed_key rules t (k, w)) rfl
    rw [List.map_cons, hpair]
    by_cases h : k = tag
    · subst h
      simp only [map_find, if_true, Option.map_some']
    · simp only [map_find, h, if_false]
      exact ih

theorem Throttle.reclaimed_check_request (A B : Throttle) (T : ℚ) (tag : string_t) (t : ℚ)
    (h : A.reclaimed B T) (ht : 0 < t) (hT : T ≤ t) :
    ∃ b A' B', A.check_request tag t = some (b, A') ∧ B.check_request tag t = some (b, B') ∧
      A'.reclaimed B' t := by
  obtain ⟨hroot, hdeco, hrate, hndA, hndB, hrel⟩ := h
  have hrootB : B.rooted := by rw [Throttle.rooted_iff, hdeco]; exact hroot
  obtain ⟨p, hp⟩ := Option.isSome_iff_exists.mp (A.params_isSome hroot tag)
  have hpB : B.params tag = some p := (Throttle.params_congr A B hdeco tag).trans hp
  obtain ⟨A', a1, a2, a3, a4⟩ := A.check_request_admission tag t p ht hp
  obtain ⟨B', b1, b2, b3, b4⟩ := B.check_request_admission tag t p ht hpB
  have hndA' : (keys A'._map).Nodup := by
    obtain ⟨bA, A'', c1, -, c3⟩ := A.check_request_keeps tag t ht hroot hndA
    rw [a1] at c1
    simp only [Option.some.injEq, Prod.mk.injEq] at c1
    rw [c1.2]; exact c3
  have hndB' : (keys B'._map).Nodup := by
    obtain ⟨bB, B'', c1, -, c3⟩ := B.check_request_keeps tag t ht hrootB hndB
    rw [b1] at c1
    simp only [Option.some.injEq, Prod.mk.injEq] at c1
    rw [c1.2]; exact c3
  have hparams : ∀ tag', A'.params tag' = A.params tag' := Throttle.same_rules_params a4
  have hkey : (admission p (map_find A._map tag) t).1 = (admission p (map_find B._map tag) t).1 ∧
      (map_find A'._map tag = map_find B'._map tag ∨
        (map_find A'._map tag = none ∧ ∃ r p', map_find B'._map tag = some r ∧
          A'.params tag = some p' ∧ r._unreported_hits = 0 ∧ r._last_update ≠ 0 ∧
          r._last_update ≤ t ∧ (p'.burst : ℚ) ≤ r._tokens)) := by
    rcases hrel tag with heq | ⟨hnone, r, p', hB, hp', hh, hl, hle, hfull⟩
    · rw [heq]
      exact ⟨rfl, Or.inl (by rw [a2, b2, heq])⟩
    · rw [hp] at hp'
      simp only [Option.some.injEq] at hp'
      subst hp'
      by_cases hw : p.whitelisted = true
      · have e1 : admission p (map_find A._map tag) t = (true, map_find A._map tag) := by
          simp [admission, hw]
        have e2 : admission p (map_find B._map tag) t = (true, map_find B._map tag) := by
          simp [admission, hw]
        refine ⟨by rw [e1, e2], Or.inr ⟨by rw [a2, e1, hnone], r, p, by rw [b2, e2, hB],
          (hparams tag).trans hp, hh, hl, hle.trans hT, hfull⟩⟩
      · have hr0 : 0 ≤ p.rate := hrate tag p hp
        have ht0 : t ≠ 0 := ne_of_gt ht
        have hd : 0 ≤ (t - r._last_update) * p.rate := mul_nonneg (by linarith) hr0
        have t1 : (usage_record.new p.burst t).tokens_at p.burst p.rate t = p.burst := by
          simp [usage_record.tokens_at, usage_record.refilled, usage_record.new, ht0]
        have t2 : r.tokens_at p.burst p.rate t = p.burst := by
          simp only [usage_record.tokens_at, usage_record.refilled, hl, ne_eq,
            not_false_eq_true, if_true]
          exact min_eq_left (by linarith)
        have e : admission p (map_find A._map tag) t = admission p (map_find B._map tag) t := by
          rw [hnone, hB]
          simp only [admission, hw, Bool.false_eq_true, if_false, Option.getD_none,
            Option.getD_some, t1, t2, hh]
          simp [usage_record.new]
        exact ⟨by rw [e], Or.inl (by rw [a2, b2, e])⟩
  refine ⟨_, A', B', a1, by rw [hkey.1]; exact b1, Throttle.same_rules_rooted a4 hroot, ?_, ?_,
    hndA', hndB', ?_⟩
  · intro q
    rw [b4 q, a4 q, hdeco q]
  · intro tag' p' hp'
    rw [hparams tag'] at hp'
    exact hrate tag' p' hp'
  · intro tag'
    by_cases htag : tag' = tag
    · rw [htag]
      exact hkey.2
    · rw [a3 tag' htag, b3 tag' htag]
      rcases hrel tag' with heq | ⟨hnone, r, p', hB, hp', hh, hl, hle, hfull⟩
      · exact Or.inl heq
      · exact Or.inr ⟨hnone, r, p', hB, (hparams tag').trans hp', hh, hl, hle.trans hT, hfull⟩

theorem Throttle.reclaimed_make_report (A B : Throttle) (T t : ℚ) (h : A.reclaimed B T)
    (ht : 0 < t) (hT : T ≤ t) :
    ∃ dg dg' A' B', A.make_report t = some (dg, A') ∧ B.make_report_keep t = some (dg', B') ∧
      (∀ tag, map_find dg tag = map_find dg' tag) ∧ A'.reclaimed B' t := by
  obtain ⟨hroot, hdeco, hrate, hndA, hndB, hrel⟩ := h
  have hrootB : B.rooted := by rw [Throttle.rooted_iff, hdeco]; exact hroot
  obtain ⟨A', a1, a2, a3⟩ := A.make_report_spec t ht hroot
  obtain ⟨B', b1, b2, b3⟩ := B.make_report_keep_spec t ht hrootB
  have hparams : ∀ tag', A'.params tag' = A.params tag' := Throttle.same_rules_params a3
  have hhits : ∀ tag, map_hits A._map tag = map_hits B._map tag := by
    intro tag
    rcases hrel tag with heq | ⟨hnone, r, p', hB, hp', hh, hl, hle, hfull⟩
    · simp only [map_hits, heq]
    · simp only [map_hits, hnone, hB, hh]
  refine ⟨_, _, A', B', a1, b1, ?_, Throttle.same_rules_rooted a3 hroot, ?_, ?_, ?_, ?_, ?_⟩
  · intro tag
    rw [map_find_report_of _ hndA, map_find_report_of _ hndB, hhits]
  · intro q
    rw [b3 q, a3 q, hdeco q]
  · intro tag' p' hp'
    rw [hparams tag'] at hp'
    exact hrate tag' p' hp'
  · rw [a2]; exact keys_nodup_survivors _ _ _ hndA
  · rw [b2, keys_refreshed]; exact hndB
  · intro tag
    obtain ⟨p, hp⟩ := Option.isSome_iff_exists.mp (A.params_isSome hroot tag)
    have hfind : A._rules.find tag = some p := hp
    have hr0 : 0 ≤ p.rate := hrate tag p hp
    have ht0 : t ≠ 0 := ne_of_gt ht
    rw [a2, b2, map_find_survivors _ _ _ hndA, map_find_refreshed,
      refreshed_congr A._rules B._rules hdeco]
    have hfullB : ∀ r : usage_record, r._last_update ≠ 0 → r._last_update ≤ t →
        (p.burst : ℚ) ≤ r._tokens → (p.burst : ℚ) ≤ r.tokens_at p.burst p.rate t := by
      intro r hl hle hfull
      have hd : 0 ≤ (t - r._last_update) * p.rate := mul_nonneg (by linarith) hr0
      simp only [usage_record.tokens_at, usage_record.refilled, hl, ne_eq, not_false_eq_true,
        if_true]
      exact le_min le_rfl (by linarith)
    rcases hrel tag with heq | ⟨hnone, r, p', hB, hp', hh, hl, hle, hfull⟩
    · rw [heq]
      cases hB : map_find B._map tag with
      | none => exact Or.inl rfl
      | some r =>
        by_cases hfull : r.tokens_at p.burst p.rate t ≥ p.burst
        · refine Or.inr ⟨by simp [survivor, hfind, hfull], _, p, rfl, (hparams tag).trans hp,
            ?_, ?_, ?_, ?_⟩ <;> simp [refreshed, hfind, ht0]
          exact hfull
        · exact Or.inl (by simp [survivor, refreshed, hfind, hfull])
    · rw [hp] at hp'
      simp only [Option.some.injEq] at hp'
      subst hp'
      rw [hnone, hB]
      refine Or.inr ⟨rfl, _, p, rfl, (hparams tag).trans hp, ?_, ?_, ?_, ?_⟩ <;>
        simp [refreshed, hfind, ht0]
      exact hfullB r hl (hle.trans hT) hfull

theorem Throttle.reclaimed_calls (cs : List Call) (A B : Throttle) (T : ℚ)
    (h : A.reclaimed B T) (hs : ∀ c ∈ cs, c.steady) (hT : ∀ c ∈ cs, T ≤ c.time)
    (hpos : ∀ c ∈ cs, 0 < c.time)
    (hmono : (cs.map Call.time).Pairwise (fun a b => a ≤ b)) :
    ∃ as as' A' B', A.calls cs = some (as, A') ∧ B.calls_keep cs = some (as', B') ∧
      List.Forall₂ Answer.agrees as as' := by
  induction cs generalizing A B T with
  | nil => exact ⟨[], [], A, B, rfl, rfl, List.Forall₂.nil⟩
  | cons c cs ih =>
    simp only [List.map_cons, List.pairwise_cons, List.mem_map, forall_exists_index, and_imp,
      forall_apply_eq_imp_iff₂] at hmono
    have hstep : ∃ a a' A1 B1, A.call c = some (a, A1) ∧ B.call_keep c = some (a', B1) ∧
        a.agrees a' ∧ A1.reclaimed B1 c.time := by
      have hsc := hs c (by simp)
      have hp := hpos c (by simp)
      have hTc := hT c (by simp)
      cases c with
      | check_request tag t =>
        obtain ⟨b, A1, B1, g1, g2, g3⟩ := A.reclaimed_check_request B T tag t h hp hTc
        exact ⟨.bool b, .bool b, A1, B1, by simp [Throttle.call, g1],
          by simp [Throttle.call_keep, Throttle.call, g2], rfl, g3⟩
      | make_report t =>
        obtain ⟨dg, dg', A1, B1, g1, g2, g3, g4⟩ := A.reclaimed_make_report B T t h hp hTc
        exact ⟨.datagram dg, .datagram dg', A1, B1, by simp [Throttle.call, g1],
          by simp [Throttle.call_keep, g2], g3, g4⟩
      | whitelist q => exact absurd hsc (by simp [Call.steady])
      | add_rule q p => exact absurd hsc (by simp [Call.steady])
      | receive_report dg t => exact absurd hsc (by simp [Call.steady])
    obtain ⟨a, a', A1, B1, g1, g2, g3, g4⟩ := hstep
    obtain ⟨as, as', A', B', k1, k2, k3⟩ := ih A1 B1 c.time g4
      (fun c' hc' => hs c' (by simp [hc'])) (fun c' hc' => hmono.1 c' hc')
      (fun c' hc' => hpos c' (by simp [hc'])) hmono.2
    exact ⟨a :: as, a' :: as', A', B', by simp [Throttle.calls, g1, k1],
      by simp [Throttle.calls_keep, g2, k2], List.Forall₂.cons g3 k3⟩

/-- C31 (amended): from every engine state with rates that are not negative,
for `t > 0`, `make_report(t)` followed by any sequence of `check_request` and
`make_report` calls at times that do not decrease from `t` on returns, on the
engine as implemented and on the engine whose `make_report` never erases a
record, the same admission answers and reports that hold the same entry for
every tag. -/
theorem C31_reclaim_unobservable (th : Throttle) (t : ℚ) (rest : List Call)
    (hroot : th.rooted) (hnd : (keys th._map).Nodup)
    (hrate : ∀ tag p, th.params tag = some p → 0 ≤ p.rate) (ht : 0 < t)
    (hs : ∀ c ∈ rest, c.steady) (hge : ∀ c ∈ rest, t ≤ c.time)
    (hmono : (rest.map Call.time).Pairwise (fun a b => a ≤ b)) :
    ∃ as as' th1 th2, th.calls (.make_report t :: rest) = some (as, th1) ∧
      th.calls_keep (.make_report t :: rest) = some (as', th2) ∧
      List.Forall₂ Answer.agrees as as' := by
  have hrel : th.reclaimed th t := ⟨hroot, fun _ => rfl, hrate, hnd, hnd, fun _ => Or.inl rfl⟩
  apply Throttle.reclaimed_calls (.make_report t :: rest) th th t hrel
  · intro c hc
    rcases List.mem_cons.mp hc with h | h
    · rw [h]; trivial
    · exact hs c h
  · intro c hc
    rcases List.mem_cons.mp hc with h | h
    · rw [h]; exact le_rfl
    · exact hge c h
  · intro c hc
    rcases List.mem_cons.mp hc with h | h
    · rw [h]; exact ht
    · exact lt_of_lt_of_le ht (hge c h)
  · simp only [List.map_cons, List.pairwise_cons, List.mem_map, forall_exists_index, and_imp,
      forall_apply_eq_imp_iff₂]
    exact ⟨fun c hc => hge c hc, hmono⟩

/-- C31 on the engine `Throttle(1, 1)` holding for `a` a record without
tokens, last updated at 1, with one unreported hit: `make_report(5)`, then
`check_request("a", 6)` and `make_report(7)`. -/
theorem C31_reclaim_unobservable_witness :
    (⟨[(['a'], ⟨0, 1, 1⟩)], (Throttle.new 1 1)._rules⟩ : Throttle).rooted ∧
      (keys (⟨[(['a'], ⟨0, 1, 1⟩)], (Throttle.new 1 1)._rules⟩ : Throttle)._map).Nodup ∧
      (∀ tag p, (⟨[(['a'], ⟨0, 1, 1⟩)], (Throttle.new 1 1)._rules⟩ : Throttle).params tag =
        some p → 0 ≤ p.rate) ∧
      (0 : ℚ) < 5 ∧
      (∀ c ∈ [Call.check_request ['a'] 6, Call.make_report 7], c.steady) ∧
      (∀ c ∈ [Call.check_request ['a'] 6, Call.make_report 7], (5 : ℚ) ≤ c.time) ∧
      ([Call.check_request ['a'] 6, Call.make_report 7].map Call.time).Pairwise
        (fun a b => a ≤ b) ∧
      ∃ as as' th1 th2,
        (⟨[(['a'], ⟨0, 1, 1⟩)], (Throttle.new 1 1)._rules⟩ : Throttle).calls
          (.make_report 5 :: [Call.check_request ['a'] 6, Call.make_report 7]) =
            some (as, th1) ∧
        (⟨[(['a'], ⟨0, 1, 1⟩)], (Throttle.new 1 1)._rules⟩ : Throttle).calls_keep
          (.make_report 5 :: [Call.check_request ['a'] 6, Call.make_report 7]) =
            some (as', th2) ∧
        List.Forall₂ Answer.agrees as as' :=
  ⟨Throttle.new_rooted 1 1, by simp [keys],
    fun tag p h => by
      have h' : (Throttle.new 1 1).params tag = some p := h
      rw [Throttle.new_params] at h'
      simp only [Option.some.injEq] at h'
      rw [← h']
      norm_num,
    by norm_num, by simp [Call.steady], by simp [Call.time]; norm_num, by simp [Call.time]; norm_num,
    C31_reclaim_unobservable ⟨[(['a'], ⟨0, 1, 1⟩)], (Throttle.new 1 1)._rules⟩ 5
      [Call.check_request ['a'] 6, Call.make_report 7] (Throttle.new_rooted 1 1) (by simp [keys])
      (fun tag p h => by
        have h' : (Throttle.new 1 1).params tag = some p := h
        rw [Throttle.new_params] at h'
        simp only [Option.some.injEq] at h'
        rw [← h']
        norm_num)
      (by norm_num) (by simp [Call.steady]) (by simp [Call.time]; norm_num)
      (by simp [Call.time]; norm_num)⟩

/-- C31 as stated fails with a `receive_report` among the later calls: on
`Throttle(1, 1)` after an admitted `check_request("a", 1)`, `make_report(5)`
finds the bucket of `a` full and the engine erases its record, while the
variant keeps it, last updated at 5. After `receive_report` of `a: 1` at time
10, which creates the record anew at 10 in the engine and debits the kept one
in the variant, `check_request("a", 10)` returns false on the engine and true
on the variant. -/
theorem C31_counterexample :
    ((Throttle.new 1 1).calls
        [.check_request ['a'] 1, .make_report 5, .receive_report [(['a'], some 1)] 10,
          .check_request ['a'] 10]).map Prod.fst =
        some [.bool true, .datagram [(['a'], some 1)], .unit, .bool false] ∧
      ((Throttle.new 1 1).calls_keep
        [.check_request ['a'] 1, .make_report 5, .receive_report [(['a'], some 1)] 10,
          .check_request ['a'] 10]).map Prod.fst =
        some [.bool true, .datagram [(['a'], some 1)], .unit, .bool true] := by
  constructor <;>
  norm_num [Throttle.calls, Throttle.calls_keep, Throttle.call, Throttle.call_keep,
    Throttle.new, Throttle.check_request, Throttle.receive_report, Throttle.external_hit,
    Throttle.get_params, Throttle.get_record, Throttle.make_report, Throttle.make_report_keep,
    make_report_loop, make_report_loop_keep, trie.lookup, trie.insert, trie.new,
    trie.traverse_data, trie.traverse_nodata, traverse_loop, trie_node.new, trie_node.children,
    trie_node.data, trie_node.set_data, map_find, map_set, usage_record.new,
    usage_record.check_request, usage_record.get_tokens, usage_record.reset_unreported_hits,
    usage_record.get_unreported_hits, usage_record.record_external_hits]

/-! ## The arithmetic of `double` -/

theorem round_even_intCast (n : ℤ) : round_even (n : ℚ) = n := by
  simp [round_even]

theorem floor_le_round_even (x : ℚ) : ⌊x⌋ ≤ round_even x := by
  unfold round_even
  split_ifs <;> omega

theorem round_even_le_floor_succ (x : ℚ) : round_even x ≤ ⌊x⌋ + 1 := by
  unfold round_even
  split_ifs <;> omega

theorem round_even_mono {x y : ℚ} (h : x ≤ y) : round_even x ≤ round_even y := by
  have hf : ⌊x⌋ ≤ ⌊y⌋ := Int.floor_le_floor h
  have hx := Int.self_sub_floor x
  have hy := Int.self_sub_floor y
  rcases lt_or_eq_of_le hf with hlt | heq
  · have h1 := round_even_le_floor_succ x
    have h2 := floor_le_round_even y
    omega
  · have hxy : Int.fract x ≤ Int.fract y := by
      rw [← hx, ← hy, heq]; linarith
    unfold round_even
    split_ifs <;> first | omega | (exfalso; linarith)

theorem round_even_eq (x : ℚ) (m : ℤ) (h1 : (m : ℚ) - 1 / 2 < x) (h2 : x < m + 1 / 2) :
    round_even x = m := by
  have hx := Int.self_sub_floor x
  rcases le_or_lt (m : ℚ) x with h | h
  · have hfl : ⌊x⌋ = m := Int.floor_eq_iff.mpr ⟨h, by linarith⟩
    have hfr : 2 * Int.fract x < 1 := by rw [← hx, hfl]; linarith
    unfold round_even
    rw [if_pos hfr, hfl]
  · have hfl : ⌊x⌋ = m - 1 := Int.floor_eq_iff.mpr ⟨by push_cast; linarith, by push_cast; linarith⟩
    have hfr : 1 < 2 * Int.fract x := by rw [← hx, hfl]; push_cast; linarith
    unfold round_even
    rw [if_neg (by linarith), if_pos hfr, hfl]; ring

theorem round_even_tie (m : ℤ) :
    round_even ((m : ℚ) + 1 / 2) = if m % 2 = 0 then m else m + 1 := by
  have hfl : ⌊(m : ℚ) + 1 / 2⌋ = m := Int.floor_eq_iff.mpr ⟨by linarith, by linarith⟩
  have hx := Int.self_sub_floor ((m : ℚ) + 1 / 2)
  have hfr : 2 * Int.fract ((m : ℚ) + 1 / 2) = 1 := by rw [← hx, hfl]; ring
  unfold round_even
  rw [if_neg (by rw [hfr]; exact lt_irrefl _), if_neg (by rw [hfr]; exact lt_irrefl _), hfl]

theorem to_double_zero : to_double 0 = 0 := by simp [to_double]

theorem to_double_neg (q : ℚ) : to_double (-q) = - to_double q := by
  unfold to_double
  rcases lt_trichotomy q 0 with h | h | h
  · have h1 : -q ≠ 0 := by intro h0; linarith [neg_eq_zero.mp h0]
    have h2 : q ≠ 0 := ne_of_lt h
    have h3 : 0 < -q := by linarith
    have h4 : ¬ 0 < q := by linarith
    rw [if_neg h1, if_pos h3, if_neg h2, if_neg h4, neg_neg]
  · subst h; simp
  · have h1 : -q ≠ 0 := by intro h0; linarith [neg_eq_zero.mp h0]
    have h2 : q ≠ 0 := ne_of_gt h
    have h3 : ¬ 0 < -q := by linarith
    rw [if_neg h1, if_neg h3, if_neg h2, if_pos h, neg_neg]

theorem to_double_pos {q : ℚ} (h : 0 < q) : to_double q = double_pos q := by
  unfold to_double
  rw [if_neg (ne_of_gt h), if_pos h]

theorem log_two_spec {q : ℚ} (h : 0 < q) :
    (2 : ℚ) ^ Int.log 2 q ≤ q ∧ q < (2 : ℚ) ^ (Int.log 2 q + 1) := by
  have h1 := Int.zpow_log_le_self (b := 2) (by norm_num) h
  have h2 := Int.lt_zpow_succ_log_self (b := 2) (by norm_num) q
  simpa using And.intro h1 h2

theorem log_two_eq {q : ℚ} (h : 0 < q) (k : ℤ) (h1 : (2 : ℚ) ^ k ≤ q) (h2 : q < (2 : ℚ) ^ (k + 1)) :
    Int.log 2 q = k := by
  have a : k ≤ Int.log 2 q := by
    rw [← Int.zpow_le_iff_le_log (by norm_num) h]; simpa using h1
  have b : Int.log 2 q < k + 1 := by
    rw [← Int.lt_zpow_iff_log_lt (by norm_num) h]; simpa using h2
  omega

theorem scaled_range {q : ℚ} (h : 0 < q) :
    (2 : ℚ) ^ 52 ≤ q / 2 ^ double_exponent q ∧ q / 2 ^ double_exponent q < (2 : ℚ) ^ 53 := by
  have hs := log_two_spec h
  have hp : (0 : ℚ) < 2 ^ double_exponent q := zpow_pos (by norm_num) _
  have e1 : (2 : ℚ) ^ Int.log 2 q = 2 ^ 52 * 2 ^ double_exponent q := by
    unfold double_exponent
    rw [abs_of_pos h, ← zpow_natCast, ← zpow_add₀ (by norm_num)]
    congr 1; push_cast; ring
  have e2 : (2 : ℚ) ^ (Int.log 2 q + 1) = 2 ^ 53 * 2 ^ double_exponent q := by
    unfold double_exponent
    rw [abs_of_pos h, ← zpow_natCast, ← zpow_add₀ (by norm_num)]
    congr 1; push_cast; ring
  rw [e1] at hs
  rw [e2] at hs
  exact ⟨(le_div_iff₀ hp).mpr hs.1, (div_lt_iff₀ hp).mpr hs.2⟩

theorem round_even_range {q : ℚ} (h : 0 < q) :
    (2 : ℤ) ^ 52 ≤ round_even (q / 2 ^ double_exponent q) ∧
      round_even (q / 2 ^ double_exponent q) ≤ (2 : ℤ) ^ 53 := by
  have hs := scaled_range h
  have a := round_even_mono hs.1
  have b := round_even_mono (le_of_lt hs.2)
  have c : ((2 : ℚ) ^ 52) = (((2 : ℤ) ^ 52 : ℤ) : ℚ) := by norm_num
  have d : ((2 : ℚ) ^ 53) = (((2 : ℤ) ^ 53 : ℤ) : ℚ) := by norm_num
  rw [c, round_even_intCast] at a
  rw [d, round_even_intCast] at b
  exact ⟨a, b⟩

theorem double_pos_range {q : ℚ} (h : 0 < q) :
    (2 : ℚ) ^ Int.log 2 q ≤ double_pos q ∧ double_pos q ≤ (2 : ℚ) ^ (Int.log 2 q + 1) := by
  have hr := round_even_range h
  have hp : (0 : ℚ) < 2 ^ double_exponent q := zpow_pos (by norm_num) _
  have e1 : (2 : ℚ) ^ Int.log 2 q = 2 ^ 52 * 2 ^ double_exponent q := by
    unfold double_exponent
    rw [abs_of_pos h, ← zpow_natCast, ← zpow_add₀ (by norm_num)]
    congr 1; push_cast; ring
  have e2 : (2 : ℚ) ^ (Int.log 2 q + 1) = 2 ^ 53 * 2 ^ double_exponent q := by
    unfold double_exponent
    rw [abs_of_pos h, ← zpow_natCast, ← zpow_add₀ (by norm_num)]
    congr 1; push_cast; ring
  have a : ((2 : ℚ) ^ 52) ≤ (round_even (q / 2 ^ double_exponent q) : ℚ) := by
    exact_mod_cast hr.1
  have b : (round_even (q / 2 ^ double_exponent q) : ℚ) ≤ (2 : ℚ) ^ 53 := by
    exact_mod_cast hr.2
  rw [e1, e2]
  unfold double_pos
  exact ⟨mul_le_mul_of_nonneg_right a (le_of_lt hp), mul_le_mul_of_nonneg_right b (le_of_lt hp)⟩

theorem double_pos_pos {q : ℚ} (h : 0 < q) : 0 < double_pos q :=
  lt_of_lt_of_le (zpow_pos (by norm_num) _) (double_pos_range h).1

theorem double_pos_mono {x y : ℚ} (hx : 0 < x) (h : x ≤ y) : double_pos x ≤ double_pos y := by
  have hy : 0 < y := lt_of_lt_of_le hx h
  have hl : Int.log 2 x ≤ Int.log 2 y := Int.log_mono_right hx h
  rcases lt_or_eq_of_le hl with hlt | heq
  · have a := (double_pos_range hx).2
    have b := (double_pos_range hy).1
    have c : (2 : ℚ) ^ (Int.log 2 x + 1) ≤ 2 ^ Int.log 2 y :=
      zpow_le_zpow_right₀ (by norm_num) (by omega)
    linarith
  · have he : double_exponent x = double_exponent y := by
      unfold double_exponent
      rw [abs_of_pos hx, abs_of_pos hy, heq]
    have hp : (0 : ℚ) < 2 ^ double_exponent y := zpow_pos (by norm_num) _
    unfold double_pos
    rw [he]
    have hd : x / 2 ^ double_exponent y ≤ y / 2 ^ double_exponent y :=
      div_le_div_of_nonneg_right h (le_of_lt hp)
    have hm := round_even_mono hd
    have hm' : (round_even (x / 2 ^ double_exponent y) : ℚ) ≤
        (round_even (y / 2 ^ double_exponent y) : ℚ) := by exact_mod_cast hm
    exact mul_le_mul_of_nonneg_right hm' (le_of_lt hp)

theorem to_double_nonneg {q : ℚ} (h : 0 ≤ q) : 0 ≤ to_double q := by
  rcases eq_or_lt_of_le h with h0 | h0
  · rw [← h0, to_double_zero]
  · rw [to_double_pos h0]; exact le_of_lt (double_pos_pos h0)

theorem to_double_nonpos {q : ℚ} (h : q ≤ 0) : to_double q ≤ 0 := by
  have a := to_double_nonneg (q := -q) (by linarith)
  rw [to_double_neg] at a
  linarith

theorem to_double_mono {x y : ℚ} (h : x ≤ y) : to_double x ≤ to_double y := by
  rcases lt_or_le 0 x with hx | hx
  · rw [to_double_pos hx, to_double_pos (lt_of_lt_of_le hx h)]
    exact double_pos_mono hx h
  · rcases le_or_lt 0 y with hy | hy
    · exact le_trans (to_double_nonpos hx) (to_double_nonneg hy)
    · have a : to_double (-y) ≤ to_double (-x) := by
        rw [to_double_pos (by linarith : 0 < -y), to_double_pos (by linarith : 0 < -x)]
        exact double_pos_mono (by linarith) (by linarith)
      rw [to_double_neg, to_double_neg] at a
      linarith

theorem double_pos_grid_lt (m e : ℤ) (hm : 0 < m) (hlt : m < 2 ^ 53) :
    double_pos ((m : ℚ) * 2 ^ e) = (m : ℚ) * 2 ^ e := by
  have h2 : (0 : ℚ) < 2 ^ e := zpow_pos (by norm_num) e
  have hm' : (0 : ℚ) < m := by exact_mod_cast hm
  have hq : (0 : ℚ) < m * 2 ^ e := mul_pos hm' h2
  have hL : Int.log 2 ((m : ℚ) * 2 ^ e) < 53 + e := by
    rw [← Int.lt_zpow_iff_log_lt (by norm_num) hq]
    have : ((2 : ℕ) : ℚ) ^ (53 + e) = 2 ^ 53 * 2 ^ e := by
      rw [zpow_add₀ (by norm_num)]; norm_num
    rw [this]
    have hlt' : (m : ℚ) < 2 ^ 53 := by exact_mod_cast hlt
    exact mul_lt_mul_of_pos_right hlt' h2
  have hg : double_exponent ((m : ℚ) * 2 ^ e) ≤ e := by
    unfold double_exponent
    rw [abs_of_pos hq]; omega
  obtain ⟨k, hk⟩ : ∃ k : ℕ, e - double_exponent ((m : ℚ) * 2 ^ e) = (k : ℤ) :=
    ⟨(e - double_exponent ((m : ℚ) * 2 ^ e)).toNat, by omega⟩
  have hp : (0 : ℚ) < 2 ^ double_exponent ((m : ℚ) * 2 ^ e) := zpow_pos (by norm_num) _
  have hd : (m : ℚ) * 2 ^ e / 2 ^ double_exponent ((m : ℚ) * 2 ^ e) = ((m * 2 ^ k : ℤ) : ℚ) := by
    rw [mul_div_assoc, ← zpow_sub₀ (by norm_num), hk]
    push_cast
    rw [zpow_natCast]
  unfold double_pos
  rw [hd, round_even_intCast]
  rw [← hd]
  field_simp

theorem double_pos_grid (m e : ℤ) (hm : 0 < m) (hle : m ≤ 2 ^ 53) :
    double_pos ((m : ℚ) * 2 ^ e) = (m : ℚ) * 2 ^ e := by
  rcases lt_or_eq_of_le hle with h | h
  · exact double_pos_grid_lt m e hm h
  · have e1 : (m : ℚ) * 2 ^ e = ((2 ^ 52 : ℤ) : ℚ) * 2 ^ (e + 1) := by
      rw [h, zpow_add₀ (by norm_num)]; push_cast; ring
    rw [e1]
    exact double_pos_grid_lt (2 ^ 52) (e + 1) (by norm_num) (by norm_num)

/-- every value `m * 2 ^ e` with at most 53 significant bits is a double -/
theorem to_double_grid (m e : ℤ) (hm : |m| ≤ 2 ^ 53) :
    to_double ((m : ℚ) * 2 ^ e) = (m : ℚ) * 2 ^ e := by
  have h2 : (0 : ℚ) < 2 ^ e := zpow_pos (by norm_num) e
  rcases lt_trichotomy m 0 with h | h | h
  · have hq : (m : ℚ) * 2 ^ e = - (((-m : ℤ) : ℚ) * 2 ^ e) := by push_cast; ring
    have hpos : (0 : ℚ) < ((-m : ℤ) : ℚ) * 2 ^ e :=
      mul_pos (by exact_mod_cast (by omega : 0 < -m)) h2
    rw [hq, to_double_neg, to_double_pos hpos,
      double_pos_grid (-m) e (by omega) (by rw [abs_of_neg h] at hm; exact hm)]
  · subst h; simp [to_double_zero]
  · have hpos : (0 : ℚ) < (m : ℚ) * 2 ^ e := mul_pos (by exact_mod_cast h) h2
    rw [to_double_pos hpos, double_pos_grid m e h (by rw [abs_of_pos h] at hm; exact hm)]

theorem to_double_intCast (n : ℤ) (hn : |n| ≤ 2 ^ 53) : to_double (n : ℚ) = n := by
  have h := to_double_grid n 0 hn
  simpa using h

theorem to_double_form (q : ℚ) :
    ∃ m e : ℤ, |m| ≤ 2 ^ 53 ∧ to_double q = (m : ℚ) * 2 ^ e ∧
      (q ≠ 0 → e = double_exponent q) := by
  rcases lt_trichotomy q 0 with h | h | h
  · have hq : 0 < -q := by linarith
    have hr := round_even_range hq
    refine ⟨- round_even (-q / 2 ^ double_exponent (-q)), double_exponent (-q), ?_, ?_, ?_⟩
    · rw [abs_neg, abs_of_nonneg (by omega)]; exact hr.2
    · have : to_double q = - to_double (-q) := by rw [to_double_neg, neg_neg]
      rw [this, to_double_pos hq]; unfold double_pos; push_cast; ring
    · intro _; unfold double_exponent; rw [abs_neg]
  · subst h
    exact ⟨0, 0, by norm_num, by simp [to_double_zero], fun h => absurd rfl h⟩
  · have hr := round_even_range h
    refine ⟨round_even (q / 2 ^ double_exponent q), double_exponent q, ?_, ?_, fun _ => rfl⟩
    · rw [abs_of_nonneg (by omega)]; exact hr.2
    · rw [to_double_pos h]; rfl

theorem to_double_idem (q : ℚ) : to_double (to_double q) = to_double q := by
  obtain ⟨m, e, hm, he, _⟩ := to_double_form q
  rw [he]
  exact to_double_grid m e hm

/-- the decrement of a double between one and `2 ^ 52` is exact -/
theorem to_double_sub_one {z : ℚ} (hz : to_double z = z) (h1 : 1 ≤ z) (h2 : z ≤ 2 ^ 52) :
    to_double (z - 1) = z - 1 := by
  have hpos : 0 < z := by linarith
  obtain ⟨m, e, hm, he, hexp⟩ := to_double_form z
  rw [hz] at he
  have hee := hexp (ne_of_gt hpos)
  have hL : Int.log 2 z < 53 := by
    rw [← Int.lt_zpow_iff_log_lt (by norm_num) hpos]
    have : ((2 : ℕ) : ℚ) ^ (53 : ℤ) = 2 ^ 53 := by norm_num
    rw [this]
    have : (2 : ℚ) ^ 52 < 2 ^ 53 := by norm_num
    linarith
  have hg : e ≤ 0 := by
    rw [hee]; unfold double_exponent; rw [abs_of_pos hpos]; omega
  obtain ⟨k, hk⟩ : ∃ k : ℕ, -e = (k : ℤ) := ⟨(-e).toNat, by omega⟩
  have h2e : (0 : ℚ) < 2 ^ e := zpow_pos (by norm_num) e
  have hke : (2 : ℚ) ^ e * 2 ^ k = 1 := by
    rw [← zpow_natCast, ← hk, ← zpow_add₀ (by norm_num)]; simp
  have hform : z - 1 = ((m - 2 ^ k : ℤ) : ℚ) * 2 ^ e := by
    push_cast; rw [sub_mul, ← he, mul_comm ((2 : ℚ) ^ k), hke]
  have hmk : (1 : ℚ) ≤ m * 2 ^ e := by rw [← he]; exact h1
  have hm2 : ((2 ^ k : ℤ) : ℚ) ≤ m := by
    have : (m : ℚ) = m * 2 ^ e * 2 ^ k := by rw [mul_assoc, hke, mul_one]
    rw [this]; push_cast
    have hk0 : (0 : ℚ) ≤ 2 ^ k := by positivity
    nlinarith
  have hm3 : (2 ^ k : ℤ) ≤ m := by exact_mod_cast hm2
  have hk1 : (0 : ℤ) < 2 ^ k := by positivity
  have hmle : m ≤ 2 ^ 53 := le_trans (le_abs_self m) hm
  rw [hform]
  exact to_double_grid _ e (by rw [abs_of_nonneg (by omega)]; omega)

/-- how a double is computed from the exponent of its binade and the rounded
significand -/
theorem to_double_eval (q : ℚ) (g m : ℤ) (hlo : (2 : ℚ) ^ 52 ≤ q / 2 ^ g)
    (hhi : q / 2 ^ g < (2 : ℚ) ^ 53) (hm : round_even (q / 2 ^ g) = m) :
    to_double q = (m : ℚ) * 2 ^ g := by
  have hp : (0 : ℚ) < 2 ^ g := zpow_pos (by norm_num) g
  have hq : 0 < q := by
    have : 0 < q / 2 ^ g := lt_of_lt_of_le (by norm_num) hlo
    exact (div_pos_iff_of_pos_right hp).mp this
  have hl : Int.log 2 q = g + 52 := by
    apply log_two_eq hq
    · have : (2 : ℚ) ^ (g + 52) = 2 ^ 52 * 2 ^ g := by
        rw [zpow_add₀ (by norm_num)]; norm_num [mul_comm]
      rw [this]; exact (le_div_iff₀ hp).mp hlo
    · have : (2 : ℚ) ^ (g + 52 + 1) = 2 ^ 53 * 2 ^ g := by
        rw [show g + 52 + 1 = g + 53 by ring, zpow_add₀ (by norm_num)]; norm_num [mul_comm]
      rw [this]; exact (div_lt_iff₀ hp).mp hhi
  have he : double_exponent q = g := by
    unfold double_exponent; rw [abs_of_pos hq, hl]; ring
  rw [to_double_pos hq]
  unfold double_pos
  rw [he, hm]

/-- How a double is computed: the exponent `g` of its binade and the integer
`m` nearest to `q / 2 ^ g`. -/
theorem to_double_eq (q v : ℚ) (g m : ℤ) (hlo : (2 : ℚ) ^ 52 ≤ q / 2 ^ g)
    (hhi : q / 2 ^ g < (2 : ℚ) ^ 53) (h1 : (m : ℚ) - 1 / 2 < q / 2 ^ g)
    (h2 : q / 2 ^ g < (m : ℚ) + 1 / 2) (hv : v = (m : ℚ) * 2 ^ g) : to_double q = v := by
  rw [hv]
  exact to_double_eval q g m hlo hhi (round_even_eq _ m h1 h2)

/-- How a double is computed half way between two doubles: the one with the
even significand. -/
theorem to_double_eq_tie (q v : ℚ) (g m : ℤ) (hlo : (2 : ℚ) ^ 52 ≤ q / 2 ^ g)
    (hhi : q / 2 ^ g < (2 : ℚ) ^ 53) (h1 : q / 2 ^ g = (m : ℚ) + 1 / 2)
    (hv : v = ((if m % 2 = 0 then m else m + 1 : ℤ) : ℚ) * 2 ^ g) : to_double q = v := by
  rw [hv]
  refine to_double_eval q g _ hlo hhi ?_
  rw [h1, round_even_tie]

theorem to_double_eq_neg (q v : ℚ) (h : to_double q = v) : to_double (-q) = -v := by
  rw [to_double_neg, h]

/-- A value `m * 2 ^ e` with at most 53 significant bits is stored as it
is. -/
theorem to_double_exact (q : ℚ) (m e : ℤ) (hm : |m| ≤ 2 ^ 53) (hq : q = (m : ℚ) * 2 ^ e) :
    to_double q = q := by
  rw [hq]
  exact to_double_grid m e hm

/-! ## Records in the arithmetic of `double` -/

theorem usage_record.get_tokens_f64_pos (r : usage_record) (burst : Int) (rate t : ℚ)
    (ht : 0 < t) :
    r.get_tokens_f64 burst rate t =
      some (r.tokens_at_f64 burst rate t,
        ⟨r.tokens_at_f64 burst rate t, t, r._unreported_hits⟩) := by
  by_cases hl : r._last_update = 0
  · simp [usage_record.get_tokens_f64, usage_record.tokens_at_f64, ht, hl]
  · have hmin : (if to_double (r._tokens + to_double (to_double (t - r._last_update) * rate)) >
          (burst : ℚ) then (burst : ℚ)
        else to_double (r._tokens + to_double (to_double (t - r._last_update) * rate))) =
        r.tokens_at_f64 burst rate t := by
      simp only [usage_record.tokens_at_f64, hl, ne_eq, not_false_eq_true, if_true]
      split
      · rw [min_eq_left]; linarith
      · rw [min_eq_right]; linarith
    simp only [usage_record.get_tokens_f64, ht, hl, if_true, ne_eq, not_false_eq_true, hmin]

theorem usage_record.check_request_f64_pos (r : usage_record) (burst : Int) (rate t : ℚ)
    (ht : 0 < t) :
    r.check_request_f64 burst rate t =
      if 0 < r.tokens_at_f64 burst rate t then
        some (true, ⟨to_double (r.tokens_at_f64 burst rate t - 1), t, r._unreported_hits + 1⟩)
      else some (false, ⟨r.tokens_at_f64 burst rate t, t, r._unreported_hits⟩) := by
  simp only [usage_record.check_request_f64, usage_record.get_tokens_f64_pos r burst rate t ht]

/-- At the time of its last update a bucket that holds a double, at most
`burst`, is refilled with nothing. -/
theorem usage_record.tokens_at_f64_same (r : usage_record) (burst : Int) (rate : ℚ)
    (hd : to_double r._tokens = r._tokens) (h : r._tokens ≤ burst) :
    r.tokens_at_f64 burst rate r._last_update = r._tokens := by
  unfold usage_record.tokens_at_f64
  split
  · rw [sub_self, to_double_zero, zero_mul, to_double_zero, add_zero, hd]
    exact min_eq_right h
  · rfl

theorem usage_record.tokens_at_f64_le (r : usage_record) (burst : Int) (rate t : ℚ)
    (hl : r._last_update ≠ 0) : r.tokens_at_f64 burst rate t ≤ burst := by
  simp only [usage_record.tokens_at_f64, hl, ne_eq, not_false_eq_true, if_true]
  exact min_le_left _ _

/-- The count `get_tokens` returns is a double, when `burst` and the tokens
of a record never updated are. -/
theorem usage_record.tokens_at_f64_double (r : usage_record) (burst : Int) (rate t : ℚ)
    (hb : |burst| ≤ 2 ^ 53) (hd : r._last_update = 0 → to_double r._tokens = r._tokens) :
    to_double (r.tokens_at_f64 burst rate t) = r.tokens_at_f64 burst rate t := by
  unfold usage_record.tokens_at_f64
  split
  · rcases min_choice (burst : ℚ)
        (to_double (r._tokens + to_double (to_double (t - r._last_update) * rate))) with h | h
    · rw [h]; exact to_double_intCast burst hb
    · rw [h]; exact to_double_idem _
  · rename_i hl
    exact hd (not_not.mp hl)

/-- Consecutive calls at one time `t` in the arithmetic of `double`: the first
`⌈x⌉` succeed, where `x` is the count the first refill gives, and the others
fail. -/
theorem usage_record.check_requests_f64_same (n : Nat) (r : usage_record) (burst : Int)
    (rate t : ℚ) (ht : 0 < t) (hl : r._last_update ≠ 0) (hb : |burst| ≤ 2 ^ 52) :
    ∃ r', r.check_requests_f64 burst rate (List.replicate n t) =
        some (List.replicate (min n ⌈r.tokens_at_f64 burst rate t⌉.toNat) true ++
              List.replicate (n - ⌈r.tokens_at_f64 burst rate t⌉.toNat) false, r') ∧
      (0 < n → r'._last_update = t) ∧
      (0 < n → (n : ℚ) ≤ r.tokens_at_f64 burst rate t →
        r'._tokens = r.tokens_at_f64 burst rate t - n) ∧
      (0 < n → r.tokens_at_f64 burst rate t ≤ 0 → r'._tokens = r.tokens_at_f64 burst rate t) ∧
      r'._unreported_hits =
        r._unreported_hits + (min n ⌈r.tokens_at_f64 burst rate t⌉.toNat : ℕ) := by
  have hb53 : |burst| ≤ 2 ^ 53 := le_trans hb (by norm_num)
  have hbq : (burst : ℚ) ≤ 2 ^ 52 := by
    have : burst ≤ 2 ^ 52 := le_trans (le_abs_self burst) hb
    exact_mod_cast this
  induction n generalizing r with
  | zero => exact ⟨r, by simp [usage_record.check_requests_f64], by simp, by simp, by simp, by simp⟩
  | succ n ih =>
    have hle : r.tokens_at_f64 burst rate t ≤ burst := r.tokens_at_f64_le burst rate t hl
    have hdb : to_double (r.tokens_at_f64 burst rate t) = r.tokens_at_f64 burst rate t :=
      r.tokens_at_f64_double burst rate t hb53 (fun h => absurd h hl)
    by_cases hx : 0 < r.tokens_at_f64 burst rate t
    · obtain ⟨r1, hr1⟩ : ∃ r1 : usage_record,
          r1 = ⟨to_double (r.tokens_at_f64 burst rate t - 1), t, r._unreported_hits + 1⟩ :=
        ⟨_, rfl⟩
      have hmono : to_double (r.tokens_at_f64 burst rate t - 1) ≤ burst := by
        have := to_double_mono (by linarith :
          r.tokens_at_f64 burst rate t - 1 ≤ (burst : ℚ))
        rwa [to_double_intCast burst hb53] at this
      have h1 : r1.tokens_at_f64 burst rate t =
          to_double (r.tokens_at_f64 burst rate t - 1) := by
        have := usage_record.tokens_at_f64_same r1 burst rate
          (by simp only [hr1]; exact to_double_idem _) (by simp only [hr1]; exact hmono)
        simpa [hr1] using this
      obtain ⟨r', hrun, hlast, htok, hneg, hhit⟩ := ih r1 (by simpa [hr1] using ht.ne')
      have hc : (1 : ℤ) ≤ ⌈r.tokens_at_f64 burst rate t⌉ := Int.one_le_ceil_iff.mpr hx
      have ha : ⌈r.tokens_at_f64 burst rate t⌉.toNat =
          (⌈r.tokens_at_f64 burst rate t⌉ - 1).toNat + 1 := by omega
      have hr'0 : n = 0 → r' = r1 := by
        intro hn
        subst hn
        simp only [usage_record.check_requests_f64, List.replicate_zero, Option.some.injEq,
          Prod.mk.injEq] at hrun
        exact hrun.2.symm
      by_cases hone : 1 ≤ r.tokens_at_f64 burst rate t
      · have hex : to_double (r.tokens_at_f64 burst rate t - 1) =
            r.tokens_at_f64 burst rate t - 1 :=
          to_double_sub_one hdb hone (le_trans hle hbq)
        rw [hex] at h1
        have hc1 : ⌈r.tokens_at_f64 burst rate t - 1⌉ = ⌈r.tokens_at_f64 burst rate t⌉ - 1 :=
          Int.ceil_sub_one _
        refine ⟨r', ?_, ?_, ?_, ?_, ?_⟩
        · simp only [List.replicate_succ, usage_record.check_requests_f64,
            usage_record.check_request_f64_pos r burst rate t ht, hx, if_true]
          rw [← hr1, hrun, h1, hc1, ha]
          simp [Nat.succ_min_succ, List.replicate_succ]
        · intro _
          rcases Nat.eq_zero_or_pos n with hn | hn
          · rw [hr'0 hn, hr1]
          · exact hlast hn
        · intro _ hnx
          rcases Nat.eq_zero_or_pos n with hn | hn
          · rw [hr'0 hn, hr1, hex, hn]
            simp
          · rw [htok hn (by rw [h1]; push_cast at hnx; linarith), h1]
            push_cast
            ring
        · intro _ hnx
          exact absurd hx (not_lt.mpr hnx)
        · rw [hhit, h1, hc1, ha, Nat.succ_min_succ]
          simp only [hr1]
          push_cast
          ring
      · push_neg at hone
        have hnp : to_double (r.tokens_at_f64 burst rate t - 1) ≤ 0 :=
          to_double_nonpos (by linarith)
        have hce : ⌈r.tokens_at_f64 burst rate t⌉ = 1 := by
          rw [Int.ceil_eq_iff]
          constructor
          · simpa using hx
          · simpa using hone.le
        have hc1 : ⌈to_double (r.tokens_at_f64 burst rate t - 1)⌉ ≤ 0 := by
          rw [Int.ceil_le]; simpa using hnp
        have hz : ⌈to_double (r.tokens_at_f64 burst rate t - 1)⌉.toNat = 0 := by omega
        refine ⟨r', ?_, ?_, ?_, ?_, ?_⟩
        · simp only [List.replicate_succ, usage_record.check_requests_f64,
            usage_record.check_request_f64_pos r burst rate t ht, hx, if_true]
          rw [← hr1, hrun, h1, hz, hce]
          simp [List.replicate_succ]
        · intro _
          rcases Nat.eq_zero_or_pos n with hn | hn
          · rw [hr'0 hn, hr1]
          · exact hlast hn
        · intro _ hnx
          exfalso
          have : (1 : ℚ) ≤ ((n + 1 : ℕ) : ℚ) := by
            push_cast; linarith [(Nat.cast_nonneg n : (0 : ℚ) ≤ n)]
          linarith
        · intro _ hnx
          exact absurd hx (not_lt.mpr hnx)
        · rw [hhit, h1, hz, hce]
          simp [hr1]
    · obtain ⟨r1, hr1⟩ : ∃ r1 : usage_record,
          r1 = ⟨r.tokens_at_f64 burst rate t, t, r._unreported_hits⟩ := ⟨_, rfl⟩
      have h1 : r1.tokens_at_f64 burst rate t = r.tokens_at_f64 burst rate t := by
        have := usage_record.tokens_at_f64_same r1 burst rate
          (by simp only [hr1]; exact hdb) (by simp only [hr1]; exact hle)
        simpa [hr1] using this
      obtain ⟨r', hrun, hlast, htok, hneg, hhit⟩ := ih r1 (by simpa [hr1] using ht.ne')
      have hx' : r.tokens_at_f64 burst rate t ≤ 0 := not_lt.mp hx
      have hc : ⌈r.tokens_at_f64 burst rate t⌉ ≤ 0 := by
        rw [Int.ceil_le]; simpa using hx'
      have ha : ⌈r.tokens_at_f64 burst rate t⌉.toNat = 0 := by omega
      have hr'0 : n = 0 → r' = r1 := by
        intro hn
        subst hn
        simp only [usage_record.check_requests_f64, List.replicate_zero, Option.some.injEq,
          Prod.mk.injEq] at hrun
        exact hrun.2.symm
      refine ⟨r', ?_, ?_, ?_, ?_, ?_⟩
      · simp only [List.replicate_succ, usage_record.check_requests_f64,
          usage_record.check_request_f64_pos r burst rate t ht, hx, if_false]
        rw [← hr1, hrun, h1, ha]
        simp [List.replicate_succ]
      · intro _
        rcases Nat.eq_zero_or_pos n with hn | hn
        · rw [hr'0 hn, hr1]
        · exact hlast hn
      · intro _ hnx
        exfalso
        have : (1 : ℚ) ≤ ((n + 1 : ℕ) : ℚ) := by
          push_cast; linarith [(Nat.cast_nonneg n : (0 : ℚ) ≤ n)]
        linarith
      · intro _ _
        rcases Nat.eq_zero_or_pos n with hn | hn
        · rw [hr'0 hn, hr1]
        · rw [hneg hn (by rw [h1]; exact hx'), h1]
      · rw [hhit, h1, ha]
        simp [hr1]

/-! ## Refills without rounding -/

/-- The refill of a record that holds an integer count and was last updated
at an integer time, at an integer time under an integer rate, rounds nothing
when the numbers stay within 53 bits. -/
theorem usage_record.tokens_at_f64_int (r : usage_record) (burst z l ρ a : Int)
    (hz : r._tokens = z) (hl : r._last_update = l) (hd : |a - l| ≤ 2 ^ 53)
    (hp : |(a - l) * ρ| ≤ 2 ^ 53) (hs : |z + (a - l) * ρ| ≤ 2 ^ 53) :
    r.tokens_at_f64 burst ρ a = r.tokens_at burst ρ a ∧
      r.tokens_at burst ρ a = ((if l ≠ 0 then min burst (z + (a - l) * ρ) else z : Int) : ℚ) := by
  have e1 : ((a : ℚ) - r._last_update) = ((a - l : Int) : ℚ) := by rw [hl]; push_cast; ring
  have e2 : ((a - l : Int) : ℚ) * (ρ : ℚ) = (((a - l) * ρ : Int) : ℚ) := by push_cast; ring
  have e3 : r._tokens + (((a - l) * ρ : Int) : ℚ) = ((z + (a - l) * ρ : Int) : ℚ) := by
    rw [hz]; push_cast; ring
  have hl0 : r._last_update ≠ 0 ↔ l ≠ 0 := by rw [hl]; exact_mod_cast Iff.rfl
  constructor
  · simp only [usage_record.tokens_at_f64, usage_record.tokens_at, usage_record.refilled]
    rw [e1, to_double_intCast _ hd, e2, to_double_intCast _ hp, e3, to_double_intCast _ hs]
  · simp only [usage_record.tokens_at, usage_record.refilled]
    rw [e1, e2, e3]
    by_cases h0 : l = 0
    · have : ¬ r._last_update ≠ 0 := by rw [hl0]; simpa using h0
      rw [if_neg this, if_neg (by simpa using h0)]
      exact hz
    · rw [if_pos (hl0.mpr h0), if_pos h0]
      push_cast
      rfl

/-- Refill composes in the arithmetic of `double` when the count, the times
and the rate are integers within bounds. -/
theorem usage_record.tokens_at_f64_compose (r : usage_record) (burst z l ρ a b : Int)
    (hits : Int) (hz : r._tokens = z) (hl : r._last_update = l) (hl0 : l ≠ 0) (hla : l ≤ a)
    (hab : a ≤ b) (ha : 0 < a) (hρ : 0 ≤ ρ) (hzb : |z| ≤ 2 ^ 51) (hbb : |burst| ≤ 2 ^ 51)
    (hpb : (b - l) * ρ ≤ 2 ^ 51) (hdb : b - l ≤ 2 ^ 53) :
    r.tokens_at_f64 burst ρ a = r.tokens_at burst ρ a ∧
    r.tokens_at_f64 burst ρ b = r.tokens_at burst ρ b ∧
    (⟨r.tokens_at_f64 burst ρ a, a, hits⟩ : usage_record).tokens_at_f64 burst ρ b =
      r.tokens_at_f64 burst ρ b := by
  obtain ⟨p, hp⟩ : ∃ p : Int, p = (a - l) * ρ := ⟨_, rfl⟩
  obtain ⟨q, hq⟩ : ∃ q : Int, q = (b - l) * ρ := ⟨_, rfl⟩
  obtain ⟨s, hs⟩ : ∃ s : Int, s = (b - a) * ρ := ⟨_, rfl⟩
  have hp0 : 0 ≤ p := by rw [hp]; exact mul_nonneg (by omega) hρ
  have hs0 : 0 ≤ s := by rw [hs]; exact mul_nonneg (by omega) hρ
  have hq0 : 0 ≤ q := by rw [hq]; exact mul_nonneg (by omega) hρ
  have hpq : p + s = q := by rw [hp, hs, hq]; ring
  have hq51 : q ≤ 2 ^ 51 := by rw [hq]; exact hpb
  have hz1 := abs_le.mp hzb
  have hb1 := abs_le.mp hbb
  have A := usage_record.tokens_at_f64_int r burst z l ρ a hz hl
    (by rw [abs_le]; constructor <;> omega)
    (by rw [← hp, abs_le]; constructor <;> omega)
    (by rw [← hp, abs_le]; constructor <;> omega)
  have B := usage_record.tokens_at_f64_int r burst z l ρ b hz hl
    (by rw [abs_le]; constructor <;> omega)
    (by rw [← hq, abs_le]; constructor <;> omega)
    (by rw [← hq, abs_le]; constructor <;> omega)
  refine ⟨A.1, B.1, ?_⟩
  have hx1 : r.tokens_at_f64 burst ρ a = ((min burst (z + p) : Int) : ℚ) := by
    rw [A.1, A.2, if_pos hl0, hp]
  have hm1 : min burst (z + p) ≤ 2 ^ 51 := le_trans (min_le_left _ _) hb1.2
  have hm2 : -(2 ^ 51) ≤ min burst (z + p) := le_min hb1.1 (by omega)
  have C := usage_record.tokens_at_f64_int
    (⟨r.tokens_at_f64 burst ρ a, a, hits⟩ : usage_record) burst (min burst (z + p)) a ρ b
    hx1 rfl
    (by rw [abs_le]; constructor <;> omega)
    (by rw [← hs, abs_le]; constructor <;> omega)
    (by rw [← hs, abs_le]; constructor <;> omega)
  have hl' : r._last_update ≠ 0 := by rw [hl]; exact_mod_cast hl0
  have haq : (0 : ℚ) < a := by exact_mod_cast ha
  have D := usage_record.tokens_at_compose r burst ρ a b hits hl' (by exact_mod_cast hρ)
    (by exact_mod_cast hab) haq
  rw [C.1, A.1, D, B.1]

/-- The answers of `check_request` do not depend on the unreported hits of
the record, in the arithmetic of `double` either. -/
theorem usage_record.check_requests_f64_answers (burst : Int) (rate : ℚ) (ts : List ℚ)
    (r r' : usage_record) (h1 : r._tokens = r'._tokens)
    (h2 : r._last_update = r'._last_update) :
    (r.check_requests_f64 burst rate ts).map Prod.fst =
      (r'.check_requests_f64 burst rate ts).map Prod.fst := by
  induction ts generalizing r r' with
  | nil => rfl
  | cons t ts ih =>
    by_cases ht : 0 < t
    · have ha : r.tokens_at_f64 burst rate t = r'.tokens_at_f64 burst rate t := by
        simp only [usage_record.tokens_at_f64, h1, h2]
      simp only [usage_record.check_requests_f64,
        usage_record.check_request_f64_pos _ burst rate t ht, ha]
      by_cases hp : 0 < r'.tokens_at_f64 burst rate t
      · simp only [hp, if_true]
        have := ih ⟨to_double (r'.tokens_at_f64 burst rate t - 1), t, r._unreported_hits + 1⟩
          ⟨to_double (r'.tokens_at_f64 burst rate t - 1), t, r'._unreported_hits + 1⟩ rfl rfl
        revert this
        cases usage_record.check_requests_f64 _ burst rate ts <;>
          cases usage_record.check_requests_f64 _ burst rate ts <;> simp
      · simp only [hp, if_false]
        have := ih ⟨r'.tokens_at_f64 burst rate t, t, r._unreported_hits⟩
          ⟨r'.tokens_at_f64 burst rate t, t, r'._unreported_hits⟩ rfl rfl
        revert this
        cases usage_record.check_requests_f64 _ burst rate ts <;>
          cases usage_record.check_requests_f64 _ burst rate ts <;> simp
    · simp [usage_record.check_requests_f64, usage_record.check_request_f64,
        usage_record.get_tokens_f64, ht]

/-- One more call in front of a run of calls. -/
theorem usage_record.check_requests_f64_cons (r r1 r2 : usage_record) (burst : Int)
    (rate t : ℚ) (ts : List ℚ) (b : Bool) (bs : List Bool)
    (h1 : r.check_request_f64 burst rate t = some (b, r1))
    (h2 : r1.check_requests_f64 burst rate ts = some (bs, r2)) :
    r.check_requests_f64 burst rate (t :: ts) = some (b :: bs, r2) := by
  simp only [usage_record.check_requests_f64, h1, h2]

/-- The double nearest to `0.1`. -/
theorem to_double_tenth : to_double (1 / 10) = 3602879701896397 / 36028797018963968 :=
  to_double_eq _ _ (-56) 7205759403792794 (by norm_num) (by norm_num) (by norm_num)
    (by norm_num) (by norm_num)

/-- The double nearest to `0.2`. -/
theorem to_double_fifth : to_double (1 / 5) = 3602879701896397 / 18014398509481984 :=
  to_double_eq _ _ (-55) 7205759403792794 (by norm_num) (by norm_num) (by norm_num)
    (by norm_num) (by norm_num)

/-! ## C33 -/

/-- C33 (amended): for a record that holds an integer count and was last
updated at an integer time `l ≠ 0`, an integer rate `ρ ≥ 0` and integer times
`l ≤ a ≤ b` with `a > 0`, all within bounds that keep every intermediate value
below `2 ^ 53`, no operation of the refill rounds: `get_tokens` at `a` and then
at `b` returns the tokens and leaves the record of `get_tokens` at `b` alone.
Hence after a request rejected at `a` the requests at `b` and at any times
after it have the results they have without it, and after the visit of
`make_report` at `a` (hits reset, then refill) they have the same answers. -/
theorem C33_refill_composes (r : usage_record) (burst z l ρ a b : Int) (hz : r._tokens = z)
    (hl : r._last_update = l) (hl0 : l ≠ 0) (hla : l ≤ a) (hab : a ≤ b) (ha : 0 < a)
    (hρ : 0 ≤ ρ) (hzb : |z| ≤ 2 ^ 51) (hbb : |burst| ≤ 2 ^ 51) (hpb : (b - l) * ρ ≤ 2 ^ 51)
    (hdb : b - l ≤ 2 ^ 53) :
    ∃ tok1 r1 tok2 r2, r.get_tokens_f64 burst ρ a = some (tok1, r1) ∧
      r1.get_tokens_f64 burst ρ b = some (tok2, r2) ∧
      r.get_tokens_f64 burst ρ b = some (tok2, r2) ∧
      (∀ r1', r.check_request_f64 burst ρ a = some (false, r1') → ∀ ts,
        r1'.check_requests_f64 burst ρ ((b : ℚ) :: ts) =
          r.check_requests_f64 burst ρ ((b : ℚ) :: ts)) ∧
      (∀ tokm rm, r.reset_unreported_hits.get_tokens_f64 burst ρ a = some (tokm, rm) → ∀ ts,
        (rm.check_requests_f64 burst ρ ((b : ℚ) :: ts)).map Prod.fst =
          (r.check_requests_f64 burst ρ ((b : ℚ) :: ts)).map Prod.fst) := by
  have ht1 : (0 : ℚ) < a := by exact_mod_cast ha
  have ht2 : (0 : ℚ) < b := by exact_mod_cast (by omega : 0 < b)
  have hcomp := fun hits =>
    (usage_record.tokens_at_f64_compose r burst z l ρ a b hits hz hl hl0 hla hab ha hρ hzb
      hbb hpb hdb).2.2
  refine ⟨_, _, _, _, r.get_tokens_f64_pos burst ρ a ht1,
    usage_record.get_tokens_f64_pos _ burst ρ b ht2, ?_, ?_, ?_⟩
  · rw [r.get_tokens_f64_pos burst ρ b ht2, hcomp]
  · intro r1' hrej ts
    rw [r.check_request_f64_pos burst ρ a ht1] at hrej
    by_cases hp : 0 < r.tokens_at_f64 burst ρ a
    · simp [hp] at hrej
    · simp only [hp, if_false, Option.some.injEq, Prod.mk.injEq, true_and] at hrej
      subst hrej
      simp only [usage_record.check_requests_f64,
        usage_record.check_request_f64_pos _ burst ρ b ht2, hcomp]
  · intro tokm rm hm ts
    rw [usage_record.get_tokens_f64_pos _ burst ρ a ht1] at hm
    simp only [Option.some.injEq, Prod.mk.injEq] at hm
    obtain ⟨-, hm⟩ := hm
    subst hm
    have hreset : r.reset_unreported_hits.tokens_at_f64 burst ρ a = r.tokens_at_f64 burst ρ a :=
      rfl
    rw [hreset]
    have hstep := hcomp r.reset_unreported_hits._unreported_hits
    simp only [usage_record.check_requests_f64,
      usage_record.check_request_f64_pos _ burst ρ b ht2, hstep]
    by_cases hp : 0 < r.tokens_at_f64 burst ρ b
    · simp only [hp, if_true]
      have := usage_record.check_requests_f64_answers burst ρ ts
        ⟨to_double (r.tokens_at_f64 burst ρ b - 1), b,
          r.reset_unreported_hits._unreported_hits + 1⟩
        ⟨to_double (r.tokens_at_f64 burst ρ b - 1), b, r._unreported_hits + 1⟩ rfl rfl
      revert this
      cases usage_record.check_requests_f64 _ burst ρ ts <;>
        cases usage_record.check_requests_f64 _ burst ρ ts <;> simp
    · simp only [hp, if_false]
      have := usage_record.check_requests_f64_answers burst ρ ts
        ⟨r.tokens_at_f64 burst ρ b, b, r.reset_unreported_hits._unreported_hits⟩
        ⟨r.tokens_at_f64 burst ρ b, b, r._unreported_hits⟩ rfl rfl
      revert this
      cases usage_record.check_requests_f64 _ burst ρ ts <;>
        cases usage_record.check_requests_f64 _ burst ρ ts <;> simp

/-- C33 as stated fails in the arithmetic of `double`: on the record with `-1`
token last updated at 1, under burst 1 and rate `0.2`, `get_tokens` at 6
returns no token (`5 * 0.2` rounds to 1), but `get_tokens` at 3 and then at 6
returns `2 ^ -53` tokens (the sum `-1 + 0.4` and the product `3 * 0.2` both
round); so after a request rejected at 3 the request at 6 is admitted, and
without it the request at 6 is rejected. -/
theorem C33_counterexample :
    (⟨-1, 1, 0⟩ : usage_record).get_tokens_f64 1 (to_double (1 / 5)) 6 = some (0, ⟨0, 6, 0⟩) ∧
    (⟨-1, 1, 0⟩ : usage_record).get_tokens_f64 1 (to_double (1 / 5)) 3 =
      some (-(5404319552844595 / 9007199254740992),
        ⟨-(5404319552844595 / 9007199254740992), 3, 0⟩) ∧
    (⟨-(5404319552844595 / 9007199254740992), 3, 0⟩ : usage_record).get_tokens_f64 1
        (to_double (1 / 5)) 6 =
      some (1 / 9007199254740992, ⟨1 / 9007199254740992, 6, 0⟩) ∧
    (⟨-1, 1, 0⟩ : usage_record).check_requests_f64 1 (to_double (1 / 5)) [3, 6] =
      some ([false, true], ⟨-(9007199254740991 / 9007199254740992), 6, 1⟩) ∧
    (⟨-1, 1, 0⟩ : usage_record).check_requests_f64 1 (to_double (1 / 5)) [6] =
      some ([false], ⟨0, 6, 0⟩) := by
  have f1 : to_double (2 : ℚ) = 2 :=
    to_double_exact _ 1 (1) (by norm_num) (by norm_num)
  have f2 : to_double (3602879701896397 / 9007199254740992 : ℚ) = 3602879701896397 / 9007199254740992 :=
    to_double_exact _ 3602879701896397 (-53) (by norm_num) (by norm_num)
  have f3 : to_double (5404319552844595 / 9007199254740992 : ℚ) = 5404319552844595 / 9007199254740992 :=
    to_double_exact _ 5404319552844595 (-53) (by norm_num) (by norm_num)
  have f4 : to_double (3 : ℚ) = 3 :=
    to_double_exact _ 3 (0) (by norm_num) (by norm_num)
  have f5 : to_double (10808639105689191 / 18014398509481984 : ℚ) = 1351079888211149 / 2251799813685248 :=
    to_double_eq_tie _ _ (-53) 5404319552844595 (by norm_num) (by norm_num) (by norm_num)
      (by norm_num)
  have f6 : to_double (1 / 9007199254740992 : ℚ) = 1 / 9007199254740992 :=
    to_double_exact _ 1 (-53) (by norm_num) (by norm_num)
  have f7 : to_double (5 : ℚ) = 5 :=
    to_double_exact _ 5 (0) (by norm_num) (by norm_num)
  have f8 : to_double (18014398509481985 / 18014398509481984 : ℚ) = 1 :=
    to_double_eq _ _ (-52) 4503599627370496 (by norm_num) (by norm_num) (by norm_num)
      (by norm_num) (by norm_num)
  have f9 : to_double (9007199254740991 / 9007199254740992 : ℚ) = 9007199254740991 / 9007199254740992 :=
    to_double_exact _ 9007199254740991 (-53) (by norm_num) (by norm_num)
  rw [to_double_fifth]
  have h1 : (⟨-1, 1, 0⟩ : usage_record).check_request_f64 1
      (3602879701896397 / 18014398509481984) 3 =
      some (false, ⟨-(5404319552844595 / 9007199254740992), 3, 0⟩) := by
    norm_num [usage_record.check_request_f64, usage_record.get_tokens_f64, to_double_zero,
      to_double_neg, f1, f2, f3]
  have h2 : (⟨-(5404319552844595 / 9007199254740992), 3, 0⟩ : usage_record).check_request_f64 1
      (3602879701896397 / 18014398509481984) 6 =
      some (true, ⟨-(9007199254740991 / 9007199254740992), 6, 1⟩) := by
    norm_num [usage_record.check_request_f64, usage_record.get_tokens_f64, to_double_zero,
      to_double_neg, f4, f5, f6, f9]
  have h3 : (⟨-1, 1, 0⟩ : usage_record).check_request_f64 1
      (3602879701896397 / 18014398509481984) 6 = some (false, ⟨0, 6, 0⟩) := by
    norm_num [usage_record.check_request_f64, usage_record.get_tokens_f64, to_double_zero,
      to_double_neg, f7, f8]
  refine ⟨?_, ?_, ?_, ?_, ?_⟩
  · norm_num [usage_record.get_tokens_f64, to_double_zero, to_double_neg, f7, f8]
  · norm_num [usage_record.get_tokens_f64, to_double_zero, to_double_neg, f1, f2, f3]
  · norm_num [usage_record.get_tokens_f64, to_double_zero, to_double_neg, f4, f5, f6]
  · exact usage_record.check_requests_f64_cons _ _ _ _ _ _ _ _ _ h1
      (usage_record.check_requests_f64_cons _ _ _ _ _ _ _ _ _ h2 rfl)
  · exact usage_record.check_requests_f64_cons _ _ _ _ _ _ _ _ _ h3 rfl

/-- C33 on a record with no token, last updated at 1, with three unreported
hits, under burst 5 and rate 1, at the times 2 and 4. -/
theorem C33_refill_composes_witness :
    (⟨0, 1, 3⟩ : usage_record)._tokens = ((0 : Int) : ℚ) ∧
    (⟨0, 1, 3⟩ : usage_record)._last_update = ((1 : Int) : ℚ) ∧ (1 : Int) ≠ 0 ∧
    (1 : Int) ≤ 2 ∧ (2 : Int) ≤ 4 ∧ (0 : Int) < 2 ∧ (0 : Int) ≤ 1 ∧ |(0 : Int)| ≤ 2 ^ 51 ∧
    |(5 : Int)| ≤ 2 ^ 51 ∧ ((4 : Int) - 1) * 1 ≤ 2 ^ 51 ∧ (4 : Int) - 1 ≤ 2 ^ 53 ∧
    ∃ tok1 r1 tok2 r2,
      (⟨0, 1, 3⟩ : usage_record).get_tokens_f64 5 ((1 : Int) : ℚ) ((2 : Int) : ℚ) =
        some (tok1, r1) ∧
      r1.get_tokens_f64 5 ((1 : Int) : ℚ) ((4 : Int) : ℚ) = some (tok2, r2) ∧
      (⟨0, 1, 3⟩ : usage_record).get_tokens_f64 5 ((1 : Int) : ℚ) ((4 : Int) : ℚ) =
        some (tok2, r2) ∧
      (∀ r1', (⟨0, 1, 3⟩ : usage_record).check_request_f64 5 ((1 : Int) : ℚ) ((2 : Int) : ℚ) =
          some (false, r1') → ∀ ts,
        r1'.check_requests_f64 5 ((1 : Int) : ℚ) (((4 : Int) : ℚ) :: ts) =
          (⟨0, 1, 3⟩ : usage_record).check_requests_f64 5 ((1 : Int) : ℚ)
            (((4 : Int) : ℚ) :: ts)) ∧
      (∀ tokm rm, (⟨0, 1, 3⟩ : usage_record).reset_unreported_hits.get_tokens_f64 5
          ((1 : Int) : ℚ) ((2 : Int) : ℚ) = some (tokm, rm) → ∀ ts,
        (rm.check_requests_f64 5 ((1 : Int) : ℚ) (((4 : Int) : ℚ) :: ts)).map Prod.fst =
          ((⟨0, 1, 3⟩ : usage_record).check_requests_f64 5 ((1 : Int) : ℚ)
            (((4 : Int) : ℚ) :: ts)).map Prod.fst) :=
  ⟨by norm_num, by norm_num, by decide, by decide, by decide, by decide, by decide,
    by norm_num, by norm_num, by norm_num, by norm_num,
    C33_refill_composes ⟨0, 1, 3⟩ 5 0 1 1 2 4 (by norm_num) (by norm_num) (by decide)
      (by decide) (by decide) (by decide) (by decide) (by norm_num) (by norm_num)
      (by norm_num) (by norm_num)⟩

/-! ## C32 -/

/-- C32: in the arithmetic of `double` the refill tolerates equal timestamps
(`get_tokens` at `t = last_update` returns the tokens and leaves the record
as it is, for a bucket that holds a double not above `burst`), and a backward
jump can inflate a bucket. The record with `-1/2` token last updated at 3,
under burst 1 and rate `0.1`, holds no token at 8 (`5 * 0.1` rounds to `1/2`);
after `get_tokens` at 1, before its last update, it holds about `-0.7` token
(the sum `-1/2 - 0.2` lies half way between two doubles and rounds up), and
then `2 ^ -53` tokens at 8 (`7 * 0.1` rounds up), which is more: the request
at 8 is admitted after the backward call and rejected without it. -/
theorem C32_backward_time :
    (∀ (r : usage_record) (burst : Int) (rate : ℚ), 0 < r._last_update →
        to_double r._tokens = r._tokens → r._tokens ≤ burst →
        r.get_tokens_f64 burst rate r._last_update = some (r._tokens, r)) ∧
    ((-1 / 2 : ℚ) ≤ ((1 : Int) : ℚ) ∧ 0 ≤ to_double (1 / 10) ∧ (1 : ℚ) < 3 ∧
      (⟨-1 / 2, 3, 0⟩ : usage_record).get_tokens_f64 1 (to_double (1 / 10)) 8 =
        some (0, ⟨0, 8, 0⟩) ∧
      (⟨-1 / 2, 3, 0⟩ : usage_record).get_tokens_f64 1 (to_double (1 / 10)) 1 =
        some (-(3152519739159347 / 4503599627370496),
          ⟨-(3152519739159347 / 4503599627370496), 1, 0⟩) ∧
      (⟨-(3152519739159347 / 4503599627370496), 1, 0⟩ : usage_record).get_tokens_f64 1
          (to_double (1 / 10)) 8 =
        some (1 / 9007199254740992, ⟨1 / 9007199254740992, 8, 0⟩) ∧
      (0 : ℚ) < 1 / 9007199254740992 ∧
      (⟨-(3152519739159347 / 4503599627370496), 1, 0⟩ : usage_record).check_request_f64 1
          (to_double (1 / 10)) 8 =
        some (true, ⟨-(9007199254740991 / 9007199254740992), 8, 1⟩) ∧
      (⟨-1 / 2, 3, 0⟩ : usage_record).check_request_f64 1 (to_double (1 / 10)) 8 =
        some (false, ⟨0, 8, 0⟩)) := by
  have f1 : to_double (2 : ℚ) = 2 :=
    to_double_exact _ 1 (1) (by norm_num) (by norm_num)
  have f2 : to_double (3602879701896397 / 18014398509481984 : ℚ) = 3602879701896397 / 18014398509481984 :=
    to_double_exact _ 3602879701896397 (-54) (by norm_num) (by norm_num)
  have f3 : to_double (12610078956637389 / 18014398509481984 : ℚ) = 3152519739159347 / 4503599627370496 :=
    to_double_eq_tie _ _ (-53) 6305039478318694 (by norm_num) (by norm_num) (by norm_num)
      (by norm_num)
  have f4 : to_double (7 : ℚ) = 7 :=
    to_double_exact _ 7 (0) (by norm_num) (by norm_num)
  have f5 : to_double (25220157913274779 / 36028797018963968 : ℚ) = 6305039478318695 / 9007199254740992 :=
    to_double_eq _ _ (-53) 6305039478318695 (by norm_num) (by norm_num) (by norm_num)
      (by norm_num) (by norm_num)
  have f6 : to_double (1 / 9007199254740992 : ℚ) = 1 / 9007199254740992 :=
    to_double_exact _ 1 (-53) (by norm_num) (by norm_num)
  have f7 : to_double (5 : ℚ) = 5 :=
    to_double_exact _ 5 (0) (by norm_num) (by norm_num)
  have f8 : to_double (18014398509481985 / 36028797018963968 : ℚ) = 1 / 2 :=
    to_double_eq _ _ (-53) 4503599627370496 (by norm_num) (by norm_num) (by norm_num)
      (by norm_num) (by norm_num)
  have f9 : to_double (9007199254740991 / 9007199254740992 : ℚ) = 9007199254740991 / 9007199254740992 :=
    to_double_exact _ 9007199254740991 (-53) (by norm_num) (by norm_num)
  refine ⟨?_, ?_⟩
  · intro r burst rate h0 hd hle
    rw [r.get_tokens_f64_pos burst rate _ h0, r.tokens_at_f64_same burst rate hd hle]
  · rw [to_double_tenth]
    refine ⟨by norm_num, by norm_num, by norm_num, ?_, ?_, ?_, by norm_num, ?_, ?_⟩
    · norm_num [usage_record.get_tokens_f64, to_double_zero, to_double_neg, f7, f8]
    · norm_num [usage_record.get_tokens_f64, to_double_zero, to_double_neg, f1, f2, f3]
    · norm_num [usage_record.get_tokens_f64, to_double_zero, to_double_neg, f4, f5, f6]
    · norm_num [usage_record.check_request_f64, usage_record.get_tokens_f64, to_double_zero,
        to_double_neg, f4, f5, f6, f9]
    · norm_num [usage_record.check_request_f64, usage_record.get_tokens_f64, to_double_zero,
        to_double_neg, f7, f8]

/-! ## C21 -/

/-- C21 (amended): for every record, burst, rate and `t > 0`, in the
arithmetic of `double`, `get_tokens(burst, rate, t)` returns the refilled
token count (the tokens plus the inflow since `last_update`, each operation
rounded, at most `burst`; or the tokens as they are when `last_update` is
zero), and `check_request(burst, rate, t)` returns true iff that count is
positive; on true the record holds the double nearest to the count less one,
which is the count less one when the count is at least 1, and one more
unreported hit; on false it holds the count and the same unreported hits; in
both cases `last_update = t`. After a rejected request a request at the same
time is rejected again and leaves the record as it is. -/
theorem C21_record_admission (r : usage_record) (burst : Int) (rate t : ℚ) (ht : 0 < t) :
    ∃ tokens r0 b r1, r.get_tokens_f64 burst rate t = some (tokens, r0) ∧
      tokens = (if r._last_update ≠ 0 then
          min (burst : ℚ)
            (to_double (r._tokens + to_double (to_double (t - r._last_update) * rate)))
        else r._tokens) ∧
      r.check_request_f64 burst rate t = some (b, r1) ∧
      (b = true ↔ 0 < tokens) ∧
      (b = true → r1._tokens = to_double (tokens - 1) ∧
        r1._unreported_hits = r._unreported_hits + 1) ∧
      (b = true → 1 ≤ tokens → |burst| ≤ 2 ^ 52 → to_double r._tokens = r._tokens →
        r._tokens ≤ 2 ^ 52 → r1._tokens = tokens - 1) ∧
      (b = false → r1._tokens = tokens ∧ r1._unreported_hits = r._unreported_hits) ∧
      r1._last_update = t ∧
      (b = false → 0 ≤ burst → |burst| ≤ 2 ^ 53 → to_double r._tokens = r._tokens →
        r1.check_request_f64 burst rate t = some (false, r1)) := by
  have hg := r.get_tokens_f64_pos burst rate t ht
  have hc := r.check_request_f64_pos burst rate t ht
  have hta : r.tokens_at_f64 burst rate t = (if r._last_update ≠ 0 then
      min (burst : ℚ)
        (to_double (r._tokens + to_double (to_double (t - r._last_update) * rate)))
      else r._tokens) := rfl
  by_cases hpos : 0 < r.tokens_at_f64 burst rate t
  · rw [if_pos hpos] at hc
    refine ⟨_, _, true, _, hg, hta, hc, by simp [hpos], fun _ => ⟨rfl, rfl⟩, ?_,
      fun h => by simp at h, rfl, fun h => by simp at h⟩
    intro _ h1 hb hd h52
    have hb53 : |burst| ≤ 2 ^ 53 := le_trans hb (by norm_num)
    have hrep := r.tokens_at_f64_double burst rate t hb53 (fun _ => hd)
    have hle : r.tokens_at_f64 burst rate t ≤ 2 ^ 52 := by
      by_cases hl : r._last_update = 0
      · simp only [usage_record.tokens_at_f64, hl, ne_eq, not_true_eq_false, if_false]
        exact h52
      · have h3 := r.tokens_at_f64_le burst rate t hl
        have h4 : (burst : ℚ) ≤ 2 ^ 52 := by
          have : burst ≤ 2 ^ 52 := le_trans (le_abs_self burst) hb
          exact_mod_cast this
        linarith
    exact to_double_sub_one hrep h1 hle
  · rw [if_neg hpos] at hc
    refine ⟨_, _, false, _, hg, hta, hc, by simp [hpos], fun h => by simp at h,
      fun h => by simp at h, fun _ => ⟨rfl, rfl⟩, rfl, ?_⟩
    intro _ hb0 hb53 hd
    have hrep := r.tokens_at_f64_double burst rate t hb53 (fun _ => hd)
    have hb0' : (0 : ℚ) ≤ burst := by exact_mod_cast hb0
    have hsame := usage_record.tokens_at_f64_same
      ⟨r.tokens_at_f64 burst rate t, t, r._unreported_hits⟩ burst rate hrep
      (by simp only; linarith [not_lt.mp hpos])
    simp only at hsame
    rw [usage_record.check_request_f64_pos _ burst rate t ht, hsame, if_neg hpos]

/-- C21 on a record with two tokens, last updated at 1, under burst 5 and
rate 1 at time 2. -/
theorem C21_record_admission_witness :
    (0 : ℚ) < 2 ∧
    ∃ tokens r0 b r1, (⟨2, 1, 0⟩ : usage_record).get_tokens_f64 5 1 2 = some (tokens, r0) ∧
      tokens = (if (⟨2, 1, 0⟩ : usage_record)._last_update ≠ 0 then
          min ((5 : Int) : ℚ)
            (to_double ((⟨2, 1, 0⟩ : usage_record)._tokens +
              to_double (to_double (2 - (⟨2, 1, 0⟩ : usage_record)._last_update) * 1)))
        else (⟨2, 1, 0⟩ : usage_record)._tokens) ∧
      (⟨2, 1, 0⟩ : usage_record).check_request_f64 5 1 2 = some (b, r1) ∧
      (b = true ↔ 0 < tokens) ∧
      (b = true → r1._tokens = to_double (tokens - 1) ∧
        r1._unreported_hits = (⟨2, 1, 0⟩ : usage_record)._unreported_hits + 1) ∧
      (b = true → 1 ≤ tokens → |(5 : Int)| ≤ 2 ^ 52 →
        to_double (⟨2, 1, 0⟩ : usage_record)._tokens = (⟨2, 1, 0⟩ : usage_record)._tokens →
        (⟨2, 1, 0⟩ : usage_record)._tokens ≤ 2 ^ 52 → r1._tokens = tokens - 1) ∧
      (b = false → r1._tokens = tokens ∧
        r1._unreported_hits = (⟨2, 1, 0⟩ : usage_record)._unreported_hits) ∧
      r1._last_update = 2 ∧
      (b = false → 0 ≤ (5 : Int) → |(5 : Int)| ≤ 2 ^ 53 →
        to_double (⟨2, 1, 0⟩ : usage_record)._tokens = (⟨2, 1, 0⟩ : usage_record)._tokens →
        r1.check_request_f64 5 1 2 = some (false, r1)) :=
  ⟨by norm_num, C21_record_admission ⟨2, 1, 0⟩ 5 1 2 (by norm_num)⟩

/-- C21 as stated fails in the arithmetic of `double`: a rejected request can
change the tokens later available. On the record with `-1/2` token last
updated at 1, under burst 1 and rate `0.1`, the request at 6 is rejected (the
refill `5 * 0.1` rounds to `1/2` and leaves no token); after a request at 3,
which is rejected and leaves about `-0.3` token, the refill `3 * 0.1` at 6
rounds up and leaves `2 ^ -54` tokens, and the request at 6 is admitted. -/
theorem C21_counterexample :
    (⟨-1 / 2, 1, 0⟩ : usage_record).check_request_f64 1 (to_double (1 / 10)) 6 =
      some (false, ⟨0, 6, 0⟩) ∧
    (⟨-1 / 2, 1, 0⟩ : usage_record).check_request_f64 1 (to_double (1 / 10)) 3 =
      some (false, ⟨-(5404319552844595 / 18014398509481984), 3, 0⟩) ∧
    (⟨-(5404319552844595 / 18014398509481984), 3, 0⟩ : usage_record).check_request_f64 1
        (to_double (1 / 10)) 6 = some (true, ⟨-1, 6, 1⟩) := by
  have f1 : to_double (2 : ℚ) = 2 :=
    to_double_exact _ 1 (1) (by norm_num) (by norm_num)
  have f2 : to_double (3602879701896397 / 18014398509481984 : ℚ) = 3602879701896397 / 18014398509481984 :=
    to_double_exact _ 3602879701896397 (-54) (by norm_num) (by norm_num)
  have f3 : to_double (5404319552844595 / 18014398509481984 : ℚ) = 5404319552844595 / 18014398509481984 :=
    to_double_exact _ 5404319552844595 (-54) (by norm_num) (by norm_num)
  have f4 : to_double (3 : ℚ) = 3 :=
    to_double_exact _ 3 (0) (by norm_num) (by norm_num)
  have f5 : to_double (10808639105689191 / 36028797018963968 : ℚ) = 1351079888211149 / 4503599627370496 :=
    to_double_eq_tie _ _ (-54) 5404319552844595 (by norm_num) (by norm_num) (by norm_num)
      (by norm_num)
  have f6 : to_double (1 / 18014398509481984 : ℚ) = 1 / 18014398509481984 :=
    to_double_exact _ 1 (-54) (by norm_num) (by norm_num)
  have f7 : to_double (18014398509481983 / 18014398509481984 : ℚ) = 1 :=
    to_double_eq_tie _ _ (-53) 9007199254740991 (by norm_num) (by norm_num) (by norm_num)
      (by norm_num)
  have f8 : to_double (5 : ℚ) = 5 :=
    to_double_exact _ 5 (0) (by norm_num) (by norm_num)
  have f9 : to_double (18014398509481985 / 36028797018963968 : ℚ) = 1 / 2 :=
    to_double_eq _ _ (-53) 4503599627370496 (by norm_num) (by norm_num) (by norm_num)
      (by norm_num) (by norm_num)
  rw [to_double_tenth]
  refine ⟨?_, ?_, ?_⟩
  · norm_num [usage_record.check_request_f64, usage_record.get_tokens_f64, to_double_zero,
      to_double_neg, f8, f9]
  · norm_num [usage_record.check_request_f64, usage_record.get_tokens_f64, to_double_zero,
      to_double_neg, f1, f2, f3]
  · norm_num [usage_record.check_request_f64, usage_record.get_tokens_f64, to_double_zero,
      to_double_neg, f4, f5, f6, f7]

/-! ## The engine in the arithmetic of `double` -/

theorem survivor_f64_congr (rules rules' : trie Parameters) (h : ∀ q, rules'.deco q = rules.deco q)
    (t : ℚ) : survivor_f64 rules' t = survivor_f64 rules t := by
  funext e
  simp only [survivor_f64, trie.find_congr rules' rules h]

/-- The loop of `make_report_f64` at a time `t > 0` with a decorated root: the
report holds the unreported hits, the map keeps the survivors, and the rules
keep their decorations. -/
theorem make_report_loop_f64_spec (t : ℚ) (ht : 0 < t) (m : record_map_t) (rules : trie Parameters)
    (hroot : (rules.deco []).isSome) :
    ∃ rules', make_report_loop_f64 t m rules =
        some (report_of m, m.filterMap (survivor_f64 rules t), rules') ∧
      ∀ q, rules'.deco q = rules.deco q := by
  induction m generalizing rules with
  | nil => exact ⟨rules, rfl, fun _ => rfl⟩
  | cons e m ih =>
    obtain ⟨tag, r⟩ := e
    obtain ⟨p, hp⟩ := Option.isSome_iff_exists.mp (lowest_isSome rules.deco tag _ hroot)
    have hp' : rules.find tag = some p := hp
    have hl1 : (rules.lookup tag).1 = some p := by rw [trie.lookup_fst]; exact hp'
    have hd : ∀ q, (rules.lookup tag).2.deco q = rules.deco q := trie.deco_lookup rules tag
    obtain ⟨rules', hrun, hdeco⟩ := ih (rules.lookup tag).2 (by rw [hd]; exact hroot)
    refine ⟨rules', ?_, fun q => (hdeco q).trans (hd q)⟩
    have hlk : rules.lookup tag = (some p, (rules.lookup tag).2) := by
      rw [← hl1]
    have hg : r.reset_unreported_hits.get_tokens_f64 p.burst p.rate t =
        some (r.tokens_at_f64 p.burst p.rate t, ⟨r.tokens_at_f64 p.burst p.rate t, t, 0⟩) :=
      usage_record.get_tokens_f64_pos r.reset_unreported_hits p.burst p.rate t ht
    rw [make_report_loop_f64]
    rw [hlk]
    simp only [hg, hrun, survivor_f64_congr _ _ hd]
    by_cases hh : r._unreported_hits > 0 <;>
      by_cases hk : r.tokens_at_f64 p.burst p.rate t ≥ p.burst <;>
      simp [report_of, List.filterMap_cons, survivor_f64, hp', hh, hk,
        usage_record.get_unreported_hits]

theorem Throttle.make_report_f64_spec (th : Throttle) (t : ℚ) (ht : 0 < t) (hroot : th.rooted) :
    ∃ th', th.make_report_f64 t = some (report_of th._map, th') ∧
      th'._map = th._map.filterMap (survivor_f64 th._rules t) ∧ th.same_rules th' := by
  obtain ⟨rules', hrun, hdeco⟩ := make_report_loop_f64_spec t ht th._map th._rules hroot
  exact ⟨⟨th._map.filterMap (survivor_f64 th._rules t), rules'⟩, by simp [Throttle.make_report_f64, hrun],
    rfl, hdeco⟩

/-- What `external_hit_f64` does under parameters `p`. -/
theorem Throttle.external_hit_f64_spec (th : Throttle) (tag : string_t) (count : Int) (t : ℚ)
    (p : Parameters) (hp : th.params tag = some p) :
    ∃ th', th.external_hit_f64 tag count t = some th' ∧
      th'._map = map_set th._map tag ((th.record tag p t).record_external_hits_f64 count) ∧
      th.same_rules th' := by
  obtain ⟨th1, hg, hm, hs⟩ := th.get_record_spec tag t p hp
  refine ⟨⟨map_set th1._map tag ((th.record tag p t).record_external_hits_f64 count), th1._rules⟩,
    ?_, ?_, hs⟩
  · simp [Throttle.external_hit_f64, hg]
  · simp [hm, map_set_set]

theorem debit_f64_congr (rules rules' : trie Parameters) (h : ∀ q, rules'.deco q = rules.deco q)
    (t : ℚ) : debit_f64 rules' t = debit_f64 rules t := by
  funext m e
  simp only [debit_f64, trie.find_congr rules' rules h]

/-- What `receive_report_f64` does when the root of the rules is decorated. -/
theorem Throttle.receive_report_f64_spec (dg : FLDatagram) (t : ℚ) (th : Throttle)
    (hroot : th.rooted) :
    ∃ th', th.receive_report_f64 dg t = some th' ∧
      th'._map = dg.foldl (debit_f64 th._rules t) th._map ∧ th.same_rules th' := by
  induction dg generalizing th with
  | nil => exact ⟨th, rfl, rfl, th.same_rules_refl⟩
  | cons e dg ih =>
    obtain ⟨tag, value⟩ := e
    cases value with
    | none =>
      obtain ⟨th', h1, h2, h3⟩ := ih th hroot
      exact ⟨th', by simpa [Throttle.receive_report_f64] using h1, by simpa [debit_f64] using h2, h3⟩
    | some count =>
      obtain ⟨p, hp⟩ := Option.isSome_iff_exists.mp (th.params_isSome hroot tag)
      obtain ⟨th1, hx, hm, hs⟩ := th.external_hit_f64_spec tag count t p hp
      obtain ⟨th', h1, h2, h3⟩ := ih th1 (Throttle.same_rules_rooted hs hroot)
      refine ⟨th', ?_, ?_, Throttle.same_rules_trans hs h3⟩
      · simp [Throttle.receive_report_f64, hx, h1]
      · rw [h2, debit_f64_congr th._rules th1._rules hs, hm]
        have hp' : th._rules.find tag = some p := hp
        simp [List.foldl_cons, debit_f64, hp', Throttle.record]

/-- What `check_request_f64` does to a tag that is not whitelisted, in terms of
the call on its record. -/
theorem Throttle.check_request_f64_spec (th : Throttle) (tag : string_t) (t : ℚ) (p : Parameters)
    (hp : th.params tag = some p) (hw : p.whitelisted = false) (b : Bool) (r1 : usage_record)
    (hr : (th.record tag p t).check_request_f64 p.burst p.rate t = some (b, r1)) :
    ∃ th', th.check_request_f64 tag t = some (b, th') ∧
      th'._map = map_set th._map tag r1 ∧ th.same_rules th' := by
  have hp1 : (th.probe tag).params tag = some p := by rw [Throttle.probe_params]; exact hp
  obtain ⟨th2, hg, hm, hs⟩ := (th.probe tag).get_record_spec tag t p hp1
  have hrec : (th.probe tag).record tag p t = th.record tag p t := rfl
  rw [hrec] at hg hm
  refine ⟨{ th2 with _map := map_set th2._map tag r1 }, ?_, ?_, ?_⟩
  · simp [Throttle.check_request_f64, Throttle.get_params_eq, hp, hw, hg, hr]
  · simp [hm, Throttle.probe_map, map_set_set]
  · exact fun q => (hs q).trans (th.probe_deco tag q)

/-- Consecutive calls on a tag that is not whitelisted, in terms of the calls
on its record. -/
theorem Throttle.check_requests_f64_spec (tag : string_t) (p : Parameters)
    (hw : p.whitelisted = false) (ts : List ℚ) (th : Throttle)
    (hp : th.params tag = some p) (bs : List Bool) (r' : usage_record)
    (hr : (th.record tag p (ts.headD 0)).check_requests_f64 p.burst p.rate ts = some (bs, r')) :
    ∃ th', th.check_requests_f64 tag ts = some (bs, th') ∧
      (ts ≠ [] → th'._map = map_set th._map tag r') ∧ (ts = [] → th' = th) ∧
      th.same_rules th' := by
  induction ts generalizing th bs with
  | nil =>
    simp only [usage_record.check_requests_f64, Option.some.injEq, Prod.mk.injEq] at hr
    exact ⟨th, by simp [Throttle.check_requests_f64, hr.1], by simp, fun _ => rfl,
      th.same_rules_refl⟩
  | cons t ts ih =>
    simp only [List.headD_cons, usage_record.check_requests_f64] at hr
    cases h1 : (th.record tag p t).check_request_f64 p.burst p.rate t with
    | none => simp [h1] at hr
    | some br =>
      obtain ⟨b, r1⟩ := br
      simp only [h1] at hr
      cases h2 : r1.check_requests_f64 p.burst p.rate ts with
      | none => simp [h2] at hr
      | some bsr =>
        obtain ⟨bs', r2⟩ := bsr
        simp only [h2, Option.some.injEq, Prod.mk.injEq] at hr
        obtain ⟨rfl, rfl⟩ := hr
        obtain ⟨th1, hc, hm, hs⟩ := th.check_request_f64_spec tag t p hp hw b r1 h1
        have hf1 : map_find th1._map tag = some r1 := by simp [hm, map_find_set]
        have hp1 : th1.params tag = some p := by
          rw [Throttle.same_rules_params hs]; exact hp
        have hrec : th1.record tag p (ts.headD 0) = r1 :=
          th1.record_of_find tag p _ r1 hf1
        obtain ⟨th', hrun, hmap, hnil, hs'⟩ := ih th1 hp1 bs' (by rw [hrec]; exact h2)
        refine ⟨th', ?_, ?_, by simp, Throttle.same_rules_trans hs hs'⟩
        · simp [Throttle.check_requests_f64, hc, hrun]
        · intro _
          cases ts with
          | nil =>
            simp only [usage_record.check_requests_f64, Option.some.injEq, Prod.mk.injEq] at h2
            rw [hnil rfl, ← h2.2]
            exact hm
          | cons t' ts' =>
            rw [hmap (by simp), hm, map_set_set]

theorem Throttle.check_requests_f64_append (tag : string_t) (ts1 ts2 : List ℚ)
    (th th1 th2 : Throttle) (bs1 bs2 : List Bool)
    (h1 : th.check_requests_f64 tag ts1 = some (bs1, th1))
    (h2 : th1.check_requests_f64 tag ts2 = some (bs2, th2)) :
    th.check_requests_f64 tag (ts1 ++ ts2) = some (bs1 ++ bs2, th2) := by
  induction ts1 generalizing th bs1 with
  | nil =>
    simp only [Throttle.check_requests_f64, Option.some.injEq, Prod.mk.injEq] at h1
    obtain ⟨rfl, rfl⟩ := h1
    simpa using h2
  | cons t ts ih =>
    simp only [Throttle.check_requests_f64] at h1
    cases hc : th.check_request_f64 tag t with
    | none => simp [hc] at h1
    | some br =>
      obtain ⟨b, ra⟩ := br
      simp only [hc] at h1
      cases hrest : ra.check_requests_f64 tag ts with
      | none => simp [hrest] at h1
      | some w =>
        obtain ⟨bs', rb⟩ := w
        simp only [hrest, Option.some.injEq, Prod.mk.injEq] at h1
        obtain ⟨rfl, rfl⟩ := h1
        have := ih ra bs' hrest
        rw [List.cons_append, Throttle.check_requests_f64, hc]
        simp only [this, List.cons_append]

/-- The function `exchange_messages_f64` on two engines: the report of the first
goes to the second, then the report of the second goes to the first. -/
theorem exchange_messages_f64_two (th0 th1 th0a th1a th1b th0b : Throttle) (rpt0 rpt1 : FLDatagram)
    (when : ℚ) (h1 : th0.make_report_f64 when = some (rpt0, th0a))
    (h2 : th1.receive_report_f64 rpt0 when = some th1a)
    (h3 : th1a.make_report_f64 when = some (rpt1, th1b))
    (h4 : th0a.receive_report_f64 rpt1 when = some th0b) :
    exchange_messages_f64 [th0, th1] when = some [th0b, th1b] := by
  simp [exchange_messages_f64, exchange_from_f64, deliver_f64, h1, h2, h3, h4]

/-! ## One tag under the default rule, in the arithmetic of `double` -/

theorem Throttle.holds_tokens_at_f64 {th : Throttle} {burst : Int} {rate : ℚ} {tag : string_t}
    {t : ℚ} {v : usage_record} (h : th.holds burst rate tag t v)
    (hd : to_double v._tokens = v._tokens) : v.tokens_at_f64 burst rate t = v._tokens := by
  obtain ⟨-, -, hl, hle, -⟩ := h
  rw [← hl]
  exact usage_record.tokens_at_f64_same v burst rate hd hle

/-- `n` calls `check_request(tag, t)` on such an engine with at least `n`
tokens all succeed. -/
theorem Throttle.holds_check_requests_f64 {th : Throttle} {burst : Int} {rate : ℚ}
    {tag : string_t} {t : ℚ} {v : usage_record} (h : th.holds burst rate tag t v) (ht : 0 < t)
    (hd : to_double v._tokens = v._tokens) (hb : |burst| ≤ 2 ^ 52) (n : Nat)
    (hn : (n : ℚ) ≤ v._tokens) :
    ∃ th', th.check_requests_f64 tag (List.replicate n t) = some (List.replicate n true, th') ∧
      th'.holds burst rate tag t ⟨v._tokens - n, t, v._unreported_hits + n⟩ := by
  have hrec := Throttle.holds_record h
  have htok := Throttle.holds_tokens_at_f64 h hd
  rcases Nat.eq_zero_or_pos n with h0 | hpos
  · subst h0
    refine ⟨th, rfl, ?_⟩
    have hv : (⟨v._tokens - ((0 : ℕ) : ℚ), t, v._unreported_hits + ((0 : ℕ) : Int)⟩ :
        usage_record) = v := by
      have hl := h.2.2.1
      cases v
      simp only at hl
      simp [hl]
    rw [hv]
    exact h
  obtain ⟨hroot, hp, hl, hle, hm⟩ := h
  have hne : v._last_update ≠ 0 := by rw [hl]; exact ht.ne'
  obtain ⟨r', hrun, hlast, hst, -, hhit⟩ :=
    usage_record.check_requests_f64_same n v burst rate t ht hne hb
  rw [htok] at hrun hst hhit
  have hce : n ≤ ⌈v._tokens⌉.toNat := by
    have : (n : Int) ≤ ⌈v._tokens⌉ := by
      have := Int.le_ceil v._tokens
      have h3 : ((n : Int) : ℚ) ≤ (⌈v._tokens⌉ : ℚ) := by push_cast; linarith
      exact_mod_cast h3
    omega
  have hmin : min n ⌈v._tokens⌉.toNat = n := min_eq_left hce
  have hsub : n - ⌈v._tokens⌉.toNat = 0 := by omega
  rw [hmin, hsub] at hrun
  rw [hmin] at hhit
  simp only [List.replicate_zero, List.append_nil] at hrun
  have hhead : (List.replicate n t).headD 0 = t := by
    cases n with
    | zero => omega
    | succ k => simp [List.replicate_succ]
  have hne' : List.replicate n t ≠ [] := by
    cases n with
    | zero => omega
    | succ k => simp [List.replicate_succ]
  obtain ⟨th', hth, hmap, -, hs⟩ := Throttle.check_requests_f64_spec tag ⟨burst, rate, false⟩ rfl
    (List.replicate n t) th hp _ r' (by rw [hhead, hrec]; exact hrun)
  refine ⟨th', hth, Throttle.same_rules_rooted hs hroot, ?_, rfl, ?_, ?_⟩
  · rw [Throttle.same_rules_params hs]; exact hp
  · simp only; linarith [(Nat.cast_nonneg n : (0 : ℚ) ≤ n)]
  · right
    rw [hmap hne']
    have hr' : r' = ⟨v._tokens - n, t, v._unreported_hits + n⟩ := by
      have h1 := hlast hpos
      have h2 := hst hpos hn
      cases r'
      simp only at h1 h2 hhit
      simp [h1, h2, hhit]
    rw [hr']
    rcases hm with ⟨hm, -⟩ | hm <;> simp [hm, map_set]

/-- A `check_request(tag, t)` on such an engine with no token is rejected and
changes nothing the engine holds. -/
theorem Throttle.holds_check_request_reject_f64 {th : Throttle} {burst : Int} {rate : ℚ}
    {tag : string_t} {t : ℚ} {v : usage_record} (h : th.holds burst rate tag t v) (ht : 0 < t)
    (hd : to_double v._tokens = v._tokens) (hv : v._tokens ≤ 0) :
    ∃ th', th.check_request_f64 tag t = some (false, th') ∧ th'.holds burst rate tag t v := by
  have hrec := Throttle.holds_record h
  have htok := Throttle.holds_tokens_at_f64 h hd
  have hset := Throttle.holds_map_set h
  obtain ⟨hroot, hp, hl, hle, hm⟩ := h
  have hx : ¬ 0 < v._tokens := not_lt.mpr hv
  obtain ⟨th', h1, hmap, hs⟩ := th.check_request_f64_spec tag t ⟨burst, rate, false⟩ hp rfl false
    ⟨v._tokens, t, v._unreported_hits⟩
    (by rw [hrec, usage_record.check_request_f64_pos _ _ _ _ ht, htok, if_neg hx])
  have hveq : (⟨v._tokens, t, v._unreported_hits⟩ : usage_record) = v := by
    cases v
    simp only at hl
    simp [hl]
  refine ⟨th', h1, Throttle.same_rules_rooted hs hroot, ?_, hl, hle, Or.inr ?_⟩
  · rw [Throttle.same_rules_params hs]; exact hp
  · rw [hmap, hset, hveq]

/-- A `make_report(t)` on such an engine reports the unreported hits of the
tag, if any, and leaves the tokens as they are. -/
theorem Throttle.holds_make_report_f64 {th : Throttle} {burst : Int} {rate : ℚ}
    {tag : string_t} {t : ℚ} {v : usage_record} (h : th.holds burst rate tag t v) (ht : 0 < t)
    (hd : to_double v._tokens = v._tokens) :
    ∃ th', th.make_report_f64 t =
        some (if 0 < v._unreported_hits then [(tag, some v._unreported_hits)] else [], th') ∧
      th'.holds burst rate tag t ⟨v._tokens, t, 0⟩ := by
  have htok := Throttle.holds_tokens_at_f64 h hd
  obtain ⟨hroot, hp, hl, hle, hm⟩ := h
  obtain ⟨th', h1, hmap, hs⟩ := th.make_report_f64_spec t ht hroot
  have hp' : th._rules.find tag = some ⟨burst, rate, false⟩ := hp
  rcases hm with ⟨hm, hv⟩ | hm
  · refine ⟨th', ?_, Throttle.same_rules_rooted hs hroot, ?_, rfl, hle, Or.inl ⟨?_, ?_⟩⟩
    · rw [h1, hm, hv]; simp [report_of]
    · rw [Throttle.same_rules_params hs]; exact hp
    · rw [hmap, hm]; rfl
    · rw [hv]
  · refine ⟨th', ?_, Throttle.same_rules_rooted hs hroot, ?_, rfl, hle, ?_⟩
    · rw [h1, hm]
      by_cases hh : 0 < v._unreported_hits <;> simp [report_of, hh]
    · rw [Throttle.same_rules_params hs]; exact hp
    · rw [hmap, hm]
      by_cases hfull : v._tokens ≥ burst
      · left
        have : v._tokens = burst := le_antisymm hle hfull
        simp [survivor_f64, hp', htok, hfull, this]
      · right
        simp [survivor_f64, hp', htok, hfull]

/-- The report `[(tag, count)]` with `count ≥ 0`, received by such an engine,
takes `count` tokens from the bucket of the tag. -/
theorem Throttle.holds_receive_report_f64 {th : Throttle} {burst : Int} {rate : ℚ}
    {tag : string_t} {t : ℚ} {v : usage_record} (h : th.holds burst rate tag t v) (count : Int)
    (hc : 0 ≤ count) (hb : |burst| ≤ 2 ^ 53) :
    ∃ th', th.receive_report_f64 [(tag, some count)] t = some th' ∧
      th'.holds burst rate tag t ⟨to_double (v._tokens - count), t, v._unreported_hits⟩ := by
  have hrec := Throttle.holds_record h
  have hset := Throttle.holds_map_set h
  obtain ⟨hroot, hp, hl, hle, hm⟩ := h
  obtain ⟨th', h1, hmap, hs⟩ := Throttle.receive_report_f64_spec [(tag, some count)] t th hroot
  have hp' : th._rules.find tag = some ⟨burst, rate, false⟩ := hp
  have hcq : (0 : ℚ) ≤ count := by exact_mod_cast hc
  refine ⟨th', h1, Throttle.same_rules_rooted hs hroot, ?_, rfl, ?_, Or.inr ?_⟩
  · rw [Throttle.same_rules_params hs]; exact hp
  · simp only
    have := to_double_mono (by linarith : v._tokens - count ≤ (burst : ℚ))
    rwa [to_double_intCast burst hb] at this
  · rw [hmap]
    simp only [List.foldl_cons, List.foldl_nil, debit_f64, hp']
    have : (map_find th._map tag).getD (usage_record.new burst t) = v := hrec
    rw [this, hset]
    cases v
    simp only at hl
    simp [usage_record.record_external_hits_f64, hl]

/-- The report of such an engine, received by another such engine. -/
theorem Throttle.holds_receive_of_f64 {th : Throttle} {burst : Int} {rate : ℚ}
    {tag : string_t} {t : ℚ} {v : usage_record} (h : th.holds burst rate tag t v) (hits : Int)
    (hh : 0 ≤ hits) (hb : |burst| ≤ 2 ^ 53) (hd : to_double v._tokens = v._tokens) :
    ∃ th', th.receive_report_f64 (if 0 < hits then [(tag, some hits)] else []) t = some th' ∧
      th'.holds burst rate tag t ⟨to_double (v._tokens - hits), t, v._unreported_hits⟩ := by
  by_cases hpos : 0 < hits
  · simpa [hpos] using Throttle.holds_receive_report_f64 h hits hh hb
  · have h0 : hits = 0 := by omega
    subst h0
    refine ⟨th, by simp [Throttle.receive_report_f64], ?_⟩
    have hv : (⟨to_double (v._tokens - ((0 : Int) : ℚ)), t, v._unreported_hits⟩ :
        usage_record) = v := by
      have hl := h.2.2.1
      cases v
      simp only at hl hd
      simp [hl, hd]
    rw [hv]
    exact h

/-- Calls `check_request(tag, t2)` on such an engine that holds the record of
the tag: the first `⌈x⌉` succeed, where `x` is the count the refill at `t2`
gives, and the others fail. -/
theorem Throttle.holds_refill_f64 {th : Throttle} {burst : Int} {rate : ℚ} {tag : string_t}
    {t : ℚ} {v : usage_record} (h : th.holds burst rate tag t v) (ht : 0 < t)
    (hv : v._tokens < burst) (hb : |burst| ≤ 2 ^ 52) (t2 : ℚ) (ht2 : 0 < t2) (n : Nat) :
    ∃ th', th.check_requests_f64 tag (List.replicate n t2) =
      some (List.replicate (min n ⌈v.tokens_at_f64 burst rate t2⌉.toNat) true ++
            List.replicate (n - ⌈v.tokens_at_f64 burst rate t2⌉.toNat) false, th') := by
  obtain ⟨hroot, hp, hl, hle, hm⟩ := h
  have hmap : th._map = [(tag, v)] := by
    rcases hm with ⟨-, hv'⟩ | hm
    · rw [hv'] at hv
      simp only at hv
      exact absurd hv (lt_irrefl _)
    · exact hm
  have hfind : map_find th._map tag = some v := by simp [hmap, map_find]
  obtain ⟨r', hrun, -⟩ := usage_record.check_requests_f64_same n v burst rate t2 ht2
    (by rw [hl]; exact ht.ne') hb
  obtain ⟨th', hth, -⟩ := Throttle.check_requests_f64_spec tag ⟨burst, rate, false⟩ rfl
    (List.replicate n t2) th hp _ r'
    (by rw [th.record_of_find tag _ _ _ hfind]; exact hrun)
  exact ⟨th', hth⟩

/-- The count the refill gives an empty bucket: the inflow computed in
doubles, at most `burst`. -/
theorem usage_record.ceil_tokens_at_f64_empty (burst : Int) (rate t t2 : ℚ) (hits : Int)
    (ht : t ≠ 0) :
    ⌈(⟨0, t, hits⟩ : usage_record).tokens_at_f64 burst rate t2⌉ =
      min burst ⌈to_double (to_double (t2 - t) * rate)⌉ := by
  have hmono : Monotone (Int.ceil : ℚ → Int) := Int.ceil_mono
  simp only [usage_record.tokens_at_f64, ht, ne_eq, not_false_eq_true, if_true, zero_add,
    to_double_idem]
  rw [hmono.map_min, Int.ceil_intCast]

/-! ## C10 -/

/-- On a fresh `Throttle(burst, rate)`, `burst` calls at `t` empty the bucket
of the tag, and of `n` calls at `t2` the first `min(burst, ⌈x⌉)` succeed,
where `x` is the inflow the refill computes in doubles. -/
theorem Throttle.refill_over_time_f64 (burst : Int) (rate t t2 : ℚ) (tag : string_t)
    (hb : 1 ≤ burst) (hb2 : burst ≤ 2 ^ 52) (ht : 0 < t) (ht2 : 0 < t2) (n : Nat) :
    ∃ th1 th2,
      (Throttle.new burst rate).check_requests_f64 tag (List.replicate burst.toNat t) =
        some (List.replicate burst.toNat true, th1) ∧
      map_find th1._map tag = some ⟨0, t, burst⟩ ∧
      th1.check_requests_f64 tag (List.replicate n t2) =
        some (List.replicate
            (min n (min burst ⌈to_double (to_double (t2 - t) * rate)⌉).toNat) true ++
          List.replicate (n - (min burst ⌈to_double (to_double (t2 - t) * rate)⌉).toNat) false,
          th2) := by
  have hbn : ((burst.toNat : ℕ) : Int) = burst := Int.toNat_of_nonneg (by omega)
  have hbq : ((burst.toNat : ℕ) : ℚ) = burst := by exact_mod_cast hbn
  have hba : |burst| ≤ 2 ^ 52 := by rw [abs_of_nonneg (by omega)]; exact hb2
  have hba53 : |burst| ≤ 2 ^ 53 := le_trans hba (by norm_num)
  obtain ⟨th1, hrun1, hh1⟩ :=
    Throttle.holds_check_requests_f64 (Throttle.holds_new burst rate tag t) ht
      (to_double_intCast burst hba53) hba burst.toNat (by simp only [hbq]; exact le_refl _)
  have hv : (⟨(burst : ℚ) - (burst.toNat : ℕ), t, (0 : Int) + (burst.toNat : ℕ)⟩ : usage_record) =
      ⟨0, t, burst⟩ := by
    simp [hbq, hbn]
  rw [hv] at hh1
  have hmap : th1._map = [(tag, ⟨0, t, burst⟩)] := by
    rcases hh1.2.2.2.2 with ⟨-, hv'⟩ | hm
    · simp only [usage_record.mk.injEq] at hv'
      have : (0 : ℚ) < burst := by exact_mod_cast (by omega : (0 : Int) < burst)
      linarith [hv'.1]
    · exact hm
  have hfind : map_find th1._map tag = some ⟨0, t, burst⟩ := by simp [hmap, map_find]
  obtain ⟨th2, hrun2⟩ := Throttle.holds_refill_f64 hh1 ht
    (by simp only; exact_mod_cast (by omega : (0 : Int) < burst)) hba t2 ht2 n
  rw [usage_record.ceil_tokens_at_f64_empty burst rate t t2 burst ht.ne'] at hrun2
  exact ⟨th1, th2, hrun1, hfind, hrun2⟩

/-- The inflow over an integer time under an integer rate is their product,
within 53 bits. -/
theorem to_double_inflow (t t2 rate : ℚ) (d ρ : Int) (h1 : t2 - t = d) (h2 : rate = ρ)
    (hd : |d| ≤ 2 ^ 53) (hp : |d * ρ| ≤ 2 ^ 53) :
    to_double (to_double (t2 - t) * rate) = ((d * ρ : Int) : ℚ) := by
  rw [h1, h2, to_double_intCast d hd]
  have : (d : ℚ) * (ρ : ℚ) = ((d * ρ : Int) : ℚ) := by push_cast; ring
  rw [this, to_double_intCast _ hp]

/-- C10 (amended): on a fresh `Throttle(burst, rate)` with `1 ≤ burst ≤ 2^52`
and `rate ≥ 0`, `burst` calls `check_request(tag, t)` at `t > 0` are admitted
and leave the bucket with exactly `0` tokens; then, of `min(burst, ⌈x⌉) + 1`
calls at `t2 ≥ t`, all return true but the last, which returns false, where
`x` is the inflow as the refill computes it in doubles: the double nearest to
the product of `rate` and the double nearest to `t2 - t`. When `t2 - t` and
`rate` are integers (within 53 bits, and so their product), `x` is their
product. -/
theorem C10_refill_over_time (burst : Int) (rate t t2 : ℚ) (tag : string_t) (hb : 1 ≤ burst)
    (hb2 : burst ≤ 2 ^ 52) (_hr : 0 ≤ rate) (ht : 0 < t) (hd : t ≤ t2) :
    ∃ th1 th2,
      (Throttle.new burst rate).check_requests_f64 tag (List.replicate burst.toNat t) =
        some (List.replicate burst.toNat true, th1) ∧
      map_find th1._map tag = some ⟨0, t, burst⟩ ∧
      th1.check_requests_f64 tag
          (List.replicate ((min burst ⌈to_double (to_double (t2 - t) * rate)⌉).toNat + 1) t2) =
        some (List.replicate (min burst ⌈to_double (to_double (t2 - t) * rate)⌉).toNat true ++
          [false], th2) ∧
      (∀ d ρ : Int, t2 - t = d → rate = ρ → |d| ≤ 2 ^ 53 → |d * ρ| ≤ 2 ^ 53 →
        to_double (to_double (t2 - t) * rate) = ((d * ρ : Int) : ℚ)) := by
  obtain ⟨th1, th2, h1, h2, h3⟩ := Throttle.refill_over_time_f64 burst rate t t2 tag hb hb2 ht
    (lt_of_lt_of_le ht hd) ((min burst ⌈to_double (to_double (t2 - t) * rate)⌉).toNat + 1)
  have hmin : min ((min burst ⌈to_double (to_double (t2 - t) * rate)⌉).toNat + 1)
      (min burst ⌈to_double (to_double (t2 - t) * rate)⌉).toNat =
      (min burst ⌈to_double (to_double (t2 - t) * rate)⌉).toNat := by omega
  have hsub : (min burst ⌈to_double (to_double (t2 - t) * rate)⌉).toNat + 1 -
      (min burst ⌈to_double (to_double (t2 - t) * rate)⌉).toNat = 1 := by omega
  rw [hmin, hsub] at h3
  exact ⟨th1, th2, h1, h2, by simpa using h3,
    fun d ρ e1 e2 e3 e4 => to_double_inflow t t2 rate d ρ e1 e2 e3 e4⟩

/-- C10 at `burst = 10`, `rate = 1`, `t = 1090026999` and
`t2 = 1090027004`. -/
theorem C10_refill_over_time_witness :
    (1 : Int) ≤ 10 ∧ (10 : Int) ≤ 2 ^ 52 ∧ (0 : ℚ) ≤ 1 ∧ (0 : ℚ) < 1090026999 ∧
    (1090026999 : ℚ) ≤ 1090027004 ∧
    ∃ th1 th2,
      (Throttle.new 10 1).check_requests_f64 ['j', 'o', 'h', 'n']
          (List.replicate (10 : Int).toNat 1090026999) =
        some (List.replicate (10 : Int).toNat true, th1) ∧
      map_find th1._map ['j', 'o', 'h', 'n'] = some ⟨0, 1090026999, 10⟩ ∧
      th1.check_requests_f64 ['j', 'o', 'h', 'n']
          (List.replicate
            ((min (10 : Int) ⌈to_double (to_double (1090027004 - 1090026999) * 1)⌉).toNat + 1)
            1090027004) =
        some (List.replicate
            (min (10 : Int) ⌈to_double (to_double (1090027004 - 1090026999) * 1)⌉).toNat true ++
          [false], th2) ∧
      (∀ d ρ : Int, (1090027004 : ℚ) - 1090026999 = d → (1 : ℚ) = ρ → |d| ≤ 2 ^ 53 →
        |d * ρ| ≤ 2 ^ 53 →
        to_double (to_double (1090027004 - 1090026999) * 1) = ((d * ρ : Int) : ℚ)) :=
  ⟨by decide, by norm_num, by norm_num, by norm_num, by norm_num,
    C10_refill_over_time 10 1 1090026999 1090027004 ['j', 'o', 'h', 'n'] (by decide)
      (by norm_num) (by norm_num) (by norm_num) (by norm_num)⟩

/-- C10 as stated fails in the arithmetic of `double`: on `Throttle(2, 0.1)`
two calls at time 1 empty the bucket of `a`; ten seconds later the inflow
`10 * 0.1` is computed as the double `1` (the exact product of 10 and the
double nearest to `0.1` is above 1 and rounds down), so of three calls at 11
only the first is admitted, whereas `min(burst, ⌈d * rate⌉)` is 2. -/
theorem C10_counterexample :
    ∃ th1 th2,
      (Throttle.new 2 (to_double (1 / 10))).check_requests_f64 ['a'] [1, 1] =
        some ([true, true], th1) ∧
      map_find th1._map ['a'] = some ⟨0, 1, 2⟩ ∧
      th1.check_requests_f64 ['a'] [11, 11, 11] = some ([true, false, false], th2) ∧
      min (2 : Int) ⌈((11 : ℚ) - 1) * to_double (1 / 10)⌉ = 2 := by
  have f1 : to_double (10 : ℚ) = 10 :=
    to_double_exact _ 5 (1) (by norm_num) (by norm_num)
  have f2 : to_double (18014398509481985 / 18014398509481984 : ℚ) = 1 :=
    to_double_eq _ _ (-52) 4503599627370496 (by norm_num) (by norm_num) (by norm_num)
      (by norm_num) (by norm_num)
  have hy : to_double (to_double ((11 : ℚ) - 1) * to_double (1 / 10)) = 1 := by
    rw [to_double_tenth]
    norm_num [f1, f2]
  have hc : ⌈((11 : ℚ) - 1) * to_double (1 / 10)⌉ = 2 := by
    rw [to_double_tenth, Int.ceil_eq_iff]
    constructor <;> norm_num
  obtain ⟨th1, th2, h1, h2, h3⟩ := Throttle.refill_over_time_f64 2 (to_double (1 / 10)) 1 11
    ['a'] (by decide) (by norm_num) (by norm_num) (by norm_num) 3
  rw [hy] at h3
  refine ⟨th1, th2, ?_, h2, ?_, ?_⟩
  · simpa [List.replicate] using h1
  · simpa [List.replicate] using h3
  · rw [hc]; rfl

/-! ## C19 -/

/-- Two fresh engines `Throttle(burst, rate)`: engine 0 admits `burst`
requests for `tag` at `t` and rejects the next; after `exchange_messages` at
`t`, of `n` calls at `t2` on either engine the first `min(burst, ⌈x⌉)`
succeed, where `x` is the inflow the refill computes in doubles. -/
theorem Throttle.peer_refill_f64 (burst : Int) (rate t t2 : ℚ) (tag : string_t)
    (hb : 1 ≤ burst) (hb2 : burst ≤ 2 ^ 52) (ht : 0 < t) (ht2 : 0 < t2) (n : Nat) :
    ∃ e0 e0' e1' e0'' e1'',
      (Throttle.new burst rate).check_requests_f64 tag (List.replicate burst.toNat t ++ [t]) =
        some (List.replicate burst.toNat true ++ [false], e0) ∧
      exchange_messages_f64 [e0, Throttle.new burst rate] t = some [e0', e1'] ∧
      e0'.check_requests_f64 tag (List.replicate n t2) =
        some (List.replicate
            (min n (min burst ⌈to_double (to_double (t2 - t) * rate)⌉).toNat) true ++
          List.replicate (n - (min burst ⌈to_double (to_double (t2 - t) * rate)⌉).toNat) false,
          e0'') ∧
      e1'.check_requests_f64 tag (List.replicate n t2) =
        some (List.replicate
            (min n (min burst ⌈to_double (to_double (t2 - t) * rate)⌉).toNat) true ++
          List.replicate (n - (min burst ⌈to_double (to_double (t2 - t) * rate)⌉).toNat) false,
          e1'') := by
  have hbn : ((burst.toNat : ℕ) : Int) = burst := Int.toNat_of_nonneg (by omega)
  have hbq : ((burst.toNat : ℕ) : ℚ) = burst := by exact_mod_cast hbn
  have hba : |burst| ≤ 2 ^ 52 := by rw [abs_of_nonneg (by omega)]; exact hb2
  have hba53 : |burst| ≤ 2 ^ 53 := le_trans hba (by norm_num)
  have hbpos : (0 : ℚ) < burst := by exact_mod_cast (by omega : (0 : Int) < burst)
  obtain ⟨ea, hra, hha⟩ :=
    Throttle.holds_check_requests_f64 (Throttle.holds_new burst rate tag t) ht
      (to_double_intCast burst hba53) hba burst.toNat (by simp only [hbq]; exact le_refl _)
  have hv : (⟨(burst : ℚ) - (burst.toNat : ℕ), t, (0 : Int) + (burst.toNat : ℕ)⟩ : usage_record) =
      ⟨0, t, burst⟩ := by
    simp [hbq, hbn]
  rw [hv] at hha
  obtain ⟨e0, hrej, hh0⟩ :=
    Throttle.holds_check_request_reject_f64 hha ht to_double_zero (le_refl _)
  have hrun0 := Throttle.check_requests_f64_append tag (List.replicate burst.toNat t) [t]
    (Throttle.new burst rate) ea e0 _ [false] hra (by simp [Throttle.check_requests_f64, hrej])
  obtain ⟨e0a, hm0, hh0a⟩ := Throttle.holds_make_report_f64 hh0 ht to_double_zero
  obtain ⟨e1a, hv1, hh1a⟩ :=
    Throttle.holds_receive_of_f64 (Throttle.holds_new burst rate tag t) burst (by omega) hba53
      (to_double_intCast burst hba53)
  simp only [sub_self, to_double_zero] at hh1a
  obtain ⟨e1b, hm1, hh1b⟩ := Throttle.holds_make_report_f64 hh1a ht to_double_zero
  obtain ⟨e0b, hv0, hh0b⟩ := Throttle.holds_receive_of_f64 hh0a 0 (le_refl _) hba53 to_double_zero
  simp only [Int.cast_zero, sub_self, to_double_zero] at hh0b
  simp only [lt_self_iff_false, if_false] at hm1 hv0
  have hx := exchange_messages_f64_two e0 (Throttle.new burst rate) e0a e1a e1b e0b _ _ t hm0 hv1
    hm1 hv0
  obtain ⟨e0'', hc0⟩ := Throttle.holds_refill_f64 hh0b ht (by simpa using hbpos) hba t2 ht2 n
  obtain ⟨e1'', hc1⟩ := Throttle.holds_refill_f64 hh1b ht (by simpa using hbpos) hba t2 ht2 n
  rw [usage_record.ceil_tokens_at_f64_empty burst rate t t2 0 ht.ne'] at hc0 hc1
  exact ⟨e0, e0b, e1b, e0'', e1'', hrun0, hx, hc0, hc1⟩

/-- C19 (amended): two fresh engines `Throttle(burst, rate)` with
`1 ≤ burst ≤ 2^52` and `rate > 0`; engine 0 admits `burst` requests for `tag`
at `t > 0` and rejects the next; after `exchange_messages` at `t`, of
`min(burst, ⌈x⌉) + 1` calls `check_request(tag, t2)` at `t2 ≥ t` on either
engine all return true but the last, which returns false, where `x` is the
inflow as the refill computes it in doubles from `t`: a record first created
by `receive_report` at `t` accrues refill from `t`. Each engine admits exactly
one request when `0 < x ≤ 1`, and `x` is the product of `t2 - t` and `rate`
when these are integers (within 53 bits, and so their product). -/
theorem C19_peer_exhaustion_then_refill (burst : Int) (rate t t2 : ℚ) (tag : string_t)
    (hb : 1 ≤ burst) (hb2 : burst ≤ 2 ^ 52) (_hr : 0 < rate) (ht : 0 < t) (hd : t ≤ t2) :
    ∃ e0 e0' e1' e0'' e1'',
      (Throttle.new burst rate).check_requests_f64 tag (List.replicate burst.toNat t ++ [t]) =
        some (List.replicate burst.toNat true ++ [false], e0) ∧
      exchange_messages_f64 [e0, Throttle.new burst rate] t = some [e0', e1'] ∧
      e0'.check_requests_f64 tag
          (List.replicate ((min burst ⌈to_double (to_double (t2 - t) * rate)⌉).toNat + 1) t2) =
        some (List.replicate (min burst ⌈to_double (to_double (t2 - t) * rate)⌉).toNat true ++
          [false], e0'') ∧
      e1'.check_requests_f64 tag
          (List.replicate ((min burst ⌈to_double (to_double (t2 - t) * rate)⌉).toNat + 1) t2) =
        some (List.replicate (min burst ⌈to_double (to_double (t2 - t) * rate)⌉).toNat true ++
          [false], e1'') ∧
      (0 < to_double (to_double (t2 - t) * rate) → to_double (to_double (t2 - t) * rate) ≤ 1 →
        (min burst ⌈to_double (to_double (t2 - t) * rate)⌉).toNat = 1) ∧
      (∀ d ρ : Int, t2 - t = d → rate = ρ → |d| ≤ 2 ^ 53 → |d * ρ| ≤ 2 ^ 53 →
        to_double (to_double (t2 - t) * rate) = ((d * ρ : Int) : ℚ)) := by
  obtain ⟨e0, e0', e1', e0'', e1'', h1, h2, h3, h4⟩ :=
    Throttle.peer_refill_f64 burst rate t t2 tag hb hb2 ht (lt_of_lt_of_le ht hd)
      ((min burst ⌈to_double (to_double (t2 - t) * rate)⌉).toNat + 1)
  have hmin : min ((min burst ⌈to_double (to_double (t2 - t) * rate)⌉).toNat + 1)
      (min burst ⌈to_double (to_double (t2 - t) * rate)⌉).toNat =
      (min burst ⌈to_double (to_double (t2 - t) * rate)⌉).toNat := by omega
  have hsub : (min burst ⌈to_double (to_double (t2 - t) * rate)⌉).toNat + 1 -
      (min burst ⌈to_double (to_double (t2 - t) * rate)⌉).toNat = 1 := by omega
  rw [hmin, hsub] at h3 h4
  refine ⟨e0, e0', e1', e0'', e1'', h1, h2, by simpa using h3, by simpa using h4, ?_,
    fun d ρ e1 e2 e3 e4 => to_double_inflow t t2 rate d ρ e1 e2 e3 e4⟩
  intro hpos hle
  have hce : ⌈to_double (to_double (t2 - t) * rate)⌉ = 1 := by
    rw [Int.ceil_eq_iff]
    constructor
    · simpa using hpos
    · simpa using hle
  rw [hce, min_eq_right hb]
  rfl

/-- C19 at `burst = 10`, `rate = 1`, `t = 1090012345` and `t2 = 1090012346`,
tag `john`. -/
theorem C19_peer_exhaustion_then_refill_witness :
    (1 : Int) ≤ 10 ∧ (10 : Int) ≤ 2 ^ 52 ∧ (0 : ℚ) < 1 ∧ (0 : ℚ) < 1090012345 ∧
    (1090012345 : ℚ) ≤ 1090012346 ∧
    ∃ e0 e0' e1' e0'' e1'',
      (Throttle.new 10 1).check_requests_f64 ['j', 'o', 'h', 'n']
          (List.replicate (10 : Int).toNat 1090012345 ++ [1090012345]) =
        some (List.replicate (10 : Int).toNat true ++ [false], e0) ∧
      exchange_messages_f64 [e0, Throttle.new 10 1] 1090012345 = some [e0', e1'] ∧
      e0'.check_requests_f64 ['j', 'o', 'h', 'n']
          (List.replicate
            ((min (10 : Int) ⌈to_double (to_double (1090012346 - 1090012345) * 1)⌉).toNat + 1)
            1090012346) =
        some (List.replicate
            (min (10 : Int) ⌈to_double (to_double (1090012346 - 1090012345) * 1)⌉).toNat true ++
          [false], e0'') ∧
      e1'.check_requests_f64 ['j', 'o', 'h', 'n']
          (List.replicate
            ((min (10 : Int) ⌈to_double (to_double (1090012346 - 1090012345) * 1)⌉).toNat + 1)
            1090012346) =
        some (List.replicate
            (min (10 : Int) ⌈to_double (to_double (1090012346 - 1090012345) * 1)⌉).toNat true ++
          [false], e1'') ∧
      (0 < to_double (to_double (1090012346 - 1090012345) * 1) →
        to_double (to_double (1090012346 - 1090012345) * 1) ≤ 1 →
        (min (10 : Int) ⌈to_double (to_double (1090012346 - 1090012345) * 1)⌉).toNat = 1) ∧
      (∀ d ρ : Int, (1090012346 : ℚ) - 1090012345 = d → (1 : ℚ) = ρ → |d| ≤ 2 ^ 53 →
        |d * ρ| ≤ 2 ^ 53 →
        to_double (to_double (1090012346 - 1090012345) * 1) = ((d * ρ : Int) : ℚ)) :=
  ⟨by decide, by norm_num, by norm_num, by norm_num, by norm_num,
    C19_peer_exhaustion_then_refill 10 1 1090012345 1090012346 ['j', 'o', 'h', 'n'] (by decide)
      (by norm_num) (by norm_num) (by norm_num) (by norm_num)⟩

/-- C19 as stated fails in the arithmetic of `double`: with `burst = 2`,
`rate = 6` and `t = 1090012345`, the time `t + 1 / rate` is not a double; the
double nearest to it, which is also what `t + 1 / rate` evaluates to in
doubles, lies `699051 / 2^22` after `t`, a little more than `1 / 6`; the
inflow computed at that time is `1 + 2^-21`, and each engine admits two
requests there, not one. -/
theorem C19_counterexample :
    to_double (1090012345 + 1 / 6) = 4571843139381931 / 4194304 ∧
    to_double (1090012345 + to_double (1 / 6)) = 4571843139381931 / 4194304 ∧
    ∃ e0 e0' e1' e0'' e1'',
      (Throttle.new 2 6).check_requests_f64 ['a'] [1090012345, 1090012345, 1090012345] =
        some ([true, true, false], e0) ∧
      exchange_messages_f64 [e0, Throttle.new 2 6] 1090012345 = some [e0', e1'] ∧
      e0'.check_requests_f64 ['a'] [4571843139381931 / 4194304, 4571843139381931 / 4194304,
          4571843139381931 / 4194304] = some ([true, true, false], e0'') ∧
      e1'.check_requests_f64 ['a'] [4571843139381931 / 4194304, 4571843139381931 / 4194304,
          4571843139381931 / 4194304] = some ([true, true, false], e1'') := by
  have g1 : to_double (6540074071 / 6 : ℚ) = 4571843139381931 / 4194304 :=
    to_double_eq _ _ (-22) 4571843139381931 (by norm_num) (by norm_num) (by norm_num)
      (by norm_num) (by norm_num)
  have g2 : to_double (699051 / 4194304 : ℚ) = 699051 / 4194304 :=
    to_double_exact _ 699051 (-22) (by norm_num) (by norm_num)
  have g3 : to_double (2097153 / 2097152 : ℚ) = 2097153 / 2097152 :=
    to_double_exact _ 2097153 (-21) (by norm_num) (by norm_num)
  have hy : to_double (to_double ((4571843139381931 / 4194304 : ℚ) - 1090012345) * 6) =
      2097153 / 2097152 := by
    norm_num [g2, g3]
  have hc : ⌈(2097153 / 2097152 : ℚ)⌉ = 2 := by
    rw [Int.ceil_eq_iff]
    constructor <;> norm_num
  obtain ⟨e0, e0', e1', e0'', e1'', h1, h2, h3, h4⟩ :=
    Throttle.peer_refill_f64 2 6 1090012345 (4571843139381931 / 4194304) ['a'] (by decide)
      (by norm_num) (by norm_num) (by norm_num) 3
  rw [hy, hc] at h3 h4
  have g4 : to_double (1 / 6 : ℚ) = 6004799503160661 / 36028797018963968 :=
    to_double_eq _ _ (-55) 6004799503160661 (by norm_num) (by norm_num) (by norm_num)
      (by norm_num) (by norm_num)
  have g5 : to_double (39271833532174723733345621 / 36028797018963968 : ℚ) =
      4571843139381931 / 4194304 :=
    to_double_eq _ _ (-22) 4571843139381931 (by norm_num) (by norm_num) (by norm_num)
      (by norm_num) (by norm_num)
  refine ⟨by norm_num [g1], by rw [g4]; norm_num [g5], e0, e0', e1', e0'', e1'', ?_, h2, ?_, ?_⟩
  · simpa [List.replicate] using h1
  · simpa [List.replicate] using h3
  · simpa [List.replicate] using h4

/-! ## C25 -/

/-- The refill of a bucket that holds at least `-1` and at most `burst`
tokens, at a time not before its last update, leaves it so, in the arithmetic
of `double`. -/
theorem usage_record.tokens_at_f64_range (r : usage_record) (burst : Int) (rate t : ℚ)
    (hb : 1 ≤ burst) (hr : 0 ≤ rate) (h0 : 0 < r._last_update) (hle : r._last_update ≤ t)
    (hlo : -1 ≤ r._tokens) :
    -1 ≤ r.tokens_at_f64 burst rate t ∧ r.tokens_at_f64 burst rate t ≤ burst := by
  have hb' : (1 : ℚ) ≤ burst := by exact_mod_cast hb
  have hs : 0 ≤ to_double (t - r._last_update) := to_double_nonneg (by linarith)
  have hd : 0 ≤ to_double (to_double (t - r._last_update) * rate) :=
    to_double_nonneg (mul_nonneg hs hr)
  have hone : to_double (-1) = -1 := by
    have := to_double_intCast (-1) (by norm_num)
    simpa using this
  have hsum : -1 ≤ to_double (r._tokens + to_double (to_double (t - r._last_update) * rate)) := by
    have := to_double_mono (by linarith :
      (-1 : ℚ) ≤ r._tokens + to_double (to_double (t - r._last_update) * rate))
    rwa [hone] at this
  simp only [usage_record.tokens_at_f64, ne_eq, ne_of_gt h0, not_false_eq_true, if_true]
  exact ⟨le_min (by linarith) hsum, min_le_left _ _⟩

theorem Throttle.in_range_f64_check_request (th : Throttle) (burst : Int) (rate T : ℚ)
    (tag : string_t) (t : ℚ) (hb : 1 ≤ burst) (hb2 : burst ≤ 2 ^ 53) (hr : 0 ≤ rate)
    (h : th.in_range_f64 burst rate T) (ht : 0 < t) (hT : T ≤ t) :
    ∃ b th', th.check_request_f64 tag t = some (b, th') ∧ th'.in_range_f64 burst rate t := by
  obtain ⟨hroot, hpar, hrec⟩ := h
  have hb' : (1 : ℚ) ≤ burst := by exact_mod_cast hb
  have hba : |burst| ≤ 2 ^ 53 := by rw [abs_of_nonneg (by omega)]; exact hb2
  have hone : to_double (-1) = -1 := by
    have := to_double_intCast (-1) (by norm_num)
    simpa using this
  have hrng : 0 < (th.record tag ⟨burst, rate, false⟩ t)._last_update ∧
      (th.record tag ⟨burst, rate, false⟩ t)._last_update ≤ t ∧
      -1 ≤ (th.record tag ⟨burst, rate, false⟩ t)._tokens := by
    cases hf : map_find th._map tag with
    | none =>
      simp only [Throttle.record, hf, Option.getD_none, usage_record.new]
      exact ⟨ht, le_rfl, by linarith⟩
    | some r0 =>
      rw [Throttle.record_of_find th tag _ t r0 hf]
      obtain ⟨g1, g2, g3, -⟩ := hrec (tag, r0) (mem_of_map_find _ _ _ hf)
      exact ⟨g1, g2.trans hT, g3⟩
  obtain ⟨hlo, hhi⟩ :=
    usage_record.tokens_at_f64_range _ burst rate t hb hr hrng.1 hrng.2.1 hrng.2.2
  have hcr :=
    usage_record.check_request_f64_pos (th.record tag ⟨burst, rate, false⟩ t) burst rate t ht
  have key : ∀ (b : Bool) (r1 : usage_record),
      (th.record tag ⟨burst, rate, false⟩ t).check_request_f64 burst rate t = some (b, r1) →
      r1._last_update = t → -1 ≤ r1._tokens → r1._tokens ≤ burst →
      ∃ b th', th.check_request_f64 tag t = some (b, th') ∧ th'.in_range_f64 burst rate t := by
    intro b r1 hc e1 e2 e3
    obtain ⟨th', g1, g2, g3⟩ := th.check_request_f64_spec tag t ⟨burst, rate, false⟩ (hpar tag)
      rfl b r1 hc
    refine ⟨b, th', g1, Throttle.same_rules_rooted g3 hroot,
      fun tag' => (Throttle.same_rules_params g3 tag').trans (hpar tag'), ?_⟩
    intro e he
    rw [g2] at he
    rcases mem_map_set _ _ _ _ he with he | he
    · obtain ⟨k1, k2, k3, k4⟩ := hrec e he
      exact ⟨k1, k2.trans hT, k3, k4⟩
    · rw [he]
      exact ⟨by rw [e1]; exact ht, by rw [e1], e2, e3⟩
  by_cases hpos : 0 < (th.record tag ⟨burst, rate, false⟩ t).tokens_at_f64 burst rate t
  · rw [if_pos hpos] at hcr
    refine key _ _ hcr rfl ?_ ?_
    · simp only
      have := to_double_mono (by linarith : (-1 : ℚ) ≤
        (th.record tag ⟨burst, rate, false⟩ t).tokens_at_f64 burst rate t - 1)
      rwa [hone] at this
    · simp only
      have := to_double_mono (by linarith :
        (th.record tag ⟨burst, rate, false⟩ t).tokens_at_f64 burst rate t - 1 ≤ (burst : ℚ))
      rwa [to_double_intCast burst hba] at this
  · rw [if_neg hpos] at hcr
    exact key _ _ hcr rfl hlo hhi

theorem Throttle.in_range_f64_make_report (th : Throttle) (burst : Int) (rate T t : ℚ)
    (hb : 1 ≤ burst) (hr : 0 ≤ rate) (h : th.in_range_f64 burst rate T) (ht : 0 < t)
    (hT : T ≤ t) :
    ∃ dg th', th.make_report_f64 t = some (dg, th') ∧ th'.in_range_f64 burst rate t := by
  obtain ⟨hroot, hpar, hrec⟩ := h
  obtain ⟨th', g1, g2, g3⟩ := th.make_report_f64_spec t ht hroot
  refine ⟨_, th', g1, Throttle.same_rules_rooted g3 hroot,
    fun tag' => (Throttle.same_rules_params g3 tag').trans (hpar tag'), ?_⟩
  intro e' he'
  rw [g2, List.mem_filterMap] at he'
  obtain ⟨e, he, hsurv⟩ := he'
  obtain ⟨k1, k2, k3, -⟩ := hrec e he
  obtain ⟨hlo, hhi⟩ :=
    usage_record.tokens_at_f64_range e.2 burst rate t hb hr k1 (k2.trans hT) k3
  have hfind : th._rules.find e.1 = some ⟨burst, rate, false⟩ := hpar e.1
  simp only [survivor_f64, hfind] at hsurv
  by_cases hfull : e.2.tokens_at_f64 burst rate t ≥ burst
  · simp [hfull] at hsurv
  · simp only [hfull, if_false, Option.some.injEq] at hsurv
    rw [← hsurv]
    exact ⟨ht, le_rfl, hlo, hhi⟩

theorem Throttle.in_range_f64_calls (burst : Int) (rate : ℚ) (hb : 1 ≤ burst)
    (hb2 : burst ≤ 2 ^ 53) (hr : 0 ≤ rate)
    (cs : List Call) (th : Throttle) (T : ℚ) (h : th.in_range_f64 burst rate T)
    (hs : ∀ c ∈ cs, c.steady) (hT : ∀ c ∈ cs, T ≤ c.time) (hpos : ∀ c ∈ cs, 0 < c.time)
    (hmono : (cs.map Call.time).Pairwise (fun a b => a ≤ b)) :
    ∃ as th' T', th.calls_f64 cs = some (as, th') ∧ th'.in_range_f64 burst rate T' := by
  induction cs generalizing th T with
  | nil => exact ⟨[], th, T, rfl, h⟩
  | cons c cs ih =>
    simp only [List.map_cons, List.pairwise_cons, List.mem_map, forall_exists_index, and_imp,
      forall_apply_eq_imp_iff₂] at hmono
    have hstep : ∃ a th1, th.call_f64 c = some (a, th1) ∧ th1.in_range_f64 burst rate c.time := by
      have hsc := hs c (by simp)
      have hp := hpos c (by simp)
      have hTc := hT c (by simp)
      cases c with
      | check_request tag t =>
        obtain ⟨b, th1, g1, g2⟩ :=
          th.in_range_f64_check_request burst rate T tag t hb hb2 hr h hp hTc
        exact ⟨.bool b, th1, by simp [Throttle.call_f64, g1], g2⟩
      | make_report t =>
        obtain ⟨dg, th1, g1, g2⟩ := th.in_range_f64_make_report burst rate T t hb hr h hp hTc
        exact ⟨.datagram dg, th1, by simp [Throttle.call_f64, g1], g2⟩
      | whitelist q => exact absurd hsc (by simp [Call.steady])
      | add_rule q p => exact absurd hsc (by simp [Call.steady])
      | receive_report dg t => exact absurd hsc (by simp [Call.steady])
    obtain ⟨a, th1, g1, g2⟩ := hstep
    obtain ⟨as, th', T', k1, k2⟩ := ih th1 c.time g2 (fun c' hc' => hs c' (by simp [hc']))
      (fun c' hc' => hmono.1 c' hc') (fun c' hc' => hpos c' (by simp [hc'])) hmono.2
    exact ⟨a :: as, th', T', by simp [Throttle.calls_f64, g1, k1], k2⟩

/-- A run of `check_request` calls for one tag, as a sequence of calls. -/
theorem Throttle.calls_f64_check_requests (tag : string_t) (ts : List ℚ) (th : Throttle) :
    th.calls_f64 (ts.map (Call.check_request tag)) =
      (th.check_requests_f64 tag ts).map (fun x => (x.1.map Answer.bool, x.2)) := by
  induction ts generalizing th with
  | nil => rfl
  | cons t ts ih =>
    simp only [List.map_cons, Throttle.calls_f64, Throttle.call_f64,
      Throttle.check_requests_f64]
    cases h1 : th.check_request_f64 tag t with
    | none => rfl
    | some x =>
      obtain ⟨b, th1⟩ := x
      simp only [ih th1]
      cases th1.check_requests_f64 tag ts with
      | none => rfl
      | some y => rfl

/-- A run of `check_request` calls for one tag on a fresh engine, in terms of
the calls on the record the first one creates. -/
theorem Throttle.new_check_requests_f64 (burst : Int) (rate : ℚ) (tag : string_t) (t : ℚ)
    (ts : List ℚ) (bs : List Bool) (r' : usage_record)
    (h : (usage_record.new burst t).check_requests_f64 burst rate (t :: ts) = some (bs, r')) :
    ∃ th', (Throttle.new burst rate).check_requests_f64 tag (t :: ts) = some (bs, th') ∧
      map_find th'._map tag = some r' := by
  obtain ⟨th', h1, h2, -⟩ := Throttle.check_requests_f64_spec tag ⟨burst, rate, false⟩ rfl
    (t :: ts) (Throttle.new burst rate) (Throttle.new_params burst rate tag) bs r'
    (by simpa [Throttle.record, Throttle.new, map_find] using h)
  exact ⟨th', h1, by rw [h2 (by simp)]; simp [map_find_set]⟩

/-- C25 (amended): from a fresh `Throttle(burst, rate)` with
`1 ≤ burst ≤ 2^53` and `rate >= 0`, every sequence of `check_request` and
`make_report` calls at positive times that do not decrease returns, and in the
engine it leaves every usage record holds at least `-1` and at most `burst`
tokens, in the arithmetic of `double`. -/
theorem C25_token_range (burst : Int) (rate : ℚ) (cs : List Call) (hb : 1 ≤ burst)
    (hb2 : burst ≤ 2 ^ 53) (hr : 0 ≤ rate) (hs : ∀ c ∈ cs, c.steady)
    (hpos : ∀ c ∈ cs, 0 < c.time)
    (hmono : (cs.map Call.time).Pairwise (fun a b => a ≤ b)) :
    ∃ as th, (Throttle.new burst rate).calls_f64 cs = some (as, th) ∧
      ∀ e ∈ th._map, -1 ≤ e.2._tokens ∧ e.2._tokens ≤ burst := by
  have h0 : (Throttle.new burst rate).in_range_f64 burst rate 0 :=
    ⟨Throttle.new_rooted burst rate, Throttle.new_params burst rate, fun e he => by
      simp [Throttle.new] at he⟩
  obtain ⟨as, th, T', h1, h2⟩ := Throttle.in_range_f64_calls burst rate hb hb2 hr cs _ 0 h0 hs
    (fun c hc => (hpos c hc).le) hpos hmono
  exact ⟨as, th, h1, fun e he => (h2.2.2 e he).2.2⟩

/-- C25 on `Throttle(1, 1/2)` with two calls `check_request("a", .)` at times
1 and 2. -/
theorem C25_token_range_witness :
    (1 : Int) ≤ 1 ∧ (1 : Int) ≤ 2 ^ 53 ∧ (0 : ℚ) ≤ 1 / 2 ∧
      (∀ c ∈ [Call.check_request ['a'] 1, Call.check_request ['a'] 2], c.steady) ∧
      (∀ c ∈ [Call.check_request ['a'] 1, Call.check_request ['a'] 2], 0 < c.time) ∧
      ([Call.check_request ['a'] 1, Call.check_request ['a'] 2].map Call.time).Pairwise
        (fun a b => a ≤ b) ∧
      ∃ as th, (Throttle.new 1 (1 / 2)).calls_f64
          [Call.check_request ['a'] 1, Call.check_request ['a'] 2] = some (as, th) ∧
        ∀ e ∈ th._map, -1 ≤ e.2._tokens ∧ e.2._tokens ≤ (1 : Int) :=
  ⟨by decide, by norm_num, by norm_num, by simp [Call.steady], by simp [Call.time],
    by simp [Call.time],
    C25_token_range 1 (1 / 2) [Call.check_request ['a'] 1, Call.check_request ['a'] 2]
      (by decide) (by norm_num) (by norm_num) (by simp [Call.steady]) (by simp [Call.time])
      (by simp [Call.time])⟩

/-- C25 as stated fails: on `Throttle(1, 1/2)`, `check_request("a", 1)` takes
the one token, and `check_request("a", 2)` finds half a token, which is more
than zero, and takes one: both return true and the record of `a` holds `-1/2`
tokens, with no `receive_report` made. In the arithmetic of `double` the
tokens reach `-1` itself: on `Throttle(1, 0.1)` the calls at `2.75`, `9.5` and
`12.75` are all admitted, the last on `2 ^ -54` tokens, and one less than that
rounds to `-1`. -/
theorem C25_counterexample :
    (∃ th, (Throttle.new 1 (1 / 2)).calls_f64
        [Call.check_request ['a'] 1, Call.check_request ['a'] 2] =
          some ([.bool true, .bool true], th) ∧
      map_find th._map ['a'] = some ⟨-(1 / 2), 2, 2⟩ ∧ (-(1 / 2) : ℚ) < 0) ∧
    (∃ th, (Throttle.new 1 (to_double (1 / 10))).calls_f64
        [Call.check_request ['a'] (11 / 4), Call.check_request ['a'] (19 / 2),
          Call.check_request ['a'] (51 / 4)] =
          some ([.bool true, .bool true, .bool true], th) ∧
      map_find th._map ['a'] = some ⟨-1, 51 / 4, 3⟩) := by
  have f1 : to_double (1 : ℚ) = 1 :=
    to_double_exact _ 1 (0) (by norm_num) (by norm_num)
  have e2 : to_double (1 / 2 : ℚ) = 1 / 2 :=
    to_double_exact _ 1 (-1) (by norm_num) (by norm_num)
  have f2 : to_double (27 / 4 : ℚ) = 27 / 4 :=
    to_double_exact _ 27 (-2) (by norm_num) (by norm_num)
  have f3 : to_double (97277751951202719 / 144115188075855872 : ℚ) = 3039929748475085 / 4503599627370496 :=
    to_double_eq _ _ (-53) 6079859496950170 (by norm_num) (by norm_num) (by norm_num)
      (by norm_num) (by norm_num)
  have f4 : to_double (3039929748475085 / 4503599627370496 : ℚ) = 3039929748475085 / 4503599627370496 :=
    to_double_exact _ 3039929748475085 (-52) (by norm_num) (by norm_num)
  have f5 : to_double (1463669878895411 / 4503599627370496 : ℚ) = 1463669878895411 / 4503599627370496 :=
    to_double_exact _ 1463669878895411 (-52) (by norm_num) (by norm_num)
  have f6 : to_double (13 / 4 : ℚ) = 13 / 4 :=
    to_double_exact _ 13 (-2) (by norm_num) (by norm_num)
  have f7 : to_double (46837436124653161 / 144115188075855872 : ℚ) = 5854679515581645 / 18014398509481984 :=
    to_double_eq _ _ (-54) 5854679515581645 (by norm_num) (by norm_num) (by norm_num)
      (by norm_num) (by norm_num)
  have f8 : to_double (1 / 18014398509481984 : ℚ) = 1 / 18014398509481984 :=
    to_double_exact _ 1 (-54) (by norm_num) (by norm_num)
  have f9 : to_double (18014398509481983 / 18014398509481984 : ℚ) = 1 :=
    to_double_eq_tie _ _ (-53) 9007199254740991 (by norm_num) (by norm_num) (by norm_num)
      (by norm_num)
  constructor
  · have s1 : (usage_record.new 1 1).check_request_f64 1 (1 / 2) 1 = some (true, ⟨0, 1, 1⟩) := by
      norm_num [usage_record.new, usage_record.check_request_f64, usage_record.get_tokens_f64,
        to_double_zero, to_double_neg, f1]
    have s2 : (⟨0, 1, 1⟩ : usage_record).check_request_f64 1 (1 / 2) 2 =
        some (true, ⟨-(1 / 2), 2, 2⟩) := by
      norm_num [usage_record.check_request_f64, usage_record.get_tokens_f64,
        to_double_zero, to_double_neg, f1, e2]
    obtain ⟨th, h1, h2⟩ := Throttle.new_check_requests_f64 1 (1 / 2) ['a'] 1 [2] [true, true]
      ⟨-(1 / 2), 2, 2⟩
      (usage_record.check_requests_f64_cons _ _ _ _ _ _ _ _ _ s1
        (usage_record.check_requests_f64_cons _ _ _ _ _ _ _ _ _ s2 rfl))
    refine ⟨th, ?_, h2, by norm_num⟩
    have := Throttle.calls_f64_check_requests ['a'] [1, 2] (Throttle.new 1 (1 / 2))
    rw [h1] at this
    exact this
  · have s1 : (usage_record.new 1 (11 / 4)).check_request_f64 1
        (3602879701896397 / 36028797018963968) (11 / 4) = some (true, ⟨0, 11 / 4, 1⟩) := by
      norm_num [usage_record.new, usage_record.check_request_f64, usage_record.get_tokens_f64,
        to_double_zero, to_double_neg, f1]
    have s2 : (⟨0, 11 / 4, 1⟩ : usage_record).check_request_f64 1
        (3602879701896397 / 36028797018963968) (19 / 2) =
        some (true, ⟨-(1463669878895411 / 4503599627370496), 19 / 2, 2⟩) := by
      norm_num [usage_record.check_request_f64, usage_record.get_tokens_f64,
        to_double_zero, to_double_neg, f2, f3, f4, f5]
    have s3 : (⟨-(1463669878895411 / 4503599627370496), 19 / 2, 2⟩ :
        usage_record).check_request_f64 1 (3602879701896397 / 36028797018963968) (51 / 4) =
        some (true, ⟨-1, 51 / 4, 3⟩) := by
      norm_num [usage_record.check_request_f64, usage_record.get_tokens_f64,
        to_double_zero, to_double_neg, f6, f7, f8, f9]
    rw [to_double_tenth]
    obtain ⟨th, h1, h2⟩ := Throttle.new_check_requests_f64 1
      (3602879701896397 / 36028797018963968) ['a'] (11 / 4) [19 / 2, 51 / 4]
      [true, true, true] ⟨-1, 51 / 4, 3⟩
      (usage_record.check_requests_f64_cons _ _ _ _ _ _ _ _ _ s1
        (usage_record.check_requests_f64_cons _ _ _ _ _ _ _ _ _ s2
          (usage_record.check_requests_f64_cons _ _ _ _ _ _ _ _ _ s3 rfl)))
    refine ⟨th, ?_, h2⟩
    have := Throttle.calls_f64_check_requests ['a'] [11 / 4, 19 / 2, 51 / 4]
      (Throttle.new 1 (3602879701896397 / 36028797018963968))
    rw [h1] at this
    exact this

/-! ## C14 -/

end DThrottle
